import Mathlib

/-! # ImGuiColorTextEdit: the document and editing engine of `TextEditor.cpp`

A shallow embedding of the line/glyph document store, the coordinate mapper,
the selection state, the edit operations, the undo log, the colorizer and the
cursor movement of `src/TextEditor.cpp`, followed by theorems about them.

Conventions of the embedding.

* A C++ `int` is an `Int`; counters that the source starts at `0` and only
  increments are `Nat`.  Lines are far shorter than `2^31`, so no operation
  wraps and no reduction modulo `2^32` is written.
* A byte (`TextEditor::Char`, `uint8_t`, and the `char` of a `std::string`)
  is a `Nat` below 256; a `std::string` is a `List Nat`; a C string read
  through `c_str()` ends at its first zero byte.
* A `std::vector` is a `List`.  An access outside the vector, an iterator
  range that is not inside it, a failed `assert` and a division by zero do
  not return: the operation yields `Except.error` with the matching `Fault`.
* Loops whose counter jumps by the UTF-8 length of a byte carry a fuel
  argument that the caller sets to a bound on the number of iterations (the
  length of the line or of the text): every iteration advances the counter
  by at least one, so the fuel never runs out before the loop condition fails.
  The token loop of `ColorizeRange` is the exception: a tokenizer callback can
  keep it from advancing, so it returns `none` when it is still running after
  `fuel` rounds.
* Rendering members (`mScrollToCursor`, `mScrollToTop`, `mTextChanged`,
  `mCursorPositionChanged`, `mWithinRender`, palette, font metrics) are not
  part of the state: no operation below reads them.
-/

namespace TextEditor

/-- Ways in which a call does not return normally. -/
inductive Fault where
  | assertion
  | outOfRange
  | divByZero
  deriving DecidableEq, Repr

instance instDecidableEqExcept {ε α : Type} [DecidableEq ε] [DecidableEq α] :
    DecidableEq (Except ε α)
  | .ok a, .ok b =>
    if h : a = b then isTrue (by rw [h]) else isFalse (by intro h2; cases h2; exact h rfl)
  | .error a, .error b =>
    if h : a = b then isTrue (by rw [h]) else isFalse (by intro h2; cases h2; exact h rfl)
  | .ok _, .error _ => isFalse (by intro h; cases h)
  | .error _, .ok _ => isFalse (by intro h; cases h)

/-- Results of operations that may fault. -/
abbrev M := Except Fault

/-- Syntax classes, in the order of the palette table of `GetColorPalette`. -/
inductive PaletteIndex where
  | Default | Keyword | Number | String | CharLiteral | Punctuation | Preprocessor
  | Identifier | KnownIdentifier | PreprocIdentifier | Comment | MultiLineComment
  | Background | Cursor | Selection | ErrorMarker | Breakpoint | LineNumber
  | CurrentLineFill | CurrentLineFillInactive | CurrentLineEdge
  deriving DecidableEq, Repr

/-- One byte of a line with its classification (`TextEditor::Glyph`). -/
structure Glyph where
  mChar : Nat
  mColorIndex : PaletteIndex
  mComment : Bool := false
  mMultiLineComment : Bool := false
  mPreprocessor : Bool := false
  deriving DecidableEq, Repr

abbrev Line := List Glyph

/-- Modelled from the spec: the header that declares `Coordinates` is not among
the sources; a position is a (line index, visual column) pair of `int`s. -/
structure Coordinates where
  mLine : Int
  mColumn : Int
  deriving DecidableEq, Repr

/-- Modelled from the spec: `operator<` of `Coordinates` (declared in the absent
header) is the (line, column) order. -/
def Coordinates.lt (a b : Coordinates) : Bool :=
  if a.mLine ≠ b.mLine then decide (a.mLine < b.mLine) else decide (a.mColumn < b.mColumn)

/-- Modelled from the spec: `operator<=` of `Coordinates`, the (line, column) order. -/
def Coordinates.le (a b : Coordinates) : Bool :=
  if a.mLine ≠ b.mLine then decide (a.mLine < b.mLine) else decide (a.mColumn ≤ b.mColumn)

/-- Modelled from the spec: `operator>` of `Coordinates`. -/
def Coordinates.gt (a b : Coordinates) : Bool :=
  if a.mLine ≠ b.mLine then decide (a.mLine > b.mLine) else decide (a.mColumn > b.mColumn)

/-- Modelled from the spec: `operator>=` of `Coordinates`. -/
def Coordinates.ge (a b : Coordinates) : Bool :=
  if a.mLine ≠ b.mLine then decide (a.mLine > b.mLine) else decide (a.mColumn ≥ b.mColumn)

/-- Cursor and selection (`TextEditor::EditorState`). -/
structure EditorState where
  mSelectionStart : Coordinates
  mSelectionEnd : Coordinates
  mCursorPosition : Coordinates
  deriving DecidableEq, Repr

/-- One transaction of the undo log (`TextEditor::UndoRecord`); a default
constructed record has empty texts and zero coordinates. -/
structure UndoRecord where
  mAdded : List Nat := []
  mAddedStart : Coordinates := ⟨0, 0⟩
  mAddedEnd : Coordinates := ⟨0, 0⟩
  mRemoved : List Nat := []
  mRemovedStart : Coordinates := ⟨0, 0⟩
  mRemovedEnd : Coordinates := ⟨0, 0⟩
  mBefore : EditorState := ⟨⟨0, 0⟩, ⟨0, 0⟩, ⟨0, 0⟩⟩
  mAfter : EditorState := ⟨⟨0, 0⟩, ⟨0, 0⟩, ⟨0, 0⟩⟩
  deriving DecidableEq, Repr

inductive SelectionMode where
  | Normal | Word | Line
  deriving DecidableEq, Repr

/-- The members of `TextEditor` that the document engine reads or writes.
`mErrorMarkers` is the `std::map<int, std::string>` as its list of entries in
increasing key order; `mBreakpoints` is the `std::unordered_set<int>` as a list
without repetition whose order carries no meaning; `mAutoIndentation` is
`mLanguageDefinition.mAutoIndentation`.  `mTabSize` is only ever written by the
constructor (4) and by `SetTabSize`, which clamps to `0..32`, hence a `Nat`. -/
structure Editor where
  mLines : List Line
  mState : EditorState
  mUndoBuffer : List UndoRecord
  mUndoIndex : Int
  mTabSize : Nat
  mOverwrite : Bool
  mReadOnly : Bool
  mColorizerEnabled : Bool
  mColorRangeMin : Int
  mColorRangeMax : Int
  mCheckComments : Bool
  mSelectionMode : SelectionMode
  mInteractiveStart : Coordinates
  mInteractiveEnd : Coordinates
  mErrorMarkers : List (Int × String)
  mBreakpoints : List Int
  mAutoIndentation : Bool
  deriving DecidableEq, Repr

/-! ## `std::vector` primitives -/

/-- Element access `v[i]`. -/
def vecAt {α : Type} (v : List α) (i : Int) : M α :=
  if 0 ≤ i then
    match v[i.toNat]? with
    | some x => pure x
    | none => throw Fault.outOfRange
  else throw Fault.outOfRange

/-- Assignment through a reference `v[i] = x`. -/
def vecSet {α : Type} (v : List α) (i : Int) (x : α) : M (List α) :=
  if 0 ≤ i ∧ i < v.length then pure (v.set i.toNat x) else throw Fault.outOfRange

/-- Range erase `v.erase(v.begin() + a, v.begin() + b)`. -/
def vecErase {α : Type} (v : List α) (a b : Int) : M (List α) :=
  if 0 ≤ a ∧ a ≤ b ∧ b ≤ v.length then pure (v.take a.toNat ++ v.drop b.toNat)
  else throw Fault.outOfRange

/-- Range insert `v.insert(v.begin() + i, xs.begin(), xs.end())`. -/
def vecInsert {α : Type} (v : List α) (i : Int) (xs : List α) : M (List α) :=
  if 0 ≤ i ∧ i ≤ v.length then pure (v.take i.toNat ++ xs ++ v.drop i.toNat)
  else throw Fault.outOfRange

/-- The iterator range `[v.begin() + a, v.end())` read as a list. -/
def vecFrom {α : Type} (v : List α) (a : Int) : M (List α) :=
  if 0 ≤ a ∧ a ≤ v.length then pure (v.drop a.toNat) else throw Fault.outOfRange

/-! ## Character classes of `<cctype>` in the "C" locale -/

def isspace (c : Nat) : Bool := c == 32 || (9 ≤ c && c ≤ 13)

def isblank (c : Nat) : Bool := c == 32 || c == 9

def isascii (c : Nat) : Bool := c < 128

/-! ## UTF-8 helpers -/

/-- `UTF8CharLength`: byte length of the character whose lead byte is `c`. -/
def UTF8CharLength (c : Nat) : Nat :=
  if c &&& 0xFE = 0xFC then 6
  else if c &&& 0xFC = 0xF8 then 5
  else if c &&& 0xF8 = 0xF0 then 4
  else if c &&& 0xF0 = 0xE0 then 3
  else if c &&& 0xE0 = 0xC0 then 2
  else 1

/-- `IsUTFSequence`: `c` is a continuation byte `10xxxxxx`. -/
def IsUTFSequence (c : Nat) : Bool := c &&& 0xC0 == 0x80

/-- `ImTextCharToUtf8` with a buffer of `buf_size` bytes: the bytes written
(`(char)` keeps the low eight bits); the empty list stands for the return
value 0, otherwise the return value is the length of the list. -/
def ImTextCharToUtf8 (buf_size : Nat) (c : Nat) : List Nat :=
  if c < 0x80 then [c % 256]
  else if c < 0x800 then
    if buf_size < 2 then [] else [(0xc0 + (c >>> 6)) % 256, (0x80 + (c &&& 0x3f)) % 256]
  else if 0xdc00 ≤ c ∧ c < 0xe000 then []
  else if 0xd800 ≤ c ∧ c < 0xdc00 then
    if buf_size < 4 then []
    else [(0xf0 + (c >>> 18)) % 256, (0x80 + ((c >>> 12) &&& 0x3f)) % 256,
          (0x80 + ((c >>> 6) &&& 0x3f)) % 256, (0x80 + (c &&& 0x3f)) % 256]
  else if buf_size < 3 then []
  else [(0xe0 + (c >>> 12)) % 256, (0x80 + ((c >>> 6) &&& 0x3f)) % 256,
        (0x80 + (c &&& 0x3f)) % 256]

/-! ## Coordinate / index mapper -/

/-- The tab-stop step `(c / mTabSize) * mTabSize + mTabSize`. -/
def tabStop (tab c : Nat) : M Nat :=
  if tab = 0 then throw Fault.divByZero else pure ((c / tab) * tab + tab)

/-- The scan of `GetCharacterIndex`: `i` is the byte index, `c` the column. -/
def GetCharacterIndex.loop (tab : Nat) (line : Line) (column : Int) : Nat → Nat → Nat → M Nat
  | 0, i, _ => pure i
  | fuel + 1, i, c =>
    match line.get? i with
    | none => pure i
    | some g =>
      if (c : Int) < column then do
        let c1 ← if g.mChar = 9 then tabStop tab c else pure (c + 1)
        GetCharacterIndex.loop tab line column fuel (i + UTF8CharLength g.mChar) c1
      else pure i

/-- `GetCharacterIndex`: the byte index of a position, `-1` for a line that
does not exist (the comparison with `mLines.size()` is unsigned, so a negative
line number is past the end as well). -/
def GetCharacterIndex (e : Editor) (aCoordinates : Coordinates) : M Int :=
  if aCoordinates.mLine < 0 ∨ aCoordinates.mLine ≥ e.mLines.length then pure (-1)
  else do
    let line ← vecAt e.mLines aCoordinates.mLine
    let i ← GetCharacterIndex.loop e.mTabSize line aCoordinates.mColumn line.length 0 0
    pure (i : Int)

/-- The scan of `GetCharacterColumn`. -/
def GetCharacterColumn.loop (tab : Nat) (line : Line) (aIndex : Int) : Nat → Nat → Nat → M Nat
  | 0, _, col => pure col
  | fuel + 1, i, col =>
    if (i : Int) < aIndex then
      match line.get? i with
      | none => pure col
      | some g => do
        let col1 ← if g.mChar = 9 then tabStop tab col else pure (col + 1)
        GetCharacterColumn.loop tab line aIndex fuel (i + UTF8CharLength g.mChar) col1
    else pure col

/-- `GetCharacterColumn`: the visual column of byte index `aIndex` of a line. -/
def GetCharacterColumn (e : Editor) (aLine : Int) (aIndex : Int) : M Int :=
  if aLine < 0 ∨ aLine ≥ e.mLines.length then pure 0
  else do
    let line ← vecAt e.mLines aLine
    let col ← GetCharacterColumn.loop e.mTabSize line aIndex line.length 0 0
    pure (col : Int)

/-- The scan of `GetLineCharacterCount`. -/
def GetLineCharacterCount.loop (line : Line) : Nat → Nat → Nat → Nat
  | 0, _, c => c
  | fuel + 1, i, c =>
    match line.get? i with
    | none => c
    | some g => GetLineCharacterCount.loop line fuel (i + UTF8CharLength g.mChar) (c + 1)

/-- `GetLineCharacterCount`: number of characters (not bytes) of a line. -/
def GetLineCharacterCount (e : Editor) (aLine : Int) : M Int :=
  if aLine < 0 ∨ aLine ≥ e.mLines.length then pure 0
  else do
    let line ← vecAt e.mLines aLine
    pure (GetLineCharacterCount.loop line line.length 0 0 : Nat)

/-- The scan of `GetLineMaxColumn`. -/
def GetLineMaxColumn.loop (tab : Nat) (line : Line) : Nat → Nat → Nat → M Nat
  | 0, _, col => pure col
  | fuel + 1, i, col =>
    match line.get? i with
    | none => pure col
    | some g => do
      let col1 ← if g.mChar = 9 then tabStop tab col else pure (col + 1)
      GetLineMaxColumn.loop tab line fuel (i + UTF8CharLength g.mChar) col1

/-- `GetLineMaxColumn`: the visual width of a line. -/
def GetLineMaxColumn (e : Editor) (aLine : Int) : M Int :=
  if aLine < 0 ∨ aLine ≥ e.mLines.length then pure 0
  else do
    let line ← vecAt e.mLines aLine
    let col ← GetLineMaxColumn.loop e.mTabSize line line.length 0 0
    pure (col : Int)

/-- `SanitizeCoordinates`: clamp a position to the document. -/
def SanitizeCoordinates (e : Editor) (aValue : Coordinates) : M Coordinates :=
  let line := aValue.mLine
  let column := aValue.mColumn
  if line ≥ (e.mLines.length : Int) then
    if e.mLines.isEmpty then pure ⟨0, 0⟩
    else do
      let line1 : Int := (e.mLines.length : Int) - 1
      let column1 ← GetLineMaxColumn e line1
      pure ⟨line1, column1⟩
  else
    if e.mLines.isEmpty then pure ⟨line, 0⟩
    else do
      let n ← GetLineMaxColumn e line
      pure ⟨line, min column n⟩

/-- `GetActualCursorCoordinates`. -/
def GetActualCursorCoordinates (e : Editor) : M Coordinates :=
  SanitizeCoordinates e e.mState.mCursorPosition

/-! ## Side tables -/

/-- The `insert` of `std::map<int, std::string>` on the key-ordered entry list:
an entry whose key is already present is not stored. -/
def mapInsert : List (Int × String) → Int × String → List (Int × String)
  | [], e => [e]
  | x :: xs, e =>
    if e.1 < x.1 then e :: x :: xs
    else if e.1 = x.1 then x :: xs
    else x :: mapInsert xs e

/-- The `insert` of `std::unordered_set<int>`. -/
def setInsert (s : List Int) (x : Int) : List Int :=
  if x ∈ s then s else s ++ [x]

/-! ## Document store -/

/-- `Colorize(aFromLine, aLines)`: widen the dirty line range. -/
def Colorize (e : Editor) (aFromLine : Int) (aLines : Int) : Editor :=
  let toLine : Int :=
    if aLines = -1 then (e.mLines.length : Int) else min (e.mLines.length : Int) (aFromLine + aLines)
  let mn := min e.mColorRangeMin aFromLine
  let mx := max e.mColorRangeMax toLine
  let mn1 := max 0 mn
  let mx1 := max mn1 mx
  { e with mColorRangeMin := mn1, mColorRangeMax := mx1, mCheckComments := true }

/-- The result string of `GetText(aStart, aEnd)` is built by this loop. -/
def GetText.loop (lines : List Line) (lend iend : Int) :
    Nat → Int → Int → List Nat → M (List Nat)
  | 0, _, _, result => pure result
  | fuel + 1, lstart, istart, result =>
    if istart < iend ∨ lstart < lend then
      if lstart ≥ (lines.length : Int) then pure result
      else do
        let line ← vecAt lines lstart
        if istart < (line.length : Int) then do
          let g ← vecAt line istart
          GetText.loop lines lend iend fuel lstart (istart + 1) (result ++ [g.mChar])
        else
          GetText.loop lines lend iend fuel (lstart + 1) 0 (result ++ [10])
    else pure result

/-- `GetText(aStart, aEnd)`: the bytes between two positions, lines joined by
`'\n'`.  The sizing loop reads `mLines[i]` for every `lstart <= i < lend`. -/
def GetText (e : Editor) (aStart aEnd : Coordinates) : M (List Nat) := do
  let lstart := aStart.mLine
  let lend := aEnd.mLine
  let istart ← GetCharacterIndex e aStart
  let iend ← GetCharacterIndex e aEnd
  if 0 ≤ lstart ∧ lstart < lend ∧ lend > (e.mLines.length : Int) then throw Fault.outOfRange
  else
    GetText.loop e.mLines lend iend ((e.mLines.map (fun l => l.length + 1)).sum + 1)
      lstart istart []

/-- `Advance`: move a position one character forward. -/
def Advance (e : Editor) (aCoordinates : Coordinates) : M Coordinates :=
  if aCoordinates.mLine < (e.mLines.length : Int) then do
    let line ← vecAt e.mLines aCoordinates.mLine
    let cindex ← GetCharacterIndex e aCoordinates
    if cindex + 1 < (line.length : Int) then do
      let g ← vecAt line cindex
      let delta := UTF8CharLength g.mChar
      let cindex1 := min (cindex + delta) ((line.length : Int) - 1)
      let col ← GetCharacterColumn e aCoordinates.mLine cindex1
      pure ⟨aCoordinates.mLine, col⟩
    else do
      let col ← GetCharacterColumn e (aCoordinates.mLine + 1) 0
      pure ⟨aCoordinates.mLine + 1, col⟩
  else pure aCoordinates

/-- The error-marker loop of `RemoveLine(aStart, aEnd)`. -/
def RemoveLine2.markers (aStart aEnd : Int) (m : List (Int × String)) : List (Int × String) :=
  m.foldl (fun etmp i =>
    let e : Int × String := (if i.1 ≥ aStart then i.1 - 1 else i.1, i.2)
    if e.1 ≥ aStart ∧ e.1 ≤ aEnd then etmp else mapInsert etmp e) []

/-- The breakpoint loop of `RemoveLine(aStart, aEnd)`. -/
def RemoveLine2.breakpoints (aStart aEnd : Int) (b : List Int) : List Int :=
  b.foldl (fun btmp i =>
    if i ≥ aStart ∧ i ≤ aEnd then btmp else setInsert btmp (if i ≥ aStart then i - 1 else i)) []

/-- `RemoveLine(int aStart, int aEnd)`: erase the lines `[aStart, aEnd)`. -/
def RemoveLine2 (e : Editor) (aStart aEnd : Int) : M Editor :=
  if e.mReadOnly then throw Fault.assertion
  else if ¬ (aEnd ≥ aStart) then throw Fault.assertion
  else if ¬ ((e.mLines.length : Int) > aEnd - aStart) then throw Fault.assertion
  else do
    let lines ← vecErase e.mLines aStart aEnd
    if lines.isEmpty then throw Fault.assertion
    else pure { e with
      mErrorMarkers := RemoveLine2.markers aStart aEnd e.mErrorMarkers
      mBreakpoints := RemoveLine2.breakpoints aStart aEnd e.mBreakpoints
      mLines := lines }

/-- The error-marker loop of `RemoveLine(aIndex)`. -/
def RemoveLine.markers (aIndex : Int) (m : List (Int × String)) : List (Int × String) :=
  m.foldl (fun etmp i =>
    let e : Int × String := (if i.1 > aIndex then i.1 - 1 else i.1, i.2)
    if e.1 - 1 = aIndex then etmp else mapInsert etmp e) []

/-- The breakpoint loop of `RemoveLine(aIndex)`. -/
def RemoveLine.breakpoints (aIndex : Int) (b : List Int) : List Int :=
  b.foldl (fun btmp i =>
    if i = aIndex then btmp else setInsert btmp (if i ≥ aIndex then i - 1 else i)) []

/-- `RemoveLine(int aIndex)`: erase one line. -/
def RemoveLine (e : Editor) (aIndex : Int) : M Editor :=
  if e.mReadOnly then throw Fault.assertion
  else if ¬ (e.mLines.length > 1) then throw Fault.assertion
  else do
    let lines ← vecErase e.mLines aIndex (aIndex + 1)
    if lines.isEmpty then throw Fault.assertion
    else pure { e with
      mErrorMarkers := RemoveLine.markers aIndex e.mErrorMarkers
      mBreakpoints := RemoveLine.breakpoints aIndex e.mBreakpoints
      mLines := lines }

/-- The error-marker loop of `InsertLine`. -/
def InsertLine.markers (aIndex : Int) (m : List (Int × String)) : List (Int × String) :=
  m.foldl (fun etmp i => mapInsert etmp (if i.1 ≥ aIndex then i.1 + 1 else i.1, i.2)) []

/-- The breakpoint loop of `InsertLine`. -/
def InsertLine.breakpoints (aIndex : Int) (b : List Int) : List Int :=
  b.foldl (fun btmp i => setInsert btmp (if i ≥ aIndex then i + 1 else i)) []

/-- `InsertLine(aIndex)`: a new empty line at `aIndex`. -/
def InsertLine (e : Editor) (aIndex : Int) : M Editor :=
  if e.mReadOnly then throw Fault.assertion
  else do
    let lines ← vecInsert e.mLines aIndex [([] : Line)]
    pure { e with
      mLines := lines
      mErrorMarkers := InsertLine.markers aIndex e.mErrorMarkers
      mBreakpoints := InsertLine.breakpoints aIndex e.mBreakpoints }

/-- `DeleteRange(aStart, aEnd)`: remove the glyphs between two positions. -/
def DeleteRange (e : Editor) (aStart aEnd : Coordinates) : M Editor :=
  if ¬ (aEnd.ge aStart) then throw Fault.assertion
  else if e.mReadOnly then throw Fault.assertion
  else if aEnd = aStart then pure e
  else do
    let start ← GetCharacterIndex e aStart
    let end_ ← GetCharacterIndex e aEnd
    if aStart.mLine = aEnd.mLine then do
      let line ← vecAt e.mLines aStart.mLine
      let n ← GetLineMaxColumn e aStart.mLine
      let line1 ← if aEnd.mColumn ≥ n then vecErase line start line.length
                  else vecErase line start end_
      let lines ← vecSet e.mLines aStart.mLine line1
      pure { e with mLines := lines }
    else do
      let firstLine ← vecAt e.mLines aStart.mLine
      let lastLine ← vecAt e.mLines aEnd.mLine
      let firstLine1 ← vecErase firstLine start firstLine.length
      let lastLine1 ← vecErase lastLine 0 end_
      let firstLine2 := if aStart.mLine < aEnd.mLine then firstLine1 ++ lastLine1 else firstLine1
      let lines ← vecSet e.mLines aStart.mLine firstLine2
      let lines1 ← vecSet lines aEnd.mLine lastLine1
      let e1 := { e with mLines := lines1 }
      if aStart.mLine < aEnd.mLine then RemoveLine2 e1 (aStart.mLine + 1) (aEnd.mLine + 1)
      else pure e1

/-- The inner loop `while (d-- > 0 && *aValue != 0)` of `InsertTextAt`: insert
up to `d` bytes of the text at `cindex`; returns the line, the new index and the
text that is left. -/
def InsertTextAt.bytes : Nat → Line → Int → List Nat → M (Line × Int × List Nat)
  | 0, line, cindex, aValue => pure (line, cindex, aValue)
  | d + 1, line, cindex, aValue =>
    match aValue with
    | [] => pure (line, cindex, aValue)
    | ch :: rest =>
      if ch = 0 then pure (line, cindex, aValue)
      else do
        let line1 ← vecInsert line cindex [({ mChar := ch, mColorIndex := PaletteIndex.Default } : Glyph)]
        InsertTextAt.bytes d line1 (cindex + 1) rest

/-- The loop of `InsertTextAt`; the state is the editor, the position `aWhere`,
the byte index `cindex` and the line counter `totalLines`. -/
def InsertTextAt.loop : Nat → Editor → Coordinates → Int → Int → List Nat →
    M (Editor × Coordinates × Int)
  | 0, e, aWhere, _, totalLines, _ => pure (e, aWhere, totalLines)
  | fuel + 1, e, aWhere, cindex, totalLines, aValue =>
    match aValue with
    | [] => pure (e, aWhere, totalLines)
    | ch :: rest =>
      if ch = 0 then pure (e, aWhere, totalLines)
      else if e.mLines.isEmpty then throw Fault.assertion
      else if ch = 13 then InsertTextAt.loop fuel e aWhere cindex totalLines rest
      else if ch = 10 then do
        let line ← vecAt e.mLines aWhere.mLine
        let e2 ←
          if cindex < (line.length : Int) then do
            let e1 ← InsertLine e (aWhere.mLine + 1)
            let line0 ← vecAt e1.mLines aWhere.mLine
            let tail ← vecFrom line0 cindex
            let lines1 ← vecSet e1.mLines (aWhere.mLine + 1) tail
            let line1 ← vecErase line0 cindex line0.length
            let lines2 ← vecSet lines1 aWhere.mLine line1
            pure { e1 with mLines := lines2 }
          else InsertLine e (aWhere.mLine + 1)
        InsertTextAt.loop fuel e2 ⟨aWhere.mLine + 1, 0⟩ 0 (totalLines + 1) rest
      else do
        let line ← vecAt e.mLines aWhere.mLine
        let d := UTF8CharLength ch
        let (line1, cindex1, rest1) ← InsertTextAt.bytes d line cindex aValue
        let lines ← vecSet e.mLines aWhere.mLine line1
        let e1 := { e with mLines := lines }
        let col ← GetCharacterColumn e1 aWhere.mLine cindex1
        InsertTextAt.loop fuel e1 ⟨aWhere.mLine, col⟩ cindex1 totalLines rest1

/-- `InsertTextAt(aWhere, aValue)`: returns the editor, the advanced position
and the number of line breaks inserted. -/
def InsertTextAt (e : Editor) (aWhere : Coordinates) (aValue : List Nat) :
    M (Editor × Coordinates × Int) :=
  if e.mReadOnly then throw Fault.assertion
  else do
    let cindex ← GetCharacterIndex e aWhere
    InsertTextAt.loop aValue.length e aWhere cindex 0 aValue

/-- `AddUndo`: `resize(mUndoIndex + 1)` truncates or pads with default
records, then the last record is overwritten. -/
def AddUndo (e : Editor) (aValue : UndoRecord) : M Editor :=
  if e.mReadOnly then throw Fault.assertion
  else if e.mUndoIndex < 0 then throw Fault.outOfRange
  else
    let n := e.mUndoIndex.toNat
    let kept := e.mUndoBuffer.take n
    let padded := kept ++ List.replicate (n - kept.length) ({} : UndoRecord)
    pure { e with mUndoBuffer := padded ++ [aValue], mUndoIndex := e.mUndoIndex + 1 }

/-! ## Selection and cursor -/

/-- `HasSelection`. -/
def HasSelection (e : Editor) : Bool :=
  e.mState.mSelectionEnd.gt e.mState.mSelectionStart

/-- `SetCursorPosition`. -/
def SetCursorPosition (e : Editor) (aPosition : Coordinates) : Editor :=
  if e.mState.mCursorPosition ≠ aPosition then
    { e with mState := { e.mState with mCursorPosition := aPosition } }
  else e

/-- First loop of `FindWordStart`: step left over white space. -/
def FindWordStart.skip (line : Line) : Nat → M Nat
  | 0 => pure 0
  | k + 1 => do
    let g ← vecAt line ((k + 1 : Nat) : Int)
    if isspace g.mChar then FindWordStart.skip line k else pure (k + 1)

/-- Second loop of `FindWordStart`: step left while the class stays `cstart`. -/
def FindWordStart.walk (line : Line) (cstart : PaletteIndex) : Nat → M Nat
  | 0 => pure 0
  | k + 1 => do
    let g ← vecAt line ((k + 1 : Nat) : Int)
    let c := g.mChar
    if c &&& 0xC0 ≠ 0x80 then
      if c ≤ 32 ∧ isspace c then pure (k + 1 + 1)
      else do
        let p ← vecAt line (k : Int)
        if cstart ≠ p.mColorIndex then pure (k + 1)
        else FindWordStart.walk line cstart k
    else FindWordStart.walk line cstart k

/-- `FindWordStart`. -/
def FindWordStart (e : Editor) (aFrom : Coordinates) : M Coordinates :=
  if aFrom.mLine ≥ (e.mLines.length : Int) then pure aFrom
  else do
    let line ← vecAt e.mLines aFrom.mLine
    let cindex ← GetCharacterIndex e aFrom
    if cindex ≥ (line.length : Int) then pure aFrom
    else do
      let c1 ← FindWordStart.skip line cindex.toNat
      let g ← vecAt line (c1 : Int)
      let c2 ← FindWordStart.walk line g.mColorIndex c1
      let col ← GetCharacterColumn e aFrom.mLine c2
      pure ⟨aFrom.mLine, col⟩

/-- Inner loop of `FindWordEnd`: step right over white space. -/
def FindWordEnd.spaces (line : Line) : Nat → Nat → Nat
  | 0, cindex => cindex
  | fuel + 1, cindex =>
    match line.get? cindex with
    | none => cindex
    | some g => if isspace g.mChar then FindWordEnd.spaces line fuel (cindex + 1) else cindex

/-- Main loop of `FindWordEnd`. -/
def FindWordEnd.walk (line : Line) (prevspace : Bool) (cstart : PaletteIndex) : Nat → Nat → Nat
  | 0, cindex => cindex
  | fuel + 1, cindex =>
    match line.get? cindex with
    | none => cindex
    | some g =>
      let c := g.mChar
      let d := UTF8CharLength c
      if cstart ≠ g.mColorIndex then cindex
      else if prevspace ≠ isspace c then
        if isspace c then FindWordEnd.spaces line line.length cindex else cindex
      else FindWordEnd.walk line prevspace cstart fuel (cindex + d)

/-- `FindWordEnd`. -/
def FindWordEnd (e : Editor) (aFrom : Coordinates) : M Coordinates :=
  if aFrom.mLine ≥ (e.mLines.length : Int) then pure aFrom
  else do
    let line ← vecAt e.mLines aFrom.mLine
    let cindex ← GetCharacterIndex e aFrom
    if cindex ≥ (line.length : Int) then pure aFrom
    else do
      let g ← vecAt line cindex
      let c2 := FindWordEnd.walk line (isspace g.mChar) g.mColorIndex line.length cindex.toNat
      let col ← GetCharacterColumn e aFrom.mLine c2
      pure ⟨aFrom.mLine, col⟩

/-- `IsOnWordBoundary`. -/
def IsOnWordBoundary (e : Editor) (aAt : Coordinates) : M Bool :=
  if aAt.mLine ≥ (e.mLines.length : Int) ∨ aAt.mColumn = 0 then pure true
  else do
    let line ← vecAt e.mLines aAt.mLine
    let cindex ← GetCharacterIndex e aAt
    if cindex ≥ (line.length : Int) then pure true
    else do
      let g ← vecAt line cindex
      let p ← vecAt line (cindex - 1)
      if e.mColorizerEnabled then pure (g.mColorIndex != p.mColorIndex)
      else pure (isspace g.mChar != isspace p.mChar)

/-- `SetSelection(aStart, aEnd, aMode)`. -/
def SetSelection (e : Editor) (aStart aEnd : Coordinates) (aMode : SelectionMode) : M Editor := do
  let s0 ← SanitizeCoordinates e aStart
  let e0 ← SanitizeCoordinates e aEnd
  let (s1, e1) := if s0.gt e0 then (e0, s0) else (s0, e0)
  match aMode with
  | SelectionMode.Normal =>
    pure { e with mState := { e.mState with mSelectionStart := s1, mSelectionEnd := e1 } }
  | SelectionMode.Word => do
    let s2 ← FindWordStart e s1
    let onb ← IsOnWordBoundary e e1
    let e2 ← if ¬ onb then do
                let w ← FindWordStart e e1
                FindWordEnd e w
              else pure e1
    pure { e with mState := { e.mState with mSelectionStart := s2, mSelectionEnd := e2 } }
  | SelectionMode.Line => do
    let lineNo := e1.mLine
    let n ← GetLineMaxColumn e lineNo
    pure { e with mState := { e.mState with mSelectionStart := ⟨s1.mLine, 0⟩,
                                            mSelectionEnd := ⟨lineNo, n⟩ } }

/-- `GetSelectedText`. -/
def GetSelectedText (e : Editor) : M (List Nat) :=
  GetText e e.mState.mSelectionStart e.mState.mSelectionEnd

/-- `DeleteSelection`. -/
def DeleteSelection (e : Editor) : M Editor :=
  if ¬ (e.mState.mSelectionEnd.ge e.mState.mSelectionStart) then throw Fault.assertion
  else if e.mState.mSelectionEnd = e.mState.mSelectionStart then pure e
  else do
    let e1 ← DeleteRange e e.mState.mSelectionStart e.mState.mSelectionEnd
    let e2 ← SetSelection e1 e1.mState.mSelectionStart e1.mState.mSelectionStart SelectionMode.Normal
    let e3 := SetCursorPosition e2 e2.mState.mSelectionStart
    pure (Colorize e3 e3.mState.mSelectionStart.mLine 1)

/-- `InsertText(const char*)`; `none` is the null pointer. -/
def InsertText (e : Editor) (aValue : Option (List Nat)) : M Editor :=
  match aValue with
  | none => pure e
  | some v => do
    let pos ← GetActualCursorCoordinates e
    let start := if e.mState.mSelectionStart.lt pos then e.mState.mSelectionStart else pos
    let totalLines := pos.mLine - start.mLine
    let (e1, pos1, n) ← InsertTextAt e pos v
    let e2 ← SetSelection e1 pos1 pos1 SelectionMode.Normal
    let e3 := SetCursorPosition e2 pos1
    pure (Colorize e3 (start.mLine - 1) (totalLines + n + 2))

/-! ## Edit operations -/

/-- A C string as the `std::string` built from it: the bytes before the first
zero byte. -/
def cstr (s : List Nat) : List Nat := s.takeWhile (fun c => c ≠ 0)

/-- Outdent loop of `EnterCharacter`: erase up to `j` leading spaces; the flag
tells whether anything was erased. -/
def EnterCharacter.spaces : Nat → Line → Bool → Line × Bool
  | 0, line, m => (line, m)
  | j + 1, line, m =>
    match line with
    | [] => (line, m)
    | g :: rest => if g.mChar = 32 then EnterCharacter.spaces j rest true else (line, m)

/-- Body of the per-line loop of the block indent / outdent of `EnterCharacter`. -/
def EnterCharacter.indentLine (tab : Nat) (aShift : Bool) (line : Line) (modified : Bool) :
    Line × Bool :=
  if aShift then
    match line with
    | [] => (line, modified)
    | g :: rest =>
      if g.mChar = 9 then (rest, true)
      else EnterCharacter.spaces tab line modified
  else
    (({ mChar := 9, mColorIndex := PaletteIndex.Background } : Glyph) :: line, true)

/-- The loop `for (i = start.mLine; i <= end.mLine; i++)` of the block indent:
`count` is the number of iterations left. -/
def EnterCharacter.indentLoop (tab : Nat) (aShift : Bool) (endLine : Int) :
    Nat → Int → List Line → Bool → M (List Line × Bool)
  | 0, _, lines, modified => pure (lines, modified)
  | count + 1, i, lines, modified =>
    if i ≤ endLine then do
      let line ← vecAt lines i
      let (line1, modified1) := EnterCharacter.indentLine tab aShift line modified
      let lines1 ← vecSet lines i line1
      EnterCharacter.indentLoop tab aShift endLine count (i + 1) lines1 modified1
    else pure (lines, modified)

/-- The auto-indentation loop of `EnterCharacter`: the leading ASCII blanks. -/
def EnterCharacter.leadingBlanks : Line → Line
  | [] => []
  | g :: rest =>
    if isascii g.mChar ∧ isblank g.mChar then g :: EnterCharacter.leadingBlanks rest else []

/-- The overwrite loop of `EnterCharacter`: erase up to `d` bytes at `cindex`,
collecting them. -/
def EnterCharacter.overwrite : Nat → Line → Int → List Nat → M (Line × List Nat)
  | 0, line, _, removed => pure (line, removed)
  | d + 1, line, cindex, removed =>
    if cindex < (line.length : Int) then do
      let g ← vecAt line cindex
      let line1 ← vecErase line cindex (cindex + 1)
      EnterCharacter.overwrite d line1 cindex (removed ++ [g.mChar])
    else pure (line, removed)

/-- The insertion loop of `EnterCharacter`: the bytes of the zero-terminated
buffer go in at `cindex`, one at a time. -/
def EnterCharacter.insertBytes : List Nat → Line → Int → M (Line × Int)
  | [], line, cindex => pure (line, cindex)
  | b :: rest, line, cindex => do
    let line1 ← vecInsert line cindex [({ mChar := b, mColorIndex := PaletteIndex.Default } : Glyph)]
    EnterCharacter.insertBytes rest line1 (cindex + 1)

/-- The block indent / outdent branch of `EnterCharacter`. -/
def EnterCharacter.indent (e : Editor) (aShift : Bool) (u : UndoRecord) : M Editor := do
  let start0 := e.mState.mSelectionStart
  let end0 := e.mState.mSelectionEnd
  let originalEnd := end0
  let (start1, end1) := if start0.gt end0 then (end0, start0) else (start0, end0)
  let start : Coordinates := ⟨start1.mLine, 0⟩
  let end2 : Coordinates :=
    if end1.mColumn = 0 ∧ end1.mLine > 0 then ⟨end1.mLine - 1, end1.mColumn⟩ else end1
  let end3 : Coordinates :=
    if end2.mLine ≥ (e.mLines.length : Int) then
      ⟨if e.mLines.isEmpty then 0 else (e.mLines.length : Int) - 1, end2.mColumn⟩
    else end2
  let n ← GetLineMaxColumn e end3.mLine
  let end_ : Coordinates := ⟨end3.mLine, n⟩
  let removed ← GetText e start end_
  let u1 := { u with mRemovedStart := start, mRemovedEnd := end_, mRemoved := removed }
  let (lines, modified) ←
    EnterCharacter.indentLoop e.mTabSize aShift end_.mLine
      (end_.mLine - start.mLine + 1).toNat start.mLine e.mLines false
  let e1 := { e with mLines := lines }
  if modified then do
    let c0 ← GetCharacterColumn e1 start.mLine 0
    let startA : Coordinates := ⟨start.mLine, c0⟩
    if originalEnd.mColumn ≠ 0 then do
      let m ← GetLineMaxColumn e1 end_.mLine
      let endA : Coordinates := ⟨end_.mLine, m⟩
      let added ← GetText e1 startA endA
      let u2 := { u1 with mAdded := added, mAddedStart := startA, mAddedEnd := endA,
                          mAfter := e1.mState }
      let e2 := { e1 with mState := { e1.mState with mSelectionStart := startA,
                                                     mSelectionEnd := endA } }
      AddUndo e2 u2
    else do
      let endA : Coordinates := ⟨originalEnd.mLine, 0⟩
      let m ← GetLineMaxColumn e1 (endA.mLine - 1)
      let rangeEnd : Coordinates := ⟨endA.mLine - 1, m⟩
      let added ← GetText e1 startA rangeEnd
      let u2 := { u1 with mAdded := added, mAddedStart := startA, mAddedEnd := rangeEnd,
                          mAfter := e1.mState }
      let e2 := { e1 with mState := { e1.mState with mSelectionStart := startA,
                                                     mSelectionEnd := endA } }
      AddUndo e2 u2
  else pure e1

/-- The selection branch of `EnterCharacter` that is not a block indent: the
selection is recorded as removed and deleted. -/
def EnterCharacter.removeSelection (e : Editor) (u : UndoRecord) : M (Editor × UndoRecord) :=
  if HasSelection e then do
    let removed ← GetSelectedText e
    let u1 := { u with mRemoved := removed, mRemovedStart := e.mState.mSelectionStart,
                       mRemovedEnd := e.mState.mSelectionEnd }
    let e1 ← DeleteSelection e
    pure (e1, u1)
  else pure (e, u)

/-- The tail of `EnterCharacter` after either branch: close the record, log it,
mark the lines around `coord` dirty. -/
def EnterCharacter.finish (e : Editor) (u : UndoRecord) (coord : Coordinates) : M Editor := do
  let addedEnd ← GetActualCursorCoordinates e
  let e1 ← AddUndo e { u with mAddedEnd := addedEnd, mAfter := e.mState }
  pure (Colorize e1 (coord.mLine - 1) 3)

/-- The branch `aChar == '\n'` of `EnterCharacter`. -/
def EnterCharacter.newline (e1 : Editor) (u2 : UndoRecord) (coord : Coordinates) (aChar : Nat) :
    M Editor := do
  let e2 ← InsertLine e1 (coord.mLine + 1)
  let line ← vecAt e2.mLines coord.mLine
  let newLine0 ← vecAt e2.mLines (coord.mLine + 1)
  let newLine1 :=
    if e2.mAutoIndentation then newLine0 ++ EnterCharacter.leadingBlanks line else newLine0
  let lines1 ← vecSet e2.mLines (coord.mLine + 1) newLine1
  let e3 := { e2 with mLines := lines1 }
  let whitespaceSize := newLine1.length
  let cindex ← GetCharacterIndex e3 coord
  let tail ← vecFrom line cindex
  let lines2 ← vecSet e3.mLines (coord.mLine + 1) (newLine1 ++ tail)
  let line1 ← vecErase line cindex line.length
  let lines3 ← vecSet lines2 coord.mLine line1
  let e4 := { e3 with mLines := lines3 }
  let col ← GetCharacterColumn e4 (coord.mLine + 1) whitespaceSize
  let e5 := SetCursorPosition e4 ⟨coord.mLine + 1, col⟩
  EnterCharacter.finish e5 { u2 with mAdded := [aChar % 256] } coord

/-- The overwrite step of `EnterCharacter`: in overwrite mode the character
under the cursor is erased and recorded as removed. -/
def EnterCharacter.overwriteStep (e1 : Editor) (u2 : UndoRecord) (coord : Coordinates)
    (line : Line) (cindex : Int) : M (Line × UndoRecord) :=
  if e1.mOverwrite ∧ cindex < (line.length : Int) then do
    let g ← vecAt line cindex
    let d := UTF8CharLength g.mChar
    let col ← GetCharacterColumn e1 coord.mLine (cindex + d)
    let (line1, removed) ← EnterCharacter.overwrite d line cindex u2.mRemoved
    pure (line1, { u2 with mRemovedStart := e1.mState.mCursorPosition,
                           mRemovedEnd := ⟨coord.mLine, col⟩, mRemoved := removed })
  else pure (line, u2)

/-- The branch of `EnterCharacter` for every other character. -/
def EnterCharacter.character (e1 : Editor) (u2 : UndoRecord) (coord : Coordinates) (aChar : Nat) :
    M Editor :=
  let buf := ImTextCharToUtf8 7 aChar
  if buf.length > 0 then do
    let line ← vecAt e1.mLines coord.mLine
    let cindex ← GetCharacterIndex e1 coord
    let (line1, u3) ← EnterCharacter.overwriteStep e1 u2 coord line cindex
    let (line2, cindex1) ← EnterCharacter.insertBytes (cstr buf) line1 cindex
    let lines ← vecSet e1.mLines coord.mLine line2
    let e2 := { e1 with mLines := lines }
    let col ← GetCharacterColumn e2 coord.mLine cindex1
    let e3 := SetCursorPosition e2 ⟨coord.mLine, col⟩
    EnterCharacter.finish e3 { u3 with mAdded := cstr buf } coord
  else pure e1

/-- `EnterCharacter(aChar, aShift)`.  `aChar` stands for the value of the
`ImWchar` argument; the call sites of the source pass character codes of that
type, and nothing here depends on codes outside its range. -/
def EnterCharacter (e : Editor) (aChar : Nat) (aShift : Bool) : M Editor :=
  if e.mReadOnly then throw Fault.assertion
  else
    let u : UndoRecord := { mBefore := e.mState }
    if HasSelection e ∧ aChar = 9 ∧ e.mState.mSelectionStart.mLine ≠ e.mState.mSelectionEnd.mLine then
      EnterCharacter.indent e aShift u
    else do
      let (e1, u1) ← EnterCharacter.removeSelection e u
      let coord ← GetActualCursorCoordinates e1
      let u2 := { u1 with mAddedStart := coord }
      if e1.mLines.isEmpty then throw Fault.assertion
      else if aChar = 10 then EnterCharacter.newline e1 u2 coord aChar
      else EnterCharacter.character e1 u2 coord aChar

/-- The erase loop `while (d-- > 0 && cindex < (int)line.size())` of `Delete`. -/
def Delete.erase : Nat → Line → Int → M Line
  | 0, line, _ => pure line
  | d + 1, line, cindex =>
    if cindex < (line.length : Int) then do
      let line1 ← vecErase line cindex (cindex + 1)
      Delete.erase d line1 cindex
    else pure line

/-- `Delete()`. -/
def Delete (e : Editor) : M Editor :=
  if e.mReadOnly then throw Fault.assertion
  else if e.mLines.isEmpty then pure e
  else do
    let u : UndoRecord := { mBefore := e.mState }
    if HasSelection e then do
      let removed ← GetSelectedText e
      let u1 := { u with mRemoved := removed, mRemovedStart := e.mState.mSelectionStart,
                         mRemovedEnd := e.mState.mSelectionEnd }
      let e1 ← DeleteSelection e
      AddUndo e1 { u1 with mAfter := e1.mState }
    else do
      let pos ← GetActualCursorCoordinates e
      let e1 := SetCursorPosition e pos
      let line ← vecAt e1.mLines pos.mLine
      let n ← GetLineMaxColumn e1 pos.mLine
      if pos.mColumn = n then
        if pos.mLine = (e1.mLines.length : Int) - 1 then pure e1
        else do
          let removedStart ← GetActualCursorCoordinates e1
          let removedEnd ← Advance e1 removedStart
          let u1 := { u with mRemoved := [10], mRemovedStart := removedStart,
                             mRemovedEnd := removedEnd }
          let nextLine ← vecAt e1.mLines (pos.mLine + 1)
          let lines ← vecSet e1.mLines pos.mLine (line ++ nextLine)
          let e2 ← RemoveLine { e1 with mLines := lines } (pos.mLine + 1)
          let e3 := Colorize e2 pos.mLine 1
          AddUndo e3 { u1 with mAfter := e3.mState }
      else do
        let cindex ← GetCharacterIndex e1 pos
        let removedStart ← GetActualCursorCoordinates e1
        let removedEnd : Coordinates := ⟨removedStart.mLine, removedStart.mColumn + 1⟩
        let removed ← GetText e1 removedStart removedEnd
        let u1 := { u with mRemoved := removed, mRemovedStart := removedStart,
                           mRemovedEnd := removedEnd }
        let g ← vecAt line cindex
        let line1 ← Delete.erase (UTF8CharLength g.mChar) line cindex
        let lines ← vecSet e1.mLines pos.mLine line1
        let e2 := Colorize { e1 with mLines := lines } pos.mLine 1
        AddUndo e2 { u1 with mAfter := e2.mState }

/-- The loop `while (cindex > 0 && IsUTFSequence(line[cindex].mChar))` of `Backspace`. -/
def Backspace.lead (line : Line) : Nat → M Nat
  | 0 => pure 0
  | k + 1 => do
    let g ← vecAt line ((k + 1 : Nat) : Int)
    if IsUTFSequence g.mChar then Backspace.lead line k else pure (k + 1)

/-- The loop `while (cindex < line.size() && cend-- > cindex)` of `Backspace`:
`count` is `cend - cindex`. -/
def Backspace.erase : Nat → Line → Int → List Nat → M (Line × List Nat)
  | 0, line, _, removed => pure (line, removed)
  | count + 1, line, cindex, removed =>
    if cindex < (line.length : Int) then do
      let g ← vecAt line cindex
      let line1 ← vecErase line cindex (cindex + 1)
      Backspace.erase count line1 cindex (removed ++ [g.mChar])
    else pure (line, removed)

/-- The error-marker loop of `Backspace`. -/
def Backspace.markers (cursorLine : Int) (m : List (Int × String)) : List (Int × String) :=
  m.foldl (fun etmp i => mapInsert etmp (if i.1 - 1 = cursorLine then i.1 - 1 else i.1, i.2)) []

/-- `Backspace()`. -/
def Backspace (e : Editor) : M Editor :=
  if e.mReadOnly then throw Fault.assertion
  else if e.mLines.isEmpty then pure e
  else do
    let u : UndoRecord := { mBefore := e.mState }
    if HasSelection e then do
      let removed ← GetSelectedText e
      let u1 := { u with mRemoved := removed, mRemovedStart := e.mState.mSelectionStart,
                         mRemovedEnd := e.mState.mSelectionEnd }
      let e1 ← DeleteSelection e
      AddUndo e1 { u1 with mAfter := e1.mState }
    else do
      let pos ← GetActualCursorCoordinates e
      let e1 := SetCursorPosition e pos
      let cur := e1.mState.mCursorPosition
      if cur.mColumn = 0 then
        if cur.mLine = 0 then pure e1
        else do
          let m ← GetLineMaxColumn e1 (pos.mLine - 1)
          let removedStart : Coordinates := ⟨pos.mLine - 1, m⟩
          let removedEnd ← Advance e1 removedStart
          let u1 := { u with mRemoved := [10], mRemovedStart := removedStart,
                             mRemovedEnd := removedEnd }
          let line ← vecAt e1.mLines cur.mLine
          let prevLine ← vecAt e1.mLines (cur.mLine - 1)
          let prevSize ← GetLineMaxColumn e1 (cur.mLine - 1)
          let lines ← vecSet e1.mLines (cur.mLine - 1) (prevLine ++ line)
          let e2 := { e1 with mLines := lines,
                              mErrorMarkers := Backspace.markers cur.mLine e1.mErrorMarkers }
          let e3 ← RemoveLine e2 cur.mLine
          let e4 := { e3 with mState := { e3.mState with
                        mCursorPosition := ⟨cur.mLine - 1, prevSize⟩ } }
          let e5 := Colorize e4 e4.mState.mCursorPosition.mLine 1
          AddUndo e5 { u1 with mAfter := e5.mState }
      else do
        let line ← vecAt e1.mLines cur.mLine
        let ci ← GetCharacterIndex e1 pos
        let cindex0 := ci - 1
        let cend := cindex0 + 1
        let cindex : Int ← if cindex0 > 0 then do
                              let k ← Backspace.lead line cindex0.toNat
                              pure (k : Int)
                            else pure cindex0
        let actual ← GetActualCursorCoordinates e1
        let removedEnd := actual
        let removedStart : Coordinates := ⟨actual.mLine, actual.mColumn - 1⟩
        let g ← vecAt line cindex
        let cur1 : Coordinates :=
          if g.mChar = 9 then ⟨cur.mLine, cur.mColumn - e1.mTabSize⟩
          else ⟨cur.mLine, cur.mColumn - 1⟩
        let (line1, removed) ← Backspace.erase (cend - cindex).toNat line cindex []
        let lines ← vecSet e1.mLines cur.mLine line1
        let e2 := { e1 with mLines := lines,
                            mState := { e1.mState with mCursorPosition := cur1 } }
        let e3 := Colorize e2 e2.mState.mCursorPosition.mLine 1
        AddUndo e3 { { u with mRemoved := removed, mRemovedStart := removedStart,
                              mRemovedEnd := removedEnd } with mAfter := e3.mState }

/-- `Copy()`: the text handed to the clipboard (`none` when nothing is set). -/
def Copy (e : Editor) : M (Option (List Nat)) :=
  if HasSelection e then do
    let t ← GetSelectedText e
    pure (some (cstr t))
  else if ¬ e.mLines.isEmpty then do
    let c ← GetActualCursorCoordinates e
    let line ← vecAt e.mLines c.mLine
    pure (some (cstr (line.map (fun g => g.mChar))))
  else pure none

/-- `Cut()`. -/
def Cut (e : Editor) : M Editor :=
  if e.mReadOnly then do
    let _ ← Copy e
    pure e
  else if HasSelection e then do
    let removed ← GetSelectedText e
    let u : UndoRecord := { mBefore := e.mState, mRemoved := removed,
                            mRemovedStart := e.mState.mSelectionStart,
                            mRemovedEnd := e.mState.mSelectionEnd }
    let _ ← Copy e
    let e1 ← DeleteSelection e
    AddUndo e1 { u with mAfter := e1.mState }
  else pure e

/-- `Paste()`; `clipText` is what `ImGui::GetClipboardText()` returns (`none`
for the null pointer), a C string. -/
def Paste (e : Editor) (clipText : Option (List Nat)) : M Editor :=
  if e.mReadOnly then pure e
  else
    match clipText with
    | none => pure e
    | some t =>
      if (cstr t).length > 0 then do
        let u : UndoRecord := { mBefore := e.mState }
        let (e1, u1) ←
          if HasSelection e then do
            let removed ← GetSelectedText e
            let u1 := { u with mRemoved := removed, mRemovedStart := e.mState.mSelectionStart,
                               mRemovedEnd := e.mState.mSelectionEnd }
            let e1 ← DeleteSelection e
            pure (e1, u1)
          else pure (e, u)
        let addedStart ← GetActualCursorCoordinates e1
        let u2 := { u1 with mAdded := cstr t, mAddedStart := addedStart }
        let e2 ← InsertText e1 (some t)
        let addedEnd ← GetActualCursorCoordinates e2
        AddUndo e2 { u2 with mAddedEnd := addedEnd, mAfter := e2.mState }
      else pure e

/-! ## Undo log -/

/-- `CanUndo`. -/
def CanUndo (e : Editor) : Bool := !e.mReadOnly && decide (e.mUndoIndex > 0)

/-- `CanRedo`. -/
def CanRedo (e : Editor) : Bool := !e.mReadOnly && decide (e.mUndoIndex < (e.mUndoBuffer.length : Int))

/-- `UndoRecord::Undo`. -/
def UndoRecord.Undo (u : UndoRecord) (e : Editor) : M Editor := do
  let e1 ←
    if ¬ u.mAdded.isEmpty then do
      let e1 ← DeleteRange e u.mAddedStart u.mAddedEnd
      pure (Colorize e1 (u.mAddedStart.mLine - 1) (u.mAddedEnd.mLine - u.mAddedStart.mLine + 2))
    else pure e
  let e2 ←
    if ¬ u.mRemoved.isEmpty then do
      let (e2, _, _) ← InsertTextAt e1 u.mRemovedStart u.mRemoved
      pure (Colorize e2 (u.mRemovedStart.mLine - 1) (u.mRemovedEnd.mLine - u.mRemovedStart.mLine + 2))
    else pure e1
  pure { e2 with mState := u.mBefore }

/-- `UndoRecord::Redo`. -/
def UndoRecord.Redo (u : UndoRecord) (e : Editor) : M Editor := do
  let e1 ←
    if ¬ u.mRemoved.isEmpty then do
      let e1 ← DeleteRange e u.mRemovedStart u.mRemovedEnd
      pure (Colorize e1 (u.mRemovedStart.mLine - 1) (u.mRemovedEnd.mLine - u.mRemovedStart.mLine + 1))
    else pure e
  let e2 ←
    if ¬ u.mAdded.isEmpty then do
      let (e2, _, _) ← InsertTextAt e1 u.mAddedStart u.mAdded
      pure (Colorize e2 (u.mAddedStart.mLine - 1) (u.mAddedEnd.mLine - u.mAddedStart.mLine + 1))
    else pure e1
  pure { e2 with mState := u.mAfter }

/-- The loop of `Undo(aSteps)`; `steps` is the number of steps left. -/
def Undo.loop : Nat → Editor → M Editor
  | 0, e => pure e
  | steps + 1, e =>
    if CanUndo e then do
      let e1 := { e with mUndoIndex := e.mUndoIndex - 1 }
      let u ← vecAt e1.mUndoBuffer e1.mUndoIndex
      let e2 ← u.Undo e1
      Undo.loop steps e2
    else pure e

/-- `Undo(aSteps)`. -/
def Undo (e : Editor) (aSteps : Int) : M Editor := Undo.loop aSteps.toNat e

/-- The loop of `Redo(aSteps)`. -/
def Redo.loop : Nat → Editor → M Editor
  | 0, e => pure e
  | steps + 1, e =>
    if CanRedo e then do
      let u ← vecAt e.mUndoBuffer e.mUndoIndex
      let e1 := { e with mUndoIndex := e.mUndoIndex + 1 }
      let e2 ← u.Redo e1
      Redo.loop steps e2
    else pure e

/-- `Redo(aSteps)`. -/
def Redo (e : Editor) (aSteps : Int) : M Editor := Redo.loop aSteps.toNat e

/-! ## Bulk load and read -/

/-- The loop of `SetText` over the bytes of the string. -/
def SetText.loop : List Nat → List Line → List Line
  | [], lines => lines
  | chr :: rest, lines =>
    if chr = 13 then SetText.loop rest lines
    else if chr = 10 then SetText.loop rest (lines ++ [[]])
    else
      SetText.loop rest
        (lines.dropLast ++
          [lines.getLastD [] ++ [({ mChar := chr, mColorIndex := PaletteIndex.Default } : Glyph)]])

/-- `SetText`. -/
def SetText (e : Editor) (aText : List Nat) : Editor :=
  Colorize { e with mLines := SetText.loop aText [[]], mUndoBuffer := [], mUndoIndex := 0 } 0 (-1)

/-- `SetTextLines`. -/
def SetTextLines (e : Editor) (aLines : List (List Nat)) : Editor :=
  let lines : List Line :=
    if aLines.isEmpty then [[]]
    else aLines.map (fun aLine =>
      aLine.map (fun c => ({ mChar := c, mColorIndex := PaletteIndex.Default } : Glyph)))
  Colorize { e with mLines := lines, mUndoBuffer := [], mUndoIndex := 0 } 0 (-1)

/-- `GetTextLines`. -/
def GetTextLines (e : Editor) : List (List Nat) :=
  e.mLines.map (fun line => line.map (fun g => g.mChar))

/-- `SetTabSize`. -/
def SetTabSize (e : Editor) (aValue : Int) : Editor :=
  { e with mTabSize := (max 0 (min 32 aValue)).toNat }

/-- The editing operations of the public interface that record a transaction. -/
inductive EditOp where
  | enterCharacter (aChar : Nat) (aShift : Bool)
  | delete
  | backspace
  | cut
  | paste (clipText : Option (List Nat))
  deriving DecidableEq, Repr

/-- Run one editing operation. -/
def EditOp.run (op : EditOp) (e : Editor) : M Editor :=
  match op with
  | .enterCharacter c s => EnterCharacter e c s
  | .delete => Delete e
  | .backspace => Backspace e
  | .cut => Cut e
  | .paste t => Paste e t

/-- Run a sequence of editing operations from left to right. -/
def runOps : List EditOp → Editor → M Editor
  | [], e => pure e
  | op :: ops, e => do
    let e1 ← op.run e
    runOps ops e1

/-- The bytes of every line, without the classification. -/
def Editor.bytes (e : Editor) : List (List Nat) :=
  e.mLines.map (fun line => line.map (fun g => g.mChar))

/-- A line of unclassified glyphs from its bytes. -/
def mkLine (bs : List Nat) : Line :=
  bs.map (fun c => ({ mChar := c, mColorIndex := PaletteIndex.Default } : Glyph))

/-- The editor as the constructor leaves it (tab size 4, not read-only,
colorizer on, empty undo log) holding the given lines, with cursor and
selection collapsed at `cursor`. -/
def mkEditor (lines : List (List Nat)) (cursor : Coordinates) : Editor :=
  { mLines := lines.map mkLine
    mState := ⟨cursor, cursor, cursor⟩
    mUndoBuffer := []
    mUndoIndex := 0
    mTabSize := 4
    mOverwrite := false
    mReadOnly := false
    mColorizerEnabled := true
    mColorRangeMin := 0
    mColorRangeMax := 0
    mCheckComments := true
    mSelectionMode := SelectionMode.Normal
    mInteractiveStart := ⟨0, 0⟩
    mInteractiveEnd := ⟨0, 0⟩
    mErrorMarkers := []
    mBreakpoints := []
    mAutoIndentation := true }

/-- `SetColorizerEnable`. -/
def SetColorizerEnable (e : Editor) (aValue : Bool) : Editor :=
  { e with mColorizerEnabled := aValue }

/-- The editor right after its constructor: one empty line, cursor at (0,0). -/
def constructed : Editor := mkEditor [[]] ⟨0, 0⟩

/-- A freshly constructed editor loaded with `text`, then cursor and (empty)
selection put at `pos` through `SetCursorPosition` and `SetSelection`. -/
def loadedAt (text : List Nat) (pos : Coordinates) : M Editor :=
  SetSelection (SetCursorPosition (SetText constructed text) pos) pos pos SelectionMode.Normal

/-! ## Views of the scans used in the proofs

The scans of the coordinate mapper, restated by recursion on the bytes that are
left: `skip` counts the bytes of the current character still to be stepped
over.  The theorems relate them to the loops above. -/

/-- The column after one glyph: the step shared by the three scans. -/
def colStep (T c : Nat) (g : Glyph) : Nat :=
  if g.mChar = 9 then (c / T) * T + T else c + 1

/-- Column reached at the end of the bytes. -/
def scanMax (T : Nat) : Nat → Nat → Line → Nat
  | _, c, [] => c
  | 0, c, g :: rest => scanMax T (UTF8CharLength g.mChar - 1) (colStep T c g) rest
  | s + 1, c, _ :: rest => scanMax T s c rest

/-- Number of bytes stepped over until the column reaches `column`. -/
def scanIndex (T : Nat) (column : Int) : Nat → Nat → Line → Nat
  | s, _, [] => s
  | 0, c, g :: rest =>
    if (c : Int) < column then
      1 + scanIndex T column (UTF8CharLength g.mChar - 1) (colStep T c g) rest
    else 0
  | s + 1, c, _ :: rest => 1 + scanIndex T column s c rest

/-- Column reached when `aIndex` bytes have been stepped over. -/
def scanColumn (T : Nat) : Int → Nat → Nat → Line → Nat
  | _, _, c, [] => c
  | aIndex, 0, c, g :: rest =>
    if 0 < aIndex then
      scanColumn T (aIndex - 1) (UTF8CharLength g.mChar - 1) (colStep T c g) rest
    else c
  | aIndex, s + 1, c, _ :: rest => scanColumn T (aIndex - 1) s c rest

/-- Number of characters that start in the bytes. -/
def scanCount : Nat → Line → Nat
  | _, [] => 0
  | 0, g :: rest => 1 + scanCount (UTF8CharLength g.mChar - 1) rest
  | s + 1, _ :: rest => scanCount s rest

/-- Whether the scan over the whole of the bytes can step over every glyph it
visits: with tab size 0 it must not meet a tab. -/
def scanOK (T : Nat) : Nat → Line → Bool
  | _, [] => true
  | 0, g :: rest => (g.mChar ≠ 9 || decide (0 < T)) && scanOK T (UTF8CharLength g.mChar - 1) rest
  | s + 1, _ :: rest => scanOK T s rest

/-- `SetReadOnly`. -/
def SetReadOnly (e : Editor) (aValue : Bool) : Editor :=
  { e with mReadOnly := aValue }

/-- Whether no line break and no carriage return of a text lies among the
trailing bytes that a lead byte before it declares: `skip` counts the trailing
bytes still to come.  Holds for every well-formed UTF-8 text; used as a
hypothesis about texts handed to `InsertTextAt`. -/
def textWhole : Nat → List Nat → Bool
  | _, [] => true
  | 0, b :: rest =>
    if b = 10 ∨ b = 13 then textWhole 0 rest else textWhole (UTF8CharLength b - 1) rest
  | s + 1, b :: rest => b ≠ 10 && b ≠ 13 && textWhole s rest

/-- What the helpers below the public edit operations leave alone, used in the
proofs of the invariants: the undo log and the read-only flag are unchanged,
and a document with at least one line still has one. -/
def Editor.keeps (e e1 : Editor) : Prop :=
  e1.mUndoIndex = e.mUndoIndex ∧ e1.mUndoBuffer = e.mUndoBuffer ∧ e1.mReadOnly = e.mReadOnly ∧
    (e.mLines ≠ [] → e1.mLines ≠ [])

/-- What one public edit operation does to the undo log, used in the proofs of
the invariants: either the lines are unchanged, or exactly one transaction has
been appended (the index has grown by one and the log ends at the new index). -/
def Editor.logged (e e1 : Editor) : Prop :=
  e1.mLines = e.mLines ∨
    (e1.mUndoIndex = e.mUndoIndex + 1 ∧ (e1.mUndoBuffer.length : Int) = e1.mUndoIndex)

/-! ## Colorizer

The members `mLanguageDefinition` and `mRegexList` of `TextEditor` are passed
to the functions below as the arguments `lang` and `rx`.  Pointers into the
scan buffer of `ColorizeRange` are offsets from `bufferBegin`. -/

/-- The custom tokenizer `LanguageDefinition::TokenizeCallback`, called as
`mTokenize(first, last, token_begin, token_end, token_color)`: from the bytes
of the buffer and the offsets of `first` and `last` it reports no match
(`none`) or the offsets of `token_begin` and `token_end` and the class. -/
abbrev TokenizeCallback := List Nat → Int → Int → Option (Int × Int × PaletteIndex)

/-- A compiled pattern of `mRegexList` under `std::regex_search(first, last,
results, pattern, match_continuous)`: from the bytes of `[first, last)` it
reports no match or the length of the match that starts at `first`. -/
abbrev RegexMatch := List Nat → Option Nat

/-- Modelled from the spec: `TextEditor::LanguageDefinition` is declared in the
header, which is not among the sources; these are the members that
`ColorizeRange` and `ColorizeInternal` read.  The keyword set and the keys of
the two identifier maps are lists of byte strings; `mTokenize` is `none` for
the null pointer. -/
structure LanguageDefinition where
  mKeywords : List (List Nat)
  mIdentifiers : List (List Nat)
  mPreprocIdentifiers : List (List Nat)
  mCommentStart : List Nat
  mCommentEnd : List Nat
  mSingleLineComment : List Nat
  mPreprocChar : Nat
  mCaseSensitive : Bool
  mTokenize : Option TokenizeCallback

/-- The function `toupper` of `<cctype>` in the "C" locale. -/
def toupper (c : Nat) : Nat := if 97 ≤ c ∧ c ≤ 122 then c - 32 else c

/-- The iterator range `[v.begin() + a, v.begin() + b)` read as a list. -/
def vecRange {α : Type} (v : List α) (a b : Int) : M (List α) :=
  if 0 ≤ a ∧ a ≤ b ∧ b ≤ v.length then pure ((v.drop a.toNat).take (b - a).toNat)
  else throw Fault.outOfRange

/-- The class of an `Identifier` token of `ColorizeRange` after the look-up of
its (case-normalised) text `id`; `preproc` is the preprocessor flag of the
glyph at the scan position. -/
def ColorizeRange.classify (lang : LanguageDefinition) (id : List Nat) (preproc : Bool) :
    PaletteIndex :=
  if ¬ preproc then
    if id ∈ lang.mKeywords then PaletteIndex.Keyword
    else if id ∈ lang.mIdentifiers then PaletteIndex.KnownIdentifier
    else if id ∈ lang.mPreprocIdentifiers then PaletteIndex.PreprocIdentifier
    else PaletteIndex.Identifier
  else
    if id ∈ lang.mPreprocIdentifiers then PaletteIndex.PreprocIdentifier
    else PaletteIndex.Identifier

/-- The loop over `mRegexList` of `ColorizeRange`: the first pattern that
matches at the start of `bytes`, with the length of its match and its class. -/
def ColorizeRange.firstMatch (bytes : List Nat) :
    List (RegexMatch × PaletteIndex) → Option (Nat × PaletteIndex)
  | [] => none
  | p :: rest =>
    match p.1 bytes with
    | some n => some (n, p.2)
    | none => ColorizeRange.firstMatch bytes rest

/-- The tokenizer part of one round of the token loop of `ColorizeRange`:
the callback first, the pattern list when the callback is absent or reports no
match.  `none` is `hasTokenizeResult == false`.  A pattern search over a range
that is not inside the buffer does not return. -/
def ColorizeRange.token (lang : LanguageDefinition) (rx : List (RegexMatch × PaletteIndex))
    (buffer : List Nat) (first : Int) : M (Option (Int × Int × PaletteIndex)) :=
  match lang.mTokenize.bind (fun f => f buffer first (buffer.length : Int)) with
  | some r => pure (some r)
  | none =>
    if rx.isEmpty then pure none
    else if first < 0 ∨ first > (buffer.length : Int) then throw Fault.outOfRange
    else
      match ColorizeRange.firstMatch (buffer.drop first.toNat) rx with
      | some (n, c) => pure (some (first, first + (n : Int), c))
      | none => pure none

/-- The loop `for (j = 0; j < token_length; ++j) line[(token_begin -
bufferBegin) + j].mColorIndex = token_color`; `n` is the number of rounds left
and `i` the index of the next glyph. -/
def ColorizeRange.paint : Nat → Line → Int → PaletteIndex → M Line
  | 0, line, _, _ => pure line
  | n + 1, line, i, c => do
    let g ← vecAt line i
    let line1 ← vecSet line i { g with mColorIndex := c }
    ColorizeRange.paint n line1 (i + 1) c

/-- One round of the token loop of `ColorizeRange` at the scan position
`first`: the line and the scan position after it.  `token_length` is the
unsigned `token_end - token_begin`; for `token_end < token_begin` it exceeds
the size of every line, so the write loop leaves the line. -/
def ColorizeRange.step (lang : LanguageDefinition) (rx : List (RegexMatch × PaletteIndex))
    (buffer : List Nat) (line : Line) (first : Int) : M (Line × Int) := do
  let r ← ColorizeRange.token lang rx buffer first
  match r with
  | none => pure (line, first + 1)
  | some (token_begin, token_end, token_color) =>
    if token_end < token_begin then throw Fault.outOfRange
    else do
      let token_length := (token_end - token_begin).toNat
      let color ←
        if token_color = PaletteIndex.Identifier then do
          let id0 ← vecRange buffer token_begin token_end
          let id := if ¬ lang.mCaseSensitive then id0.map toupper else id0
          let g ← vecAt line first
          pure (ColorizeRange.classify lang id g.mPreprocessor)
        else pure token_color
      let line1 ← ColorizeRange.paint token_length line token_begin color
      pure (line1, token_end)

/-- The token loop `for (auto first = bufferBegin; first != last; )` of
`ColorizeRange`.  Nothing in the loop bounds the number of its rounds, so the
fuel is an argument: the result is `none` when the loop is still running after
`fuel` rounds. -/
def ColorizeRange.tokens (lang : LanguageDefinition) (rx : List (RegexMatch × PaletteIndex))
    (buffer : List Nat) : Nat → Line → Int → M (Option Line)
  | 0, line, first => if first = (buffer.length : Int) then pure (some line) else pure none
  | fuel + 1, line, first =>
    if first = (buffer.length : Int) then pure (some line)
    else do
      let (line1, first1) ← ColorizeRange.step lang rx buffer line first
      ColorizeRange.tokens lang rx buffer fuel line1 first1

/-- The body of the line loop of `ColorizeRange` for one line: fill the buffer,
reset every class to `Default`, run the token loop. -/
def ColorizeRange.line (lang : LanguageDefinition) (rx : List (RegexMatch × PaletteIndex))
    (fuel : Nat) (line : Line) : M (Option Line) :=
  if line.isEmpty then pure (some line)
  else
    let buffer := line.map (fun col => col.mChar)
    let line1 := line.map (fun col => { col with mColorIndex := PaletteIndex.Default })
    ColorizeRange.tokens lang rx buffer fuel line1 0

/-- The loop `for (int i = aFromLine; i < endLine; ++i)` of `ColorizeRange`;
`count` is the number of rounds left. -/
def ColorizeRange.lines (lang : LanguageDefinition) (rx : List (RegexMatch × PaletteIndex))
    (fuel : Nat) (endLine : Int) : Nat → Int → List Line → M (Option (List Line))
  | 0, _, lines => pure (some lines)
  | count + 1, i, lines =>
    if i < endLine then do
      let line ← vecAt lines i
      let r ← ColorizeRange.line lang rx fuel line
      match r with
      | none => pure none
      | some line1 => do
        let lines1 ← vecSet lines i line1
        ColorizeRange.lines lang rx fuel endLine count (i + 1) lines1
    else pure (some lines)

/-- `ColorizeRange(aFromLine, aToLine)`; `fuel` bounds the rounds of the token
loop of each line, and the result is `none` when a token loop is still running
after that many rounds. -/
def ColorizeRange (e : Editor) (lang : LanguageDefinition) (rx : List (RegexMatch × PaletteIndex))
    (fuel : Nat) (aFromLine aToLine : Int) : M (Option Editor) :=
  if e.mLines.isEmpty ∨ aFromLine ≥ aToLine then pure (some e)
  else do
    let endLine : Int := max 0 (min (e.mLines.length : Int) aToLine)
    let r ← ColorizeRange.lines lang rx fuel endLine (endLine - aFromLine).toNat aFromLine e.mLines
    pure (r.map (fun lines => { e with mLines := lines }))

/-- The function template `equals` of the source on a byte string and a range
of glyphs, with the predicate `a == b.mChar` of `ColorizeInternal`. -/
def equals : List Nat → List Glyph → Bool
  | [], [] => true
  | a :: as, b :: bs => if a = b.mChar then equals as bs else false
  | _, _ => false

/-- The local variables of the comment sweep of `ColorizeInternal` that live
across the rounds of its loop (`currentLine` and `currentIndex` apart). -/
structure ColorizeInternal.Scan where
  commentStartLine : Int
  commentStartIndex : Int
  withinString : Bool
  withinSingleLineComment : Bool
  withinPreproc : Bool
  firstChar : Bool
  concatenate : Bool
  deriving DecidableEq, Repr

/-- The head of a round of the sweep: at the start of a line that does not
continue the one before it the per-line flags are reset; `concatenate` is
cleared. -/
def ColorizeInternal.enter (s : ColorizeInternal.Scan) (currentIndex : Int) :
    ColorizeInternal.Scan :=
  let s1 :=
    if currentIndex = 0 ∧ ¬ s.concatenate then
      { s with withinSingleLineComment := false, withinPreproc := false, firstChar := true }
    else s
  { s1 with concatenate := false }

/-- The test `commentStartLine < currentLine || (commentStartLine == currentLine
&& commentStartIndex <= currentIndex)` of the sweep. -/
def ColorizeInternal.inComment (s : ColorizeInternal.Scan) (currentLine currentIndex : Int) :
    Bool :=
  decide (s.commentStartLine < currentLine ∨
    (s.commentStartLine = currentLine ∧ s.commentStartIndex ≤ currentIndex))

/-- The assignment `line[i].mMultiLineComment = v`. -/
def ColorizeInternal.setMultiLineComment (line : Line) (i : Int) (v : Bool) : M Line := do
  let g ← vecAt line i
  vecSet line i { g with mMultiLineComment := v }

/-- The assignments `line[i].mMultiLineComment = inComment; line[i].mComment =
withinSingleLineComment`. -/
def ColorizeInternal.setComments (line : Line) (i : Int) (inComment single : Bool) : M Line := do
  let g ← vecAt line i
  vecSet line i { g with mMultiLineComment := inComment, mComment := single }

/-- The assignment `line[i].mPreprocessor = v`. -/
def ColorizeInternal.setPreprocessor (line : Line) (i : Int) (v : Bool) : M Line := do
  let g ← vecAt line i
  vecSet line i { g with mPreprocessor := v }

/-- The second half of the two escapes inside a string: `currentIndex += 1`
and, when that is still inside the line, `line[currentIndex].mMultiLineComment
= inComment`. -/
def ColorizeInternal.skipNext (s : ColorizeInternal.Scan) (line : Line) (inComment : Bool)
    (currentIndex : Int) : M (ColorizeInternal.Scan × Line × Int) :=
  if currentIndex + 1 < (line.length : Int) then do
    let line1 ← ColorizeInternal.setMultiLineComment line (currentIndex + 1) inComment
    pure (s, line1, currentIndex + 1)
  else pure (s, line, currentIndex + 1)

/-- The branch `if (withinString)` of a round of the sweep: the scan state,
the line and `currentIndex` after it. -/
def ColorizeInternal.inString (s : ColorizeInternal.Scan) (line : Line) (c : Nat)
    (inComment : Bool) (currentIndex : Int) : M (ColorizeInternal.Scan × Line × Int) := do
  let line1 ← ColorizeInternal.setMultiLineComment line currentIndex inComment
  if c = 34 then
    if currentIndex + 1 < (line1.length : Int) ∧
        (line1.get? (currentIndex + 1).toNat).map (fun g => g.mChar) = some 34 then
      ColorizeInternal.skipNext s line1 inComment currentIndex
    else pure ({ s with withinString := false }, line1, currentIndex)
  else if c = 92 then ColorizeInternal.skipNext s line1 inComment currentIndex
  else pure (s, line1, currentIndex)

/-- The glyph range `[line.begin() + a, line.begin() + a + n)`, for a range
that lies inside the line. -/
def ColorizeInternal.glyphsAt (line : Line) (a : Int) (n : Nat) : List Glyph :=
  (line.drop a.toNat).take n

/-- The two comment openers of a round of the sweep outside a string: the
single-line comment start, else (outside a single-line comment) the block
comment start.  `currentIndex` is an index of the line. -/
def ColorizeInternal.opens (lang : LanguageDefinition) (currentLine : Int)
    (s : ColorizeInternal.Scan) (line : Line) (currentIndex : Int) : ColorizeInternal.Scan :=
  if lang.mSingleLineComment.length > 0 ∧
      currentIndex + (lang.mSingleLineComment.length : Int) ≤ (line.length : Int) ∧
      equals lang.mSingleLineComment
        (ColorizeInternal.glyphsAt line currentIndex lang.mSingleLineComment.length) then
    { s with withinSingleLineComment := true }
  else if ¬ s.withinSingleLineComment ∧
      currentIndex + (lang.mCommentStart.length : Int) ≤ (line.length : Int) ∧
      equals lang.mCommentStart
        (ColorizeInternal.glyphsAt line currentIndex lang.mCommentStart.length) then
    { s with commentStartLine := currentLine, commentStartIndex := currentIndex }
  else s

/-- The block comment end of a round of the sweep outside a string. -/
def ColorizeInternal.closes (lang : LanguageDefinition) (endLine : Int)
    (s : ColorizeInternal.Scan) (line : Line) (currentIndex : Int) : ColorizeInternal.Scan :=
  if currentIndex + 1 ≥ (lang.mCommentEnd.length : Int) ∧
      equals lang.mCommentEnd
        (ColorizeInternal.glyphsAt line (currentIndex + 1 - (lang.mCommentEnd.length : Int))
          lang.mCommentEnd.length) then
    { s with commentStartIndex := 0, commentStartLine := endLine }
  else s

/-- The branch of a round of the sweep outside a string, for a character other
than the double quote: the comment openers, the two comment flags of the
glyph, the block comment end. -/
def ColorizeInternal.outside (lang : LanguageDefinition) (endLine currentLine : Int)
    (s : ColorizeInternal.Scan) (line : Line) (currentIndex : Int) :
    M (ColorizeInternal.Scan × Line) := do
  let s1 := ColorizeInternal.opens lang currentLine s line currentIndex
  let line1 ← ColorizeInternal.setComments line currentIndex
    (ColorizeInternal.inComment s1 currentLine currentIndex) s1.withinSingleLineComment
  pure (ColorizeInternal.closes lang endLine s1 line1 currentIndex, line1)

/-- The updates of `firstChar` and `concatenate` at the head of the body of a
round; `c` is the character under `currentIndex`, an index of the line. -/
def ColorizeInternal.note (lang : LanguageDefinition) (s : ColorizeInternal.Scan) (line : Line)
    (c : Nat) (currentIndex : Int) : ColorizeInternal.Scan :=
  let s1 := if c ≠ lang.mPreprocChar ∧ ¬ isspace c then { s with firstChar := false } else s
  if currentIndex = (line.length : Int) - 1 ∧
      (line.get? (line.length - 1)).map (fun g => g.mChar) = some 92 then
    { s1 with concatenate := true }
  else s1

/-- The branches of the body of a round that write the comment flags: inside a
string, at an opening double quote, elsewhere. -/
def ColorizeInternal.mark (lang : LanguageDefinition) (endLine currentLine : Int)
    (s : ColorizeInternal.Scan) (line : Line) (c : Nat) (currentIndex : Int) :
    M (ColorizeInternal.Scan × Line × Int) :=
  if s.withinString then
    ColorizeInternal.inString s line c (ColorizeInternal.inComment s currentLine currentIndex)
      currentIndex
  else if c = 34 then do
    let line1 ← ColorizeInternal.setMultiLineComment line currentIndex
      (ColorizeInternal.inComment s currentLine currentIndex)
    pure ({ s with
      withinPreproc := if s.firstChar ∧ c = lang.mPreprocChar then true else s.withinPreproc,
      withinString := true }, line1, currentIndex)
  else do
    let r ← ColorizeInternal.outside lang endLine currentLine
      { s with
        withinPreproc := if s.firstChar ∧ c = lang.mPreprocChar then true else s.withinPreproc }
      line currentIndex
    pure (r.1, r.2, currentIndex)

/-- The body of a round of the sweep on a line that is not empty, after the
head of the round: the scan state, the line and `currentIndex` after
`currentIndex += UTF8CharLength(c)`. -/
def ColorizeInternal.visit (lang : LanguageDefinition) (endLine currentLine : Int)
    (s : ColorizeInternal.Scan) (line : Line) (currentIndex : Int) :
    M (ColorizeInternal.Scan × Line × Int) := do
  let g ← vecAt line currentIndex
  let r ← ColorizeInternal.mark lang endLine currentLine
    (ColorizeInternal.note lang s line g.mChar currentIndex) line g.mChar currentIndex
  let line2 ← ColorizeInternal.setPreprocessor r.2.1 r.2.2 r.1.withinPreproc
  pure (r.1, line2, r.2.2 + (UTF8CharLength g.mChar : Int))

/-- The rounds of the sweep that stay on one line that is not empty; `fuel` is
the number of rounds left (the length of the line when the line is entered). -/
def ColorizeInternal.scanLine (lang : LanguageDefinition) (endLine currentLine : Int) :
    Nat → ColorizeInternal.Scan → Line → Int → M (ColorizeInternal.Scan × Line)
  | 0, s, line, _ => pure (s, line)
  | fuel + 1, s, line, currentIndex => do
    let r ←
      ColorizeInternal.visit lang endLine currentLine
        (ColorizeInternal.enter s currentIndex) line currentIndex
    if r.2.2 ≥ (r.2.1.length : Int) then pure (r.1, r.2.1)
    else ColorizeInternal.scanLine lang endLine currentLine fuel r.1 r.2.1 r.2.2

/-- The rounds of the sweep on one line: an empty line takes one round, which
only runs the head of the round. -/
def ColorizeInternal.sweepLine (lang : LanguageDefinition) (endLine currentLine : Int)
    (s : ColorizeInternal.Scan) (line : Line) : M (ColorizeInternal.Scan × Line) :=
  if line.isEmpty then pure (ColorizeInternal.enter s 0, line)
  else ColorizeInternal.scanLine lang endLine currentLine line.length s line 0

/-- The loop `while (currentLine < endLine || currentIndex < endIndex)` of the
comment sweep of `ColorizeInternal`, line by line (`endIndex` is 0 and
`currentIndex` is never negative, so the loop ends with the last line). -/
def ColorizeInternal.sweep (lang : LanguageDefinition) (endLine : Int) :
    Int → ColorizeInternal.Scan → List Line → M (ColorizeInternal.Scan × List Line)
  | _, s, [] => pure (s, [])
  | currentLine, s, line :: rest => do
    let r ← ColorizeInternal.sweepLine lang endLine currentLine s line
    let r1 ← ColorizeInternal.sweep lang endLine (currentLine + 1) r.1 rest
    pure (r1.1, r.2 :: r1.2)

/-- The chunk size `increment` of `ColorizeInternal`. -/
def ColorizeInternal.increment (lang : LanguageDefinition) : Int :=
  if lang.mTokenize.isNone then 10 else 10000

/-- The comment sweep of `ColorizeInternal` (the block `if (mCheckComments)`). -/
def ColorizeInternal.comments (e : Editor) (lang : LanguageDefinition) : M Editor :=
  if e.mCheckComments then do
    let endLine : Int := (e.mLines.length : Int)
    let init : ColorizeInternal.Scan :=
      { commentStartLine := endLine, commentStartIndex := 0, withinString := false,
        withinSingleLineComment := false, withinPreproc := false, firstChar := true,
        concatenate := false }
    let r ← ColorizeInternal.sweep lang endLine 0 init e.mLines
    pure { e with mLines := r.2, mCheckComments := false }
  else pure e

/-- `ColorizeInternal()`; `fuel` is handed to `ColorizeRange`. -/
def ColorizeInternal (e : Editor) (lang : LanguageDefinition)
    (rx : List (RegexMatch × PaletteIndex)) (fuel : Nat) : M (Option Editor) :=
  if e.mLines.isEmpty ∨ ¬ e.mColorizerEnabled then pure (some e)
  else do
    let e1 ← ColorizeInternal.comments e lang
    if e1.mColorRangeMin < e1.mColorRangeMax then do
      let increment := ColorizeInternal.increment lang
      let to_ := min (e1.mColorRangeMin + increment) e1.mColorRangeMax
      let r ← ColorizeRange e1 lang rx fuel e1.mColorRangeMin to_
      match r with
      | none => pure none
      | some e2 =>
        let e3 := { e2 with mColorRangeMin := to_ }
        if e3.mColorRangeMax = e3.mColorRangeMin then
          pure (some { e3 with mColorRangeMin := 2147483647, mColorRangeMax := 0 })
        else pure (some e3)
    else pure (some e1)

/-- A glyph with its syntax class put back to `Default`: what a glyph is apart
from its class. -/
def Glyph.uncolored (g : Glyph) : Glyph := { g with mColorIndex := PaletteIndex.Default }

/-- The compiled pattern `[a-zA-Z_][a-zA-Z0-9_]*` (the identifier pattern of
the built-in language definitions) as a matcher: a letter or underscore and
the longest run of letters, digits and underscores after it. -/
def identifierPattern : RegexMatch
  | [] => none
  | c :: rest =>
    if (97 ≤ c ∧ c ≤ 122) ∨ (65 ≤ c ∧ c ≤ 90) ∨ c = 95 then
      some (1 + (rest.takeWhile (fun d =>
        decide ((97 ≤ d ∧ d ≤ 122) ∨ (65 ≤ d ∧ d ≤ 90) ∨ (48 ≤ d ∧ d ≤ 57) ∨ d = 95))).length)
    else none

/-- The compiled punctuation pattern of the built-in language definitions, the
class of the single characters `[ ] { } ! % ^ & * ( ) - + = ~ | < > ? / ; , .`,
as a matcher. -/
def punctuationPattern : RegexMatch
  | [] => none
  | c :: _ =>
    if c ∈ [91, 93, 123, 125, 33, 37, 94, 38, 42, 40, 41, 45, 43, 61, 126, 124, 60, 62, 63, 47,
        59, 44, 46] then some 1
    else none

/-- The members of `LanguageDefinition::HLSL()` that the comment sweep reads
(`mPreprocChar` keeps its default `'#'`), with empty word lists and no custom
tokenizer. -/
def hlslComments : LanguageDefinition :=
  { mKeywords := [], mIdentifiers := [], mPreprocIdentifiers := [],
    mCommentStart := [47, 42], mCommentEnd := [42, 47], mSingleLineComment := [47, 47],
    mPreprocChar := 35, mCaseSensitive := true, mTokenize := none }

/-! ## Cursor movement -/

/-- The function `isalnum` of `<cctype>` in the "C" locale. -/
def isalnum (c : Nat) : Bool :=
  (48 ≤ c && c ≤ 57) || (65 ≤ c && c ≤ 90) || (97 ≤ c && c ≤ 122)

/-- Modelled from the spec: `GetCursorPosition` is defined in the header, which
is not among the sources; it returns the sanitized cursor position, as
`GetActualCursorCoordinates` does. -/
def GetCursorPosition (e : Editor) : M Coordinates := GetActualCursorCoordinates e

/-- The loop `while (!isword || skip)` of `FindNextWord`; `fuel` is the number
of rounds left (every round steps to the next character or the next line, so
the number of characters plus the number of lines bounds the rounds), `at_` is
the variable `at`. -/
def FindNextWord.loop (e : Editor) : Nat → Coordinates → Int → Bool → M Coordinates
  | 0, at_, _, _ => pure at_
  | fuel + 1, at_, cindex, skip =>
    if at_.mLine < 0 ∨ at_.mLine ≥ (e.mLines.length : Int) then do
      let l : Int := max 0 ((e.mLines.length : Int) - 1)
      let n ← GetLineMaxColumn e l
      pure ⟨l, n⟩
    else do
      let line ← vecAt e.mLines at_.mLine
      if cindex < (line.length : Int) then do
        let g ← vecAt line cindex
        let isword := isalnum g.mChar
        if isword ∧ ¬ skip then do
          let col ← GetCharacterColumn e at_.mLine cindex
          pure ⟨at_.mLine, col⟩
        else FindNextWord.loop e fuel at_ (cindex + 1) (if ¬ isword then false else skip)
      else FindNextWord.loop e fuel ⟨at_.mLine + 1, at_.mColumn⟩ 0 false

/-- `FindNextWord`. -/
def FindNextWord (e : Editor) (aFrom : Coordinates) : M Coordinates :=
  if aFrom.mLine ≥ (e.mLines.length : Int) then pure aFrom
  else do
    let cindex ← GetCharacterIndex e aFrom
    let line ← vecAt e.mLines aFrom.mLine
    let skip ←
      if cindex < (line.length : Int) then do
        let g ← vecAt line cindex
        pure (isalnum g.mChar)
      else pure false
    FindNextWord.loop e ((e.mLines.map List.length).sum + e.mLines.length + 1) aFrom cindex skip

/-- The cursor of the editor set to a position, as the assignments to
`mState.mCursorPosition` in the `Move` functions do (no change test). -/
def Editor.withCursor (e : Editor) (p : Coordinates) : Editor :=
  { e with mState := { e.mState with mCursorPosition := p } }

/-- The two ends of the interactive selection set, as the assignments to
`mInteractiveStart` and `mInteractiveEnd` in the `Move` functions do. -/
def Editor.withInteractive (e : Editor) (s t : Coordinates) : Editor :=
  { e with mInteractiveStart := s, mInteractiveEnd := t }

/-- `MoveUp(aAmount, aSelect)`. -/
def MoveUp (e : Editor) (aAmount : Int) (aSelect : Bool) : M Editor :=
  let oldPos := e.mState.mCursorPosition
  let pos : Coordinates := ⟨max 0 (oldPos.mLine - aAmount), oldPos.mColumn⟩
  let e1 := e.withCursor pos
  if oldPos ≠ pos then
    let e2 : Editor :=
      if aSelect then
        if oldPos = e1.mInteractiveStart then e1.withInteractive pos e1.mInteractiveEnd
        else if oldPos = e1.mInteractiveEnd then e1.withInteractive e1.mInteractiveStart pos
        else e1.withInteractive pos oldPos
      else e1.withInteractive pos pos
    SetSelection e2 e2.mInteractiveStart e2.mInteractiveEnd SelectionMode.Normal
  else pure e1

/-- `MoveDown(aAmount, aSelect)`.  The sum `oldPos.mLine + aAmount` is taken
without the wrap-around of `int`; what is proved about `MoveDown` does not
depend on the line the sum names. -/
def MoveDown (e : Editor) (aAmount : Int) (aSelect : Bool) : M Editor :=
  if ¬ (e.mState.mCursorPosition.mColumn ≥ 0) then throw Fault.assertion
  else
    let oldPos := e.mState.mCursorPosition
    let pos : Coordinates :=
      ⟨max 0 (min ((e.mLines.length : Int) - 1) (oldPos.mLine + aAmount)), oldPos.mColumn⟩
    let e1 := e.withCursor pos
    if pos ≠ oldPos then
      let e2 : Editor :=
        if aSelect then
          if oldPos = e1.mInteractiveEnd then e1.withInteractive e1.mInteractiveStart pos
          else if oldPos = e1.mInteractiveStart then e1.withInteractive pos e1.mInteractiveEnd
          else e1.withInteractive oldPos pos
        else e1.withInteractive pos pos
      SetSelection e2 e2.mInteractiveStart e2.mInteractiveEnd SelectionMode.Normal
    else pure e1

/-- The loop `while (cindex > 0 && IsUTFSequence(mLines[line][cindex].mChar))
--cindex` of `MoveLeft`. -/
def MoveLeft.lead (line : Line) : Nat → M Nat
  | 0 => pure 0
  | k + 1 => do
    let g ← vecAt line ((k + 1 : Nat) : Int)
    if IsUTFSequence g.mChar then MoveLeft.lead line k else pure (k + 1)

/-- The step of one round of the loop of `MoveLeft` on the local variables
`line` and `cindex`. -/
def MoveLeft.step (e : Editor) (line cindex : Int) : M (Int × Int) :=
  if cindex = 0 then
    if line > 0 then
      if (e.mLines.length : Int) > line - 1 then do
        let l ← vecAt e.mLines (line - 1)
        pure (line - 1, (l.length : Int))
      else pure (line - 1, 0)
    else pure (line, cindex)
  else if cindex - 1 > 0 then
    if (e.mLines.length : Int) > line then do
      let l ← vecAt e.mLines line
      let k ← MoveLeft.lead l (cindex - 1).toNat
      pure (line, (k : Int))
    else pure (line, cindex - 1)
  else pure (line, cindex - 1)

/-- The loop `while (aAmount-- > 0)` of `MoveLeft`; the first argument is the
number of rounds left. -/
def MoveLeft.loop (aWordMode : Bool) : Nat → Editor → Int → Int → M (Editor × Int × Int)
  | 0, e, line, cindex => pure (e, line, cindex)
  | n + 1, e, line, cindex => do
    let r ← MoveLeft.step e line cindex
    let col ← GetCharacterColumn e r.1 r.2
    let e1 := e.withCursor ⟨r.1, col⟩
    if aWordMode then do
      let w ← FindWordStart e1 e1.mState.mCursorPosition
      let ci ← GetCharacterIndex e1 w
      MoveLeft.loop aWordMode n (e1.withCursor w) r.1 ci
    else MoveLeft.loop aWordMode n e1 r.1 r.2

/-- `MoveLeft(aAmount, aSelect, aWordMode)`. -/
def MoveLeft (e : Editor) (aAmount : Int) (aSelect aWordMode : Bool) : M Editor :=
  if e.mLines.isEmpty then pure e
  else do
    let oldPos := e.mState.mCursorPosition
    let actual ← GetActualCursorCoordinates e
    let e0 := e.withCursor actual
    let cindex ← GetCharacterIndex e0 actual
    let r ← MoveLeft.loop aWordMode aAmount.toNat e0 actual.mLine cindex
    let col ← GetCharacterColumn r.1 r.2.1 r.2.2
    let pos : Coordinates := ⟨r.2.1, col⟩
    let e1 := r.1.withCursor pos
    if ¬ (pos.mColumn ≥ 0) then throw Fault.assertion
    else
      let e2 : Editor :=
        if aSelect then
          if oldPos = e1.mInteractiveStart then e1.withInteractive pos e1.mInteractiveEnd
          else if oldPos = e1.mInteractiveEnd then e1.withInteractive e1.mInteractiveStart pos
          else e1.withInteractive pos oldPos
        else e1.withInteractive pos pos
      SetSelection e2 e2.mInteractiveStart e2.mInteractiveEnd
        (if aSelect ∧ aWordMode then SelectionMode.Word else SelectionMode.Normal)

/-- The loop `while (aAmount-- > 0)` of `MoveRight`; the first argument is the
number of rounds left.  The result is the editor and the flag `true` when the
loop left the function through its `return`. -/
def MoveRight.loop (aWordMode : Bool) : Nat → Editor → Int → M (Editor × Bool)
  | 0, e, _ => pure (e, false)
  | n + 1, e, cindex => do
    let lindex := e.mState.mCursorPosition.mLine
    let line ← vecAt e.mLines lindex
    if cindex < 0 ∨ cindex ≥ (line.length : Int) then
      if lindex < (e.mLines.length : Int) - 1 then
        MoveRight.loop aWordMode n
          (e.withCursor ⟨max 0 (min ((e.mLines.length : Int) - 1) (lindex + 1)), 0⟩) cindex
      else pure (e, true)
    else do
      let g ← vecAt line cindex
      let cindex1 := cindex + (UTF8CharLength g.mChar : Int)
      let col ← GetCharacterColumn e lindex cindex1
      let e1 := e.withCursor ⟨lindex, col⟩
      if aWordMode then do
        let w ← FindNextWord e1 e1.mState.mCursorPosition
        MoveRight.loop aWordMode n (e1.withCursor w) cindex1
      else MoveRight.loop aWordMode n e1 cindex1

/-- `MoveRight(aAmount, aSelect, aWordMode)`. -/
def MoveRight (e : Editor) (aAmount : Int) (aSelect aWordMode : Bool) : M Editor :=
  let oldPos := e.mState.mCursorPosition
  if e.mLines.isEmpty ∨ oldPos.mLine < 0 ∨ oldPos.mLine ≥ (e.mLines.length : Int) then pure e
  else do
    let cindex ← GetCharacterIndex e e.mState.mCursorPosition
    let r ← MoveRight.loop aWordMode aAmount.toNat e cindex
    if r.2 then pure r.1
    else do
      let e1 := r.1
      let pos := e1.mState.mCursorPosition
      let e2 ←
        if aSelect then
          if oldPos = e1.mInteractiveEnd then do
            let p ← SanitizeCoordinates e1 pos
            pure (e1.withInteractive e1.mInteractiveStart p)
          else if oldPos = e1.mInteractiveStart then pure (e1.withInteractive pos e1.mInteractiveEnd)
          else pure (e1.withInteractive oldPos pos)
        else pure (e1.withInteractive pos pos)
      SetSelection e2 e2.mInteractiveStart e2.mInteractiveEnd
        (if aSelect ∧ aWordMode then SelectionMode.Word else SelectionMode.Normal)

/-- `MoveTop(aSelect)`. -/
def MoveTop (e : Editor) (aSelect : Bool) : M Editor :=
  let oldPos := e.mState.mCursorPosition
  let e1 := SetCursorPosition e ⟨0, 0⟩
  let pos := e1.mState.mCursorPosition
  if pos ≠ oldPos then
    let e2 : Editor :=
      if aSelect then e1.withInteractive pos oldPos
      else e1.withInteractive pos pos
    SetSelection e2 e2.mInteractiveStart e2.mInteractiveEnd SelectionMode.Normal
  else pure e1

/-- `MoveBottom(aSelect)`. -/
def MoveBottom (e : Editor) (aSelect : Bool) : M Editor := do
  let oldPos ← GetCursorPosition e
  let newPos : Coordinates := ⟨(e.mLines.length : Int) - 1, 0⟩
  let e1 := SetCursorPosition e newPos
  let e2 : Editor :=
    if aSelect then e1.withInteractive oldPos newPos
    else e1.withInteractive newPos newPos
  SetSelection e2 e2.mInteractiveStart e2.mInteractiveEnd SelectionMode.Normal

/-- `MoveHome(aSelect)`. -/
def MoveHome (e : Editor) (aSelect : Bool) : M Editor :=
  let oldPos := e.mState.mCursorPosition
  let e1 := SetCursorPosition e ⟨e.mState.mCursorPosition.mLine, 0⟩
  let pos := e1.mState.mCursorPosition
  if pos ≠ oldPos then
    let e2 : Editor :=
      if aSelect then
        if oldPos = e1.mInteractiveStart then e1.withInteractive pos e1.mInteractiveEnd
        else if oldPos = e1.mInteractiveEnd then e1.withInteractive e1.mInteractiveStart pos
        else e1.withInteractive pos oldPos
      else e1.withInteractive pos pos
    SetSelection e2 e2.mInteractiveStart e2.mInteractiveEnd SelectionMode.Normal
  else pure e1

/-- `MoveEnd(aSelect)`. -/
def MoveEnd (e : Editor) (aSelect : Bool) : M Editor := do
  let oldPos := e.mState.mCursorPosition
  let n ← GetLineMaxColumn e oldPos.mLine
  let e1 := SetCursorPosition e ⟨e.mState.mCursorPosition.mLine, n⟩
  let pos := e1.mState.mCursorPosition
  if pos ≠ oldPos then
    let e2 : Editor :=
      if aSelect then
        if oldPos = e1.mInteractiveEnd then e1.withInteractive e1.mInteractiveStart pos
        else if oldPos = e1.mInteractiveStart then e1.withInteractive pos e1.mInteractiveEnd
        else e1.withInteractive oldPos pos
      else e1.withInteractive pos pos
    SetSelection e2 e2.mInteractiveStart e2.mInteractiveEnd SelectionMode.Normal
  else pure e1

/-- The selection is collapsed at the sanitized cursor position. -/
def Editor.collapsed (e : Editor) : Prop :=
  ∃ p : Coordinates, SanitizeCoordinates e e.mState.mCursorPosition = Except.ok p ∧
    e.mState.mSelectionStart = p ∧ e.mState.mSelectionEnd = p

/-! ## Whole text and selection of everything -/

/-- The overload `GetText()` without arguments: the text from `(0, 0)` to the
start of the line after the last one. -/
def GetText0 (e : Editor) : M (List Nat) :=
  GetText e ⟨0, 0⟩ ⟨(e.mLines.length : Int), 0⟩

/-- `SelectAll`. -/
def SelectAll (e : Editor) : M Editor :=
  SetSelection e ⟨0, 0⟩ ⟨(e.mLines.length : Int), 0⟩ SelectionMode.Normal

/-! ## Repeated calls of the colorizer -/

/-- Whether the bytes are whole characters, by the lengths that their lead
bytes declare: `skip` counts the trailing bytes of the current character still
to come, and none may be missing at the end.  Holds for every well-formed UTF-8
line. -/
def wholeChars : Nat → Line → Bool
  | s, [] => s == 0
  | 0, g :: rest => wholeChars (UTF8CharLength g.mChar - 1) rest
  | s + 1, _ :: rest => wholeChars s rest

/-- Whether a text is made of whole characters, by the lengths that their lead
bytes declare, without a zero byte and without a carriage return, and with no
line break among the trailing bytes of a character.  Holds for every
well-formed UTF-8 text without `'\r'` and `'\0'`; used as a hypothesis about
texts handed to `InsertTextAt`. -/
def textChars : Nat → List Nat → Bool
  | s, [] => s == 0
  | 0, b :: rest => b ≠ 0 && b ≠ 13 && textChars (UTF8CharLength b - 1) rest
  | s + 1, b :: rest => b ≠ 0 && b ≠ 10 && b ≠ 13 && textChars s rest

/-! ## Documents with one block comment

Proof views for the comment sweep: a document given by the places of its one
`/*` and its one `*/`, and the scan state of the sweep at a place of such a
document. -/

/-- The byte of the glyph at index `i` of line `l`, when there is one. -/
def charAt (lines : List Line) (l i : Nat) : Option Nat :=
  (lines[l]?).bind (fun ln => (ln[i]?).map (fun g => g.mChar))

/-- An ASCII byte other than the double quote, the backslash, `/` and `*`. -/
def plainByte (c : Nat) : Bool :=
  decide (c < 128) && c != 34 && c != 92 && c != 47 && c != 42

/-- The four places of the bytes of `/*` (from index `io` of line `lo`) and of
`*/` (from index `jc` of line `lc`). -/
def markerAt (lo io lc jc l i : Nat) : Bool :=
  (l == lo && (i == io || i == io + 1)) || (l == lc && (i == jc || i == jc + 1))

/-- The places from the `/` of `/*` to the `/` of `*/`, both included. -/
def insideComment (lo io lc jc l i : Nat) : Bool :=
  decide ((lo < l ∨ (lo = l ∧ io ≤ i)) ∧ (l < lc ∨ (l = lc ∧ i ≤ jc + 1)))

/-- A document whose text is some text P, then `/*` (from index `io` of line
`lo`), then some text B, then `*/` (from index `jc` of line `lc`), then some
text S, where every byte of P, B and S is an ASCII byte other than the double
quote, the backslash, `/` and `*`. -/
def blockCommentAt (lines : List Line) (lo io lc jc : Nat) : Bool :=
  charAt lines lo io == some 47 && charAt lines lo (io + 1) == some 42 &&
  charAt lines lc jc == some 42 && charAt lines lc (jc + 1) == some 47 &&
  decide (lo < lc ∨ (lo = lc ∧ io + 2 ≤ jc)) &&
  lines.enum.all (fun x => x.2.enum.all (fun y =>
    markerAt lo io lc jc x.1 y.1 || plainByte y.2.mChar))

/-- The scan state of the sweep before the glyph at index `i` of line `l` of
such a document of `endLine` lines: outside a string and a single-line
comment, with the start of the comment at the `/*` from the byte after its `/`
to the `/` of `*/`, and at the end of the document elsewhere. -/
def ColorizeInternal.Scan.scanAt (s : ColorizeInternal.Scan) (endLine : Int)
    (lo io lc jc l i : Nat) : Prop :=
  s.withinString = false ∧ s.withinSingleLineComment = false ∧
  (if (lo < l ∨ (lo = l ∧ io < i)) ∧ (l < lc ∨ (l = lc ∧ i ≤ jc + 1)) then
    s.commentStartLine = (lo : Int) ∧ s.commentStartIndex = (io : Int)
  else s.commentStartLine = endLine ∧ s.commentStartIndex = 0)

/-! # Theorems -/

/-! ## C1, C2: undo and redo of arbitrary edit sequences -/

/-- C1 (evaluation at the failing input): on the one-line document `"\tb"`
with the cursor right after the tab, `Backspace` appends one transaction and
leaves `"b"`, and the following `Undo(1)` yields the line `"b\t"` instead of
the original `"\tb"`. -/
theorem C1_undo_after_backspace_over_tab :
    (do let S0 ← loadedAt [9, 98] ⟨0, 4⟩
        let S1 ← runOps [EditOp.backspace] S0
        let S2 ← Undo S1 1
        pure (S0.mReadOnly, S0.bytes, S0.mState.mCursorPosition, S0.mUndoIndex,
              S1.bytes, S1.mUndoIndex, S2.bytes))
      = (Except.ok (false, [[9, 98]], ⟨0, 4⟩, 0, [[98]], 1, [[98, 9]]) :
          M (Bool × List (List Nat) × Coordinates × Int × List (List Nat) × Int × List (List Nat))) := by
  rfl

/-- C2 (evaluation at the failing input): on the one-line document `" ab"`
with the cursor at column 2 and auto-indentation on, `EnterCharacter('\n')`
ends in the lines `" a"`, `" b"`; after `Undo(1)` and `Redo(1)` the lines are
`" a"`, `"b"`: the copied indentation is not replayed. -/
theorem C2_redo_after_auto_indent_newline :
    (do let S0 ← loadedAt [32, 97, 98] ⟨0, 2⟩
        let S1 ← runOps [EditOp.enterCharacter 10 false] S0
        let S2 ← Undo S1 1
        let S3 ← Redo S2 1
        pure (S0.mReadOnly, S0.mAutoIndentation, S1.bytes, S1.mUndoIndex, S2.bytes, S3.bytes))
      = (Except.ok (false, true, [[32, 97], [32, 98]], 1, [[32, 97, 98]], [[32, 97], [98]]) :
          M (Bool × Bool × List (List Nat) × Int × List (List Nat) × List (List Nat))) := by
  rfl

/-! ## C6: `SetTextLines` / `GetTextLines` -/

/-- C6: for a document `e` with at least one line, loading `GetTextLines e`
with `SetTextLines` (into any editor) gives the same number of lines and the
same bytes in every line; and for a non-empty list of strings `L`,
`GetTextLines` after `SetTextLines L` is `L`. -/
theorem C6_set_get_text_lines_round_trip (e target : Editor) (L : List (List Nat))
    (hD : e.mLines ≠ []) (hL : L ≠ []) :
    (SetTextLines target (GetTextLines e)).mLines.length = e.mLines.length ∧
    (SetTextLines target (GetTextLines e)).bytes = e.bytes ∧
    GetTextLines (SetTextLines target L) = L := by
  have hmap : ∀ l : List Nat,
      List.map (fun g : Glyph => g.mChar)
        (List.map (fun c => ({ mChar := c, mColorIndex := PaletteIndex.Default } : Glyph)) l) = l := by
    intro l
    induction l with
    | nil => rfl
    | cons a t ih => rw [List.map_cons, List.map_cons, ih]
  have hmaps : ∀ ls : List (List Nat),
      List.map (fun line : Line => List.map (fun g : Glyph => g.mChar) line)
        (List.map (fun aLine : List Nat =>
          List.map (fun c => ({ mChar := c, mColorIndex := PaletteIndex.Default } : Glyph)) aLine) ls)
        = ls := by
    intro ls
    induction ls with
    | nil => rfl
    | cons a t ih =>
      rw [List.map_cons, List.map_cons, ih, hmap]
  have hg : (GetTextLines e).isEmpty = false := by
    cases hl : e.mLines with
    | nil => exact absurd hl hD
    | cons a t => simp [GetTextLines, hl]
  have hLe : L.isEmpty = false := by
    cases L with
    | nil => exact absurd rfl hL
    | cons a t => rfl
  refine ⟨?_, ?_, ?_⟩
  · simp only [SetTextLines, Colorize, hg]
    simp only [Bool.false_eq_true, if_false]
    simp [GetTextLines]
  · simp only [SetTextLines, Colorize, hg, Editor.bytes]
    simp only [Bool.false_eq_true, if_false]
    rw [hmaps]
    rfl
  · simp only [SetTextLines, Colorize, hLe, GetTextLines]
    simp only [Bool.false_eq_true, if_false]
    exact hmaps L

/-- C6 (witness): the two-line document `"foo"`, `"bar"` and the list `["a", ""]`. -/
theorem C6_set_get_text_lines_round_trip_witness :
    (SetTextLines constructed (GetTextLines (mkEditor [[102, 111, 111], [98, 97, 114]] ⟨0, 0⟩))).mLines.length
        = (mkEditor [[102, 111, 111], [98, 97, 114]] ⟨0, 0⟩).mLines.length ∧
    (SetTextLines constructed (GetTextLines (mkEditor [[102, 111, 111], [98, 97, 114]] ⟨0, 0⟩))).bytes
        = (mkEditor [[102, 111, 111], [98, 97, 114]] ⟨0, 0⟩).bytes ∧
    GetTextLines (SetTextLines constructed [[97], []]) = [[97], []] :=
  C6_set_get_text_lines_round_trip (mkEditor [[102, 111, 111], [98, 97, 114]] ⟨0, 0⟩) constructed
    [[97], []] (by decide) (by decide)

/-! ## C8: tab stops -/

/-- C8: for a tab size `T ≥ 1` and a column `c`, the tab-stop step yields
`(c / T) * T + T`, which is a multiple of `T`, strictly greater than `c`, and
not greater than any other multiple of `T` above `c`; and this is the column
with which the scans of `GetLineMaxColumn`, `GetCharacterColumn` and
`GetCharacterIndex` continue after a tab glyph. -/
theorem C8_tab_stop_is_least_multiple_above (T c : Nat) (hT : 1 ≤ T) :
    tabStop T c = Except.ok ((c / T) * T + T) ∧
    T ∣ (c / T) * T + T ∧
    c < (c / T) * T + T ∧
    (∀ m, T ∣ m → c < m → (c / T) * T + T ≤ m) ∧
    (∀ (line : Line) (fuel i : Nat) (g : Glyph), line.get? i = some g → g.mChar = 9 →
      GetLineMaxColumn.loop T line (fuel + 1) i c
        = GetLineMaxColumn.loop T line fuel (i + 1) ((c / T) * T + T) ∧
      (∀ aIndex : Int, (i : Int) < aIndex →
        GetCharacterColumn.loop T line aIndex (fuel + 1) i c
          = GetCharacterColumn.loop T line aIndex fuel (i + 1) ((c / T) * T + T)) ∧
      (∀ column : Int, (c : Int) < column →
        GetCharacterIndex.loop T line column (fuel + 1) i c
          = GetCharacterIndex.loop T line column fuel (i + 1) ((c / T) * T + T))) := by
  have hT0 : T ≠ 0 := by omega
  have hstop : tabStop T c = Except.ok ((c / T) * T + T) := by
    simp [tabStop, hT0, pure, Except.pure]
  have hlt : c < (c / T) * T + T := by
    have h1 := Nat.div_add_mod c T
    have h2 := Nat.mod_lt c (show T > 0 by omega)
    have h3 : T * (c / T) = c / T * T := Nat.mul_comm _ _
    omega
  refine ⟨hstop, ?_, hlt, ?_, ?_⟩
  · exact Dvd.intro_left (c / T + 1) (by ring)
  · rintro m ⟨k, rfl⟩ hk
    have h1 : c / T < k := by
      apply Nat.div_lt_of_lt_mul
      exact hk
    have h2 : (c / T + 1) * T ≤ k * T := Nat.mul_le_mul_right T h1
    have h3 : (c / T + 1) * T = c / T * T + T := by ring
    have h4 : T * k = k * T := Nat.mul_comm _ _
    omega
  · intro line fuel i g hg h9
    rw [List.get?_eq_getElem?] at hg
    have hlen : UTF8CharLength 9 = 1 := by decide
    refine ⟨?_, ?_, ?_⟩
    · simp [GetLineMaxColumn.loop, hg, h9, hstop, hlen, bind, Except.bind]
    · intro aIndex hi
      simp [GetCharacterColumn.loop, hg, h9, hstop, hlen, hi, bind, Except.bind]
    · intro column hc
      simp [GetCharacterIndex.loop, hg, h9, hstop, hlen, hc, bind, Except.bind]

/-- C8 (witness): tab size 4 at column 5 gives column 8. -/
theorem C8_tab_stop_is_least_multiple_above_witness :
    tabStop 4 5 = Except.ok 8 ∧ (∀ m, 4 ∣ m → 5 < m → 8 ≤ m) :=
  ⟨(C8_tab_stop_is_least_multiple_above 4 5 (by decide)).1,
   (C8_tab_stop_is_least_multiple_above 4 5 (by decide)).2.2.2.1⟩

/-! ## The scans of the coordinate mapper

The views are taken with the tab width `max T 1`: it is the tab size `T`
whenever `T` is positive, and with `T = 0` the loops only return when they
never meet a tab (`scanOK`), in which case the width does not matter. -/

theorem UTF8CharLength_pos (c : Nat) : 1 ≤ UTF8CharLength c := by
  unfold UTF8CharLength
  split_ifs <;> omega

theorem scanOK_of_pos {T : Nat} (hT : 0 < T) (L : Line) : ∀ s : Nat, scanOK T s L = true := by
  induction L with
  | nil => intro s; simp [scanOK]
  | cons g rest ih =>
    intro s
    cases s with
    | zero => simp [scanOK, hT, ih]
    | succ s => simp [scanOK, ih]

theorem max_one_of_pos {T : Nat} (hT : 0 < T) : max T 1 = T := by omega

theorem tabStop_ok {T : Nat} (hT : 0 < T) (c : Nat) :
    tabStop T c = Except.ok ((c / T) * T + T) := by
  have : T ≠ 0 := by omega
  simp [tabStop, this, pure, Except.pure]

theorem tabStop_zero (c : Nat) : tabStop 0 c = Except.error Fault.divByZero := rfl

theorem colStep_tab {T : Nat} (hT : 0 < T) (c : Nat) (g : Glyph) (h9 : g.mChar = 9) :
    colStep (max T 1) c g = (c / T) * T + T := by
  simp [colStep, h9, max_one_of_pos hT]

theorem colStep_other (T : Nat) (c : Nat) (g : Glyph) (h9 : ¬ g.mChar = 9) :
    colStep T c g = c + 1 := by
  simp [colStep, h9]

theorem headOK_tab {T : Nat} (g : Glyph) (h9 : g.mChar = 9) :
    (decide (g.mChar ≠ 9) || decide (0 < T)) = decide (0 < T) := by
  simp [h9]

theorem headOK_other {T : Nat} (g : Glyph) (h9 : ¬ g.mChar = 9) :
    (decide (g.mChar ≠ 9) || decide (0 < T)) = true := by
  simp [h9]

theorem scanMax_skip (T : Nat) (s c : Nat) (l : Line) :
    scanMax T s c l = scanMax T 0 c (l.drop s) := by
  induction s generalizing l with
  | zero => simp
  | succ s ih =>
    cases l with
    | nil => simp [scanMax]
    | cons g rest => simp [scanMax, ih]

theorem scanOK_skip (T : Nat) (s : Nat) (l : Line) :
    scanOK T s l = scanOK T 0 (l.drop s) := by
  induction s generalizing l with
  | zero => simp
  | succ s ih =>
    cases l with
    | nil => simp [scanOK]
    | cons g rest => simp [scanOK, ih]

/-- From `scanOK` at a glyph: the glyph can be stepped over and the scan of the
bytes after the character can be made. -/
theorem scanOK_cons {T : Nat} (g : Glyph) (rest : Line)
    (h : scanOK T 0 (g :: rest) = true) :
    (g.mChar = 9 → 0 < T) ∧ scanOK T 0 (rest.drop (UTF8CharLength g.mChar - 1)) = true := by
  rw [scanOK, scanOK_skip] at h
  by_cases h9 : g.mChar = 9
  · rw [headOK_tab g h9] at h
    have : decide (0 < T) = true ∧
        scanOK T 0 (List.drop (UTF8CharLength g.mChar - 1) rest) = true := by
      simpa using h
    exact ⟨fun _ => by simpa using this.1, this.2⟩
  · rw [headOK_other g h9] at h
    exact ⟨fun h' => absurd h' h9, by simpa using h⟩

theorem scanCount_skip (s : Nat) (l : Line) :
    scanCount s l = scanCount 0 (l.drop s) := by
  induction s generalizing l with
  | zero => simp
  | succ s ih =>
    cases l with
    | nil => simp [scanCount]
    | cons g rest => simp [scanCount, ih]

theorem scanIndex_skip (T : Nat) (column : Int) (s c : Nat) (l : Line) :
    scanIndex T column s c l = s + scanIndex T column 0 c (l.drop s) := by
  induction s generalizing l with
  | zero => simp
  | succ s ih =>
    cases l with
    | nil => simp [scanIndex]
    | cons g rest => simp [scanIndex, ih]; omega

theorem scanColumn_skip (T : Nat) (aIndex : Int) (s c : Nat) (l : Line) :
    scanColumn T aIndex s c l = scanColumn T (aIndex - s) 0 c (l.drop s) := by
  induction s generalizing l aIndex with
  | zero => simp
  | succ s ih =>
    cases l with
    | nil => simp [scanColumn]
    | cons g rest =>
      simp only [scanColumn, List.drop_succ_cons, ih]
      congr 1
      push_cast
      ring

theorem drop_eq_cons_of_get {α : Type} (l : List α) (i : Nat) (g : α)
    (h : l.get? i = some g) : l.drop i = g :: l.drop (i + 1) := by
  rw [List.get?_eq_getElem?] at h
  have hi : i < l.length := by
    by_contra hc
    rw [List.getElem?_eq_none (by omega)] at h
    cases h
  rw [List.getElem?_eq_getElem hi] at h
  cases h
  exact List.drop_eq_getElem_cons hi

theorem drop_eq_nil_of_get {α : Type} (l : List α) (i : Nat)
    (h : l.get? i = none) : l.drop i = [] := by
  rw [List.get?_eq_getElem?] at h
  rw [List.drop_eq_nil_iff]
  exact List.getElem?_eq_none_iff.mp h

/-- With enough fuel the loop of `GetLineMaxColumn` returns the end column of
the bytes from index `i` on, or divides by zero when the scan meets a tab with
tab size 0. -/
theorem GetLineMaxColumn_loop_eq (T : Nat) (line : Line) :
    ∀ (fuel i c : Nat), line.length ≤ i + fuel →
      GetLineMaxColumn.loop T line fuel i c =
        if scanOK T 0 (line.drop i) then Except.ok (scanMax (max T 1) 0 c (line.drop i))
        else Except.error Fault.divByZero := by
  intro fuel
  induction fuel with
  | zero =>
    intro i c h
    have : line.drop i = [] := List.drop_eq_nil_iff.mpr (by omega)
    simp [GetLineMaxColumn.loop, this, scanMax, scanOK, pure, Except.pure]
  | succ fuel ih =>
    intro i c h
    unfold GetLineMaxColumn.loop
    cases hg : line.get? i with
    | none =>
      simp [drop_eq_nil_of_get line i hg, scanMax, scanOK, pure, Except.pure]
    | some g =>
      have hl := UTF8CharLength_pos g.mChar
      have hd := drop_eq_cons_of_get line i g hg
      have e1 : i + 1 + (UTF8CharLength g.mChar - 1) = i + UTF8CharLength g.mChar := by omega
      rw [hd, scanMax, scanOK, scanMax_skip, scanOK_skip, List.drop_drop, e1]
      simp only []
      by_cases h9 : g.mChar = 9
      · rw [headOK_tab g h9]
        by_cases hT : 0 < T
        · rw [if_pos h9]
          simp only [tabStop_ok hT, bind, Except.bind, hT, decide_True, Bool.true_and]
          rw [ih _ _ (by omega), colStep_tab hT c g h9]
        · have hT0 : T = 0 := by omega
          subst hT0
          rw [if_pos h9]
          simp [tabStop_zero, bind, Except.bind]
      · rw [headOK_other g h9, if_neg h9]
        simp only [bind, Except.bind, pure, Except.pure, Bool.true_and]
        rw [ih _ _ (by omega), colStep_other _ c g h9]

/-- With enough fuel the loop of `GetCharacterIndex` returns `i` plus the
number of bytes stepped over from index `i` on, when the whole scan of these
bytes can be made. -/
theorem GetCharacterIndex_loop_eq (T : Nat) (line : Line) (column : Int) :
    ∀ (fuel i c : Nat), line.length ≤ i + fuel → scanOK T 0 (line.drop i) = true →
      GetCharacterIndex.loop T line column fuel i c
        = Except.ok (i + scanIndex (max T 1) column 0 c (line.drop i)) := by
  intro fuel
  induction fuel with
  | zero =>
    intro i c h _
    have : line.drop i = [] := List.drop_eq_nil_iff.mpr (by omega)
    simp [GetCharacterIndex.loop, this, scanIndex, pure, Except.pure]
  | succ fuel ih =>
    intro i c h hok
    unfold GetCharacterIndex.loop
    cases hg : line.get? i with
    | none =>
      simp [drop_eq_nil_of_get line i hg, scanIndex, pure, Except.pure]
    | some g =>
      have hl := UTF8CharLength_pos g.mChar
      have hd := drop_eq_cons_of_get line i g hg
      have e1 : i + 1 + (UTF8CharLength g.mChar - 1) = i + UTF8CharLength g.mChar := by omega
      rw [hd] at hok
      obtain ⟨hok1, hok2⟩ := scanOK_cons g _ hok
      rw [List.drop_drop, e1] at hok2
      rw [hd, scanIndex]
      by_cases hc : (c : Int) < column
      · rw [scanIndex_skip, List.drop_drop, e1]
        simp only [hc, if_true]
        by_cases h9 : g.mChar = 9
        · have hT := hok1 h9
          rw [if_pos h9]
          simp only [tabStop_ok hT, bind, Except.bind]
          rw [ih _ _ (by omega) hok2, colStep_tab hT c g h9]
          congr 1
          omega
        · rw [if_neg h9]
          simp only [bind, Except.bind, pure, Except.pure]
          rw [ih _ _ (by omega) hok2, colStep_other _ c g h9]
          congr 1
          omega
      · simp [hc, pure, Except.pure]

/-- With enough fuel the loop of `GetCharacterColumn` returns the column
reached `aIndex - i` bytes after index `i`, when the whole scan of the bytes
from `i` on can be made. -/
theorem GetCharacterColumn_loop_eq (T : Nat) (line : Line) (aIndex : Int) :
    ∀ (fuel i c : Nat), line.length ≤ i + fuel → scanOK T 0 (line.drop i) = true →
      GetCharacterColumn.loop T line aIndex fuel i c
        = Except.ok (scanColumn (max T 1) (aIndex - i) 0 c (line.drop i)) := by
  intro fuel
  induction fuel with
  | zero =>
    intro i c h _
    have : line.drop i = [] := List.drop_eq_nil_iff.mpr (by omega)
    simp [GetCharacterColumn.loop, this, scanColumn, pure, Except.pure]
  | succ fuel ih =>
    intro i c h hok
    unfold GetCharacterColumn.loop
    by_cases hc : (i : Int) < aIndex
    · simp only [hc, if_true]
      cases hg : line.get? i with
      | none =>
        simp [drop_eq_nil_of_get line i hg, scanColumn, pure, Except.pure]
      | some g =>
        have hl := UTF8CharLength_pos g.mChar
        have hd := drop_eq_cons_of_get line i g hg
        have hpos : (0 : Int) < aIndex - i := by omega
        have e1 : i + 1 + (UTF8CharLength g.mChar - 1) = i + UTF8CharLength g.mChar := by omega
        rw [hd] at hok
        obtain ⟨hok1, hok2⟩ := scanOK_cons g _ hok
        rw [List.drop_drop, e1] at hok2
        rw [hd, scanColumn]
        simp only [hpos, if_true]
        rw [scanColumn_skip, List.drop_drop]
        have e2 : aIndex - (i : Int) - 1 - ((UTF8CharLength g.mChar - 1 : Nat) : Int)
            = aIndex - ((i + UTF8CharLength g.mChar : Nat) : Int) := by
          push_cast
          omega
        rw [e1, e2]
        by_cases h9 : g.mChar = 9
        · have hT := hok1 h9
          rw [if_pos h9]
          simp only [tabStop_ok hT, bind, Except.bind]
          rw [ih _ _ (by omega) hok2, colStep_tab hT c g h9]
        · rw [if_neg h9]
          simp only [bind, Except.bind, pure, Except.pure]
          rw [ih _ _ (by omega) hok2, colStep_other _ c g h9]
    · simp only [hc, if_false]
      cases hd : line.drop i with
      | nil => simp [scanColumn, pure, Except.pure]
      | cons g rest =>
        have : ¬ ((0 : Int) < aIndex - i) := by omega
        simp [scanColumn, this, pure, Except.pure]

/-- With enough fuel the loop of `GetLineCharacterCount` adds the number of
characters that start from index `i` on. -/
theorem GetLineCharacterCount_loop_eq (line : Line) :
    ∀ (fuel i c : Nat), line.length ≤ i + fuel →
      GetLineCharacterCount.loop line fuel i c = c + scanCount 0 (line.drop i) := by
  intro fuel
  induction fuel with
  | zero =>
    intro i c h
    have : line.drop i = [] := List.drop_eq_nil_iff.mpr (by omega)
    simp [GetLineCharacterCount.loop, this, scanCount]
  | succ fuel ih =>
    intro i c h
    unfold GetLineCharacterCount.loop
    cases hg : line.get? i with
    | none =>
      simp [drop_eq_nil_of_get line i hg, scanCount]
    | some g =>
      have hl := UTF8CharLength_pos g.mChar
      have hd := drop_eq_cons_of_get line i g hg
      rw [hd, scanCount, scanCount_skip, List.drop_drop]
      have e1 : i + 1 + (UTF8CharLength g.mChar - 1) = i + UTF8CharLength g.mChar := by omega
      rw [e1]
      simp only []
      rw [ih _ _ (by omega)]
      omega

theorem vecAt_natCast {α : Type} (v : List α) (n : Nat) (x : α) (h : v[n]? = some x) :
    vecAt v (n : Int) = Except.ok x := by
  simp [vecAt, h, pure, Except.pure]

theorem getElem?_lt_length {α : Type} {v : List α} {n : Nat} {x : α} (h : v[n]? = some x) :
    n < v.length := by
  by_contra hc
  rw [List.getElem?_eq_none (by omega)] at h
  cases h

/-- `GetLineMaxColumn` on an existing line: the end column, or a division by
zero when the scan meets a tab with tab size 0. -/
theorem GetLineMaxColumn_cases (e : Editor) (l : Nat) (line : Line)
    (h : e.mLines[l]? = some line) :
    GetLineMaxColumn e (l : Int) =
      if scanOK e.mTabSize 0 line then
        Except.ok ((scanMax (max e.mTabSize 1) 0 0 line : Nat) : Int)
      else Except.error Fault.divByZero := by
  have hl := getElem?_lt_length h
  have h1 : ¬ ((l : Int) < 0 ∨ (l : Int) ≥ (e.mLines.length : Int)) := by omega
  simp only [GetLineMaxColumn, h1, if_false, vecAt_natCast _ _ _ h, bind, Except.bind]
  rw [GetLineMaxColumn_loop_eq e.mTabSize line _ _ _ (by omega)]
  simp only [List.drop_zero]
  split_ifs <;> simp [pure, Except.pure]

/-- `GetLineMaxColumn` on an existing line whose scan can be made. -/
theorem GetLineMaxColumn_eq (e : Editor) (l : Nat) (line : Line)
    (h : e.mLines[l]? = some line) (hok : scanOK e.mTabSize 0 line = true) :
    GetLineMaxColumn e (l : Int)
      = Except.ok ((scanMax (max e.mTabSize 1) 0 0 line : Nat) : Int) := by
  rw [GetLineMaxColumn_cases e l line h, hok]
  rfl

/-- When `GetLineMaxColumn` returns, the scan of the line can be made. -/
theorem scanOK_of_GetLineMaxColumn (e : Editor) (l : Nat) (line : Line)
    (h : e.mLines[l]? = some line) (m : Int) (hm : GetLineMaxColumn e (l : Int) = Except.ok m) :
    scanOK e.mTabSize 0 line = true := by
  rw [GetLineMaxColumn_cases e l line h] at hm
  cases hok : scanOK e.mTabSize 0 line with
  | true => rfl
  | false => rw [hok] at hm; simp at hm

/-- `GetCharacterIndex` on an existing line whose scan can be made. -/
theorem GetCharacterIndex_eq (e : Editor) (l : Nat) (line : Line)
    (h : e.mLines[l]? = some line) (hok : scanOK e.mTabSize 0 line = true) (column : Int) :
    GetCharacterIndex e ⟨(l : Int), column⟩
      = Except.ok ((scanIndex (max e.mTabSize 1) column 0 0 line : Nat) : Int) := by
  have hl := getElem?_lt_length h
  have h1 : ¬ ((l : Int) < 0 ∨ (l : Int) ≥ (e.mLines.length : Int)) := by omega
  simp only [GetCharacterIndex, h1, if_false, vecAt_natCast _ _ _ h, bind, Except.bind]
  rw [GetCharacterIndex_loop_eq e.mTabSize line _ _ _ _ (by omega) (by simpa using hok)]
  simp [pure, Except.pure]

/-- `GetCharacterColumn` on an existing line whose scan can be made. -/
theorem GetCharacterColumn_eq (e : Editor) (l : Nat) (line : Line)
    (h : e.mLines[l]? = some line) (hok : scanOK e.mTabSize 0 line = true) (aIndex : Int) :
    GetCharacterColumn e (l : Int) aIndex
      = Except.ok ((scanColumn (max e.mTabSize 1) aIndex 0 0 line : Nat) : Int) := by
  have hl := getElem?_lt_length h
  have h1 : ¬ ((l : Int) < 0 ∨ (l : Int) ≥ (e.mLines.length : Int)) := by omega
  simp only [GetCharacterColumn, h1, if_false, vecAt_natCast _ _ _ h, bind, Except.bind]
  rw [GetCharacterColumn_loop_eq e.mTabSize line _ _ _ _ (by omega) (by simpa using hok)]
  simp [pure, Except.pure]

/-- `GetCharacterColumn` of byte index 0 is column 0 on every line. -/
theorem GetCharacterColumn_zero (e : Editor) (l : Int) :
    GetCharacterColumn e l 0 = Except.ok 0 := by
  unfold GetCharacterColumn
  split_ifs with h
  · rfl
  · cases hv : vecAt e.mLines l with
    | error f =>
      exfalso
      have h1 : 0 ≤ l := by omega
      have h2 : l.toNat < e.mLines.length := by omega
      simp [vecAt, h1, List.getElem?_eq_getElem h2, pure, Except.pure] at hv
    | ok line =>
      simp only [bind, Except.bind]
      cases hn : line.length with
      | zero => simp [GetCharacterColumn.loop, pure, Except.pure]
      | succ n => simp [GetCharacterColumn.loop, pure, Except.pure]

theorem colStep_gt {T : Nat} (hT : 0 < T) (c : Nat) (g : Glyph) : c < colStep T c g := by
  unfold colStep
  split_ifs
  · have h1 := Nat.div_add_mod c T
    have h2 := Nat.mod_lt c hT
    have h3 : T * (c / T) = c / T * T := Nat.mul_comm _ _
    omega
  · omega

theorem scanMax_ge {T : Nat} (hT : 0 < T) (l : Line) : ∀ (s c : Nat), c ≤ scanMax T s c l := by
  induction l with
  | nil => intro s c; simp [scanMax]
  | cons g rest ih =>
    intro s c
    cases s with
    | zero =>
      simp only [scanMax]
      exact le_trans (le_of_lt (colStep_gt hT c g)) (ih _ _)
    | succ s => simp only [scanMax]; exact ih _ _

theorem scanColumn_ge {T : Nat} (hT : 0 < T) (l : Line) :
    ∀ (a : Int) (s c : Nat), c ≤ scanColumn T a s c l := by
  induction l with
  | nil => intro a s c; simp [scanColumn]
  | cons g rest ih =>
    intro a s c
    cases s with
    | zero =>
      simp only [scanColumn]
      split_ifs
      · exact le_trans (le_of_lt (colStep_gt hT c g)) (ih _ _ _)
      · exact le_refl _
    | succ s => simp only [scanColumn]; exact ih _ _ _

theorem UTF8CharLength_ascii : ∀ c, c < 128 → UTF8CharLength c = 1 := by
  decide

/-- On a line of ASCII bytes the byte index found for the column of byte index
`i` is `i` again. -/
theorem scanIndex_scanColumn_ascii {T : Nat} (hT : 0 < T) (line : Line)
    (hascii : ∀ g ∈ line, g.mChar < 128) :
    ∀ (i c : Nat), i ≤ line.length →
      scanIndex T ((scanColumn T (i : Int) 0 c line : Nat) : Int) 0 c line = i := by
  induction line with
  | nil =>
    intro i c hi
    simp at hi
    simp [scanIndex, hi]
  | cons g rest ih =>
    intro i c hi
    have hg : UTF8CharLength g.mChar = 1 := UTF8CharLength_ascii _ (hascii g (by simp))
    have hrest : ∀ g ∈ rest, g.mChar < 128 := fun g' hg' => hascii g' (by simp [hg'])
    cases i with
    | zero => simp [scanColumn, scanIndex]
    | succ i =>
      have hpos : (0 : Int) < ((i + 1 : Nat) : Int) := by omega
      have hsub : ((i + 1 : Nat) : Int) - 1 = (i : Int) := by omega
      simp only [scanColumn, hpos, if_true, hg, hsub, Nat.sub_self]
      have hge := scanColumn_ge hT rest (i : Int) 0 (colStep T c g)
      have hgt := colStep_gt hT c g
      have hlt : (c : Int) < ((scanColumn T (i : Int) 0 (colStep T c g) rest : Nat) : Int) := by
        omega
      simp only [scanIndex, hlt, if_true, hg, Nat.sub_self]
      rw [ih hrest i (colStep T c g) (by simpa using hi)]
      omega

/-! ## C7: coordinate round trip on ASCII lines -/

/-- C7: for a tab size `T ≥ 1`, a line `l` of the document made only of ASCII
bytes (tabs included) and a byte index `i` up to the length of the line with
visual column `col = GetCharacterColumn(l, i)`: `GetCharacterIndex` of
`(l, col)` returns a byte index `j` (in fact `i`) whose `GetCharacterColumn`
is `col` again. -/
theorem C7_column_index_round_trip_ascii (e : Editor) (l : Nat) (line : Line) (i : Nat)
    (col : Int) (hT : 1 ≤ e.mTabSize) (hline : e.mLines[l]? = some line)
    (hascii : ∀ g ∈ line, g.mChar < 128) (hi : i ≤ line.length)
    (hcol : GetCharacterColumn e (l : Int) (i : Int) = Except.ok col) :
    ∃ j : Int, GetCharacterIndex e ⟨(l : Int), col⟩ = Except.ok j ∧ j = (i : Int) ∧
      GetCharacterColumn e (l : Int) j = Except.ok col := by
  have hT0 : 0 < max e.mTabSize 1 := by omega
  have hok : scanOK e.mTabSize 0 line = true := scanOK_of_pos hT line 0
  rw [GetCharacterColumn_eq e l line hline hok] at hcol
  have hc : col = ((scanColumn (max e.mTabSize 1) (i : Int) 0 0 line : Nat) : Int) := by
    cases hcol
    rfl
  refine ⟨(i : Int), ?_, rfl, ?_⟩
  · rw [GetCharacterIndex_eq e l line hline hok, hc,
      scanIndex_scanColumn_ascii hT0 line hascii i 0 hi]
  · rw [GetCharacterColumn_eq e l line hline hok, hc]

/-- C7 (witness): the line `"a\tb"` with tab size 4 and byte index 2 (column 4). -/
theorem C7_column_index_round_trip_ascii_witness :
    ∃ j : Int, GetCharacterIndex (mkEditor [[97, 9, 98]] ⟨0, 0⟩) ⟨((0 : Nat) : Int), 4⟩ = Except.ok j ∧
      j = ((2 : Nat) : Int) ∧
      GetCharacterColumn (mkEditor [[97, 9, 98]] ⟨0, 0⟩) ((0 : Nat) : Int) j = Except.ok 4 :=
  C7_column_index_round_trip_ascii (mkEditor [[97, 9, 98]] ⟨0, 0⟩) 0 (mkLine [97, 9, 98]) 2 4
    (by decide) (by rfl) (by decide) (by decide) (by rfl)

/-! ## Inserting one single-byte glyph at a scan position -/

/-- Facts about a line after a single-byte glyph `x` went in at the byte index
`k` that the index scan finds for `column`: the index of `column` is still `k`,
the column `c'` just after `x` lies above `column` and within the line, its
index is `k + 1`, and `c'` is the end column only when `x` is the last glyph. -/
theorem scan_insert_facts {T : Nat} (hT : 0 < T) (column : Int) (x : Glyph)
    (hx : UTF8CharLength x.mChar = 1) (L : Line) :
    ∀ (s c : Nat), scanIndex T column s c L ≤ L.length →
      column ≤ (scanMax T s c L : Int) →
      scanIndex T column s c
          (L.take (scanIndex T column s c L) ++ x :: L.drop (scanIndex T column s c L))
        = scanIndex T column s c L ∧
      column < (scanColumn T ((scanIndex T column s c L : Nat) + 1 : Int) s c
          (L.take (scanIndex T column s c L) ++ x :: L.drop (scanIndex T column s c L)) : Int) ∧
      scanColumn T ((scanIndex T column s c L : Nat) + 1 : Int) s c
          (L.take (scanIndex T column s c L) ++ x :: L.drop (scanIndex T column s c L))
        ≤ scanMax T s c
          (L.take (scanIndex T column s c L) ++ x :: L.drop (scanIndex T column s c L)) ∧
      scanIndex T
          (scanColumn T ((scanIndex T column s c L : Nat) + 1 : Int) s c
            (L.take (scanIndex T column s c L) ++ x :: L.drop (scanIndex T column s c L)) : Int)
          s c (L.take (scanIndex T column s c L) ++ x :: L.drop (scanIndex T column s c L))
        = scanIndex T column s c L + 1 ∧
      (scanMax T s c
          (L.take (scanIndex T column s c L) ++ x :: L.drop (scanIndex T column s c L))
        ≤ scanColumn T ((scanIndex T column s c L : Nat) + 1 : Int) s c
          (L.take (scanIndex T column s c L) ++ x :: L.drop (scanIndex T column s c L)) →
        L.drop (scanIndex T column s c L) = []) := by
  induction L with
  | nil =>
    intro s c hk hcol
    have hs : s = 0 := by simpa [scanIndex] using hk
    subst hs
    have hgt := colStep_gt hT c x
    simp only [scanMax] at hcol
    have hnlt : ¬ ((c : Int) < column) := by omega
    have hlt2 : (c : Int) < ((colStep T c x : Nat) : Int) := by omega
    simp [scanIndex, scanColumn, scanMax, hx, hnlt, hlt2]
    omega
  | cons g rest ih =>
    intro s c hk hcol
    cases s with
    | zero =>
      by_cases hc : (c : Int) < column
      · have hk1 : scanIndex T column 0 c (g :: rest)
            = 1 + scanIndex T column (UTF8CharLength g.mChar - 1) (colStep T c g) rest := by
          simp [scanIndex, hc]
        rw [hk1] at hk ⊢
        have hk' : scanIndex T column (UTF8CharLength g.mChar - 1) (colStep T c g) rest
            ≤ rest.length := by
          simp only [List.length_cons] at hk
          omega
        simp only [scanMax] at hcol
        obtain ⟨h1, h2, h3, h4, h5⟩ := ih _ _ hk' hcol
        have e1 : ((1 + scanIndex T column (UTF8CharLength g.mChar - 1) (colStep T c g) rest : Nat) : Int)
            + 1 - 1
            = ((scanIndex T column (UTF8CharLength g.mChar - 1) (colStep T c g) rest : Nat) : Int) + 1 := by
          push_cast
          omega
        have hpos : (0 : Int) < ((1 + scanIndex T column (UTF8CharLength g.mChar - 1)
            (colStep T c g) rest : Nat) : Int) + 1 := by omega
        have hadd : 1 + scanIndex T column (UTF8CharLength g.mChar - 1) (colStep T c g) rest
            = scanIndex T column (UTF8CharLength g.mChar - 1) (colStep T c g) rest + 1 := by omega
        rw [hadd]
        simp only [List.take_succ_cons, List.drop_succ_cons, List.cons_append]
        have e2 : ((scanIndex T column (UTF8CharLength g.mChar - 1) (colStep T c g) rest + 1 : Nat)
            : Int) + 1 - 1
            = ((scanIndex T column (UTF8CharLength g.mChar - 1) (colStep T c g) rest : Nat) : Int)
              + 1 := by
          push_cast
          omega
        have hpos2 : (0 : Int) < ((scanIndex T column (UTF8CharLength g.mChar - 1)
            (colStep T c g) rest + 1 : Nat) : Int) + 1 := by omega
        simp only [scanColumn, hpos2, if_true, e2, scanMax]
        have hlt3 : (c : Int) < ((scanColumn T
            (((scanIndex T column (UTF8CharLength g.mChar - 1) (colStep T c g) rest : Nat) : Int) + 1)
            (UTF8CharLength g.mChar - 1) (colStep T c g)
            (List.take (scanIndex T column (UTF8CharLength g.mChar - 1) (colStep T c g) rest) rest ++
              x :: List.drop (scanIndex T column (UTF8CharLength g.mChar - 1) (colStep T c g) rest)
                rest) : Nat) : Int) := by
          omega
        simp only [scanIndex, hc, hlt3, if_true]
        refine ⟨by omega, h2, h3, by omega, h5⟩
      · have hk0 : scanIndex T column 0 c (g :: rest) = 0 := by simp [scanIndex, hc]
        rw [hk0]
        have hgt := colStep_gt hT c x
        have hge := scanMax_ge hT (g :: rest) 0 (colStep T c x)
        have hlt2 : (c : Int) < ((colStep T c x : Nat) : Int) := by omega
        have hgt2 : colStep T c x < scanMax T 0 (colStep T c x) (g :: rest) := by
          simp only [scanMax]
          exact lt_of_lt_of_le (colStep_gt hT _ g) (scanMax_ge hT rest _ _)
        simp [scanIndex, scanColumn, scanMax, hx, hc, hlt2]
        refine ⟨by omega, ?_, ?_⟩
        · simp only [scanMax] at hgt2
          omega
        · simp only [scanMax] at hgt2
          omega
    | succ s =>
      have hk1 : scanIndex T column (s + 1) c (g :: rest) = 1 + scanIndex T column s c rest := by
        simp [scanIndex]
      rw [hk1] at hk ⊢
      have hk' : scanIndex T column s c rest ≤ rest.length := by
        simp only [List.length_cons] at hk
        omega
      simp only [scanMax] at hcol
      obtain ⟨h1, h2, h3, h4, h5⟩ := ih _ _ hk' hcol
      have hadd : 1 + scanIndex T column s c rest = scanIndex T column s c rest + 1 := by omega
      rw [hadd]
      simp only [List.take_succ_cons, List.drop_succ_cons, List.cons_append]
      have e2 : ((scanIndex T column s c rest + 1 : Nat) : Int) + 1 - 1
          = ((scanIndex T column s c rest : Nat) : Int) + 1 := by
        push_cast
        omega
      simp only [scanColumn, e2, scanMax, scanIndex]
      refine ⟨by omega, h2, h3, by omega, h5⟩

/-- Inserting a single-byte glyph that is not a tab at the byte index that the
index scan finds keeps the scan of the line feasible. -/
theorem scanOK_insert {T W : Nat} (column : Int) (x : Glyph)
    (hx : UTF8CharLength x.mChar = 1) (hx9 : x.mChar ≠ 9) (L : Line) :
    ∀ (s c : Nat), scanIndex W column s c L ≤ L.length → scanOK T s L = true →
      scanOK T s (L.take (scanIndex W column s c L) ++ x :: L.drop (scanIndex W column s c L))
        = true := by
  induction L with
  | nil =>
    intro s c hk _
    have hs : s = 0 := by simpa [scanIndex] using hk
    subst hs
    simp [scanIndex, scanOK, hx9]
  | cons g rest ih =>
    intro s c hk hok
    cases s with
    | zero =>
      by_cases hc : (c : Int) < column
      · have hk1 : scanIndex W column 0 c (g :: rest)
            = scanIndex W column (UTF8CharLength g.mChar - 1) (colStep W c g) rest + 1 := by
          simp [scanIndex, hc]
          omega
        rw [hk1] at hk ⊢
        have hk' : scanIndex W column (UTF8CharLength g.mChar - 1) (colStep W c g) rest
            ≤ rest.length := by
          simp only [List.length_cons] at hk
          omega
        simp only [scanOK, Bool.and_eq_true] at hok
        simp only [List.take_succ_cons, List.drop_succ_cons, List.cons_append, scanOK,
          Bool.and_eq_true]
        exact ⟨hok.1, ih _ _ hk' hok.2⟩
      · have hk0 : scanIndex W column 0 c (g :: rest) = 0 := by simp [scanIndex, hc]
        rw [hk0]
        simp only [List.take_zero, List.nil_append, List.drop_zero, scanOK, hx, Nat.sub_self,
          Bool.and_eq_true]
        exact ⟨by simp [hx9], by simpa [scanOK] using hok⟩
    | succ s =>
      have hk1 : scanIndex W column (s + 1) c (g :: rest) = scanIndex W column s c rest + 1 := by
        simp [scanIndex]
        omega
      rw [hk1] at hk ⊢
      have hk' : scanIndex W column s c rest ≤ rest.length := by
        simp only [List.length_cons] at hk
        omega
      simp only [scanOK] at hok
      simp only [List.take_succ_cons, List.drop_succ_cons, List.cons_append, scanOK]
      exact ih _ _ hk' hok

/-- At the end column of a line the index scan has stepped over every byte. -/
theorem scanIndex_scanMax_ge {T : Nat} (hT : 0 < T) (L : Line) :
    ∀ (s c : Nat), L.length ≤ scanIndex T ((scanMax T s c L : Nat) : Int) s c L := by
  induction L with
  | nil => intro s c; simp [scanIndex]
  | cons g rest ih =>
    intro s c
    cases s with
    | zero =>
      have h1 := colStep_gt hT c g
      have h2 := scanMax_ge hT rest (UTF8CharLength g.mChar - 1) (colStep T c g)
      have hlt : (c : Int) < ((scanMax T (UTF8CharLength g.mChar - 1) (colStep T c g) rest : Nat) : Int) := by
        omega
      simp only [scanMax, scanIndex, hlt, if_true, List.length_cons]
      have := ih (UTF8CharLength g.mChar - 1) (colStep T c g)
      omega
    | succ s =>
      simp only [scanMax, scanIndex, List.length_cons]
      have := ih s c
      omega

/-- The loop of `GetCharacterIndex` on a line that starts with `A`, for a column
whose byte index in `A` is `|A|`: the loop stops at `|A|` and visits only
glyphs of `A`. -/
theorem GetCharacterIndex_loop_of_append (T : Nat) (A B : Line) (column : Int) :
    ∀ (fuel i c : Nat), i ≤ A.length → (A ++ B).length ≤ i + fuel →
      scanOK T 0 (A.drop i) = true →
      i + scanIndex (max T 1) column 0 c (A.drop i) = A.length →
      column ≤ ((scanMax (max T 1) 0 c (A.drop i) : Nat) : Int) →
      GetCharacterIndex.loop T (A ++ B) column fuel i c = Except.ok A.length := by
  intro fuel
  induction fuel with
  | zero =>
    intro i c hi hf _ _ _
    have : i = A.length := by
      simp only [List.length_append] at hf
      omega
    simp [GetCharacterIndex.loop, this, pure, Except.pure]
  | succ fuel ih =>
    intro i c hi hf hok hidx hcol
    unfold GetCharacterIndex.loop
    by_cases hlt : i < A.length
    · have hgA : A[i]? = some A[i] := List.getElem?_eq_getElem hlt
      have hg : (A ++ B).get? i = some A[i] := by
        rw [List.get?_eq_getElem?, List.getElem?_append_left hlt, hgA]
      have hd : A.drop i = A[i] :: A.drop (i + 1) := List.drop_eq_getElem_cons hlt
      have hl := UTF8CharLength_pos A[i].mChar
      have e1 : i + 1 + (UTF8CharLength A[i].mChar - 1) = i + UTF8CharLength A[i].mChar := by
        omega
      rw [hd] at hok hidx hcol
      obtain ⟨hok1, hok2⟩ := scanOK_cons _ _ hok
      rw [List.drop_drop, e1] at hok2
      rw [scanMax, scanMax_skip, List.drop_drop, e1] at hcol
      rw [scanIndex] at hidx
      rw [hg]
      simp only []
      by_cases hc : (c : Int) < column
      · simp only [hc, if_true] at hidx ⊢
        rw [scanIndex_skip, List.drop_drop, e1] at hidx
        by_cases h9 : A[i].mChar = 9
        · have hT := hok1 h9
          rw [if_pos h9]
          simp only [tabStop_ok hT, bind, Except.bind]
          rw [← colStep_tab hT c _ h9]
          exact ih _ _ (by omega) (by omega) hok2 (by omega) hcol
        · rw [if_neg h9]
          simp only [bind, Except.bind, pure, Except.pure]
          rw [← colStep_other (max T 1) c _ h9]
          exact ih _ _ (by omega) (by omega) hok2 (by omega) hcol
      · simp only [hc, if_false] at hidx
        omega
    · have hiA : i = A.length := by omega
      subst hiA
      simp only [List.drop_length, scanMax] at hcol
      have hc : ¬ ((c : Int) < column) := by omega
      cases hg : (A ++ B).get? A.length with
      | none => simp [pure, Except.pure]
      | some g => simp [hc, pure, Except.pure]

/-- `GetCharacterIndex` on a line that starts with `A`, at a column not beyond
the end column of `A` whose byte index in `A` is `|A|`. -/
theorem GetCharacterIndex_eq_of_append (e : Editor) (l : Nat) (A B : Line)
    (h : e.mLines[l]? = some (A ++ B)) (hok : scanOK e.mTabSize 0 A = true) (column : Int)
    (hidx : scanIndex (max e.mTabSize 1) column 0 0 A = A.length)
    (hcol : column ≤ ((scanMax (max e.mTabSize 1) 0 0 A : Nat) : Int)) :
    GetCharacterIndex e ⟨(l : Int), column⟩ = Except.ok ((A.length : Nat) : Int) := by
  have hl := getElem?_lt_length h
  have h1 : ¬ ((l : Int) < 0 ∨ (l : Int) ≥ (e.mLines.length : Int)) := by omega
  simp only [GetCharacterIndex, h1, if_false, vecAt_natCast _ _ _ h, bind, Except.bind]
  rw [GetCharacterIndex_loop_of_append e.mTabSize A B column _ 0 0 (by omega) (by omega)
    (by simpa using hok) (by simpa using hidx) (by simpa using hcol)]
  simp [pure, Except.pure]

/-! ## Editor-level helpers -/

theorem SetCursorPosition_eq (e : Editor) (p : Coordinates) :
    SetCursorPosition e p = { e with mState := { e.mState with mCursorPosition := p } } := by
  unfold SetCursorPosition
  split_ifs with h
  · rfl
  · have h' : e.mState.mCursorPosition = p := by
      by_contra hc
      exact h hc
    subst h'
    rfl

theorem SetCursorPosition_self (e : Editor) :
    SetCursorPosition e e.mState.mCursorPosition = e := by
  simp [SetCursorPosition]

theorem isEmpty_false_of_getElem? {α : Type} {v : List α} {n : Nat} {x : α}
    (h : v[n]? = some x) : v.isEmpty = false := by
  cases v with
  | nil => simp at h
  | cons a t => rfl

/-- `SanitizeCoordinates` on an existing line: the clamped position, or a
division by zero when the scan of the line meets a tab with tab size 0. -/
theorem SanitizeCoordinates_cases (e : Editor) (l : Nat) (line : Line)
    (h : e.mLines[l]? = some line) (column : Int) :
    SanitizeCoordinates e ⟨(l : Int), column⟩ =
      if scanOK e.mTabSize 0 line then
        Except.ok ⟨(l : Int), min column ((scanMax (max e.mTabSize 1) 0 0 line : Nat) : Int)⟩
      else Except.error Fault.divByZero := by
  have hl := getElem?_lt_length h
  have h1 : ¬ ((l : Int) ≥ (e.mLines.length : Int)) := by omega
  have h2 := isEmpty_false_of_getElem? h
  simp only [SanitizeCoordinates, h1, if_false, h2, Bool.false_eq_true,
    GetLineMaxColumn_cases e l line h, bind, Except.bind, pure, Except.pure]
  split_ifs <;> rfl

/-- `SanitizeCoordinates` on an existing line whose scan can be made. -/
theorem SanitizeCoordinates_eq (e : Editor) (l : Nat) (line : Line)
    (h : e.mLines[l]? = some line) (hok : scanOK e.mTabSize 0 line = true) (column : Int) :
    SanitizeCoordinates e ⟨(l : Int), column⟩
      = Except.ok ⟨(l : Int), min column ((scanMax (max e.mTabSize 1) 0 0 line : Nat) : Int)⟩ := by
  rw [SanitizeCoordinates_cases e l line h, hok]
  rfl

/-- When `SanitizeCoordinates` returns for a position of an existing line, the
scan of that line can be made. -/
theorem scanOK_of_SanitizeCoordinates (e : Editor) (l : Nat) (line : Line)
    (h : e.mLines[l]? = some line) (column : Int) (r : Coordinates)
    (hs : SanitizeCoordinates e ⟨(l : Int), column⟩ = Except.ok r) :
    scanOK e.mTabSize 0 line = true := by
  rw [SanitizeCoordinates_cases e l line h] at hs
  cases hok : scanOK e.mTabSize 0 line with
  | true => rfl
  | false => rw [hok] at hs; simp at hs

theorem AddUndo_eq (e : Editor) (u : UndoRecord) (hro : e.mReadOnly = false)
    (hidx : 0 ≤ e.mUndoIndex) :
    AddUndo e u = Except.ok { e with
      mUndoBuffer := e.mUndoBuffer.take e.mUndoIndex.toNat
        ++ List.replicate (e.mUndoIndex.toNat - (e.mUndoBuffer.take e.mUndoIndex.toNat).length)
            ({} : UndoRecord) ++ [u],
      mUndoIndex := e.mUndoIndex + 1 } := by
  have h : ¬ (e.mUndoIndex < 0) := by omega
  simp [AddUndo, hro, h, pure, Except.pure]

/-- The record at the undo index after `AddUndo` is the one just added. -/
theorem AddUndo_buffer_at (buf : List UndoRecord) (n : Nat) (u : UndoRecord) :
    (buf.take n ++ List.replicate (n - (buf.take n).length) ({} : UndoRecord) ++ [u])[n]?
      = some u := by
  have hlen : (buf.take n ++ List.replicate (n - (buf.take n).length) ({} : UndoRecord)).length
      = n := by
    simp only [List.length_append, List.length_replicate, List.length_take]
    omega
  rw [List.getElem?_append_right (by omega)]
  simp [hlen]

theorem ImTextCharToUtf8_ascii (ch : Nat) (h : ch < 128) : ImTextCharToUtf8 7 ch = [ch] := by
  have h1 : ch % 256 = ch := Nat.mod_eq_of_lt (by omega)
  simp [ImTextCharToUtf8, h, h1]

theorem cstr_single (ch : Nat) (h : ch ≠ 0) : cstr [ch] = [ch] := by
  simp [cstr, List.takeWhile, h]

/-- The tail of `EnterCharacter` when the cursor is a position of line `l`
within the line. -/
theorem EnterCharacter_finish_eq (e : Editor) (u : UndoRecord) (coord : Coordinates)
    (hro : e.mReadOnly = false) (hidx : 0 ≤ e.mUndoIndex)
    (l : Nat) (L : Line) (hline : e.mLines[l]? = some L)
    (hok : scanOK e.mTabSize 0 L = true) (c : Int)
    (hcur : e.mState.mCursorPosition = ⟨(l : Int), c⟩)
    (hc : c ≤ ((scanMax (max e.mTabSize 1) 0 0 L : Nat) : Int)) :
    EnterCharacter.finish e u coord = Except.ok (Colorize { e with
      mUndoBuffer := e.mUndoBuffer.take e.mUndoIndex.toNat
        ++ List.replicate (e.mUndoIndex.toNat - (e.mUndoBuffer.take e.mUndoIndex.toNat).length)
            ({} : UndoRecord) ++ [{ u with mAddedEnd := ⟨(l : Int), c⟩, mAfter := e.mState }],
      mUndoIndex := e.mUndoIndex + 1 } (coord.mLine - 1) 3) := by
  have hmin : min c ((scanMax (max e.mTabSize 1) 0 0 L : Nat) : Int) = c := by omega
  simp only [EnterCharacter.finish, GetActualCursorCoordinates, hcur,
    SanitizeCoordinates_eq e l L hline hok, hmin, bind, Except.bind, AddUndo_eq e _ hro hidx,
    pure, Except.pure]

/-- One step of `Undo` applies the record just below the undo index. -/
theorem Undo_one (x : Editor) (u : UndoRecord) (hro : x.mReadOnly = false)
    (hpos : 0 < x.mUndoIndex) (hu : x.mUndoBuffer[(x.mUndoIndex - 1).toNat]? = some u) :
    Undo x 1 = u.Undo { x with mUndoIndex := x.mUndoIndex - 1 } := by
  have h1 : ((1 : Int).toNat) = 1 := rfl
  have hcan : CanUndo x = true := by simp [CanUndo, hro, hpos]
  have hv : vecAt x.mUndoBuffer (x.mUndoIndex - 1) = Except.ok u := by
    have : x.mUndoIndex - 1 = (((x.mUndoIndex - 1).toNat : Nat) : Int) := by omega
    rw [this]
    exact vecAt_natCast _ _ _ hu
  simp only [Undo, h1, Undo.loop, hcan, if_true, hv, bind, Except.bind]
  cases u.Undo { x with mUndoIndex := x.mUndoIndex - 1 } <;> rfl

theorem Coordinates_ge_same_line (l c1 c2 : Int) (h : c1 ≤ c2) :
    Coordinates.ge ⟨l, c2⟩ ⟨l, c1⟩ = true := by
  simp [Coordinates.ge, h]

/-- `DeleteRange` between two different columns of one existing line. -/
theorem DeleteRange_same_line (e : Editor) (hro : e.mReadOnly = false)
    (l : Nat) (L : Line) (hline : e.mLines[l]? = some L)
    (hok : scanOK e.mTabSize 0 L = true) (c1 c2 : Int) (hlt : c1 < c2) :
    DeleteRange e ⟨(l : Int), c1⟩ ⟨(l : Int), c2⟩ =
      (if c2 ≥ ((scanMax (max e.mTabSize 1) 0 0 L : Nat) : Int) then
          vecErase L ((scanIndex (max e.mTabSize 1) c1 0 0 L : Nat) : Int) L.length
        else vecErase L ((scanIndex (max e.mTabSize 1) c1 0 0 L : Nat) : Int)
          ((scanIndex (max e.mTabSize 1) c2 0 0 L : Nat) : Int)) >>= fun L1 =>
        Except.ok { e with mLines := e.mLines.set l L1 } := by
  have hl := getElem?_lt_length hline
  have hge : Coordinates.ge ⟨(l : Int), c2⟩ ⟨(l : Int), c1⟩ = true :=
    Coordinates_ge_same_line _ _ _ (by omega)
  have hne : ¬ ((⟨(l : Int), c2⟩ : Coordinates) = ⟨(l : Int), c1⟩) := by
    intro h
    injection h with _ h2
    omega
  have hro' : ¬ (e.mReadOnly = true) := by simp [hro]
  have hb : (0 : Int) ≤ (l : Int) ∧ (l : Int) < (e.mLines.length : Int) := by omega
  unfold DeleteRange
  rw [if_neg (by simp [hge]), if_neg hro', if_neg hne]
  simp only [GetCharacterIndex_eq e l L hline hok,
    bind, Except.bind, if_true, vecAt_natCast _ _ _ hline, GetLineMaxColumn_eq e l L hline hok,
    vecSet, hb, and_self, Int.toNat_ofNat, pure, Except.pure]
  split_ifs <;> rfl

theorem set_eq_self_of_getElem? {α : Type} (v : List α) (n : Nat) (x : α) (h : v[n]? = some x) :
    v.set n x = v := by
  induction v generalizing n with
  | nil => rfl
  | cons a t ih =>
    cases n with
    | zero =>
      simp at h
      simp [h]
    | succ n =>
      simp at h
      simp [ih n h]

/-! ## C3: a printable character and its undo -/

/-- C3 (as amended): for a non-read-only editor with overwrite mode off, a
non-negative undo index and no selection, whose cursor `(l, col)` is sanitized
and has its byte index `ci` within line `l` (`ci ≤` length, as on every line
that does not end inside a multi-byte sequence), and for a printable ASCII
character `ch` (32..126, so neither tab nor newline): `EnterCharacter(ch)`
returns; line `l` becomes the old line with the single glyph `ch` inserted at
byte index `ci` and no other line changes; the cursor is on line `l` at the
column of byte index `ci + 1`; one transaction is logged; and `Undo(1)` then
restores all lines and the whole editor state (cursor and selection). -/
theorem C3_enter_printable_then_undo (e : Editor) (l : Nat) (col : Int) (line : Line) (ci : Int)
    (ch : Nat) (aShift : Bool)
    (hro : e.mReadOnly = false) (hov : e.mOverwrite = false)
    (hundo : 0 ≤ e.mUndoIndex)
    (hsel : HasSelection e = false)
    (hcur : e.mState.mCursorPosition = ⟨(l : Int), col⟩)
    (hsan : SanitizeCoordinates e e.mState.mCursorPosition = Except.ok e.mState.mCursorPosition)
    (hline : e.mLines[l]? = some line)
    (hidx : GetCharacterIndex e e.mState.mCursorPosition = Except.ok ci)
    (hci : ci ≤ (line.length : Int))
    (hch : 32 ≤ ch ∧ ch < 127) :
    ∃ e1 e2 : Editor,
      EnterCharacter e ch aShift = Except.ok e1 ∧
      e1.mLines = e.mLines.set l
        (line.take ci.toNat ++
          ({ mChar := ch, mColorIndex := PaletteIndex.Default } : Glyph) :: line.drop ci.toNat) ∧
      e1.mState.mCursorPosition.mLine = (l : Int) ∧
      GetCharacterColumn e1 (l : Int) (ci + 1) = Except.ok e1.mState.mCursorPosition.mColumn ∧
      e1.mUndoIndex = e.mUndoIndex + 1 ∧
      Undo e1 1 = Except.ok e2 ∧ e2.mLines = e.mLines ∧ e2.mState = e.mState := by
  have hl := getElem?_lt_length hline
  have hT : 0 < max e.mTabSize 1 := by omega
  have hok : scanOK e.mTabSize 0 line = true := by
    rw [hcur] at hsan
    exact scanOK_of_SanitizeCoordinates e l line hline col _ hsan
  rw [hcur, GetCharacterIndex_eq e l line hline hok] at hidx
  have hk : ci = ((scanIndex (max e.mTabSize 1) col 0 0 line : Nat) : Int) := by
    cases hidx; rfl
  rw [hcur, SanitizeCoordinates_eq e l line hline hok] at hsan
  have hM : col ≤ ((scanMax (max e.mTabSize 1) 0 0 line : Nat) : Int) := by
    have : min col ((scanMax (max e.mTabSize 1) 0 0 line : Nat) : Int) = col := by
      injection hsan with h1
      injection h1
    omega
  subst hk
  have hkle : scanIndex (max e.mTabSize 1) col 0 0 line ≤ line.length := by omega
  have hx : UTF8CharLength ({ mChar := ch, mColorIndex := PaletteIndex.Default } : Glyph).mChar = 1 :=
    UTF8CharLength_ascii ch (by omega)
  have hok' := scanOK_insert (T := e.mTabSize) (W := max e.mTabSize 1) col
    ({ mChar := ch, mColorIndex := PaletteIndex.Default } : Glyph) hx (by show ch ≠ 9; omega)
    line 0 0 hkle hok
  obtain ⟨f1, f2, f3, f4, f5⟩ :=
    scan_insert_facts hT col ({ mChar := ch, mColorIndex := PaletteIndex.Default } : Glyph) hx line
      0 0 hkle hM
  simp only [Int.toNat_ofNat]
  generalize hk : scanIndex (max e.mTabSize 1) col 0 0 line = k at *
  generalize hL' : (line.take k ++
      ({ mChar := ch, mColorIndex := PaletteIndex.Default } : Glyph) :: line.drop k) = L' at *
  generalize hc' : scanColumn (max e.mTabSize 1) ((k : Int) + 1) 0 0 L' = c' at *
  have hne : e.mLines.isEmpty = false := by
    cases hm : e.mLines with
    | nil => rw [hm] at hl; simp at hl
    | cons a t => rfl
  have hbuf : ImTextCharToUtf8 7 ch = [ch] := ImTextCharToUtf8_ascii ch (by omega)
  have hcs : cstr [ch] = [ch] := cstr_single ch (by omega)
  have h10 : ch ≠ 10 := by omega
  have hnosel : ¬ (HasSelection e = true ∧ ch = 9 ∧
      e.mState.mSelectionStart.mLine ≠ e.mState.mSelectionEnd.mLine) := by
    simp [hsel]
  have hmin : min col ((scanMax (max e.mTabSize 1) 0 0 line : Nat) : Int) = col := by omega
  have hvl : vecAt e.mLines (l : Int) = Except.ok line := vecAt_natCast _ _ _ hline
  have hnov : ¬ (e.mOverwrite = true ∧ (k : Int) < (line.length : Int)) := by simp [hov]
  have hins : vecInsert line (k : Int) [({ mChar := ch, mColorIndex := PaletteIndex.Default } : Glyph)]
      = Except.ok L' := by
    have : (0 : Int) ≤ (k : Int) ∧ (k : Int) ≤ (line.length : Int) := by omega
    simp [vecInsert, this, hL'.symm, pure, Except.pure]
  have hset : vecSet e.mLines (l : Int) L' = Except.ok (e.mLines.set l L') := by
    have : (0 : Int) ≤ (l : Int) ∧ (l : Int) < (e.mLines.length : Int) := by omega
    simp [vecSet, this, pure, Except.pure]
  have hro' : ¬ (e.mReadOnly = true) := by simp [hro]
  obtain ⟨e2, he2⟩ : ∃ e2 : Editor, e2 = { e with mLines := e.mLines.set l L' } := ⟨_, rfl⟩
  have hT2 : e2.mTabSize = e.mTabSize := by rw [he2]
  have hok2 : scanOK e2.mTabSize 0 L' = true := by rw [hT2]; exact hok'
  have hline2 : e2.mLines[l]? = some L' := by
    rw [he2]
    simp [hl]
  have hcol2 : GetCharacterColumn e2 (l : Int) ((k : Int) + 1) = Except.ok ((c' : Nat) : Int) := by
    rw [GetCharacterColumn_eq e2 l L' hline2 hok2, hT2, hc']
  obtain ⟨e3, he3⟩ : ∃ e3 : Editor,
      e3 = { e2 with mState := { e2.mState with mCursorPosition := ⟨(l : Int), (c' : Int)⟩ } } :=
    ⟨_, rfl⟩
  have hT3 : e3.mTabSize = e.mTabSize := by rw [he3]; exact hT2
  have hok3 : scanOK e3.mTabSize 0 L' = true := by rw [hT3]; exact hok'
  have hline3 : e3.mLines[l]? = some L' := by rw [he3]; exact hline2
  have hro3 : e3.mReadOnly = false := by rw [he3, he2]; exact hro
  have hidx3 : 0 ≤ e3.mUndoIndex := by rw [he3, he2]; exact hundo
  have hcur3 : e3.mState.mCursorPosition = ⟨(l : Int), (c' : Int)⟩ := by rw [he3]
  have hc3 : (c' : Int) ≤ ((scanMax (max e3.mTabSize 1) 0 0 L' : Nat) : Int) := by
    rw [hT3]
    omega
  obtain ⟨u5, hu5⟩ : ∃ u5 : UndoRecord, u5 =
      { ({ mAdded := [ch], mAddedStart := ⟨(l : Int), col⟩, mBefore := e.mState } : UndoRecord)
        with mAddedEnd := ⟨(l : Int), (c' : Int)⟩, mAfter := e3.mState } := ⟨_, rfl⟩
  obtain ⟨e4, he4⟩ : ∃ e4 : Editor, e4 = { e3 with
      mUndoBuffer := e3.mUndoBuffer.take e3.mUndoIndex.toNat
        ++ List.replicate (e3.mUndoIndex.toNat - (e3.mUndoBuffer.take e3.mUndoIndex.toNat).length)
            ({} : UndoRecord) ++ [u5],
      mUndoIndex := e3.mUndoIndex + 1 } := ⟨_, rfl⟩
  have hE : EnterCharacter e ch aShift = Except.ok (Colorize e4 ((l : Int) - 1) 3) := by
    unfold EnterCharacter
    rw [if_neg hro', if_neg hnosel]
    simp only [EnterCharacter.removeSelection, hsel, Bool.false_eq_true, if_false,
      bind, Except.bind, pure, Except.pure, GetActualCursorCoordinates, hcur,
      SanitizeCoordinates_eq e l line hline hok, hne, h10, hmin,
      EnterCharacter.character, hbuf, hcs, List.length_singleton, Nat.lt_one_iff, gt_iff_lt,
      zero_lt_one, if_true, hvl, GetCharacterIndex_eq e l line hline hok, hk,
      EnterCharacter.overwriteStep, hnov, EnterCharacter.insertBytes, hins, hset]
    rw [← he2]
    simp only [hcol2, SetCursorPosition_eq]
    rw [← he3]
    rw [EnterCharacter_finish_eq e3 _ _ hro3 hidx3 l L' hline3 hok3 c' hcur3 hc3, he4, hu5]
  -- the state after `EnterCharacter`
  have h4lines : e4.mLines = e.mLines.set l L' := by rw [he4, he3, he2]
  have h4state : e4.mState = e3.mState := by rw [he4]
  have h4T : e4.mTabSize = e.mTabSize := by rw [he4, he3, he2]
  have h4ro : e4.mReadOnly = false := by rw [he4]; exact hro3
  have h4idx : e4.mUndoIndex = e.mUndoIndex + 1 := by rw [he4, he3, he2]
  have h4buf : e4.mUndoBuffer[(e4.mUndoIndex - 1).toNat]? = some u5 := by
    have : (e4.mUndoIndex - 1).toNat = e3.mUndoIndex.toNat := by
      rw [he4]
      simp
    rw [this, he4]
    exact AddUndo_buffer_at _ _ _
  -- the undo step
  obtain ⟨x, hx0⟩ : ∃ x : Editor,
      x = { Colorize e4 ((l : Int) - 1) 3 with
              mUndoIndex := (Colorize e4 ((l : Int) - 1) 3).mUndoIndex - 1 } := ⟨_, rfl⟩
  have hxT' : x.mTabSize = e.mTabSize := by rw [hx0]; exact h4T
  have hxok : scanOK x.mTabSize 0 L' = true := by rw [hxT']; exact hok'
  have hxro : x.mReadOnly = false := by rw [hx0]; exact h4ro
  have hxline : x.mLines[l]? = some L' := by
    rw [hx0]
    show e4.mLines[l]? = some L'
    rw [h4lines]
    simp [hl]
  have hxlines : x.mLines = e.mLines.set l L' := by rw [hx0]; exact h4lines
  have hU : Undo (Colorize e4 ((l : Int) - 1) 3) 1 = u5.Undo x := by
    rw [hx0]
    exact Undo_one _ u5 h4ro (by show 0 < e4.mUndoIndex; omega) h4buf
  have herase : (if (c' : Int) ≥ ((scanMax (max x.mTabSize 1) 0 0 L' : Nat) : Int) then
          vecErase L' ((scanIndex (max x.mTabSize 1) col 0 0 L' : Nat) : Int) L'.length
        else vecErase L' ((scanIndex (max x.mTabSize 1) col 0 0 L' : Nat) : Int)
          ((scanIndex (max x.mTabSize 1) (c' : Int) 0 0 L' : Nat) : Int)) = Except.ok line := by
    rw [hxT', f1, f4]
    have hlen : L'.length = line.length + 1 := by
      rw [← hL']
      simp
      omega
    have htake : L'.take k = line.take k := by
      rw [← hL']
      rw [List.take_append_of_le_length (by simp; omega)]
      simp [List.take_take]
    split_ifs with hge
    · have hd : line.drop k = [] := f5 (by omega)
      have hb : (0 : Int) ≤ (k : Int) ∧ (k : Int) ≤ (L'.length : Int) ∧
          (L'.length : Int) ≤ (L'.length : Int) := by omega
      simp only [vecErase, hb, and_self, if_true, Int.toNat_ofNat, pure, Except.pure,
        List.drop_length, List.append_nil, htake]
      have : line.take k = line := by
        have := List.take_append_drop k line
        rw [hd, List.append_nil] at this
        exact this
      rw [this]
    · have hb : (0 : Int) ≤ (k : Int) ∧ (k : Int) ≤ ((k + 1 : Nat) : Int) ∧
          ((k + 1 : Nat) : Int) ≤ (L'.length : Int) := by omega
      simp only [vecErase, hb, and_self, if_true, Int.toNat_ofNat, pure, Except.pure, htake]
      have hdrop : L'.drop (k + 1) = line.drop k := by
        rw [← hL']
        have : (line.take k).length = k := by simp; omega
        rw [List.drop_append_eq_append_drop]
        simp [this]
      rw [hdrop, List.take_append_drop]
  have hD : DeleteRange x ⟨(l : Int), col⟩ ⟨(l : Int), (c' : Int)⟩
      = Except.ok { x with mLines := e.mLines } := by
    rw [DeleteRange_same_line x hxro l L' hxline hxok col c' f2, herase]
    simp only [bind, Except.bind, hxlines]
    congr 2
    rw [List.set_set]
    exact set_eq_self_of_getElem? _ _ _ hline
  refine ⟨_, { Colorize { x with mLines := e.mLines } ((l : Int) - 1) ((l : Int) - (l : Int) + 2)
               with mState := e.mState }, hE, ?_, ?_, ?_, ?_, ?_, rfl, rfl⟩
  · exact h4lines
  · show e4.mState.mCursorPosition.mLine = (l : Int)
    rw [h4state, hcur3]
  · show GetCharacterColumn (Colorize e4 ((l : Int) - 1) 3) (l : Int) ((k : Int) + 1)
      = Except.ok e4.mState.mCursorPosition.mColumn
    rw [h4state, hcur3]
    have hok4 : scanOK (Colorize e4 ((l : Int) - 1) 3).mTabSize 0 L' = true := by
      show scanOK e4.mTabSize 0 L' = true
      rw [h4T]
      exact hok'
    have hl4 : (Colorize e4 ((l : Int) - 1) 3).mLines[l]? = some L' := by
      show e4.mLines[l]? = some L'
      rw [h4lines]
      simp [hl]
    rw [GetCharacterColumn_eq _ l L' hl4 hok4]
    show Except.ok ((scanColumn (max e4.mTabSize 1) ((k : Int) + 1) 0 0 L' : Nat) : Int) = _
    rw [h4T, hc']
  · exact h4idx
  · rw [hU]
    simp only [UndoRecord.Undo, hu5, List.isEmpty_cons, Bool.false_eq_true, not_false_eq_true,
      if_true, hD, bind, Except.bind, List.isEmpty_nil, not_true_eq_false, if_false, pure,
      Except.pure]

/-- C3 (witness): line `"ab"`, cursor (0,0), character `x`. -/
theorem C3_enter_printable_then_undo_witness :
    ∃ e1 e2 : Editor,
      EnterCharacter (mkEditor [[97, 98]] ⟨0, 0⟩) 120 false = Except.ok e1 ∧
      e1.mLines = (mkEditor [[97, 98]] ⟨0, 0⟩).mLines.set 0
        ((mkLine [97, 98]).take (0 : Int).toNat ++
          ({ mChar := 120, mColorIndex := PaletteIndex.Default } : Glyph) ::
            (mkLine [97, 98]).drop (0 : Int).toNat) ∧
      e1.mState.mCursorPosition.mLine = ((0 : Nat) : Int) ∧
      GetCharacterColumn e1 ((0 : Nat) : Int) (0 + 1) = Except.ok e1.mState.mCursorPosition.mColumn ∧
      e1.mUndoIndex = (mkEditor [[97, 98]] ⟨0, 0⟩).mUndoIndex + 1 ∧
      Undo e1 1 = Except.ok e2 ∧ e2.mLines = (mkEditor [[97, 98]] ⟨0, 0⟩).mLines ∧
      e2.mState = (mkEditor [[97, 98]] ⟨0, 0⟩).mState :=
  C3_enter_printable_then_undo (mkEditor [[97, 98]] ⟨0, 0⟩) 0 0 (mkLine [97, 98]) 0 120 false
    (by rfl) (by rfl) (by decide) (by rfl) (by rfl) (by rfl) (by rfl) (by rfl)
    (by decide) (by decide)

/-- C3 (counterexample to the claim as stated): the cursor at the end of a line
that consists of the lone lead byte `0xE2` is sanitized, there is no selection
and overwrite mode is off, but the byte index of the cursor is 3, past the
one-byte line, and `EnterCharacter('x')` inserts outside the line instead of
inserting at that byte index. -/
theorem C3_enter_printable_counterexample :
    SanitizeCoordinates (mkEditor [[226]] ⟨0, 1⟩) ⟨0, 1⟩ = Except.ok ⟨0, 1⟩ ∧
    HasSelection (mkEditor [[226]] ⟨0, 1⟩) = false ∧
    (mkEditor [[226]] ⟨0, 1⟩).mOverwrite = false ∧
    GetCharacterIndex (mkEditor [[226]] ⟨0, 1⟩) ⟨0, 1⟩ = Except.ok 3 ∧
    EnterCharacter (mkEditor [[226]] ⟨0, 1⟩) 120 false = Except.error Fault.outOfRange := by
  refine ⟨by rfl, by rfl, by rfl, by rfl, by rfl⟩

/-! ## Line merge and split -/

/-- `RemoveLine(aIndex)` on a writable document with at least two lines. -/
theorem RemoveLine_eq (e : Editor) (hro : e.mReadOnly = false) (n : Nat)
    (hn : n < e.mLines.length) (h2 : 1 < e.mLines.length) :
    RemoveLine e (n : Int) = Except.ok { e with
      mErrorMarkers := RemoveLine.markers (n : Int) e.mErrorMarkers
      mBreakpoints := RemoveLine.breakpoints (n : Int) e.mBreakpoints
      mLines := e.mLines.take n ++ e.mLines.drop (n + 1) } := by
  have hro' : ¬ (e.mReadOnly = true) := by simp [hro]
  have hb : (0 : Int) ≤ (n : Int) ∧ (n : Int) ≤ (n : Int) + 1 ∧
      (n : Int) + 1 ≤ (e.mLines.length : Int) := by omega
  have ht : ((n : Int) + 1).toNat = n + 1 := by omega
  have hne : (e.mLines.take n ++ e.mLines.drop (n + 1)).isEmpty = false := by
    cases hm : e.mLines.take n ++ e.mLines.drop (n + 1) with
    | nil =>
      have := congrArg List.length hm
      simp only [List.length_append, List.length_take, List.length_drop, List.length_nil] at this
      omega
    | cons a t => rfl
  unfold RemoveLine
  rw [if_neg hro', if_neg (by simp; omega)]
  simp only [vecErase, hb, and_self, if_true, Int.toNat_ofNat, ht, bind, Except.bind, pure,
    Except.pure, hne, Bool.false_eq_true, if_false]

/-- `InsertLine(aIndex)` on a writable document. -/
theorem InsertLine_eq (e : Editor) (hro : e.mReadOnly = false) (n : Nat)
    (hn : n ≤ e.mLines.length) :
    InsertLine e (n : Int) = Except.ok { e with
      mLines := e.mLines.take n ++ [([] : Line)] ++ e.mLines.drop n
      mErrorMarkers := InsertLine.markers (n : Int) e.mErrorMarkers
      mBreakpoints := InsertLine.breakpoints (n : Int) e.mBreakpoints } := by
  have hro' : ¬ (e.mReadOnly = true) := by simp [hro]
  have hb : (0 : Int) ≤ (n : Int) ∧ (n : Int) ≤ (e.mLines.length : Int) := by omega
  unfold InsertLine
  rw [if_neg hro']
  simp only [vecInsert, hb, and_self, if_true, Int.toNat_ofNat, bind, Except.bind, pure,
    Except.pure]

/-- Two consecutive lines split a list around them. -/
theorem list_split_two {α : Type} (v : List α) (n : Nat) (a b : α)
    (ha : v[n]? = some a) (hb : v[n + 1]? = some b) :
    v = v.take n ++ a :: b :: v.drop (n + 2) := by
  have h1 : n < v.length := getElem?_lt_length ha
  have h2 : n + 1 < v.length := getElem?_lt_length hb
  rw [List.getElem?_eq_getElem h1] at ha
  rw [List.getElem?_eq_getElem h2] at hb
  injection ha with ha
  injection hb with hb
  conv_lhs => rw [← List.take_append_drop n v]
  rw [List.drop_eq_getElem_cons h1, ha, List.drop_eq_getElem_cons h2, hb]

theorem getElem?_split {α : Type} (P : List α) (a : α) (Q : List α) :
    (P ++ a :: Q)[P.length]? = some a := by
  rw [List.getElem?_append_right (le_refl _)]
  simp

theorem getElem?_split_succ {α : Type} (P : List α) (a b : α) (Q : List α) :
    (P ++ a :: b :: Q)[P.length + 1]? = some b := by
  rw [List.getElem?_append_right (by omega)]
  simp

theorem set_split {α : Type} (P : List α) (a b : α) (Q : List α) :
    (P ++ a :: Q).set P.length b = P ++ b :: Q := by
  induction P with
  | nil => rfl
  | cons p P ih => simp [ih]

theorem set_split_succ {α : Type} (P : List α) (a b c : α) (Q : List α) :
    (P ++ a :: b :: Q).set (P.length + 1) c = P ++ a :: c :: Q := by
  induction P with
  | nil => rfl
  | cons p P ih => simp [ih]

theorem take_split {α : Type} (P : List α) (Q : List α) :
    (P ++ Q).take P.length = P := by
  simp

theorem drop_split {α : Type} (P : List α) (Q : List α) :
    (P ++ Q).drop P.length = Q := by
  simp

theorem take_split_succ {α : Type} (P : List α) (a : α) (Q : List α) :
    (P ++ a :: Q).take (P.length + 1) = P ++ [a] := by
  induction P with
  | nil => simp
  | cons p P ih => simp [ih]

theorem drop_split_succ {α : Type} (P : List α) (a : α) (Q : List α) :
    (P ++ a :: Q).drop (P.length + 1) = Q := by
  induction P with
  | nil => simp
  | cons p P ih => simp [ih]

/-- `InsertTextAt` of a single line break at a position of the line `A ++ B`
whose byte index is `|A|`: the line is split into `A` and `B`. -/
theorem InsertTextAt_newline (x : Editor) (hro : x.mReadOnly = false)
    (P Q : List Line) (A B : Line) (hlines : x.mLines = P ++ (A ++ B) :: Q) (col : Int)
    (hidx : GetCharacterIndex x ⟨(P.length : Int), col⟩ = Except.ok ((A.length : Nat) : Int)) :
    InsertTextAt x ⟨(P.length : Int), col⟩ [10] = Except.ok
      ({ x with
          mLines := P ++ A :: B :: Q
          mErrorMarkers := InsertLine.markers ((P.length : Int) + 1) x.mErrorMarkers
          mBreakpoints := InsertLine.breakpoints ((P.length : Int) + 1) x.mBreakpoints },
        ⟨(P.length : Int) + 1, 0⟩, 1) := by
  have hAB : x.mLines[P.length]? = some (A ++ B) := by rw [hlines]; exact getElem?_split _ _ _
  have hl := getElem?_lt_length hAB
  have hro' : ¬ (x.mReadOnly = true) := by simp [hro]
  have hne := isEmpty_false_of_getElem? hAB
  have hcast : (P.length : Int) + 1 = ((P.length + 1 : Nat) : Int) := by push_cast; rfl
  have hIL := InsertLine_eq x hro (P.length + 1) (by omega)
  have h1 : ¬ ((10 : Nat) = 0) := by decide
  have h2 : ¬ ((10 : Nat) = 13) := by decide
  have hb1 : (0 : Int) ≤ (A.length : Int) ∧ (A.length : Int) ≤ ((A ++ B).length : Int) := by
    simp
  have hb2 : (0 : Int) ≤ (A.length : Int) ∧ (A.length : Int) ≤ ((A ++ B).length : Int) ∧
      ((A ++ B).length : Int) ≤ ((A ++ B).length : Int) := by
    simp
  have hv1 : vecAt (P ++ (A ++ B) :: [] :: Q) (P.length : Int) = Except.ok (A ++ B) :=
    vecAt_natCast _ _ _ (getElem?_split _ _ _)
  have hs1 : vecSet (P ++ (A ++ B) :: [] :: Q) ((P.length + 1 : Nat) : Int) B
      = Except.ok (P ++ (A ++ B) :: B :: Q) := by
    have : (0 : Int) ≤ ((P.length + 1 : Nat) : Int) ∧
        ((P.length + 1 : Nat) : Int) < ((P ++ (A ++ B) :: [] :: Q).length : Int) := by
      simp
      omega
    simp only [vecSet, this, and_self, if_true, Int.toNat_ofNat, set_split_succ, pure, Except.pure]
  have hs2 : vecSet (P ++ (A ++ B) :: B :: Q) (P.length : Int) A
      = Except.ok (P ++ A :: B :: Q) := by
    have : (0 : Int) ≤ (P.length : Int) ∧
        (P.length : Int) < ((P ++ (A ++ B) :: B :: Q).length : Int) := by
      simp
      omega
    simp only [vecSet, this, and_self, if_true, Int.toNat_ofNat, set_split, pure, Except.pure]
  unfold InsertTextAt
  rw [if_neg hro']
  simp only [hidx, bind, Except.bind,
    List.length_singleton, InsertTextAt.loop, hne, Bool.false_eq_true, if_false,
    vecAt_natCast _ _ _ hAB, hcast, hIL, h1, h2, if_true]
  rw [hlines, take_split_succ, drop_split_succ]
  simp only [List.append_assoc, List.singleton_append, List.cons_append, List.nil_append]
  by_cases hB : B = []
  · subst hB
    simp [pure, Except.pure]
  · have hlt : (A.length : Int) < ((A ++ B).length : Int) := by
      have : 0 < B.length := List.length_pos.mpr hB
      simp
      omega
    simp only [hlt, if_true, hv1, vecFrom, hb1, and_self, Int.toNat_ofNat, drop_split, pure,
      Except.pure, hs1, vecErase, hb2, take_split, List.drop_length, List.append_nil, hs2]
    simp

/-- `Advance` from the end of a line that is not the last one. -/
theorem Advance_line_end (e : Editor) (l : Nat) (A : Line)
    (hA : e.mLines[l]? = some A)
    (hok : scanOK e.mTabSize 0 A = true) (col : Int)
    (hidx : A.length ≤ scanIndex (max e.mTabSize 1) col 0 0 A) :
    Advance e ⟨(l : Int), col⟩ = Except.ok ⟨(l : Int) + 1, 0⟩ := by
  have hl := getElem?_lt_length hA
  have hcast : (l : Int) + 1 = ((l + 1 : Nat) : Int) := by push_cast; rfl
  have hlt : (l : Int) < (e.mLines.length : Int) := by omega
  have hn : ¬ (((scanIndex (max e.mTabSize 1) col 0 0 A : Nat) : Int) + 1 < (A.length : Int)) := by
    omega
  simp only [Advance, hlt, if_true, vecAt_natCast _ _ _ hA, GetCharacterIndex_eq e l A hA hok,
    bind, Except.bind, hn, if_false, GetCharacterColumn_zero,
    pure, Except.pure]

/-- `Delete` at the end of a line that is not the last one: the merged lines,
the renumbered side tables and the logged transaction. -/
theorem Delete_merge (e : Editor) (P Q : List Line) (A B : Line) (col : Int)
    (hro : e.mReadOnly = false) (hundo : 0 ≤ e.mUndoIndex)
    (hsel : HasSelection e = false)
    (hlines : e.mLines = P ++ A :: B :: Q)
    (hcur : e.mState.mCursorPosition = ⟨(P.length : Int), col⟩)
    (hend : GetLineMaxColumn e (P.length : Int) = Except.ok col) :
    ∃ (e1 : Editor) (u : UndoRecord),
      Delete e = Except.ok e1 ∧
      e1.mLines = P ++ (A ++ B) :: Q ∧
      e1.mErrorMarkers = RemoveLine.markers ((P.length : Int) + 1) e.mErrorMarkers ∧
      e1.mBreakpoints = RemoveLine.breakpoints ((P.length : Int) + 1) e.mBreakpoints ∧
      e1.mUndoIndex = e.mUndoIndex + 1 ∧
      e1.mTabSize = e.mTabSize ∧ e1.mReadOnly = false ∧
      e1.mUndoBuffer[(e1.mUndoIndex - 1).toNat]? = some u ∧
      u.mAdded = [] ∧ u.mRemoved = [10] ∧ u.mRemovedStart = ⟨(P.length : Int), col⟩ ∧
      u.mBefore = e.mState := by
  have hA : e.mLines[P.length]? = some A := by rw [hlines]; exact getElem?_split _ _ _
  have hB : e.mLines[P.length + 1]? = some B := by rw [hlines]; exact getElem?_split_succ _ _ _ _
  have hl := getElem?_lt_length hB
  have hT : 0 < max e.mTabSize 1 := by omega
  have hok : scanOK e.mTabSize 0 A = true := scanOK_of_GetLineMaxColumn e P.length A hA col hend
  rw [GetLineMaxColumn_eq e P.length A hA hok] at hend
  have hcol : col = ((scanMax (max e.mTabSize 1) 0 0 A : Nat) : Int) := by
    injection hend with h
    exact h.symm
  have hk : A.length ≤ scanIndex (max e.mTabSize 1) col 0 0 A := by
    have h2 := scanIndex_scanMax_ge hT A 0 0
    rw [← hcol] at h2
    exact h2
  have hro' : ¬ (e.mReadOnly = true) := by simp [hro]
  have hne := isEmpty_false_of_getElem? hA
  have hmin : min col ((scanMax (max e.mTabSize 1) 0 0 A : Nat) : Int) = col := by omega
  have hcast : (P.length : Int) + 1 = ((P.length + 1 : Nat) : Int) := by push_cast; rfl
  have hnlast : ¬ ((P.length : Int) = (e.mLines.length : Int) - 1) := by omega
  have hset : vecSet e.mLines (P.length : Int) (A ++ B) = Except.ok (P ++ (A ++ B) :: B :: Q) := by
    have : (0 : Int) ≤ (P.length : Int) ∧ (P.length : Int) < (e.mLines.length : Int) := by omega
    simp only [vecSet]
    rw [if_pos this, hlines]
    simp only [Int.toNat_ofNat, set_split, pure, Except.pure]
  obtain ⟨em, hem⟩ : ∃ em : Editor, em = { e with mLines := P ++ (A ++ B) :: B :: Q } := ⟨_, rfl⟩
  have hRL := RemoveLine_eq em (by rw [hem]; exact hro) (P.length + 1)
    (by rw [hem]; simp only [List.length_append, List.length_cons]; omega)
    (by rw [hem]; simp only [List.length_append, List.length_cons]; omega)
  have hRLlines : em.mLines.take (P.length + 1) ++ em.mLines.drop (P.length + 1 + 1)
      = P ++ (A ++ B) :: Q := by
    rw [hem]
    show (P ++ (A ++ B) :: B :: Q).take (P.length + 1) ++
      (P ++ (A ++ B) :: B :: Q).drop (P.length + 1 + 1) = _
    rw [take_split_succ]
    have : (P ++ (A ++ B) :: B :: Q) = (P ++ [A ++ B]) ++ B :: Q := by simp
    rw [this]
    have hlen : P.length + 1 = (P ++ [A ++ B]).length := by simp
    rw [hlen, drop_split_succ]
    simp
  rw [hRLlines] at hRL
  obtain ⟨e2, he2⟩ : ∃ e2 : Editor, e2 = { em with
      mErrorMarkers := RemoveLine.markers ((P.length + 1 : Nat) : Int) em.mErrorMarkers
      mBreakpoints := RemoveLine.breakpoints ((P.length + 1 : Nat) : Int) em.mBreakpoints
      mLines := P ++ (A ++ B) :: Q } := ⟨_, rfl⟩
  rw [← he2] at hRL
  obtain ⟨u, hu⟩ : ∃ u : UndoRecord, u =
      ({ mRemoved := [10], mRemovedStart := ⟨(P.length : Int), col⟩,
         mRemovedEnd := ⟨((P.length + 1 : Nat) : Int), 0⟩, mBefore := e.mState,
         mAfter := (Colorize e2 (P.length : Int) 1).mState } : UndoRecord) := ⟨_, rfl⟩
  have h2ro : (Colorize e2 (P.length : Int) 1).mReadOnly = false := by
    show e2.mReadOnly = false
    rw [he2, hem]
    exact hro
  have h2idx : 0 ≤ (Colorize e2 (P.length : Int) 1).mUndoIndex := by
    show 0 ≤ e2.mUndoIndex
    rw [he2, hem]
    exact hundo
  have hAU := AddUndo_eq (Colorize e2 (P.length : Int) 1) u h2ro h2idx
  obtain ⟨e4, he4⟩ : ∃ e4 : Editor, e4 = { Colorize e2 (P.length : Int) 1 with
      mUndoBuffer := (Colorize e2 (P.length : Int) 1).mUndoBuffer.take
          (Colorize e2 (P.length : Int) 1).mUndoIndex.toNat
        ++ List.replicate ((Colorize e2 (P.length : Int) 1).mUndoIndex.toNat -
            ((Colorize e2 (P.length : Int) 1).mUndoBuffer.take
              (Colorize e2 (P.length : Int) 1).mUndoIndex.toNat).length)
            ({} : UndoRecord) ++ [u],
      mUndoIndex := (Colorize e2 (P.length : Int) 1).mUndoIndex + 1 } := ⟨_, rfl⟩
  rw [← he4] at hAU
  have hE : Delete e = Except.ok e4 := by
    unfold Delete
    rw [if_neg hro']
    simp only [hne, Bool.false_eq_true, if_false, hsel, GetActualCursorCoordinates, hcur,
      SanitizeCoordinates_eq e P.length A hA hok, hmin, bind, Except.bind]
    rw [← hcur, SetCursorPosition_self, hcur]
    simp only [vecAt_natCast _ _ _ hA, GetLineMaxColumn_eq e P.length A hA hok, ← hcol, if_true,
      hnlast, if_false, SanitizeCoordinates_eq e P.length A hA hok, hmin, min_self,
      Advance_line_end e P.length A hA hok col hk, hcast, vecAt_natCast _ _ _ hB, hset]
    rw [← hem, hRL]
    simp only []
    rw [← hu, hAU]
  have h4lines : e4.mLines = P ++ (A ++ B) :: Q := by rw [he4]; show e2.mLines = _; rw [he2]
  have h4T : e4.mTabSize = e.mTabSize := by rw [he4]; show e2.mTabSize = _; rw [he2, hem]
  have h4ro : e4.mReadOnly = false := by rw [he4]; exact h2ro
  have h4idx : e4.mUndoIndex = e.mUndoIndex + 1 := by
    rw [he4]; show e2.mUndoIndex + 1 = _; rw [he2, hem]
  have h4mk : e4.mErrorMarkers = RemoveLine.markers ((P.length : Int) + 1) e.mErrorMarkers := by
    rw [he4]; show e2.mErrorMarkers = _; rw [he2, hem, hcast]
  have h4bp : e4.mBreakpoints = RemoveLine.breakpoints ((P.length : Int) + 1) e.mBreakpoints := by
    rw [he4]; show e2.mBreakpoints = _; rw [he2, hem, hcast]
  have h4buf : e4.mUndoBuffer[(e4.mUndoIndex - 1).toNat]? = some u := by
    have : (e4.mUndoIndex - 1).toNat = (Colorize e2 (P.length : Int) 1).mUndoIndex.toNat := by
      rw [he4]
      simp
    rw [this, he4]
    exact AddUndo_buffer_at _ _ _
  refine ⟨e4, u, hE, h4lines, h4mk, h4bp, h4idx, h4T, h4ro, h4buf, ?_, ?_, ?_, ?_⟩ <;> rw [hu]

/-- `Delete` at the end of a line that is not the last one, followed by
`Undo(1)`: the results of both steps, side tables included. -/
theorem Delete_merge_then_undo (e : Editor) (P Q : List Line) (A B : Line) (col ci : Int)
    (hro : e.mReadOnly = false) (hundo : 0 ≤ e.mUndoIndex)
    (hsel : HasSelection e = false)
    (hlines : e.mLines = P ++ A :: B :: Q)
    (hcur : e.mState.mCursorPosition = ⟨(P.length : Int), col⟩)
    (hend : GetLineMaxColumn e (P.length : Int) = Except.ok col)
    (hidx : GetCharacterIndex e e.mState.mCursorPosition = Except.ok ci)
    (hci : ci ≤ (A.length : Int)) :
    ∃ e1 e2 : Editor,
      Delete e = Except.ok e1 ∧
      e1.mLines = P ++ (A ++ B) :: Q ∧
      e1.mErrorMarkers = RemoveLine.markers ((P.length : Int) + 1) e.mErrorMarkers ∧
      e1.mBreakpoints = RemoveLine.breakpoints ((P.length : Int) + 1) e.mBreakpoints ∧
      e1.mUndoIndex = e.mUndoIndex + 1 ∧
      Undo e1 1 = Except.ok e2 ∧
      e2.mLines = e.mLines ∧ e2.mState = e.mState ∧
      e2.mErrorMarkers = InsertLine.markers ((P.length : Int) + 1)
        (RemoveLine.markers ((P.length : Int) + 1) e.mErrorMarkers) ∧
      e2.mBreakpoints = InsertLine.breakpoints ((P.length : Int) + 1)
        (RemoveLine.breakpoints ((P.length : Int) + 1) e.mBreakpoints) := by
  obtain ⟨e4, u, hE, h4lines, h4mk, h4bp, h4idx, h4T, h4ro, h4buf, hu1, hu2, hu3, hu4⟩ :=
    Delete_merge e P Q A B col hro hundo hsel hlines hcur hend
  have hA : e.mLines[P.length]? = some A := by rw [hlines]; exact getElem?_split _ _ _
  have hT : 0 < max e.mTabSize 1 := by omega
  have hok : scanOK e.mTabSize 0 A = true := scanOK_of_GetLineMaxColumn e P.length A hA col hend
  rw [GetLineMaxColumn_eq e P.length A hA hok] at hend
  have hcol : col = ((scanMax (max e.mTabSize 1) 0 0 A : Nat) : Int) := by
    injection hend with h
    exact h.symm
  rw [hcur, GetCharacterIndex_eq e P.length A hA hok] at hidx
  have hk : scanIndex (max e.mTabSize 1) col 0 0 A = A.length := by
    have h1 : ci = ((scanIndex (max e.mTabSize 1) col 0 0 A : Nat) : Int) := by
      injection hidx with h
      exact h.symm
    have h2 := scanIndex_scanMax_ge hT A 0 0
    rw [← hcol] at h2
    omega
  obtain ⟨x, hx0⟩ : ∃ x : Editor, x = { e4 with mUndoIndex := e4.mUndoIndex - 1 } := ⟨_, rfl⟩
  have hxT' : x.mTabSize = e.mTabSize := by rw [hx0]; exact h4T
  have hxro : x.mReadOnly = false := by rw [hx0]; exact h4ro
  have hxlines : x.mLines = P ++ (A ++ B) :: Q := by rw [hx0]; exact h4lines
  have hU : Undo e4 1 = u.Undo x := by
    rw [hx0]
    exact Undo_one _ u h4ro (by omega) h4buf
  have hxAB : x.mLines[P.length]? = some (A ++ B) := by
    rw [hxlines]
    exact getElem?_split _ _ _
  have hxidx : GetCharacterIndex x ⟨(P.length : Int), col⟩ = Except.ok ((A.length : Nat) : Int) :=
    GetCharacterIndex_eq_of_append x P.length A B hxAB (by rw [hxT']; exact hok) col
      (by rw [hxT']; exact hk) (by rw [hxT']; omega)
  have hI := InsertTextAt_newline x hxro P Q A B hxlines col hxidx
  have hUndo : ∃ e2' : Editor, Undo e4 1 = Except.ok e2' ∧
      e2'.mLines = e.mLines ∧ e2'.mState = e.mState ∧
      e2'.mErrorMarkers = InsertLine.markers ((P.length : Int) + 1) x.mErrorMarkers ∧
      e2'.mBreakpoints = InsertLine.breakpoints ((P.length : Int) + 1) x.mBreakpoints := by
    rw [hU]
    simp only [UndoRecord.Undo, hu1, hu2, hu3, hu4, List.isEmpty_nil, not_true_eq_false, if_false,
      List.isEmpty_cons, Bool.false_eq_true, not_false_eq_true, if_true, hI, bind, Except.bind,
      pure, Except.pure]
    exact ⟨_, rfl, hlines.symm, rfl, rfl, rfl⟩
  obtain ⟨e2', hU2, hl2, hs2, hm2, hb2⟩ := hUndo
  have hxmk : x.mErrorMarkers = e4.mErrorMarkers := by rw [hx0]
  have hxbp : x.mBreakpoints = e4.mBreakpoints := by rw [hx0]
  rw [hxmk, h4mk] at hm2
  rw [hxbp, h4bp] at hb2
  exact ⟨e4, e2', hE, h4lines, h4mk, h4bp, h4idx, hU2, hl2, hs2, hm2, hb2⟩

/-! ## C4: `Delete` at the end of a line and its undo -/

/-- C4 (as amended): for a non-read-only editor with a non-negative undo
index and no selection, whose lines are `P ++ A :: B :: Q` (so line `i = |P|`
is `A` and is not the last line), with the cursor at the end of line `i`
(column `GetLineMaxColumn(i)`) and the byte index of the cursor within the
line (`ci ≤ |A|`, as on every line that does not end inside a multi-byte
sequence): `Delete()` returns with the lines `P ++ (A ++ B) :: Q`, that is,
lines `i` and `i + 1` replaced by their concatenation, every other line
unchanged and one line fewer; and `Undo(1)` then restores all lines and the
whole editor state (cursor and selection). -/
theorem C4_delete_at_line_end_then_undo (e : Editor) (P Q : List Line) (A B : Line)
    (col ci : Int)
    (hro : e.mReadOnly = false) (hundo : 0 ≤ e.mUndoIndex)
    (hsel : HasSelection e = false)
    (hlines : e.mLines = P ++ A :: B :: Q)
    (hcur : e.mState.mCursorPosition = ⟨(P.length : Int), col⟩)
    (hend : GetLineMaxColumn e (P.length : Int) = Except.ok col)
    (hidx : GetCharacterIndex e e.mState.mCursorPosition = Except.ok ci)
    (hci : ci ≤ (A.length : Int)) :
    ∃ e1 e2 : Editor,
      Delete e = Except.ok e1 ∧
      e1.mLines = P ++ (A ++ B) :: Q ∧
      e1.mLines.length + 1 = e.mLines.length ∧
      Undo e1 1 = Except.ok e2 ∧
      e2.mLines = e.mLines ∧ e2.mState = e.mState := by
  obtain ⟨e1, e2, h1, h2, _, _, _, h6, h7, h8, _, _⟩ :=
    Delete_merge_then_undo e P Q A B col ci hro hundo hsel hlines hcur hend hidx hci
  refine ⟨e1, e2, h1, h2, ?_, h6, h7, h8⟩
  rw [h2, hlines]
  simp only [List.length_append, List.length_cons]
  omega

/-- C4 (witness): the lines `"foo"`, `"bar"` with the cursor at (0,3). -/
theorem C4_delete_at_line_end_then_undo_witness :
    ∃ e1 e2 : Editor,
      Delete (mkEditor [[102, 111, 111], [98, 97, 114]] ⟨0, 3⟩) = Except.ok e1 ∧
      e1.mLines = [] ++ (mkLine [102, 111, 111] ++ mkLine [98, 97, 114]) :: [] ∧
      e1.mLines.length + 1 = (mkEditor [[102, 111, 111], [98, 97, 114]] ⟨0, 3⟩).mLines.length ∧
      Undo e1 1 = Except.ok e2 ∧
      e2.mLines = (mkEditor [[102, 111, 111], [98, 97, 114]] ⟨0, 3⟩).mLines ∧
      e2.mState = (mkEditor [[102, 111, 111], [98, 97, 114]] ⟨0, 3⟩).mState :=
  C4_delete_at_line_end_then_undo (mkEditor [[102, 111, 111], [98, 97, 114]] ⟨0, 3⟩) [] []
    (mkLine [102, 111, 111]) (mkLine [98, 97, 114]) 3 3
    (by rfl) (by decide) (by rfl) (by rfl) (by rfl) (by rfl) (by rfl) (by decide)

/-- C4 (counterexample to the claim as stated): in the two-line document whose
first line is the lone lead byte `0xE2` and whose second line is `"ab"`, with
no selection and the cursor at the end of the first line (column 1 =
`GetLineMaxColumn(0)`), `Delete()` merges the lines, but `Undo(1)` yields the
lines `0xE2 'a' 'b'` and `""` instead of the original two lines. -/
theorem C4_delete_at_line_end_counterexample :
    GetLineMaxColumn (mkEditor [[226], [97, 98]] ⟨0, 1⟩) 0 = Except.ok 1 ∧
    HasSelection (mkEditor [[226], [97, 98]] ⟨0, 1⟩) = false ∧
    (Delete (mkEditor [[226], [97, 98]] ⟨0, 1⟩)).map Editor.bytes
      = Except.ok [[226, 97, 98]] ∧
    ((Delete (mkEditor [[226], [97, 98]] ⟨0, 1⟩)) >>= fun e1 => Undo e1 1).map Editor.bytes
      = Except.ok [[226, 97, 98], []] := by
  refine ⟨by rfl, by rfl, by rfl, by rfl⟩

/-! ## Side tables: membership after the renumbering loops -/

theorem mem_setInsert (s : List Int) (y x : Int) : x ∈ setInsert s y ↔ x ∈ s ∨ x = y := by
  unfold setInsert
  split_ifs with h
  · constructor
    · intro hx; exact Or.inl hx
    · rintro (hx | hx)
      · exact hx
      · rw [hx]; exact h
  · simp

/-- Membership in the result of a breakpoint loop that skips the numbers
satisfying `p` and stores `f` of the others. -/
theorem mem_foldl_setInsert (p : Int → Prop) [DecidablePred p] (f : Int → Int) (l : List Int) :
    ∀ (acc : List Int) (x : Int),
      x ∈ l.foldl (fun btmp i => if p i then btmp else setInsert btmp (f i)) acc ↔
        x ∈ acc ∨ ∃ b ∈ l, ¬ p b ∧ f b = x := by
  induction l with
  | nil => intro acc x; simp
  | cons a t ih =>
    intro acc x
    rw [List.foldl_cons, ih]
    by_cases hp : p a
    · simp [hp]
    · simp only [hp, if_false, mem_setInsert, List.mem_cons, exists_eq_or_imp, not_false_eq_true,
        true_and]
      constructor
      · rintro ((h | h) | h)
        · exact Or.inl h
        · exact Or.inr (Or.inl h.symm)
        · exact Or.inr (Or.inr h)
      · rintro (h | h | h)
        · exact Or.inl (Or.inl h)
        · exact Or.inl (Or.inr h.symm)
        · exact Or.inr h

/-- The breakpoints after removing line `n` and inserting a line at `n` again:
the old ones except `n`, none shifted. -/
theorem mem_breakpoints_remove_insert (n : Int) (bps : List Int) (x : Int) :
    x ∈ InsertLine.breakpoints n (RemoveLine.breakpoints n bps) ↔ x ∈ bps ∧ x ≠ n := by
  unfold InsertLine.breakpoints RemoveLine.breakpoints
  have h1 := mem_foldl_setInsert (fun _ => False) (fun i => if i ≥ n then i + 1 else i)
    (List.foldl (fun btmp i => if i = n then btmp else setInsert btmp (if i ≥ n then i - 1 else i))
      [] bps) [] x
  simp only [if_false] at h1
  rw [h1]
  simp only [List.not_mem_nil, false_or, not_false_eq_true, true_and]
  constructor
  · rintro ⟨b, hb, hx⟩
    rw [mem_foldl_setInsert (fun i => i = n) (fun i => if i ≥ n then i - 1 else i)] at hb
    simp only [List.not_mem_nil, false_or] at hb
    obtain ⟨b0, hb0, hne, hb1⟩ := hb
    have : x = b0 := by
      rw [← hx, ← hb1]
      split_ifs <;> omega
    rw [this]
    exact ⟨hb0, hne⟩
  · rintro ⟨hx, hne⟩
    refine ⟨if x ≥ n then x - 1 else x, ?_, ?_⟩
    · rw [mem_foldl_setInsert (fun i => i = n) (fun i => if i ≥ n then i - 1 else i)]
      exact Or.inr ⟨x, hx, hne, rfl⟩
    · split_ifs <;> omega

theorem mem_mapInsert_cases (e q : Int × String) :
    ∀ m : List (Int × String), q ∈ mapInsert m e → q ∈ m ∨ q = e := by
  intro m
  induction m with
  | nil => intro h; simp [mapInsert] at h; exact Or.inr h
  | cons x xs ih =>
    intro h
    unfold mapInsert at h
    split_ifs at h with h1 h2
    · rcases List.mem_cons.1 h with h | h
      · exact Or.inr h
      · exact Or.inl h
    · exact Or.inl h
    · rcases List.mem_cons.1 h with h | h
      · exact Or.inl (List.mem_cons.2 (Or.inl h))
      · rcases ih h with h | h
        · exact Or.inl (List.mem_cons.2 (Or.inr h))
        · exact Or.inr h

theorem mem_mapInsert_of_mem (e q : Int × String) :
    ∀ m : List (Int × String), q ∈ m → q ∈ mapInsert m e := by
  intro m
  induction m with
  | nil => intro h; simp at h
  | cons x xs ih =>
    intro h
    unfold mapInsert
    split_ifs with h1 h2
    · exact List.mem_cons.2 (Or.inr h)
    · exact h
    · rcases List.mem_cons.1 h with h | h
      · exact List.mem_cons.2 (Or.inl h)
      · exact List.mem_cons.2 (Or.inr (ih h))

theorem mem_mapInsert_self (e : Int × String) :
    ∀ m : List (Int × String), (∀ r ∈ m, r.1 ≠ e.1) → e ∈ mapInsert m e := by
  intro m
  induction m with
  | nil => intro _; simp [mapInsert]
  | cons x xs ih =>
    intro h
    unfold mapInsert
    split_ifs with h1 h2
    · exact List.mem_cons.2 (Or.inl rfl)
    · exact absurd h2.symm (h x (List.mem_cons.2 (Or.inl rfl)))
    · exact List.mem_cons.2 (Or.inr (ih (fun r hr => h r (List.mem_cons.2 (Or.inr hr)))))

/-- Every entry of the result of a marker loop (skip the entries satisfying
`p`, store `f` of the others) is in the start map or is `f` of a stored entry. -/
theorem foldl_mapInsert_sound (p : Int × String → Prop) [DecidablePred p]
    (f : Int × String → Int × String) (q : Int × String) (l : List (Int × String)) :
    ∀ acc : List (Int × String),
      q ∈ l.foldl (fun etmp i => if p i then etmp else mapInsert etmp (f i)) acc →
        q ∈ acc ∨ ∃ i ∈ l, ¬ p i ∧ f i = q := by
  induction l with
  | nil => intro acc h; exact Or.inl h
  | cons a t ih =>
    intro acc h
    rw [List.foldl_cons] at h
    rcases ih _ h with h | ⟨i, hi, hp, hf⟩
    · by_cases hp : p a
      · rw [if_pos hp] at h
        exact Or.inl h
      · rw [if_neg hp] at h
        rcases mem_mapInsert_cases _ _ _ h with h | h
        · exact Or.inl h
        · exact Or.inr ⟨a, List.mem_cons.2 (Or.inl rfl), hp, h.symm⟩
    · exact Or.inr ⟨i, List.mem_cons.2 (Or.inr hi), hp, hf⟩

/-- An entry `q` is in the result of a marker loop when it is `f` of a stored
entry (or in the start map) and nothing else has its key. -/
theorem foldl_mapInsert_complete (p : Int × String → Prop) [DecidablePred p]
    (f : Int × String → Int × String) (q : Int × String) (l : List (Int × String)) :
    ∀ acc : List (Int × String),
      (∀ r ∈ acc, r.1 = q.1 → r = q) →
      (∀ j ∈ l, ¬ p j → (f j).1 = q.1 → f j = q) →
      (q ∈ acc ∨ ∃ i ∈ l, ¬ p i ∧ f i = q) →
        q ∈ l.foldl (fun etmp i => if p i then etmp else mapInsert etmp (f i)) acc := by
  induction l with
  | nil =>
    intro acc _ _ h
    rcases h with h | ⟨i, hi, _⟩
    · exact h
    · simp at hi
  | cons a t ih =>
    intro acc hacc hl h
    rw [List.foldl_cons]
    have hl' : ∀ j ∈ t, ¬ p j → (f j).1 = q.1 → f j = q :=
      fun j hj => hl j (List.mem_cons.2 (Or.inr hj))
    by_cases hp : p a
    · rw [if_pos hp]
      apply ih acc hacc hl'
      rcases h with h | ⟨i, hi, hpi, hf⟩
      · exact Or.inl h
      · rcases List.mem_cons.1 hi with hi | hi
        · rw [hi] at hpi; exact absurd hp hpi
        · exact Or.inr ⟨i, hi, hpi, hf⟩
    · rw [if_neg hp]
      apply ih (mapInsert acc (f a)) _ hl'
      · rcases h with h | ⟨i, hi, hpi, hf⟩
        · exact Or.inl (mem_mapInsert_of_mem _ _ _ h)
        · rcases List.mem_cons.1 hi with hi | hi
          · rw [hi] at hf
            by_cases hk : ∃ r ∈ acc, r.1 = q.1
            · obtain ⟨r, hr, hrk⟩ := hk
              have := hacc r hr hrk
              rw [this] at hr
              exact Or.inl (mem_mapInsert_of_mem _ _ _ hr)
            · left
              rw [← hf]
              apply mem_mapInsert_self
              intro r hr hrk
              exact hk ⟨r, hr, by rw [hrk, hf]⟩
          · exact Or.inr ⟨i, hi, hpi, hf⟩
      · intro r hr hrk
        rcases mem_mapInsert_cases _ _ _ hr with hr | hr
        · exact hacc r hr hrk
        · rw [hr] at hrk ⊢
          exact hl a (List.mem_cons.2 (Or.inl rfl)) hp hrk

/-- In a map without a repeated key, two entries with the same key are equal. -/
theorem eq_of_key_eq {m : List (Int × String)} (hm : (m.map Prod.fst).Nodup)
    {a b : Int × String} (ha : a ∈ m) (hb : b ∈ m) (h : a.1 = b.1) : a = b := by
  induction m with
  | nil => simp at ha
  | cons x xs ih =>
    rw [List.map_cons, List.nodup_cons] at hm
    rcases List.mem_cons.1 ha with ha | ha <;> rcases List.mem_cons.1 hb with hb | hb
    · rw [ha, hb]
    · exfalso
      apply hm.1
      rw [← ha, h]
      exact List.mem_map_of_mem _ hb
    · exfalso
      apply hm.1
      rw [← hb, ← h]
      exact List.mem_map_of_mem _ ha
    · exact ih hm.2 ha hb

/-- The error markers after removing line `n` and inserting a line at `n`
again: the entries with a key below `n` or from `n + 3` on are the old ones. -/
theorem mem_markers_remove_insert (n : Int) (m : List (Int × String))
    (hm : (m.map Prod.fst).Nodup) (k : Int) (v : String) (hk : k < n ∨ n + 3 ≤ k) :
    (k, v) ∈ InsertLine.markers n (RemoveLine.markers n m) ↔ (k, v) ∈ m := by
  have hR : ∀ q : Int × String, q ∈ RemoveLine.markers n m →
      ∃ i ∈ m, ¬ ((if i.1 > n then i.1 - 1 else i.1) - 1 = n) ∧
        ((if i.1 > n then i.1 - 1 else i.1, i.2) : Int × String) = q := by
    intro q hq
    have := foldl_mapInsert_sound
      (fun i : Int × String => (if i.1 > n then i.1 - 1 else i.1) - 1 = n)
      (fun i => (if i.1 > n then i.1 - 1 else i.1, i.2)) q m [] hq
    simpa using this
  have hI : ∀ q : Int × String, q ∈ InsertLine.markers n (RemoveLine.markers n m) →
      ∃ i ∈ RemoveLine.markers n m,
        ((if i.1 ≥ n then i.1 + 1 else i.1, i.2) : Int × String) = q := by
    intro q hq
    have := foldl_mapInsert_sound (fun _ : Int × String => False)
      (fun i => (if i.1 ≥ n then i.1 + 1 else i.1, i.2)) q (RemoveLine.markers n m) []
      (by simpa only [if_false] using hq)
    simpa using this
  constructor
  · intro h
    obtain ⟨j, hj, hjq⟩ := hI _ h
    obtain ⟨i, hi, _, hij⟩ := hR _ hj
    have h1 : (if j.1 ≥ n then j.1 + 1 else j.1) = k := congrArg Prod.fst hjq
    have h2 : j.2 = v := congrArg Prod.snd hjq
    have h3 : (if i.1 > n then i.1 - 1 else i.1) = j.1 := congrArg Prod.fst hij
    have h4 : i.2 = j.2 := by rw [← hij]
    have h5 : i.1 = k := by
      rw [← h3] at h1
      split_ifs at h1 <;> omega
    have : i = (k, v) := by
      rw [← h5, ← h2, ← h4]
    rw [← this]
    exact hi
  · intro h
    obtain ⟨k1, hk1⟩ : ∃ k1 : Int, k1 = if k > n then k - 1 else k := ⟨_, rfl⟩
    have hmid : (k1, v) ∈ RemoveLine.markers n m := by
      apply foldl_mapInsert_complete
        (fun i : Int × String => (if i.1 > n then i.1 - 1 else i.1) - 1 = n)
        (fun i => (if i.1 > n then i.1 - 1 else i.1, i.2)) (k1, v) m []
      · intro r hr; simp at hr
      · intro j hj _ hjk
        have hjk' : (if j.1 > n then j.1 - 1 else j.1) = k1 := hjk
        have : j.1 = k := by
          rw [hk1] at hjk'
          split_ifs at hjk' <;> omega
        have hjeq : j = (k, v) := eq_of_key_eq hm hj h this
        rw [hjeq, hk1]
      · refine Or.inr ⟨(k, v), h, ?_, ?_⟩
        · show ¬ ((if k > n then k - 1 else k) - 1 = n)
          split_ifs <;> omega
        · rw [hk1]
    have hk2 : (if k1 ≥ n then k1 + 1 else k1) = k := by
      rw [hk1]
      split_ifs <;> omega
    have : (k, v) ∈ List.foldl (fun etmp i => if (fun _ : Int × String => False) i then etmp
        else mapInsert etmp ((fun i : Int × String => (if i.1 ≥ n then i.1 + 1 else i.1, i.2)) i))
        [] (RemoveLine.markers n m) := by
      apply foldl_mapInsert_complete
      · intro r hr; simp at hr
      · intro j hj _ hjk
        have hjk' : (if j.1 ≥ n then j.1 + 1 else j.1) = k := hjk
        obtain ⟨i, hi, _, hij⟩ := hR _ hj
        have h3 : (if i.1 > n then i.1 - 1 else i.1) = j.1 := congrArg Prod.fst hij
        have h4 : i.2 = j.2 := by rw [← hij]
        have h5 : i.1 = k := by
          rw [← h3] at hjk'
          split_ifs at hjk' <;> omega
        have hieq : i = (k, v) := eq_of_key_eq hm hi h h5
        have : j.2 = v := by rw [← h4, hieq]
        show ((if j.1 ≥ n then j.1 + 1 else j.1, j.2) : Int × String) = (k, v)
        rw [hjk', this]
      · refine Or.inr ⟨(k1, v), hmid, not_false, ?_⟩
        show ((if k1 ≥ n then k1 + 1 else k1, v) : Int × String) = (k, v)
        rw [hk2]
    simpa only [if_false] using this

/-! ## Line merge and undo, side tables only -/

/-- The loop of `GetCharacterIndex` on a line that starts with `A`, for a column
not beyond the end column of `A`: the loop returns and visits only glyphs of
`A`. -/
theorem GetCharacterIndex_loop_of_append_ok (T : Nat) (A B : Line) (column : Int) :
    ∀ (fuel i c : Nat), (A ++ B).length ≤ i + fuel →
      scanOK T 0 (A.drop i) = true →
      column ≤ ((scanMax (max T 1) 0 c (A.drop i) : Nat) : Int) →
      ∃ k : Nat, GetCharacterIndex.loop T (A ++ B) column fuel i c = Except.ok k := by
  intro fuel
  induction fuel with
  | zero =>
    intro i c _ _ _
    exact ⟨i, by simp [GetCharacterIndex.loop, pure, Except.pure]⟩
  | succ fuel ih =>
    intro i c hf hok hcol
    unfold GetCharacterIndex.loop
    by_cases hlt : i < A.length
    · have hgA : A[i]? = some A[i] := List.getElem?_eq_getElem hlt
      have hg : (A ++ B).get? i = some A[i] := by
        rw [List.get?_eq_getElem?, List.getElem?_append_left hlt, hgA]
      have hd : A.drop i = A[i] :: A.drop (i + 1) := List.drop_eq_getElem_cons hlt
      have hl := UTF8CharLength_pos A[i].mChar
      have e1 : i + 1 + (UTF8CharLength A[i].mChar - 1) = i + UTF8CharLength A[i].mChar := by
        omega
      rw [hd] at hok hcol
      obtain ⟨hok1, hok2⟩ := scanOK_cons _ _ hok
      rw [List.drop_drop, e1] at hok2
      rw [scanMax, scanMax_skip, List.drop_drop, e1] at hcol
      rw [hg]
      simp only []
      by_cases hc : (c : Int) < column
      · simp only [hc, if_true]
        by_cases h9 : A[i].mChar = 9
        · have hT := hok1 h9
          rw [if_pos h9]
          simp only [tabStop_ok hT, bind, Except.bind]
          rw [← colStep_tab hT c _ h9]
          exact ih _ _ (by omega) hok2 hcol
        · rw [if_neg h9]
          simp only [bind, Except.bind, pure, Except.pure]
          rw [← colStep_other (max T 1) c _ h9]
          exact ih _ _ (by omega) hok2 hcol
      · exact ⟨i, by simp [hc, pure, Except.pure]⟩
    · have hdA : A.drop i = [] := List.drop_eq_nil_iff.mpr (by omega)
      rw [hdA] at hcol
      simp only [scanMax] at hcol
      have hc : ¬ ((c : Int) < column) := by omega
      cases hg : (A ++ B).get? i with
      | none => exact ⟨i, by simp [pure, Except.pure]⟩
      | some g => exact ⟨i, by simp [hc, pure, Except.pure]⟩

/-- `GetCharacterIndex` on a line that starts with `A`, at a column not beyond
the end column of `A`, returns. -/
theorem GetCharacterIndex_ok_of_append (e : Editor) (l : Nat) (A B : Line)
    (h : e.mLines[l]? = some (A ++ B)) (hok : scanOK e.mTabSize 0 A = true) (column : Int)
    (hcol : column ≤ ((scanMax (max e.mTabSize 1) 0 0 A : Nat) : Int)) :
    ∃ k : Nat, GetCharacterIndex e ⟨(l : Int), column⟩ = Except.ok (k : Int) := by
  have hl := getElem?_lt_length h
  have h1 : ¬ ((l : Int) < 0 ∨ (l : Int) ≥ (e.mLines.length : Int)) := by omega
  obtain ⟨k, hk⟩ := GetCharacterIndex_loop_of_append_ok e.mTabSize A B column (A ++ B).length 0 0
    (by omega) (by simpa using hok) (by simpa using hcol)
  refine ⟨k, ?_⟩
  simp only [GetCharacterIndex, h1, if_false, vecAt_natCast _ _ _ h, bind, Except.bind, hk]
  simp [pure, Except.pure]

/-- `InsertTextAt` of a single line break, wherever the byte index of the
position lies: it returns, and the side tables are renumbered by one
`InsertLine` below the line of the position. -/
theorem InsertTextAt_newline_tables (x : Editor) (hro : x.mReadOnly = false)
    (P Q : List Line) (L : Line) (hlines : x.mLines = P ++ L :: Q) (col : Int) (k : Nat)
    (hidx : GetCharacterIndex x ⟨(P.length : Int), col⟩ = Except.ok (k : Int)) :
    ∃ r : Editor × Coordinates × Int,
      InsertTextAt x ⟨(P.length : Int), col⟩ [10] = Except.ok r ∧
      r.1.mErrorMarkers = InsertLine.markers ((P.length : Int) + 1) x.mErrorMarkers ∧
      r.1.mBreakpoints = InsertLine.breakpoints ((P.length : Int) + 1) x.mBreakpoints := by
  have hL : x.mLines[P.length]? = some L := by rw [hlines]; exact getElem?_split _ _ _
  have hl := getElem?_lt_length hL
  have hro' : ¬ (x.mReadOnly = true) := by simp [hro]
  have hne := isEmpty_false_of_getElem? hL
  have hcast : (P.length : Int) + 1 = ((P.length + 1 : Nat) : Int) := by push_cast; rfl
  have hIL := InsertLine_eq x hro (P.length + 1) (by omega)
  have h1 : ¬ ((10 : Nat) = 0) := by decide
  have h2 : ¬ ((10 : Nat) = 13) := by decide
  unfold InsertTextAt
  rw [if_neg hro']
  simp only [hidx, bind, Except.bind,
    List.length_singleton, InsertTextAt.loop, hne, Bool.false_eq_true, if_false,
    vecAt_natCast _ _ _ hL, hcast, hIL, h1, h2, if_true]
  rw [hlines, take_split_succ, drop_split_succ]
  simp only [List.append_assoc, List.singleton_append, List.cons_append, List.nil_append]
  by_cases hlt : (k : Int) < (L.length : Int)
  · have hv1 : vecAt (P ++ L :: [] :: Q) (P.length : Int) = Except.ok L :=
      vecAt_natCast _ _ _ (getElem?_split _ _ _)
    have hb1 : (0 : Int) ≤ (k : Int) ∧ (k : Int) ≤ (L.length : Int) := by omega
    have hb2 : (0 : Int) ≤ (k : Int) ∧ (k : Int) ≤ (L.length : Int) ∧
        (L.length : Int) ≤ (L.length : Int) := by omega
    have hs1 : vecSet (P ++ L :: [] :: Q) ((P.length + 1 : Nat) : Int) (L.drop k)
        = Except.ok (P ++ L :: L.drop k :: Q) := by
      have : (0 : Int) ≤ ((P.length + 1 : Nat) : Int) ∧
          ((P.length + 1 : Nat) : Int) < ((P ++ L :: [] :: Q).length : Int) := by
        simp
        omega
      simp only [vecSet, this, and_self, if_true, Int.toNat_ofNat, set_split_succ, pure,
        Except.pure]
    have hs2 : vecSet (P ++ L :: L.drop k :: Q) (P.length : Int) (L.take k ++ L.drop L.length)
        = Except.ok (P ++ (L.take k ++ L.drop L.length) :: L.drop k :: Q) := by
      have : (0 : Int) ≤ (P.length : Int) ∧
          (P.length : Int) < ((P ++ L :: L.drop k :: Q).length : Int) := by
        simp
        omega
      simp only [vecSet, this, and_self, if_true, Int.toNat_ofNat, set_split, pure, Except.pure]
    simp only [hlt, if_true, hv1, vecFrom, hb1, and_self, Int.toNat_ofNat, pure,
      Except.pure, hs1, vecErase, hb2, hs2]
    exact ⟨_, rfl, rfl, rfl⟩
  · simp only [hlt, if_false, pure, Except.pure]
    exact ⟨_, rfl, rfl, rfl⟩

/-- `Delete` at the end of a line that is not the last one, followed by
`Undo(1)`: both steps return, and the side tables have gone through the
renumbering of `RemoveLine` and then of `InsertLine`, both at the line below
the cursor. -/
theorem Delete_merge_then_undo_tables (e : Editor) (P Q : List Line) (A B : Line) (col : Int)
    (hro : e.mReadOnly = false) (hundo : 0 ≤ e.mUndoIndex)
    (hsel : HasSelection e = false)
    (hlines : e.mLines = P ++ A :: B :: Q)
    (hcur : e.mState.mCursorPosition = ⟨(P.length : Int), col⟩)
    (hend : GetLineMaxColumn e (P.length : Int) = Except.ok col) :
    ∃ e1 e2 : Editor,
      Delete e = Except.ok e1 ∧ Undo e1 1 = Except.ok e2 ∧
      e2.mErrorMarkers = InsertLine.markers ((P.length : Int) + 1)
        (RemoveLine.markers ((P.length : Int) + 1) e.mErrorMarkers) ∧
      e2.mBreakpoints = InsertLine.breakpoints ((P.length : Int) + 1)
        (RemoveLine.breakpoints ((P.length : Int) + 1) e.mBreakpoints) := by
  obtain ⟨e4, u, hE, h4lines, h4mk, h4bp, h4idx, h4T, h4ro, h4buf, hu1, hu2, hu3, hu4⟩ :=
    Delete_merge e P Q A B col hro hundo hsel hlines hcur hend
  have hA : e.mLines[P.length]? = some A := by rw [hlines]; exact getElem?_split _ _ _
  have hok : scanOK e.mTabSize 0 A = true := scanOK_of_GetLineMaxColumn e P.length A hA col hend
  rw [GetLineMaxColumn_eq e P.length A hA hok] at hend
  have hcol : col = ((scanMax (max e.mTabSize 1) 0 0 A : Nat) : Int) := by
    injection hend with h
    exact h.symm
  obtain ⟨x, hx0⟩ : ∃ x : Editor, x = { e4 with mUndoIndex := e4.mUndoIndex - 1 } := ⟨_, rfl⟩
  have hxT' : x.mTabSize = e.mTabSize := by rw [hx0]; exact h4T
  have hxro : x.mReadOnly = false := by rw [hx0]; exact h4ro
  have hxlines : x.mLines = P ++ (A ++ B) :: Q := by rw [hx0]; exact h4lines
  have hU : Undo e4 1 = u.Undo x := by
    rw [hx0]
    exact Undo_one _ u h4ro (by omega) h4buf
  have hxAB : x.mLines[P.length]? = some (A ++ B) := by
    rw [hxlines]
    exact getElem?_split _ _ _
  obtain ⟨k, hxidx⟩ := GetCharacterIndex_ok_of_append x P.length A B hxAB
    (by rw [hxT']; exact hok) col (by rw [hxT']; omega)
  obtain ⟨r, hI, hr1, hr2⟩ := InsertTextAt_newline_tables x hxro P Q (A ++ B) hxlines col k hxidx
  have hUndo : ∃ e2' : Editor, Undo e4 1 = Except.ok e2' ∧
      e2'.mErrorMarkers = r.1.mErrorMarkers ∧ e2'.mBreakpoints = r.1.mBreakpoints := by
    rw [hU]
    simp only [UndoRecord.Undo, hu1, hu2, hu3, hu4, List.isEmpty_nil, not_true_eq_false, if_false,
      List.isEmpty_cons, Bool.false_eq_true, not_false_eq_true, if_true, hI, bind, Except.bind,
      pure, Except.pure]
    exact ⟨_, rfl, rfl, rfl⟩
  obtain ⟨e2', hU2, hm2, hb2⟩ := hUndo
  have hxmk : x.mErrorMarkers = e4.mErrorMarkers := by rw [hx0]
  have hxbp : x.mBreakpoints = e4.mBreakpoints := by rw [hx0]
  rw [hr1, hxmk, h4mk] at hm2
  rw [hr2, hxbp, h4bp] at hb2
  exact ⟨e4, e2', hE, hU2, hm2, hb2⟩

/-! ## C5: the side tables after a line merge and its undo -/

/-- C5 (as amended): for a non-read-only editor with a non-negative undo
index, no selection and an error-marker map without a repeated key, whose lines
are `P ++ A :: B :: Q` (so line `i = |P|` is not the last line), with the cursor
at the end of line `i` (column `GetLineMaxColumn(i)`): `Delete()` and then
`Undo(1)` both return; afterwards the breakpoint set holds exactly the original
breakpoints other than the number `i + 1`, each with its number unchanged (the
breakpoint numbered `i + 1` is dropped), and the error-marker entries with a
key `≤ i` or `≥ i + 4` are exactly the original entries with such a key. -/
theorem C5_side_tables_after_merge_and_undo (e : Editor) (P Q : List Line) (A B : Line)
    (col : Int)
    (hro : e.mReadOnly = false) (hundo : 0 ≤ e.mUndoIndex)
    (hsel : HasSelection e = false)
    (hlines : e.mLines = P ++ A :: B :: Q)
    (hcur : e.mState.mCursorPosition = ⟨(P.length : Int), col⟩)
    (hend : GetLineMaxColumn e (P.length : Int) = Except.ok col)
    (hmk : (e.mErrorMarkers.map Prod.fst).Nodup) :
    ∃ e1 e2 : Editor,
      Delete e = Except.ok e1 ∧ Undo e1 1 = Except.ok e2 ∧
      (∀ b : Int, b ∈ e2.mBreakpoints ↔ (b ∈ e.mBreakpoints ∧ b ≠ (P.length : Int) + 1)) ∧
      (∀ (k : Int) (v : String), (k ≤ (P.length : Int) ∨ (P.length : Int) + 4 ≤ k) →
        ((k, v) ∈ e2.mErrorMarkers ↔ (k, v) ∈ e.mErrorMarkers)) := by
  obtain ⟨e1, e2, h1, h2, hm, hb⟩ :=
    Delete_merge_then_undo_tables e P Q A B col hro hundo hsel hlines hcur hend
  refine ⟨e1, e2, h1, h2, ?_, ?_⟩
  · intro b
    rw [hb]
    exact mem_breakpoints_remove_insert _ _ _
  · intro k v hk
    rw [hm]
    exact mem_markers_remove_insert _ _ hmk k v (by omega)

/-- C5 (witness): the lines `"foo"`, `"bar"` with the cursor at (0,3), error
markers on 0 and 5 and breakpoints 0, 1 and 2. -/
theorem C5_side_tables_after_merge_and_undo_witness :
    ∃ e1 e2 : Editor,
      Delete { mkEditor [[102, 111, 111], [98, 97, 114]] ⟨0, 3⟩ with
          mErrorMarkers := [(0, "a"), (5, "b")], mBreakpoints := [0, 1, 2] } = Except.ok e1 ∧
      Undo e1 1 = Except.ok e2 ∧
      (∀ b : Int, b ∈ e2.mBreakpoints ↔
        (b ∈ ([0, 1, 2] : List Int) ∧ b ≠ (([] : List Line).length : Int) + 1)) ∧
      (∀ (k : Int) (v : String),
        (k ≤ (([] : List Line).length : Int) ∨ (([] : List Line).length : Int) + 4 ≤ k) →
        ((k, v) ∈ e2.mErrorMarkers ↔ (k, v) ∈ ([(0, "a"), (5, "b")] : List (Int × String)))) :=
  C5_side_tables_after_merge_and_undo
    { mkEditor [[102, 111, 111], [98, 97, 114]] ⟨0, 3⟩ with
        mErrorMarkers := [(0, "a"), (5, "b")], mBreakpoints := [0, 1, 2] }
    [] [] (mkLine [102, 111, 111]) (mkLine [98, 97, 114]) 3
    (by rfl) (by decide) (by rfl) (by rfl) (by rfl) (by rfl) (by decide)

/-- C5 (counterexample to the claim as stated): the lines `"foo"`, `"bar"` with
no selection, the cursor at (0,3) = end of line 0, one error marker on 1 and one
breakpoint on 1: after `Delete()` and `Undo(1)` the lines are the original
ones, but the error marker is on 2 and the breakpoint set is empty. -/
theorem C5_side_tables_counterexample :
    GetLineMaxColumn { mkEditor [[102, 111, 111], [98, 97, 114]] ⟨0, 3⟩ with
        mErrorMarkers := [(1, "e")], mBreakpoints := [1] } 0 = Except.ok 3 ∧
    HasSelection { mkEditor [[102, 111, 111], [98, 97, 114]] ⟨0, 3⟩ with
        mErrorMarkers := [(1, "e")], mBreakpoints := [1] } = false ∧
    ((Delete { mkEditor [[102, 111, 111], [98, 97, 114]] ⟨0, 3⟩ with
        mErrorMarkers := [(1, "e")], mBreakpoints := [1] }) >>= fun e1 => Undo e1 1).map
      (fun e2 => (e2.bytes, e2.mErrorMarkers, e2.mBreakpoints))
      = Except.ok ([[102, 111, 111], [98, 97, 114]], [(2, "e")], []) := by
  refine ⟨by rfl, by rfl, by rfl⟩

/-! ## C9: `Delete` in front of a three-byte character, at tab size 0 -/

/-- C9 (evaluation at the failing input): after `SetTabSize(0)` the tab size is
0; in the one-line document `"€\t"` (bytes `E2 82 AC 09`) with no selection and
the cursor at (0,0), the column where the three-byte character starts,
`Delete()` does not remove the character: the end-column scan of the line
divides by the tab size at the tab. With tab size 1 the same `Delete()` leaves
the line `"\t"`. -/
theorem C9_delete_three_byte_character_tab_size_zero :
    (SetTabSize (SetText constructed [226, 130, 172, 9]) 0).mTabSize = 0 ∧
    (SetTabSize (SetText constructed [226, 130, 172, 9]) 0).bytes = [[226, 130, 172, 9]] ∧
    HasSelection (SetTabSize (SetText constructed [226, 130, 172, 9]) 0) = false ∧
    (SetTabSize (SetText constructed [226, 130, 172, 9]) 0).mState.mCursorPosition = ⟨0, 0⟩ ∧
    GetCharacterColumn (SetTabSize (SetText constructed [226, 130, 172, 9]) 0) 0 0
      = Except.ok 0 ∧
    Delete (SetTabSize (SetText constructed [226, 130, 172, 9]) 0)
      = Except.error Fault.divByZero ∧
    (Delete (SetTabSize (SetText constructed [226, 130, 172, 9]) 1)).map Editor.bytes
      = Except.ok [[9]] := by
  refine ⟨by rfl, by rfl, by rfl, by rfl, by rfl, by rfl, by rfl⟩

/-! ## C10: `SetSelection` in word mode -/

/-- C10 (evaluation at the failing input): in the one-line document `"a\ta"`
(tab size 4) with the colorizer disabled, `SetSelection((0,2), (0,2), Word)`
stores the selection start (0,4) and the selection end (0,2): the start lies
after the end in (line, column) order. -/
theorem C10_set_selection_word_mode_start_after_end :
    (SetSelection (SetColorizerEnable (SetText constructed [97, 9, 97]) false) ⟨0, 2⟩ ⟨0, 2⟩
        SelectionMode.Word).map (fun e => (e.mState.mSelectionStart, e.mState.mSelectionEnd))
      = Except.ok ((⟨0, 4⟩ : Coordinates), (⟨0, 2⟩ : Coordinates)) ∧
    Coordinates.le ⟨0, 4⟩ ⟨0, 2⟩ = false ∧
    Coordinates.gt ⟨0, 4⟩ ⟨0, 2⟩ = true := by
  refine ⟨by rfl, by rfl, by rfl⟩

/-! ## C11: `SanitizeCoordinates` clamps into the document -/

/-- `GetLineMaxColumn` never returns a negative column. -/
theorem GetLineMaxColumn_nonneg (e : Editor) (l m : Int)
    (h : GetLineMaxColumn e l = Except.ok m) : 0 ≤ m := by
  unfold GetLineMaxColumn at h
  split_ifs at h with h1
  · cases h
    exact le_refl _
  · simp only [bind, Except.bind] at h
    cases hv : vecAt e.mLines l with
    | error f => rw [hv] at h; cases h
    | ok line =>
      rw [hv] at h
      simp only [] at h
      cases hc : GetLineMaxColumn.loop e.mTabSize line line.length 0 0 with
      | error f => rw [hc] at h; cases h
      | ok col =>
        rw [hc] at h
        cases h
        exact Int.ofNat_nonneg _

/-- C11: for a document with at least one line and a position `pos` with a
non-negative line and column, where `m` is the value of `GetLineMaxColumn` on
the line `min(pos.line, lineCount - 1)`: `SanitizeCoordinates(pos)` returns a
position `r` whose line is that line, within `[0, lineCount - 1]`, whose
column is within `[0, GetLineMaxColumn(r.line)]`, and `r = pos` when `pos`
already satisfies both bounds. -/
theorem C11_sanitize_coordinates_clamps (e : Editor) (pos : Coordinates) (m : Int)
    (hne : 1 ≤ e.mLines.length) (hl : 0 ≤ pos.mLine) (hc : 0 ≤ pos.mColumn)
    (hm : GetLineMaxColumn e (min pos.mLine ((e.mLines.length : Int) - 1)) = Except.ok m) :
    ∃ r : Coordinates, SanitizeCoordinates e pos = Except.ok r ∧
      0 ≤ r.mLine ∧ r.mLine ≤ (e.mLines.length : Int) - 1 ∧
      GetLineMaxColumn e r.mLine = Except.ok m ∧
      0 ≤ r.mColumn ∧ r.mColumn ≤ m ∧
      (pos.mLine ≤ (e.mLines.length : Int) - 1 → pos.mColumn ≤ m → r = pos) := by
  have hm0 := GetLineMaxColumn_nonneg e _ m hm
  have hemp : e.mLines.isEmpty = false := by
    cases hls : e.mLines with
    | nil => rw [hls] at hne; simp at hne
    | cons a t => rfl
  unfold SanitizeCoordinates
  by_cases hge : pos.mLine ≥ (e.mLines.length : Int)
  · have hmin : min pos.mLine ((e.mLines.length : Int) - 1) = (e.mLines.length : Int) - 1 := by
      omega
    rw [hmin] at hm
    simp only [hge, if_true, hemp, Bool.false_eq_true, if_false, hm, bind, Except.bind, pure,
      Except.pure]
    refine ⟨_, rfl, by show (0 : Int) ≤ (e.mLines.length : Int) - 1; omega, le_refl _, hm, hm0,
      le_refl _, ?_⟩
    intro h1
    omega
  · have hmin : min pos.mLine ((e.mLines.length : Int) - 1) = pos.mLine := by omega
    rw [hmin] at hm
    simp only [hge, if_false, hemp, Bool.false_eq_true, hm, bind, Except.bind, pure, Except.pure]
    refine ⟨_, rfl, hl, by show pos.mLine ≤ (e.mLines.length : Int) - 1; omega, hm, ?_, ?_, ?_⟩
    · show 0 ≤ min pos.mColumn m
      omega
    · show min pos.mColumn m ≤ m
      omega
    · intro _ h2
      have : min pos.mColumn m = pos.mColumn := by omega
      rw [this]

/-- C11 (witness): the lines `"a\tb"`, `"cd"` and the position (5, 9), clamped
to (1, 2). -/
theorem C11_sanitize_coordinates_clamps_witness :
    ∃ r : Coordinates,
      SanitizeCoordinates (mkEditor [[97, 9, 98], [99, 100]] ⟨0, 0⟩) ⟨5, 9⟩ = Except.ok r ∧
      0 ≤ r.mLine ∧
      r.mLine ≤ ((mkEditor [[97, 9, 98], [99, 100]] ⟨0, 0⟩).mLines.length : Int) - 1 ∧
      GetLineMaxColumn (mkEditor [[97, 9, 98], [99, 100]] ⟨0, 0⟩) r.mLine = Except.ok 2 ∧
      0 ≤ r.mColumn ∧ r.mColumn ≤ 2 ∧
      ((⟨5, 9⟩ : Coordinates).mLine
          ≤ ((mkEditor [[97, 9, 98], [99, 100]] ⟨0, 0⟩).mLines.length : Int) - 1 →
        (⟨5, 9⟩ : Coordinates).mColumn ≤ 2 → r = ⟨5, 9⟩) :=
  C11_sanitize_coordinates_clamps (mkEditor [[97, 9, 98], [99, 100]] ⟨0, 0⟩) ⟨5, 9⟩ 2
    (by decide) (by decide) (by decide) (by rfl)

/-! ## C16: `AddUndo` truncates the undone tail -/

/-- C16: for a non-read-only editor whose undo log has length `n` and whose
undo index `i` satisfies `0 ≤ i ≤ n`, and every record `r`: `AddUndo(r)`
returns; the log then has length `i + 1`, its first `i` records are the first
`i` records of the old log, its last record is `r`, the index is `i + 1`, and
`CanRedo()` is false. -/
theorem C16_add_undo_truncates_and_appends (e : Editor) (r : UndoRecord)
    (hro : e.mReadOnly = false) (h0 : 0 ≤ e.mUndoIndex)
    (hn : e.mUndoIndex ≤ (e.mUndoBuffer.length : Int)) :
    ∃ e1 : Editor, AddUndo e r = Except.ok e1 ∧
      (e1.mUndoBuffer.length : Int) = e.mUndoIndex + 1 ∧
      e1.mUndoBuffer.take e.mUndoIndex.toNat = e.mUndoBuffer.take e.mUndoIndex.toNat ∧
      e1.mUndoBuffer.getLast? = some r ∧
      e1.mUndoIndex = e.mUndoIndex + 1 ∧
      CanRedo e1 = false := by
  have hlen : (e.mUndoBuffer.take e.mUndoIndex.toNat).length = e.mUndoIndex.toNat := by
    rw [List.length_take]
    omega
  have hrep : e.mUndoIndex.toNat - (e.mUndoBuffer.take e.mUndoIndex.toNat).length = 0 := by
    rw [hlen]
    omega
  rw [AddUndo_eq e r hro h0, hrep]
  refine ⟨_, rfl, ?_, ?_, ?_, rfl, ?_⟩
  · show (((e.mUndoBuffer.take e.mUndoIndex.toNat ++ List.replicate 0 ({} : UndoRecord))
      ++ [r]).length : Int) = _
    simp only [List.replicate_zero, List.append_nil, List.length_append, List.length_singleton,
      hlen]
    omega
  · show ((e.mUndoBuffer.take e.mUndoIndex.toNat ++ List.replicate 0 ({} : UndoRecord))
      ++ [r]).take e.mUndoIndex.toNat = _
    simp only [List.replicate_zero, List.append_nil]
    rw [List.take_append_of_le_length (by omega)]
    rw [List.take_take, min_self]
  · show ((e.mUndoBuffer.take e.mUndoIndex.toNat ++ List.replicate 0 ({} : UndoRecord))
      ++ [r]).getLast? = _
    simp
  · show (!e.mReadOnly && decide (e.mUndoIndex + 1 <
      (((e.mUndoBuffer.take e.mUndoIndex.toNat ++ List.replicate 0 ({} : UndoRecord))
        ++ [r]).length : Int))) = false
    simp only [List.replicate_zero, List.append_nil, List.length_append, List.length_singleton,
      hlen]
    have : ¬ (e.mUndoIndex + 1 < ((e.mUndoIndex.toNat + 1 : Nat) : Int)) := by omega
    rw [decide_eq_false this, Bool.and_false]

/-- C16 (witness): a log of two default records with index 1; the record with
`mAdded = "x"` is added. -/
theorem C16_add_undo_truncates_and_appends_witness :
    ∃ e1 : Editor,
      AddUndo { mkEditor [[97]] ⟨0, 0⟩ with mUndoBuffer := [{}, {}], mUndoIndex := 1 }
        { mAdded := [120] } = Except.ok e1 ∧
      (e1.mUndoBuffer.length : Int) = 1 + 1 ∧
      e1.mUndoBuffer.take (1 : Int).toNat = ([{}, {}] : List UndoRecord).take (1 : Int).toNat ∧
      e1.mUndoBuffer.getLast? = some { mAdded := [120] } ∧
      e1.mUndoIndex = 1 + 1 ∧
      CanRedo e1 = false :=
  C16_add_undo_truncates_and_appends
    { mkEditor [[97]] ⟨0, 0⟩ with mUndoBuffer := [{}, {}], mUndoIndex := 1 }
    { mAdded := [120] } (by rfl) (by decide) (by decide)

/-! ## Sanitized positions -/

/-- With a tab size of at least 1, `GetLineMaxColumn` returns on every line
number. -/
theorem GetLineMaxColumn_total (e : Editor) (hT : 1 ≤ e.mTabSize) (l : Int) :
    ∃ m : Int, GetLineMaxColumn e l = Except.ok m := by
  by_cases h1 : l < 0 ∨ l ≥ (e.mLines.length : Int)
  · exact ⟨0, by simp [GetLineMaxColumn, h1, pure, Except.pure]⟩
  · obtain ⟨n, hn⟩ : ∃ n : Nat, l = (n : Int) := ⟨l.toNat, by omega⟩
    subst hn
    have hlt : n < e.mLines.length := by omega
    have hline : e.mLines[n]? = some e.mLines[n] := List.getElem?_eq_getElem hlt
    exact ⟨_, GetLineMaxColumn_eq e n _ hline (scanOK_of_pos hT _ 0)⟩

/-- When `GetLineMaxColumn` returns for a line number, `GetCharacterIndex`
returns for every position of that line number. -/
theorem GetCharacterIndex_ok_of_GetLineMaxColumn (e : Editor) (l m : Int)
    (h : GetLineMaxColumn e l = Except.ok m) (column : Int) :
    ∃ ci : Int, GetCharacterIndex e ⟨l, column⟩ = Except.ok ci := by
  by_cases h1 : l < 0 ∨ l ≥ (e.mLines.length : Int)
  · exact ⟨-1, by simp [GetCharacterIndex, h1, pure, Except.pure]⟩
  · obtain ⟨n, hn⟩ : ∃ n : Nat, l = (n : Int) := ⟨l.toNat, by omega⟩
    subst hn
    have hlt : n < e.mLines.length := by omega
    have hline : e.mLines[n]? = some e.mLines[n] := List.getElem?_eq_getElem hlt
    have hok := scanOK_of_GetLineMaxColumn e n _ hline m h
    exact ⟨_, GetCharacterIndex_eq e n _ hline hok column⟩

/-- What `SanitizeCoordinates` returns is a fixed point of it, and
`GetLineMaxColumn` returns on its line number. -/
theorem SanitizeCoordinates_result (e : Editor) (p r : Coordinates)
    (h : SanitizeCoordinates e p = Except.ok r) :
    SanitizeCoordinates e r = Except.ok r ∧ ∃ n : Int, GetLineMaxColumn e r.mLine = Except.ok n := by
  unfold SanitizeCoordinates at h
  by_cases hge : p.mLine ≥ (e.mLines.length : Int)
  · rw [if_pos hge] at h
    cases hemp : e.mLines.isEmpty with
    | true =>
      have hnil : e.mLines = [] := List.isEmpty_iff.mp hemp
      rw [hemp] at h
      simp only [if_true, pure, Except.pure] at h
      injection h with h
      subst h
      constructor
      · simp [SanitizeCoordinates, hnil, pure, Except.pure]
      · exact ⟨0, by simp [GetLineMaxColumn, hnil, pure, Except.pure]⟩
    | false =>
      rw [hemp] at h
      simp only [Bool.false_eq_true, if_false, bind, Except.bind] at h
      cases hm : GetLineMaxColumn e ((e.mLines.length : Int) - 1) with
      | error f => rw [hm] at h; cases h
      | ok m =>
        rw [hm] at h
        simp only [pure, Except.pure] at h
        injection h with h
        subst h
        have hlt : ¬ ((e.mLines.length : Int) - 1 ≥ (e.mLines.length : Int)) := by omega
        constructor
        · simp only [SanitizeCoordinates, hlt, if_false, hemp, Bool.false_eq_true, hm, bind,
            Except.bind, pure, Except.pure, min_self]
        · exact ⟨m, hm⟩
  · rw [if_neg hge] at h
    cases hemp : e.mLines.isEmpty with
    | true =>
      have hnil : e.mLines = [] := List.isEmpty_iff.mp hemp
      rw [hemp] at h
      simp only [if_true, pure, Except.pure] at h
      injection h with h
      subst h
      rw [hnil] at hge
      have hneg : ¬ (p.mLine ≥ ((([] : List Line).length : Nat) : Int)) := hge
      constructor
      · simp only [SanitizeCoordinates, hnil, hneg, if_false, List.isEmpty_nil, if_true, pure,
          Except.pure]
      · refine ⟨0, ?_⟩
        have : p.mLine < 0 := by simpa using hneg
        simp [GetLineMaxColumn, this, pure, Except.pure]
    | false =>
      rw [hemp] at h
      simp only [Bool.false_eq_true, if_false, bind, Except.bind] at h
      cases hm : GetLineMaxColumn e p.mLine with
      | error f => rw [hm] at h; cases h
      | ok m =>
        rw [hm] at h
        simp only [pure, Except.pure] at h
        injection h with h
        subst h
        constructor
        · simp only [SanitizeCoordinates, hge, if_false, hemp, Bool.false_eq_true, hm, bind,
            Except.bind, pure, Except.pure]
          have : min (min p.mColumn m) m = min p.mColumn m := by omega
          rw [this]
        · exact ⟨m, hm⟩

/-- With a tab size of at least 1, `SanitizeCoordinates` returns. -/
theorem SanitizeCoordinates_total (e : Editor) (hT : 1 ≤ e.mTabSize) (p : Coordinates) :
    ∃ r : Coordinates, SanitizeCoordinates e p = Except.ok r := by
  unfold SanitizeCoordinates
  obtain ⟨m1, hm1⟩ := GetLineMaxColumn_total e hT ((e.mLines.length : Int) - 1)
  obtain ⟨m2, hm2⟩ := GetLineMaxColumn_total e hT p.mLine
  simp only [hm1, hm2, bind, Except.bind, pure, Except.pure]
  split_ifs <;> exact ⟨_, rfl⟩

/-- `SetSelection` in normal mode with both ends at one sanitized position. -/
theorem SetSelection_collapsed (e : Editor) (p : Coordinates)
    (h : SanitizeCoordinates e p = Except.ok p) :
    SetSelection e p p SelectionMode.Normal = Except.ok
      { e with mState := { e.mState with mSelectionStart := p, mSelectionEnd := p } } := by
  have hgt : p.gt p = false := by
    simp [Coordinates.gt]
  simp only [SetSelection, h, bind, Except.bind, hgt, Bool.false_eq_true, if_false, pure,
    Except.pure]

/-! ## C17: the mutating operations in read-only mode -/

/-- C17 (as amended): with read-only mode enabled, `EnterCharacter`, `Delete`
and `Backspace` stop at their assertion; `InsertText` with a non-null text
never returns normally and stops at the assertion of `InsertTextAt` whenever
the cursor can be sanitized (as with every tab size of at least 1); `Cut` only
copies and returns the editor unchanged whenever `Copy` returns; `Paste`
returns at once with the editor unchanged. -/
theorem C17_read_only_operations (e : Editor) (hro : e.mReadOnly = true) :
    (∀ (aChar : Nat) (aShift : Bool), EnterCharacter e aChar aShift = Except.error Fault.assertion) ∧
    Delete e = Except.error Fault.assertion ∧
    Backspace e = Except.error Fault.assertion ∧
    (∀ t : List Nat, ∃ f : Fault, InsertText e (some t) = Except.error f) ∧
    (∀ (t : List Nat) (pos : Coordinates), GetActualCursorCoordinates e = Except.ok pos →
      InsertText e (some t) = Except.error Fault.assertion) ∧
    (∀ t : List Nat, 1 ≤ e.mTabSize → InsertText e (some t) = Except.error Fault.assertion) ∧
    Cut e = (Copy e >>= fun _ => pure e) ∧
    (∀ clipText : Option (List Nat), Paste e clipText = Except.ok e) := by
  have hI : ∀ (t : List Nat) (pos : Coordinates), GetActualCursorCoordinates e = Except.ok pos →
      InsertText e (some t) = Except.error Fault.assertion := by
    intro t pos hpos
    simp only [InsertText, hpos, bind, Except.bind, InsertTextAt, hro, if_true]
  refine ⟨?_, ?_, ?_, ?_, hI, ?_, ?_, ?_⟩
  · intro aChar aShift
    simp only [EnterCharacter, hro, if_true]
    rfl
  · simp only [Delete, hro, if_true]
    rfl
  · simp only [Backspace, hro, if_true]
    rfl
  · intro t
    cases hpos : GetActualCursorCoordinates e with
    | error f =>
      refine ⟨f, ?_⟩
      simp only [InsertText, hpos, bind, Except.bind]
    | ok pos => exact ⟨_, hI t pos hpos⟩
  · intro t hT
    obtain ⟨pos, hpos⟩ := SanitizeCoordinates_total e hT e.mState.mCursorPosition
    exact hI t pos hpos
  · simp only [Cut, hro, if_true]
  · intro clipText
    simp only [Paste, hro, if_true]
    rfl

/-- C17 (witness): the read-only editor holding the line `"a"`. -/
theorem C17_read_only_operations_witness :
    (∀ (aChar : Nat) (aShift : Bool),
      EnterCharacter (SetReadOnly (mkEditor [[97]] ⟨0, 0⟩) true) aChar aShift
        = Except.error Fault.assertion) ∧
    Delete (SetReadOnly (mkEditor [[97]] ⟨0, 0⟩) true) = Except.error Fault.assertion ∧
    Backspace (SetReadOnly (mkEditor [[97]] ⟨0, 0⟩) true) = Except.error Fault.assertion ∧
    (∀ t : List Nat, ∃ f : Fault,
      InsertText (SetReadOnly (mkEditor [[97]] ⟨0, 0⟩) true) (some t) = Except.error f) ∧
    (∀ (t : List Nat) (pos : Coordinates),
      GetActualCursorCoordinates (SetReadOnly (mkEditor [[97]] ⟨0, 0⟩) true) = Except.ok pos →
      InsertText (SetReadOnly (mkEditor [[97]] ⟨0, 0⟩) true) (some t)
        = Except.error Fault.assertion) ∧
    (∀ t : List Nat, 1 ≤ (SetReadOnly (mkEditor [[97]] ⟨0, 0⟩) true).mTabSize →
      InsertText (SetReadOnly (mkEditor [[97]] ⟨0, 0⟩) true) (some t)
        = Except.error Fault.assertion) ∧
    Cut (SetReadOnly (mkEditor [[97]] ⟨0, 0⟩) true)
      = (Copy (SetReadOnly (mkEditor [[97]] ⟨0, 0⟩) true) >>= fun _ =>
          pure (SetReadOnly (mkEditor [[97]] ⟨0, 0⟩) true)) ∧
    (∀ clipText : Option (List Nat),
      Paste (SetReadOnly (mkEditor [[97]] ⟨0, 0⟩) true) clipText
        = Except.ok (SetReadOnly (mkEditor [[97]] ⟨0, 0⟩) true)) :=
  C17_read_only_operations (SetReadOnly (mkEditor [[97]] ⟨0, 0⟩) true) (by rfl)

/-- C17 (counterexample to the claim as stated): in the read-only editor
holding the line `"ab"` with the selection (0,0)..(0,1), `Cut()` and
`Paste()` (clipboard `"x"`) return normally, leaving the editor as it was. -/
theorem C17_read_only_cut_paste_counterexample :
    (SetReadOnly (mkEditor [[97, 98]] ⟨0, 0⟩) true).mReadOnly = true ∧
    Cut { SetReadOnly (mkEditor [[97, 98]] ⟨0, 0⟩) true with
        mState := ⟨⟨0, 0⟩, ⟨0, 1⟩, ⟨0, 1⟩⟩ }
      = Except.ok { SetReadOnly (mkEditor [[97, 98]] ⟨0, 0⟩) true with
        mState := ⟨⟨0, 0⟩, ⟨0, 1⟩, ⟨0, 1⟩⟩ } ∧
    Paste { SetReadOnly (mkEditor [[97, 98]] ⟨0, 0⟩) true with
        mState := ⟨⟨0, 0⟩, ⟨0, 1⟩, ⟨0, 1⟩⟩ } (some [120])
      = Except.ok { SetReadOnly (mkEditor [[97, 98]] ⟨0, 0⟩) true with
        mState := ⟨⟨0, 0⟩, ⟨0, 1⟩, ⟨0, 1⟩⟩ } := by
  refine ⟨by rfl, by rfl, by rfl⟩

/-! ## C18: `InsertText` of a zero-length string -/

/-- `InsertTextAt` of the empty text changes nothing and counts no line. -/
theorem InsertTextAt_nil (e : Editor) (hro : e.mReadOnly = false) (p : Coordinates) (ci : Int)
    (h : GetCharacterIndex e p = Except.ok ci) :
    InsertTextAt e p [] = Except.ok (e, p, 0) := by
  have hro' : ¬ (e.mReadOnly = true) := by simp [hro]
  unfold InsertTextAt
  rw [if_neg hro']
  simp only [h, bind, Except.bind, List.length_nil, InsertTextAt.loop, pure, Except.pure]

/-- C18 (as amended): for a non-read-only editor whose cursor sanitizes to
`pos`, `InsertText("")` returns; the lines and the undo log (contents and
index) are unchanged; the cursor, the selection start and the selection end
all become `pos` (an active selection is collapsed); so the editor state is
unchanged exactly when cursor and both selection ends were `pos` already. -/
theorem C18_insert_empty_text (e : Editor) (pos : Coordinates)
    (hro : e.mReadOnly = false)
    (hpos : GetActualCursorCoordinates e = Except.ok pos) :
    ∃ e1 : Editor, InsertText e (some []) = Except.ok e1 ∧
      e1.mLines = e.mLines ∧ e1.mUndoBuffer = e.mUndoBuffer ∧ e1.mUndoIndex = e.mUndoIndex ∧
      e1.mState = ⟨pos, pos, pos⟩ ∧
      (e1.mState = e.mState ↔
        (e.mState.mCursorPosition = pos ∧ e.mState.mSelectionStart = pos ∧
          e.mState.mSelectionEnd = pos)) := by
  obtain ⟨hfix, n, hn⟩ := SanitizeCoordinates_result e _ pos hpos
  obtain ⟨ci, hci⟩ := GetCharacterIndex_ok_of_GetLineMaxColumn e pos.mLine n hn pos.mColumn
  have hI := InsertTextAt_nil e hro pos ci hci
  have hS := SetSelection_collapsed e pos hfix
  have hE : ∃ e1 : Editor, InsertText e (some []) = Except.ok e1 ∧
      e1.mLines = e.mLines ∧ e1.mUndoBuffer = e.mUndoBuffer ∧ e1.mUndoIndex = e.mUndoIndex ∧
      e1.mState = ⟨pos, pos, pos⟩ := by
    simp only [InsertText, hpos, bind, Except.bind, hI, hS, SetCursorPosition_eq, pure,
      Except.pure]
    exact ⟨_, rfl, rfl, rfl, rfl, rfl⟩
  obtain ⟨e1, h1, h2, h3, h4, h5⟩ := hE
  refine ⟨e1, h1, h2, h3, h4, h5, ?_⟩
  rw [h5]
  constructor
  · intro h
    rw [← h]
    exact ⟨rfl, rfl, rfl⟩
  · rintro ⟨ha, hb, hc⟩
    cases hst : e.mState with
    | mk s t c =>
      rw [hst] at ha hb hc
      simp only [] at ha hb hc
      rw [ha, hb, hc]

/-- C18 (witness): the line `"ab"` with the selection (0,0)..(0,2) and the
cursor at (0,2). -/
theorem C18_insert_empty_text_witness :
    ∃ e1 : Editor,
      InsertText { mkEditor [[97, 98]] ⟨0, 2⟩ with mState := ⟨⟨0, 0⟩, ⟨0, 2⟩, ⟨0, 2⟩⟩ } (some [])
        = Except.ok e1 ∧
      e1.mLines = (mkEditor [[97, 98]] ⟨0, 2⟩).mLines ∧
      e1.mUndoBuffer = (mkEditor [[97, 98]] ⟨0, 2⟩).mUndoBuffer ∧
      e1.mUndoIndex = (mkEditor [[97, 98]] ⟨0, 2⟩).mUndoIndex ∧
      e1.mState = ⟨⟨0, 2⟩, ⟨0, 2⟩, ⟨0, 2⟩⟩ ∧
      (e1.mState = (⟨⟨0, 0⟩, ⟨0, 2⟩, ⟨0, 2⟩⟩ : EditorState) ↔
        ((⟨0, 2⟩ : Coordinates) = ⟨0, 2⟩ ∧ (⟨0, 0⟩ : Coordinates) = ⟨0, 2⟩ ∧
          (⟨0, 2⟩ : Coordinates) = ⟨0, 2⟩)) :=
  C18_insert_empty_text
    { mkEditor [[97, 98]] ⟨0, 2⟩ with mState := ⟨⟨0, 0⟩, ⟨0, 2⟩, ⟨0, 2⟩⟩ } ⟨0, 2⟩
    (by rfl) (by rfl)

/-- C18 (counterexample to the claim as stated): in the non-read-only editor
holding the line `"ab"` with the active selection (0,0)..(0,2) and the cursor
at (0,2), `InsertText("")` leaves the selection start at (0,2), not (0,0). -/
theorem C18_insert_empty_text_counterexample :
    HasSelection { mkEditor [[97, 98]] ⟨0, 2⟩ with mState := ⟨⟨0, 0⟩, ⟨0, 2⟩, ⟨0, 2⟩⟩ } = true ∧
    (InsertText { mkEditor [[97, 98]] ⟨0, 2⟩ with mState := ⟨⟨0, 0⟩, ⟨0, 2⟩, ⟨0, 2⟩⟩ }
        (some [])).map (fun e1 => (e1.bytes, e1.mState))
      = Except.ok ([[97, 98]], (⟨⟨0, 2⟩, ⟨0, 2⟩, ⟨0, 2⟩⟩ : EditorState)) := by
  refine ⟨by rfl, by rfl⟩

/-! ## The loop of `GetText` -/

/-- The loop of `GetText` on a line before the end line: the rest of the line
and a line break are appended, and the loop goes on at the next line. -/
theorem GetText_loop_line (lines : List Line) (lend iend : Int) (l : Nat) (L : Line)
    (hL : lines[l]? = some L) (hl : (l : Int) < lend) :
    ∀ (k i fuel : Nat) (res : List Nat), L.length - i = k → k + 1 ≤ fuel →
      GetText.loop lines lend iend fuel (l : Int) (i : Int) res
        = GetText.loop lines lend iend (fuel - (k + 1)) ((l : Int) + 1) 0
            (res ++ (L.drop i).map (fun g => g.mChar) ++ [10]) := by
  have hlt := getElem?_lt_length hL
  have hn : ¬ ((l : Int) ≥ (lines.length : Int)) := by omega
  intro k
  induction k with
  | zero =>
    intro i fuel res hk hf
    obtain ⟨f, rfl⟩ : ∃ f, fuel = f + 1 := ⟨fuel - 1, by omega⟩
    have hi : ¬ ((i : Int) < (L.length : Int)) := by omega
    have hd : L.drop i = [] := List.drop_eq_nil_iff.mpr (by omega)
    rw [GetText.loop]
    simp only [Or.inr hl, if_true, hn, if_false, vecAt_natCast _ _ _ hL, bind, Except.bind, hi, hd,
      List.map_nil, List.append_nil]
    rfl
  | succ k ih =>
    intro i fuel res hk hf
    obtain ⟨f, rfl⟩ : ∃ f, fuel = f + 1 := ⟨fuel - 1, by omega⟩
    have hi : (i : Int) < (L.length : Int) := by omega
    have hiL : i < L.length := by omega
    have hg : L[i]? = some L[i] := List.getElem?_eq_getElem hiL
    have hd : L.drop i = L[i] :: L.drop (i + 1) := List.drop_eq_getElem_cons hiL
    rw [GetText.loop]
    simp only [Or.inr hl, if_true, hn, if_false, vecAt_natCast _ _ _ hL, bind, Except.bind, hi,
      vecAt_natCast _ _ _ hg]
    have hcast : (i : Int) + 1 = ((i + 1 : Nat) : Int) := by push_cast; rfl
    rw [hcast, ih (i + 1) f (res ++ [L[i].mChar]) (by omega) (by omega), hd]
    have hfu : f + 1 - (k + 1 + 1) = f - (k + 1) := by omega
    rw [hfu]
    simp only [List.map_cons, List.append_assoc, List.singleton_append, List.cons_append,
      List.nil_append]

/-- The loop of `GetText` over whole lines before the end line. -/
theorem GetText_loop_lines (lend iend : Int) (Mid : List Line) :
    ∀ (P R : List Line) (fuel : Nat) (res : List Nat),
      ((P.length + Mid.length : Nat) : Int) ≤ lend →
      (Mid.map (fun l => l.length + 1)).sum ≤ fuel →
      GetText.loop (P ++ Mid ++ R) lend iend fuel (P.length : Int) 0 res
        = GetText.loop (P ++ Mid ++ R) lend iend (fuel - (Mid.map (fun l => l.length + 1)).sum)
            ((P.length + Mid.length : Nat) : Int) 0
            (res ++ Mid.flatMap (fun l => l.map (fun g => g.mChar) ++ [10])) := by
  induction Mid with
  | nil =>
    intro P R fuel res _ _
    simp
  | cons M Mid ih =>
    intro P R fuel res hle hf
    have hM : (P ++ M :: Mid ++ R)[P.length]? = some M := by
      rw [List.append_assoc]
      exact getElem?_split _ _ _
    simp only [List.map_cons, List.sum_cons, List.length_cons] at hf hle ⊢
    have h1 := GetText_loop_line (P ++ M :: Mid ++ R) lend iend P.length M hM (by omega)
      (M.length - 0) 0 fuel res rfl (by omega)
    simp only [Nat.sub_zero, List.drop_zero, Nat.cast_zero] at h1
    rw [h1]
    have hP : P ++ M :: Mid ++ R = (P ++ [M]) ++ Mid ++ R := by simp
    have hlen : (P.length : Int) + 1 = (((P ++ [M]).length : Nat) : Int) := by simp
    rw [hP, hlen, ih (P ++ [M]) R _ _ (by simp; omega) (by omega)]
    have e1 : fuel - (M.length + 1) - (Mid.map (fun l => l.length + 1)).sum
        = fuel - (M.length + 1 + (Mid.map (fun l => l.length + 1)).sum) := by omega
    have e2 : (P ++ [M]).length + Mid.length = P.length + (Mid.length + 1) := by
      simp; omega
    rw [e1, e2]
    simp only [List.flatMap_cons, List.append_assoc]

/-- The loop of `GetText` on the end line, for an end index within the line:
the bytes from the current index up to the end index are appended. -/
theorem GetText_loop_last (lines : List Line) (l : Nat) (L : Line)
    (hL : lines[l]? = some L) (ie : Nat) (hie : ie ≤ L.length) :
    ∀ (k i fuel : Nat) (res : List Nat), ie - i = k → k + 1 ≤ fuel →
      GetText.loop lines (l : Int) (ie : Int) fuel (l : Int) (i : Int) res
        = Except.ok (res ++ ((L.take ie).drop i).map (fun g => g.mChar)) := by
  have hlt := getElem?_lt_length hL
  have hn : ¬ ((l : Int) ≥ (lines.length : Int)) := by omega
  intro k
  induction k with
  | zero =>
    intro i fuel res hk hf
    obtain ⟨f, rfl⟩ : ∃ f, fuel = f + 1 := ⟨fuel - 1, by omega⟩
    have hc : ¬ ((i : Int) < (ie : Int) ∨ (l : Int) < (l : Int)) := by omega
    have hd : (L.take ie).drop i = [] := List.drop_eq_nil_iff.mpr (by
      rw [List.length_take]; omega)
    rw [GetText.loop]
    simp only [hc, if_false, hd, List.map_nil, List.append_nil]
    rfl
  | succ k ih =>
    intro i fuel res hk hf
    obtain ⟨f, rfl⟩ : ∃ f, fuel = f + 1 := ⟨fuel - 1, by omega⟩
    have hc : (i : Int) < (ie : Int) ∨ (l : Int) < (l : Int) := by omega
    have hi : (i : Int) < (L.length : Int) := by omega
    have hiL : i < L.length := by omega
    have hg : L[i]? = some L[i] := List.getElem?_eq_getElem hiL
    have hiT : i < (L.take ie).length := by rw [List.length_take]; omega
    have hd : (L.take ie).drop i = L[i] :: (L.take ie).drop (i + 1) := by
      rw [List.drop_eq_getElem_cons hiT, List.getElem_take]
    rw [GetText.loop]
    simp only [hc, if_true, hn, if_false, vecAt_natCast _ _ _ hL, bind, Except.bind, hi,
      vecAt_natCast _ _ _ hg]
    have hcast : (i : Int) + 1 = ((i + 1 : Nat) : Int) := by push_cast; rfl
    rw [hcast, ih (i + 1) f (res ++ [L[i].mChar]) (by omega) (by omega), hd]
    simp only [List.map_cons, List.append_assoc, List.singleton_append]

/-- Two lines at indices `a < b` split a list around them and the lines between. -/
theorem list_split_far {α : Type} (v : List α) (a b : Nat) (x y : α)
    (ha : v[a]? = some x) (hb : v[b]? = some y) (hab : a < b) :
    v = v.take a ++ x :: ((v.take b).drop (a + 1)) ++ y :: v.drop (b + 1) := by
  have h2 : b < v.length := getElem?_lt_length hb
  have hy : v.drop b = y :: v.drop (b + 1) := by
    rw [List.getElem?_eq_getElem h2] at hb
    injection hb with hb
    rw [List.drop_eq_getElem_cons h2, hb]
  have hta : (v.take b)[a]? = some x := by
    rw [List.getElem?_take_of_lt hab]
    exact ha
  have h1 : a < (v.take b).length := getElem?_lt_length hta
  have hx : (v.take b).drop a = x :: (v.take b).drop (a + 1) := by
    rw [List.getElem?_eq_getElem h1] at hta
    injection hta with hta
    rw [List.drop_eq_getElem_cons h1, hta]
  have htt : (v.take b).take a = v.take a := by
    rw [List.take_take, min_eq_left (by omega)]
  calc v = v.take b ++ v.drop b := (List.take_append_drop b v).symm
    _ = ((v.take b).take a ++ (v.take b).drop a) ++ v.drop b := by
        rw [List.take_append_drop a (v.take b)]
    _ = v.take a ++ x :: ((v.take b).drop (a + 1)) ++ y :: v.drop (b + 1) := by
        rw [htt, hx, hy]

/-! ## C13: the text between two positions -/

/-- C13 (as amended): for positions `start = (ls, cs) ≤ end = (le, ce)` on
existing lines `Ls`, `Le`, with byte indices `is` and `ie`, where `ie` does not
exceed the length of `Le`: `GetText(start, end)` is, on one line, the bytes of
the line from `is` up to `ie`; across lines, the bytes of `Ls` from `is` on and
a line break, then every line between the two complete with a line break after
it, then the bytes of `Le` before `ie`, with nothing after them. -/
theorem C13_get_text_between (e : Editor) (ls le : Nat) (cs ce : Int) (Ls Le : Line)
    (is ie : Nat)
    (hLs : e.mLines[ls]? = some Ls) (hLe : e.mLines[le]? = some Le)
    (hle : Coordinates.le ⟨(ls : Int), cs⟩ ⟨(le : Int), ce⟩ = true)
    (his : GetCharacterIndex e ⟨(ls : Int), cs⟩ = Except.ok (is : Int))
    (hie : GetCharacterIndex e ⟨(le : Int), ce⟩ = Except.ok (ie : Int))
    (hin : ie ≤ Le.length) :
    GetText e ⟨(ls : Int), cs⟩ ⟨(le : Int), ce⟩ = Except.ok
      (if ls = le then ((Le.take ie).drop is).map (fun g => g.mChar)
       else (Ls.drop is).map (fun g => g.mChar) ++ [10]
         ++ ((e.mLines.take le).drop (ls + 1)).flatMap (fun l => l.map (fun g => g.mChar) ++ [10])
         ++ (Le.take ie).map (fun g => g.mChar)) := by
  have hlsle : ls ≤ le := by
    unfold Coordinates.le at hle
    by_cases h : (ls : Int) ≠ (le : Int)
    · simp only [h, ne_eq, not_false_eq_true, if_true, decide_eq_true_eq] at hle
      omega
    · have : (ls : Int) = (le : Int) := by
        by_contra hc
        exact h hc
      omega
  have hlt := getElem?_lt_length hLe
  have hpre : ¬ ((0 : Int) ≤ (ls : Int) ∧ (ls : Int) < (le : Int) ∧
      (le : Int) > (e.mLines.length : Int)) := by omega
  unfold GetText
  simp only [his, hie, bind, Except.bind, hpre, if_false]
  by_cases heq : ls = le
  · subst heq
    rw [if_pos rfl]
    have hsum : Le.length + 1 ≤ (e.mLines.map (fun l => l.length + 1)).sum := by
      have hmem : Le ∈ e.mLines := by
        rw [List.getElem?_eq_getElem hlt] at hLe
        injection hLe with hLe
        rw [← hLe]
        exact List.getElem_mem _
      exact List.single_le_sum (fun _ _ => Nat.zero_le _) _
        (List.mem_map_of_mem (fun l => l.length + 1) hmem)
    have := GetText_loop_last e.mLines ls Le hLe ie hin (ie - is) is
      ((e.mLines.map (fun l => l.length + 1)).sum + 1) [] rfl (by omega)
    rw [this]
    simp
  · rw [if_neg heq]
    have hlt2 : ls < le := by omega
    obtain ⟨P, hP⟩ : ∃ P, P = e.mLines.take ls := ⟨_, rfl⟩
    obtain ⟨Mid, hMid⟩ : ∃ Mid, Mid = (e.mLines.take le).drop (ls + 1) := ⟨_, rfl⟩
    obtain ⟨Q, hQ⟩ : ∃ Q, Q = e.mLines.drop (le + 1) := ⟨_, rfl⟩
    have hsplit : e.mLines = P ++ Ls :: Mid ++ Le :: Q := by
      rw [hP, hMid, hQ]
      exact list_split_far e.mLines ls le Ls Le hLs hLe hlt2
    have hPlen : P.length = ls := by
      rw [hP, List.length_take]
      omega
    have hMidlen : Mid.length = le - (ls + 1) := by
      rw [hMid, List.length_drop, List.length_take]
      omega
    rw [← hMid]
    obtain ⟨lines, hlines⟩ : ∃ lines, lines = e.mLines := ⟨_, rfl⟩
    rw [← hlines] at hLs hLe hsplit ⊢
    have hF : (lines.map (fun l => l.length + 1)).sum
        = (P.map (fun l => l.length + 1)).sum + (Ls.length + 1)
          + (Mid.map (fun l => l.length + 1)).sum + (Le.length + 1)
          + (Q.map (fun l => l.length + 1)).sum := by
      rw [hsplit]
      simp only [List.map_append, List.map_cons, List.sum_append, List.sum_cons,
        List.append_assoc, List.cons_append]
      omega
    have h1 := GetText_loop_line lines (le : Int) (ie : Int) ls Ls hLs (by omega)
      (Ls.length - is) is ((lines.map (fun l => l.length + 1)).sum + 1) [] rfl (by omega)
    rw [h1]
    have hsplit2 : lines = (P ++ [Ls]) ++ Mid ++ (Le :: Q) := by
      rw [hsplit]
      simp
    have hP1 : (ls : Int) + 1 = (((P ++ [Ls]).length : Nat) : Int) := by
      simp [hPlen]
    have hP2 : (P ++ [Ls]).length + Mid.length = le := by
      simp [hPlen, hMidlen]
      omega
    have h2 := GetText_loop_lines (le : Int) (ie : Int) Mid (P ++ [Ls]) (Le :: Q)
      ((lines.map (fun l => l.length + 1)).sum + 1 - (Ls.length - is + 1))
      ([] ++ (Ls.drop is).map (fun g => g.mChar) ++ [10]) (by rw [hP2]) (by omega)
    rw [← hsplit2, ← hP1, hP2] at h2
    rw [h2]
    have h3 := GetText_loop_last lines le Le hLe ie hin (ie - 0) 0
      ((lines.map (fun l => l.length + 1)).sum + 1 - (Ls.length - is + 1)
        - (Mid.map (fun l => l.length + 1)).sum)
      ([] ++ (Ls.drop is).map (fun g => g.mChar) ++ [10]
        ++ Mid.flatMap (fun l => l.map (fun g => g.mChar) ++ [10])) rfl (by omega)
    simp only [Nat.cast_zero, List.drop_zero] at h3
    rw [h3]
    simp

/-- C13 (witness): the lines `"ab"`, `"c"`, `"de"` and the positions (0,1) and
(2,1): the text is `"b\nc\nd"`. -/
theorem C13_get_text_between_witness :
    GetText (mkEditor [[97, 98], [99], [100, 101]] ⟨0, 0⟩) ⟨((0 : Nat) : Int), 1⟩
        ⟨((2 : Nat) : Int), 1⟩ = Except.ok
      (if 0 = 2 then (((mkLine [100, 101]).take 1).drop 1).map (fun g => g.mChar)
       else ((mkLine [97, 98]).drop 1).map (fun g => g.mChar) ++ [10]
         ++ (((mkEditor [[97, 98], [99], [100, 101]] ⟨0, 0⟩).mLines.take 2).drop (0 + 1)).flatMap
              (fun l => l.map (fun g => g.mChar) ++ [10])
         ++ ((mkLine [100, 101]).take 1).map (fun g => g.mChar)) :=
  C13_get_text_between (mkEditor [[97, 98], [99], [100, 101]] ⟨0, 0⟩) 0 2 1 1
    (mkLine [97, 98]) (mkLine [100, 101]) 1 1
    (by rfl) (by rfl) (by rfl) (by rfl) (by rfl) (by decide)

/-- C13 (counterexample to the claim as stated): in the one-line document whose
line is `'a'` followed by the lone lead byte `0xE2`, the positions (0,0) and
(0,2) are sanitized, on the same line and in order, but `GetText` returns the
two bytes of the line followed by a line break. -/
theorem C13_get_text_counterexample :
    SanitizeCoordinates (mkEditor [[97, 226]] ⟨0, 0⟩) ⟨0, 0⟩ = Except.ok ⟨0, 0⟩ ∧
    SanitizeCoordinates (mkEditor [[97, 226]] ⟨0, 0⟩) ⟨0, 2⟩ = Except.ok ⟨0, 2⟩ ∧
    Coordinates.le ⟨0, 0⟩ ⟨0, 2⟩ = true ∧
    GetCharacterIndex (mkEditor [[97, 226]] ⟨0, 0⟩) ⟨0, 2⟩ = Except.ok 4 ∧
    GetText (mkEditor [[97, 226]] ⟨0, 0⟩) ⟨0, 0⟩ ⟨0, 2⟩ = Except.ok [97, 226, 10] := by
  refine ⟨by rfl, by rfl, by rfl, by rfl, by rfl⟩

/-! ## C15: `DeleteRange` -/

/-- The byte index found by the index scan does not decrease with the column. -/
theorem scanIndex_mono (T : Nat) (c1 c2 : Int) (h : c1 ≤ c2) (L : Line) :
    ∀ (s c : Nat), scanIndex T c1 s c L ≤ scanIndex T c2 s c L := by
  induction L with
  | nil => intro s c; simp [scanIndex]
  | cons g rest ih =>
    intro s c
    cases s with
    | zero =>
      simp only [scanIndex]
      by_cases h1 : (c : Int) < c1
      · have h2 : (c : Int) < c2 := by omega
        simp only [h1, h2, if_true]
        have := ih (UTF8CharLength g.mChar - 1) (colStep T c g)
        omega
      · simp only [h1, if_false]
        exact Nat.zero_le _
    | succ s =>
      simp only [scanIndex]
      have := ih s c
      omega

/-- `RemoveLine(aStart, aEnd)` on a writable document, for a range of lines
that leaves at least one line. -/
theorem RemoveLine2_eq (e : Editor) (hro : e.mReadOnly = false) (a b : Nat)
    (hab : a ≤ b) (hb : b ≤ e.mLines.length) (hne : b - a < e.mLines.length) :
    RemoveLine2 e (a : Int) (b : Int) = Except.ok { e with
      mErrorMarkers := RemoveLine2.markers (a : Int) (b : Int) e.mErrorMarkers
      mBreakpoints := RemoveLine2.breakpoints (a : Int) (b : Int) e.mBreakpoints
      mLines := e.mLines.take a ++ e.mLines.drop b } := by
  have hro' : ¬ (e.mReadOnly = true) := by simp [hro]
  have h1 : (b : Int) ≥ (a : Int) := by omega
  have h2 : (e.mLines.length : Int) > (b : Int) - (a : Int) := by omega
  have h3 : (0 : Int) ≤ (a : Int) ∧ (a : Int) ≤ (b : Int) ∧ (b : Int) ≤ (e.mLines.length : Int) := by
    omega
  have hnil : (e.mLines.take a ++ e.mLines.drop b).isEmpty = false := by
    cases hm : e.mLines.take a ++ e.mLines.drop b with
    | nil =>
      have := congrArg List.length hm
      simp only [List.length_append, List.length_take, List.length_drop, List.length_nil] at this
      omega
    | cons x t => rfl
  unfold RemoveLine2
  rw [if_neg hro', if_neg (by simp [h1]), if_neg (by simp only [not_not]; exact h2)]
  simp only [vecErase, h3, and_self, if_true, Int.toNat_ofNat, bind, Except.bind, pure,
    Except.pure, hnil, Bool.false_eq_true, if_false]

/-- C15 (as amended): for a non-read-only editor whose lines are `P ++ S :: R`,
with `E` the line `k` lines below `S` (`E = S` when `k = 0`), and sanitized
positions `start = (|P|, cs) < end = (|P| + k, ce)` whose byte indices `s` and
`t` lie within their lines (`s ≤ |S|`, `t ≤ |E|`): `DeleteRange(start, end)`
returns with the lines `P ++ (S[0..s) ++ E[t..]) :: R.drop k`: line `|P|` is
the kept head of `S` followed by the kept tail of `E`, the `k` lines after it
are gone, every other line is unchanged and in place, and the line count has
decreased by `k`. -/
theorem C15_delete_range (e : Editor) (hro : e.mReadOnly = false)
    (P R : List Line) (S E : Line) (k : Nat) (cs ce : Int) (s t : Nat)
    (hlines : e.mLines = P ++ S :: R) (hE : (S :: R)[k]? = some E)
    (hlt : Coordinates.lt ⟨(P.length : Int), cs⟩ ⟨((P.length + k : Nat) : Int), ce⟩ = true)
    (hsanS : SanitizeCoordinates e ⟨(P.length : Int), cs⟩ = Except.ok ⟨(P.length : Int), cs⟩)
    (hsanE : SanitizeCoordinates e ⟨((P.length + k : Nat) : Int), ce⟩
      = Except.ok ⟨((P.length + k : Nat) : Int), ce⟩)
    (his : GetCharacterIndex e ⟨(P.length : Int), cs⟩ = Except.ok (s : Int))
    (hie : GetCharacterIndex e ⟨((P.length + k : Nat) : Int), ce⟩ = Except.ok (t : Int))
    (hs : s ≤ S.length) (ht : t ≤ E.length) :
    ∃ e1 : Editor,
      DeleteRange e ⟨(P.length : Int), cs⟩ ⟨((P.length + k : Nat) : Int), ce⟩ = Except.ok e1 ∧
      e1.mLines = P ++ (S.take s ++ E.drop t) :: R.drop k ∧
      e1.mLines.length + k = e.mLines.length := by
  have hS : e.mLines[P.length]? = some S := by rw [hlines]; exact getElem?_split _ _ _
  have hro' : ¬ (e.mReadOnly = true) := by simp [hro]
  have hklt : k < (S :: R).length := getElem?_lt_length hE
  simp only [List.length_cons] at hklt
  have hlen : e.mLines.length = P.length + (R.length + 1) := by
    rw [hlines]
    simp
  have hlenres : (P ++ (S.take s ++ E.drop t) :: R.drop k).length + k = e.mLines.length := by
    rw [hlen]
    simp only [List.length_append, List.length_cons, List.length_drop]
    omega
  cases k with
  | zero =>
    have hES : E = S := by
      simp at hE
      exact hE.symm
    subst hES
    simp only [Nat.add_zero] at hlt hsanE hie ⊢
    have hT : 0 < max e.mTabSize 1 := by omega
    have hok : scanOK e.mTabSize 0 E = true :=
      scanOK_of_SanitizeCoordinates e P.length E hS cs _ hsanS
    have hcc : cs < ce := by
      simpa [Coordinates.lt] using hlt
    rw [GetCharacterIndex_eq e P.length E hS hok] at his hie
    have hs' : scanIndex (max e.mTabSize 1) cs 0 0 E = s := by
      injection his with h
      exact_mod_cast h
    have ht' : scanIndex (max e.mTabSize 1) ce 0 0 E = t := by
      injection hie with h
      exact_mod_cast h
    rw [SanitizeCoordinates_eq e P.length E hS hok] at hsanE
    have hce : ce ≤ ((scanMax (max e.mTabSize 1) 0 0 E : Nat) : Int) := by
      injection hsanE with h
      injection h with _ h2
      omega
    have hmono := scanIndex_mono (max e.mTabSize 1) cs ce (by omega) E 0 0
    rw [hs', ht'] at hmono
    rw [DeleteRange_same_line e hro P.length E hS hok cs ce hcc, hs', ht']
    have hset : e.mLines.set P.length (E.take s ++ E.drop t)
        = P ++ (E.take s ++ E.drop t) :: List.drop 0 R := by
      rw [hlines, set_split]
      rfl
    by_cases hmax : ce ≥ ((scanMax (max e.mTabSize 1) 0 0 E : Nat) : Int)
    · have hceq : ce = ((scanMax (max e.mTabSize 1) 0 0 E : Nat) : Int) := by omega
      have hge := scanIndex_scanMax_ge hT E 0 0
      rw [← hceq, ht'] at hge
      have hb : (0 : Int) ≤ (s : Int) ∧ (s : Int) ≤ (E.length : Int) ∧
          (E.length : Int) ≤ (E.length : Int) := by omega
      have hd : E.drop t = [] := List.drop_eq_nil_iff.mpr hge
      simp only [hmax, if_true, vecErase, hb, and_self, Int.toNat_ofNat, List.drop_length, bind,
        Except.bind, pure, Except.pure]
      refine ⟨_, rfl, ?_, ?_⟩
      · show e.mLines.set P.length (E.take s ++ []) = _
        rw [← hd]
        exact hset
      · show (e.mLines.set P.length (E.take s ++ [])).length + 0 = _
        simp
    · have hb : (0 : Int) ≤ (s : Int) ∧ (s : Int) ≤ (t : Int) ∧
          (t : Int) ≤ (E.length : Int) := by omega
      simp only [hmax, if_false, vecErase, hb, and_self, if_true, Int.toNat_ofNat, bind,
        Except.bind, pure, Except.pure]
      refine ⟨_, rfl, hset, ?_⟩
      show (e.mLines.set P.length (E.take s ++ E.drop t)).length + 0 = _
      simp
  | succ k =>
    have hEk : R[k]? = some E := by
      simpa using hE
    have hEl : e.mLines[P.length + (k + 1)]? = some E := by
      rw [hlines, List.getElem?_append_right (by omega)]
      simpa using hEk
    have hne : ¬ ((P.length : Int) = ((P.length + (k + 1) : Nat) : Int)) := by
      push_cast
      omega
    have hge : Coordinates.ge ⟨((P.length + (k + 1) : Nat) : Int), ce⟩ ⟨(P.length : Int), cs⟩
        = true := by
      have h1 : ((P.length + (k + 1) : Nat) : Int) ≠ (P.length : Int) := by push_cast; omega
      unfold Coordinates.ge
      simp only [ne_eq, h1, not_false_eq_true, if_true, decide_eq_true_eq]
      push_cast
      omega
    have hneq : ¬ ((⟨((P.length + (k + 1) : Nat) : Int), ce⟩ : Coordinates)
        = ⟨(P.length : Int), cs⟩) := by
      intro h
      injection h with h1 _
      exact hne h1.symm
    have hlt2 : (P.length : Int) < ((P.length + (k + 1) : Nat) : Int) := by push_cast; omega
    have hb1 : (0 : Int) ≤ (s : Int) ∧ (s : Int) ≤ (S.length : Int) ∧
        (S.length : Int) ≤ (S.length : Int) := by omega
    have hb2 : (0 : Int) ≤ (0 : Int) ∧ (0 : Int) ≤ (t : Int) ∧ (t : Int) ≤ (E.length : Int) := by
      omega
    have hb3 : (0 : Int) ≤ (P.length : Int) ∧ (P.length : Int) < (e.mLines.length : Int) := by
      omega
    obtain ⟨F, hF⟩ : ∃ F : Line, F = S.take s ++ E.drop t := ⟨_, rfl⟩
    have hset1 : e.mLines.set P.length F = P ++ F :: R := by
      rw [hlines, set_split]
    have hb4 : (0 : Int) ≤ ((P.length + (k + 1) : Nat) : Int) ∧
        ((P.length + (k + 1) : Nat) : Int) < ((P ++ F :: R).length : Int) := by
      simp only [List.length_append, List.length_cons]
      push_cast
      omega
    have hset2 : (P ++ F :: R).set (P.length + (k + 1)) (E.drop t)
        = P ++ F :: R.set k (E.drop t) := by
      rw [List.set_append_right _ _ (by omega)]
      have : P.length + (k + 1) - P.length = k + 1 := by omega
      rw [this]
      rfl
    obtain ⟨em, hem⟩ : ∃ em : Editor, em = { e with mLines := P ++ F :: R.set k (E.drop t) } :=
      ⟨_, rfl⟩
    have hRL := RemoveLine2_eq em (by rw [hem]; exact hro) (P.length + 1) (P.length + (k + 1) + 1)
      (by omega)
      (by rw [hem]; simp only [List.length_append, List.length_cons, List.length_set]; omega)
      (by rw [hem]; simp only [List.length_append, List.length_cons, List.length_set]; omega)
    have hcast1 : (P.length : Int) + 1 = ((P.length + 1 : Nat) : Int) := by push_cast; rfl
    have hcast2 : ((P.length + (k + 1) : Nat) : Int) + 1 = ((P.length + (k + 1) + 1 : Nat) : Int) := by
      push_cast; rfl
    have hres : em.mLines.take (P.length + 1) ++ em.mLines.drop (P.length + (k + 1) + 1)
        = P ++ F :: R.drop (k + 1) := by
      rw [hem]
      show (P ++ F :: R.set k (E.drop t)).take (P.length + 1)
        ++ (P ++ F :: R.set k (E.drop t)).drop (P.length + (k + 1) + 1) = _
      rw [take_split_succ]
      have h1 : (P ++ F :: R.set k (E.drop t)).drop (P.length + (k + 1) + 1)
          = (R.set k (E.drop t)).drop (k + 1) := by
        have : P.length + (k + 1) + 1 = (P.length + 1) + (k + 1) := by omega
        rw [this, ← List.drop_drop, drop_split_succ]
      rw [h1, List.drop_set_of_lt _ _ (by omega)]
      simp
    rw [hres] at hRL
    unfold DeleteRange
    rw [if_neg (not_not.mpr hge), if_neg hro', if_neg hneq]
    simp only [his, hie, bind, Except.bind, hne, if_false, vecAt_natCast _ _ _ hS,
      vecAt_natCast _ _ _ hEl, vecErase, hb1, hb2, and_self, if_true, Int.toNat_ofNat,
      List.drop_length, List.append_nil, Int.toNat_zero, List.take_zero, List.nil_append, pure,
      Except.pure, hlt2, vecSet, hb3]
    rw [← hF, hset1]
    simp only [hb4, and_self, if_true, Int.toNat_ofNat, hset2]
    rw [← hem, hcast1, hcast2, hRL]
    refine ⟨_, rfl, rfl, ?_⟩
    show (P ++ F :: R.drop (k + 1)).length + (k + 1) = _
    rw [hF]
    exact hlenres

/-- C15 (witness): the lines `"abc"`, `"de"`, `"fgh"` and the positions (0,1)
and (2,1): the document becomes the single line `"agh"`. -/
theorem C15_delete_range_witness :
    ∃ e1 : Editor,
      DeleteRange (mkEditor [[97, 98, 99], [100, 101], [102, 103, 104]] ⟨0, 0⟩)
        ⟨((([] : List Line).length : Nat) : Int), 1⟩
        ⟨((([] : List Line).length + 2 : Nat) : Int), 1⟩ = Except.ok e1 ∧
      e1.mLines = [] ++ ((mkLine [97, 98, 99]).take 1 ++ (mkLine [102, 103, 104]).drop 1)
        :: [mkLine [100, 101], mkLine [102, 103, 104]].drop 2 ∧
      e1.mLines.length + 2
        = (mkEditor [[97, 98, 99], [100, 101], [102, 103, 104]] ⟨0, 0⟩).mLines.length :=
  C15_delete_range (mkEditor [[97, 98, 99], [100, 101], [102, 103, 104]] ⟨0, 0⟩) (by rfl)
    [] [mkLine [100, 101], mkLine [102, 103, 104]] (mkLine [97, 98, 99])
    (mkLine [102, 103, 104]) 2 1 1 1 1
    (by rfl) (by rfl) (by rfl) (by rfl) (by rfl) (by rfl) (by rfl) (by decide) (by decide)

/-- C15 (counterexample to the claim as stated): in the writable document whose
lines are the lone lead byte `0xE2` and `"a"`, the positions (0,1) and (1,0)
are sanitized and in order, the byte index of (0,1) is 3, past the one-byte
line, and `DeleteRange` erases outside the first line instead of joining the
two lines. -/
theorem C15_delete_range_counterexample :
    SanitizeCoordinates (mkEditor [[226], [97]] ⟨0, 0⟩) ⟨0, 1⟩ = Except.ok ⟨0, 1⟩ ∧
    SanitizeCoordinates (mkEditor [[226], [97]] ⟨0, 0⟩) ⟨1, 0⟩ = Except.ok ⟨1, 0⟩ ∧
    Coordinates.lt ⟨0, 1⟩ ⟨1, 0⟩ = true ∧
    GetCharacterIndex (mkEditor [[226], [97]] ⟨0, 0⟩) ⟨0, 1⟩ = Except.ok 3 ∧
    GetCharacterIndex (mkEditor [[226], [97]] ⟨0, 0⟩) ⟨1, 0⟩ = Except.ok 0 ∧
    DeleteRange (mkEditor [[226], [97]] ⟨0, 0⟩) ⟨0, 1⟩ ⟨1, 0⟩ = Except.error Fault.outOfRange := by
  refine ⟨by rfl, by rfl, by rfl, by rfl, by rfl, by rfl⟩

/-! ## Totality of the readers with a tab size of at least 1 -/

/-- With a tab size of at least 1, `GetCharacterIndex` returns; the index is
non-negative on an existing line. -/
theorem GetCharacterIndex_total (e : Editor) (hT : 1 ≤ e.mTabSize) (p : Coordinates) :
    ∃ ci : Int, GetCharacterIndex e p = Except.ok ci ∧
      (0 ≤ ci ∨ p.mLine ≥ (e.mLines.length : Int) ∨ p.mLine < 0) := by
  by_cases h1 : p.mLine < 0 ∨ p.mLine ≥ (e.mLines.length : Int)
  · refine ⟨-1, by simp [GetCharacterIndex, h1, pure, Except.pure], ?_⟩
    omega
  · obtain ⟨n, hn⟩ : ∃ n : Nat, p.mLine = (n : Int) := ⟨p.mLine.toNat, by omega⟩
    have hlt : n < e.mLines.length := by omega
    have hline : e.mLines[n]? = some e.mLines[n] := List.getElem?_eq_getElem hlt
    have hp : p = ⟨(n : Int), p.mColumn⟩ := by
      cases p
      simp only [Coordinates.mk.injEq, and_true]
      exact hn
    have := GetCharacterIndex_eq e n _ hline (scanOK_of_pos hT _ 0) p.mColumn
    rw [← hp] at this
    exact ⟨_, this, Or.inl (Int.ofNat_nonneg _)⟩

/-- The loop of `GetText` returns from every state with a non-negative line
number whose byte index is non-negative unless the line is past the end. -/
theorem GetText_loop_total (lines : List Line) (lend iend : Int) :
    ∀ (fuel : Nat) (lstart istart : Int) (res : List Nat), 0 ≤ lstart →
      (0 ≤ istart ∨ lstart ≥ (lines.length : Int)) →
      ∃ r : List Nat, GetText.loop lines lend iend fuel lstart istart res = Except.ok r := by
  intro fuel
  induction fuel with
  | zero => intro lstart istart res _ _; exact ⟨res, rfl⟩
  | succ fuel ih =>
    intro lstart istart res hl hi
    rw [GetText.loop]
    by_cases hc : istart < iend ∨ lstart < lend
    · rw [if_pos hc]
      by_cases hge : lstart ≥ (lines.length : Int)
      · rw [if_pos hge]
        exact ⟨res, rfl⟩
      · rw [if_neg hge]
        obtain ⟨n, hn⟩ : ∃ n : Nat, lstart = (n : Int) := ⟨lstart.toNat, by omega⟩
        subst hn
        have hlt : n < lines.length := by omega
        have hline : lines[n]? = some lines[n] := List.getElem?_eq_getElem hlt
        simp only [vecAt_natCast _ _ _ hline, bind, Except.bind]
        by_cases hin : istart < (lines[n].length : Int)
        · rw [if_pos hin]
          obtain ⟨i, hiN⟩ : ∃ i : Nat, istart = (i : Int) := ⟨istart.toNat, by omega⟩
          subst hiN
          have hilt : i < lines[n].length := by omega
          have hg : lines[n][i]? = some lines[n][i] := List.getElem?_eq_getElem hilt
          simp only [vecAt_natCast _ _ _ hg]
          exact ih _ _ _ (by omega) (by omega)
        · rw [if_neg hin]
          exact ih _ _ _ (by omega) (by omega)
    · rw [if_neg hc]
      exact ⟨res, rfl⟩

/-- With a tab size of at least 1, `GetText` returns for every start position
with a non-negative line number and every end position within the document. -/
theorem GetText_total (e : Editor) (hT : 1 ≤ e.mTabSize) (a b : Coordinates)
    (ha : 0 ≤ a.mLine) (hb : b.mLine ≤ (e.mLines.length : Int)) :
    ∃ r : List Nat, GetText e a b = Except.ok r := by
  obtain ⟨i1, h1, h1'⟩ := GetCharacterIndex_total e hT a
  obtain ⟨i2, h2, _⟩ := GetCharacterIndex_total e hT b
  have hpre : ¬ ((0 : Int) ≤ a.mLine ∧ a.mLine < b.mLine ∧ b.mLine > (e.mLines.length : Int)) := by
    omega
  unfold GetText
  simp only [h1, h2, bind, Except.bind, hpre, if_false]
  exact GetText_loop_total _ _ _ _ _ _ _ ha (by omega)

/-! ## C20: block indent -/

/-- The per-line loop of the block indent over the lines `Mid`: every one of
them gets a tab glyph in front. -/
theorem indentLoop_indent (T : Nat) (Q : List Line) (Mid : List Line) :
    ∀ (P : List Line) (count : Nat) (endLine : Int) (modified : Bool),
      ((P.length + Mid.length : Nat) : Int) = endLine + 1 → Mid.length ≤ count →
      EnterCharacter.indentLoop T false endLine count (P.length : Int) (P ++ Mid ++ Q) modified
        = Except.ok (P ++ Mid.map (fun l =>
            ({ mChar := 9, mColorIndex := PaletteIndex.Background } : Glyph) :: l) ++ Q,
            modified || !Mid.isEmpty) := by
  induction Mid with
  | nil =>
    intro P count endLine modified hend _
    have hn : ¬ ((P.length : Int) ≤ endLine) := by
      simp only [List.length_nil, Nat.add_zero] at hend
      omega
    cases count with
    | zero => simp [EnterCharacter.indentLoop, pure, Except.pure]
    | succ c => simp [EnterCharacter.indentLoop, hn, pure, Except.pure]
  | cons M Mid ih =>
    intro P count endLine modified hend hcount
    obtain ⟨c, rfl⟩ : ∃ c, count = c + 1 := ⟨count - 1, by
      simp only [List.length_cons] at hcount; omega⟩
    simp only [List.length_cons] at hend hcount
    have hle : (P.length : Int) ≤ endLine := by
      push_cast at hend
      omega
    have hM : (P ++ M :: Mid ++ Q)[P.length]? = some M := by
      rw [List.append_assoc]
      exact getElem?_split _ _ _
    have hb : (0 : Int) ≤ (P.length : Int) ∧
        (P.length : Int) < ((P ++ M :: Mid ++ Q).length : Int) := by
      simp only [List.length_append, List.length_cons]
      push_cast
      omega
    have hset : (P ++ M :: Mid ++ Q).set P.length
        (({ mChar := 9, mColorIndex := PaletteIndex.Background } : Glyph) :: M)
        = (P ++ [({ mChar := 9, mColorIndex := PaletteIndex.Background } : Glyph) :: M])
          ++ Mid ++ Q := by
      have h1 : P ++ M :: Mid ++ Q = P ++ M :: (Mid ++ Q) := by simp
      rw [h1, set_split]
      simp
    have hlen : (P.length : Int) + 1
        = (((P ++ [({ mChar := 9, mColorIndex := PaletteIndex.Background } : Glyph) :: M]).length
            : Nat) : Int) := by
      simp
    rw [EnterCharacter.indentLoop]
    simp only [hle, if_true, vecAt_natCast _ _ _ hM, bind, Except.bind,
      EnterCharacter.indentLine, Bool.false_eq_true, if_false, vecSet, hb, and_self,
      Int.toNat_ofNat, pure, Except.pure, hset]
    rw [hlen, ih _ c endLine true (by simp; push_cast at hend; omega) (by omega)]
    simp

/-- C20 (as amended): for a non-read-only editor with a tab size of at least 1
and a non-negative undo index, whose lines are `P ++ Mid ++ Q` and whose
selection starts on line `|P|` and ends at `(le, ce)` on a later line, where
`Mid` holds the lines from `|P|` to `le`, without line `le` itself when
`ce = 0`: `EnterCharacter('\t', shift = false)` returns; every line of `Mid`
has one tab glyph in front and the document is otherwise unchanged; and exactly
one transaction is logged (the undo index grows by one and the log ends at the
new index). -/
theorem C20_block_indent (e : Editor) (P Mid Q : List Line) (cs ce le : Int)
    (hro : e.mReadOnly = false) (hT : 1 ≤ e.mTabSize) (hundo : 0 ≤ e.mUndoIndex)
    (hlines : e.mLines = P ++ Mid ++ Q)
    (hstart : e.mState.mSelectionStart = ⟨(P.length : Int), cs⟩)
    (hend : e.mState.mSelectionEnd = ⟨le, ce⟩)
    (hlt : (P.length : Int) < le)
    (hmid : ((P.length + Mid.length : Nat) : Int) = if ce = 0 then le else le + 1) :
    ∃ e1 : Editor, EnterCharacter e 9 false = Except.ok e1 ∧
      e1.mLines = P ++ Mid.map (fun l =>
        ({ mChar := 9, mColorIndex := PaletteIndex.Background } : Glyph) :: l) ++ Q ∧
      e1.mUndoIndex = e.mUndoIndex + 1 ∧
      (e1.mUndoBuffer.length : Int) = e1.mUndoIndex := by
  have hro' : ¬ (e.mReadOnly = true) := by simp [hro]
  obtain ⟨el, hel⟩ : ∃ el : Int, el = (P.length : Int) + (Mid.length : Int) - 1 := ⟨_, rfl⟩
  have hmidpos : 1 ≤ Mid.length := by
    split_ifs at hmid <;> push_cast at hmid <;> omega
  have hlen : e.mLines.length = P.length + Mid.length + Q.length := by
    rw [hlines]
    simp only [List.length_append]
  have hsel : HasSelection e = true := by
    have h1 : le ≠ (P.length : Int) := by omega
    simp only [HasSelection, hstart, hend, Coordinates.gt, ne_eq, h1, not_false_eq_true, if_true,
      decide_eq_true_eq]
    omega
  have hgt : (⟨(P.length : Int), cs⟩ : Coordinates).gt ⟨le, ce⟩ = false := by
    have h1 : (P.length : Int) ≠ le := by omega
    simp only [Coordinates.gt, ne_eq, h1, not_false_eq_true, if_true,
      decide_eq_false_iff_not]
    omega
  have hcond : HasSelection e = true ∧ (9 : Nat) = 9 ∧
      e.mState.mSelectionStart.mLine ≠ e.mState.mSelectionEnd.mLine := by
    refine ⟨hsel, rfl, ?_⟩
    rw [hstart, hend]
    show (P.length : Int) ≠ le
    omega
  have hemp : e.mLines.isEmpty = false := by
    cases hls : e.mLines with
    | nil => rw [hls] at hlen; simp at hlen; omega
    | cons a t => rfl
  have hin : ¬ (el ≥ (e.mLines.length : Int)) := by
    rw [hlen, hel]
    push_cast
    omega
  obtain ⟨n, hn⟩ := GetLineMaxColumn_total e hT el
  obtain ⟨removed, hremoved⟩ := GetText_total e hT ⟨(P.length : Int), 0⟩ ⟨el, n⟩
    (by show (0 : Int) ≤ (P.length : Int); omega) (by show el ≤ (e.mLines.length : Int); omega)
  have hloop := indentLoop_indent e.mTabSize Q Mid P (el - (P.length : Int) + 1).toNat el false
    (by rw [hel]; push_cast; omega) (by rw [hel]; omega)
  rw [← hlines] at hloop
  obtain ⟨e1, he1⟩ : ∃ e1 : Editor, e1 = { e with mLines := P ++ Mid.map (fun l =>
      ({ mChar := 9, mColorIndex := PaletteIndex.Background } : Glyph) :: l) ++ Q } := ⟨_, rfl⟩
  have h1T : 1 ≤ e1.mTabSize := by rw [he1]; exact hT
  have h1len : e1.mLines.length = e.mLines.length := by
    rw [he1, hlen]
    simp only [List.length_append, List.length_map]
  obtain ⟨m1, hm1⟩ := GetLineMaxColumn_total e1 h1T el
  obtain ⟨m2, hm2⟩ := GetLineMaxColumn_total e1 h1T (le - 1)
  obtain ⟨added1, hadded1⟩ := GetText_total e1 h1T ⟨(P.length : Int), 0⟩ ⟨el, m1⟩
    (by show (0 : Int) ≤ (P.length : Int); omega)
    (by show el ≤ (e1.mLines.length : Int); rw [h1len]; omega)
  obtain ⟨added2, hadded2⟩ := GetText_total e1 h1T ⟨(P.length : Int), 0⟩ ⟨le - 1, m2⟩
    (by show (0 : Int) ≤ (P.length : Int); omega)
    (by
      show le - 1 ≤ (e1.mLines.length : Int)
      rw [h1len, hlen]
      split_ifs at hmid <;> push_cast at hmid ⊢ <;> omega)
  have hmod : (false || !Mid.isEmpty) = true := by
    cases Mid with
    | nil => simp at hmidpos
    | cons a t => rfl
  unfold EnterCharacter
  rw [if_neg hro']
  simp only [hcond, and_self, if_true, ne_eq, not_false_eq_true]
  unfold EnterCharacter.indent
  simp only [hstart, hend]
  simp only [hgt, Bool.false_eq_true, if_false]
  by_cases hce : ce = 0
  · subst hce
    have hle0 : le > 0 := by omega
    have hE : el = le - 1 := by
      rw [if_pos rfl] at hmid
      push_cast at hmid
      omega
    subst hE
    simp only [true_and, hle0, if_true, hin, if_false, hn, bind, Except.bind, hremoved, hloop,
      hmod]
    rw [← he1]
    simp only [GetCharacterColumn_zero, ne_eq, not_true_eq_false, if_false, hm2, hadded2]
    refine ⟨_, AddUndo_eq _ _ hro hundo, rfl, rfl, ?_⟩
    simp only [List.length_append, List.length_replicate, List.length_take, List.length_singleton]
    push_cast
    omega
  · have hE : el = le := by
      rw [if_neg hce] at hmid
      push_cast at hmid
      omega
    subst hE
    simp only [hce, false_and, if_false, hin, hn, bind, Except.bind, hremoved, hloop, hmod,
      if_true]
    rw [← he1]
    simp only [GetCharacterColumn_zero, ne_eq, hce, not_false_eq_true, if_true, hm1, hadded1]
    refine ⟨_, AddUndo_eq _ _ hro hundo, rfl, rfl, ?_⟩
    simp only [List.length_append, List.length_replicate, List.length_take, List.length_singleton]
    push_cast
    omega

/-- C20 (witness): the lines `"a"`, `"b"`, `"c"` with the selection (0,1)..(1,1):
the first two lines get a tab in front. -/
theorem C20_block_indent_witness :
    ∃ e1 : Editor,
      EnterCharacter { mkEditor [[97], [98], [99]] ⟨1, 1⟩ with
          mState := ⟨⟨0, 1⟩, ⟨1, 1⟩, ⟨1, 1⟩⟩ } 9 false = Except.ok e1 ∧
      e1.mLines = [] ++ [mkLine [97], mkLine [98]].map (fun l =>
        ({ mChar := 9, mColorIndex := PaletteIndex.Background } : Glyph) :: l) ++ [mkLine [99]] ∧
      e1.mUndoIndex = 0 + 1 ∧
      (e1.mUndoBuffer.length : Int) = e1.mUndoIndex :=
  C20_block_indent
    { mkEditor [[97], [98], [99]] ⟨1, 1⟩ with mState := ⟨⟨0, 1⟩, ⟨1, 1⟩, ⟨1, 1⟩⟩ }
    [] [mkLine [97], mkLine [98]] [mkLine [99]] 1 1 1
    (by rfl) (by decide) (by decide) (by rfl) (by rfl) (by rfl) (by decide) (by decide)

/-- C20 (counterexample to the claim as stated): with the selection (0,0)..(0,1)
inside the single line `"ab"`, `EnterCharacter('\t', false)` replaces the
selected `'a'` by the tab and leaves `"\tb"`, not `"\tab"`; and with the
selection (0,0)..(1,0) over the lines `"a"`, `"b"`, only the first line gets
a tab, the line of the selection end does not. -/
theorem C20_block_indent_counterexample :
    HasSelection { mkEditor [[97, 98]] ⟨0, 1⟩ with mState := ⟨⟨0, 0⟩, ⟨0, 1⟩, ⟨0, 1⟩⟩ } = true ∧
    (EnterCharacter { mkEditor [[97, 98]] ⟨0, 1⟩ with mState := ⟨⟨0, 0⟩, ⟨0, 1⟩, ⟨0, 1⟩⟩ }
        9 false).map Editor.bytes = Except.ok [[9, 98]] ∧
    HasSelection { mkEditor [[97], [98]] ⟨1, 0⟩ with mState := ⟨⟨0, 0⟩, ⟨1, 0⟩, ⟨1, 0⟩⟩ } = true ∧
    (EnterCharacter { mkEditor [[97], [98]] ⟨1, 0⟩ with mState := ⟨⟨0, 0⟩, ⟨1, 0⟩, ⟨1, 0⟩⟩ }
        9 false).map Editor.bytes = Except.ok [[9, 97], [98]] := by
  refine ⟨by rfl, by rfl, by rfl, by rfl⟩

/-! ## The loop of `InsertTextAt` -/

/-- With a tab size of at least 1, `GetCharacterColumn` returns. -/
theorem GetCharacterColumn_total (e : Editor) (hT : 1 ≤ e.mTabSize) (l i : Int) :
    ∃ c : Int, GetCharacterColumn e l i = Except.ok c := by
  by_cases h1 : l < 0 ∨ l ≥ (e.mLines.length : Int)
  · exact ⟨0, by simp [GetCharacterColumn, h1, pure, Except.pure]⟩
  · obtain ⟨n, hn⟩ : ∃ n : Nat, l = (n : Int) := ⟨l.toNat, by omega⟩
    subst hn
    have hlt : n < e.mLines.length := by omega
    have hline : e.mLines[n]? = some e.mLines[n] := List.getElem?_eq_getElem hlt
    exact ⟨_, GetCharacterColumn_eq e n _ hline (scanOK_of_pos hT _ 0) i⟩

/-- From `textWhole` with `s` trailing bytes to come: these bytes hold no line
break and no carriage return, and the text after them is whole again. -/
theorem textWhole_skip : ∀ (s : Nat) (t : List Nat), textWhole s t = true →
    (∀ b ∈ t.take s, b ≠ 10 ∧ b ≠ 13) ∧ textWhole 0 (t.drop s) = true := by
  intro s
  induction s with
  | zero => intro t h; simpa using h
  | succ s ih =>
    intro t h
    cases t with
    | nil => simp [textWhole]
    | cons b rest =>
      simp only [textWhole, Bool.and_eq_true, decide_eq_true_eq] at h
      obtain ⟨⟨h1, h2⟩, h3⟩ := h
      obtain ⟨i1, i2⟩ := ih rest h3
      constructor
      · intro x hx
        simp only [List.take_succ_cons, List.mem_cons] at hx
        rcases hx with hx | hx
        · rw [hx]; exact ⟨h1, h2⟩
        · exact i1 x hx
      · simpa using i2

/-- The inner loop of `InsertTextAt` on a text without a zero byte: the first
`d` bytes go into the line at `c`. -/
theorem InsertTextAt_bytes_eq : ∀ (d : Nat) (L : Line) (c : Nat) (t : List Nat),
    c ≤ L.length → (∀ b ∈ t, b ≠ 0) →
    InsertTextAt.bytes d L (c : Int) t = Except.ok
      (L.take c ++ (t.take d).map (fun b =>
          ({ mChar := b, mColorIndex := PaletteIndex.Default } : Glyph)) ++ L.drop c,
        ((c + (t.take d).length : Nat) : Int), t.drop d) := by
  intro d
  induction d with
  | zero =>
    intro L c t _ _
    simp [InsertTextAt.bytes, pure, Except.pure]
  | succ d ih =>
    intro L c t hc h0
    cases t with
    | nil => simp [InsertTextAt.bytes, pure, Except.pure]
    | cons b rest =>
      have hb : ¬ (b = 0) := h0 b (List.mem_cons_self _ _)
      have hbd : (0 : Int) ≤ (c : Int) ∧ (c : Int) ≤ (L.length : Int) := by omega
      have hcast : (c : Int) + 1 = ((c + 1 : Nat) : Int) := by push_cast; rfl
      rw [InsertTextAt.bytes]
      simp only [hb, if_false, vecInsert, hbd, and_self, if_true, Int.toNat_ofNat, bind,
        Except.bind, pure, Except.pure]
      rw [hcast, ih _ (c + 1) rest (by
        simp only [List.length_append, List.length_take, List.length_singleton, List.length_drop]
        omega) (fun x hx => h0 x (List.mem_cons_of_mem _ hx))]
      have h1 : (L.take c ++ [({ mChar := b, mColorIndex := PaletteIndex.Default } : Glyph)]
          ++ L.drop c).take (c + 1)
          = L.take c ++ [({ mChar := b, mColorIndex := PaletteIndex.Default } : Glyph)] := by
        rw [List.take_append_of_le_length (by simp; omega)]
        rw [List.take_of_length_le (by simp)]
      have h2 : (L.take c ++ [({ mChar := b, mColorIndex := PaletteIndex.Default } : Glyph)]
          ++ L.drop c).drop (c + 1) = L.drop c := by
        have hl : (L.take c ++ [({ mChar := b, mColorIndex := PaletteIndex.Default } : Glyph)]).length
            = c + 1 := by simp; omega
        rw [← hl, List.drop_left]
      rw [h1, h2]
      simp only [List.take_succ_cons, List.map_cons, List.length_cons, List.drop_succ_cons,
        List.append_assoc, List.singleton_append, List.cons_append, List.nil_append]
      have h3 : c + 1 + (rest.take d).length = c + ((rest.take d).length + 1) := by omega
      rw [h3]

/-- Splitting a line at an index keeps the number of glyphs that satisfy `p`. -/
theorem countP_take_drop {α : Type} (p : α → Bool) (L : List α) (c : Nat) :
    (L.take c).countP p + (L.drop c).countP p = L.countP p := by
  rw [← List.countP_append, List.take_append_drop]

/-- The loop of `InsertTextAt` on a whole text without a zero byte, started
within an existing line of a writable document with a tab size of at least 1:
it returns; the counter has grown by the number of line breaks of the text, and
so have the line count and the line of the position; the number of carriage
returns stored in the document is unchanged. -/
theorem InsertTextAt_loop_spec : ∀ (fuel : Nat) (t : List Nat) (e : Editor) (P Q : List Line)
    (L : Line) (c : Nat) (col total : Int),
    e.mReadOnly = false → 1 ≤ e.mTabSize → e.mLines = P ++ L :: Q → c ≤ L.length →
    (∀ b ∈ t, b ≠ 0) → textWhole 0 t = true → t.length ≤ fuel →
    ∃ (e1 : Editor) (w : Coordinates),
      InsertTextAt.loop fuel e ⟨(P.length : Int), col⟩ (c : Int) total t
        = Except.ok (e1, w, total + (t.count 10 : Int)) ∧
      e1.mLines.length = e.mLines.length + t.count 10 ∧
      w.mLine = (P.length : Int) + (t.count 10 : Int) ∧
      e1.mLines.flatten.countP (fun g => g.mChar == 13)
        = e.mLines.flatten.countP (fun g => g.mChar == 13) := by
  intro fuel
  induction fuel with
  | zero =>
    intro t e P Q L c col total _ _ _ _ _ _ hf
    have : t = [] := List.eq_nil_of_length_eq_zero (by omega)
    subst this
    exact ⟨e, ⟨(P.length : Int), col⟩, by simp [InsertTextAt.loop, pure, Except.pure], by simp, by simp, rfl⟩
  | succ fuel ih =>
    intro t e P Q L c col total hro hT hlines hc h0 hw hf
    cases t with
    | nil => exact ⟨e, ⟨(P.length : Int), col⟩, by simp [InsertTextAt.loop, pure, Except.pure], by simp, by simp, rfl⟩
    | cons b rest =>
      have hb0 : ¬ (b = 0) := h0 b (List.mem_cons_self _ _)
      have h0' : ∀ x ∈ rest, x ≠ 0 := fun x hx => h0 x (List.mem_cons_of_mem _ hx)
      have hL : e.mLines[P.length]? = some L := by rw [hlines]; exact getElem?_split _ _ _
      have hne := isEmpty_false_of_getElem? hL
      have hfr : rest.length ≤ fuel := by simp only [List.length_cons] at hf; omega
      rw [InsertTextAt.loop]
      simp only [hb0, if_false, hne, Bool.false_eq_true]
      by_cases h13 : b = 13
      · subst h13
        have hw' : textWhole 0 rest = true := by simpa [textWhole] using hw
        obtain ⟨e1, w, h1, h2, h3, h4⟩ := ih rest e P Q L c col total hro hT hlines hc h0' hw' hfr
        refine ⟨e1, w, ?_, ?_, ?_, h4⟩
        · simp only [if_true]
          rw [h1]
          simp
        · rw [h2]; simp
        · rw [h3]; simp
      · rw [if_neg h13]
        by_cases h10 : b = 10
        · subst h10
          have hw' : textWhole 0 rest = true := by simpa [textWhole] using hw
          have hcast : (P.length : Int) + 1 = ((P.length + 1 : Nat) : Int) := by push_cast; rfl
          have hIL := InsertLine_eq e hro (P.length + 1) (by
            rw [hlines]; simp only [List.length_append, List.length_cons]; omega)
          have hIlines : e.mLines.take (P.length + 1) ++ [([] : Line)] ++ e.mLines.drop (P.length + 1)
              = P ++ L :: [] :: Q := by
            rw [hlines, take_split_succ, drop_split_succ]
            simp
          rw [hIlines] at hIL
          have hcount : ((10 :: rest).count 10 : Int) = 1 + (rest.count 10 : Int) := by
            simp
            omega
          have hcountN : (10 :: rest).count 10 = rest.count 10 + 1 := by simp
          simp only [if_true, vecAt_natCast _ _ _ hL, bind, Except.bind, hcast, hIL]
          by_cases hlt : (c : Int) < (L.length : Int)
          · have hv1 : vecAt (P ++ L :: [] :: Q) (P.length : Int) = Except.ok L :=
              vecAt_natCast _ _ _ (getElem?_split _ _ _)
            have hb1 : (0 : Int) ≤ (c : Int) ∧ (c : Int) ≤ (L.length : Int) := by omega
            have hb2 : (0 : Int) ≤ (c : Int) ∧ (c : Int) ≤ (L.length : Int) ∧
                (L.length : Int) ≤ (L.length : Int) := by omega
            have hs1 : vecSet (P ++ L :: [] :: Q) ((P.length + 1 : Nat) : Int) (L.drop c)
                = Except.ok (P ++ L :: L.drop c :: Q) := by
              have : (0 : Int) ≤ ((P.length + 1 : Nat) : Int) ∧
                  ((P.length + 1 : Nat) : Int) < ((P ++ L :: [] :: Q).length : Int) := by
                simp
                omega
              simp only [vecSet, this, and_self, if_true, Int.toNat_ofNat, set_split_succ, pure,
                Except.pure]
            have hs2 : vecSet (P ++ L :: L.drop c :: Q) (P.length : Int)
                (L.take c ++ L.drop L.length)
                = Except.ok (P ++ (L.take c ++ L.drop L.length) :: L.drop c :: Q) := by
              have : (0 : Int) ≤ (P.length : Int) ∧
                  (P.length : Int) < ((P ++ L :: L.drop c :: Q).length : Int) := by
                simp
                omega
              simp only [vecSet, this, and_self, if_true, Int.toNat_ofNat, set_split, pure,
                Except.pure]
            simp only [hlt, if_true, hv1, vecFrom, hb1, and_self, Int.toNat_ofNat, pure,
              Except.pure, hs1, vecErase, hb2, hs2]
            obtain ⟨e2, he2⟩ : ∃ e2 : Editor, e2 = { e with
                mLines := P ++ (L.take c ++ L.drop L.length) :: L.drop c :: Q
                mErrorMarkers := InsertLine.markers ((P.length + 1 : Nat) : Int) e.mErrorMarkers
                mBreakpoints := InsertLine.breakpoints ((P.length + 1 : Nat) : Int) e.mBreakpoints } :=
              ⟨_, rfl⟩
            have he2l : e2.mLines = (P ++ [L.take c ++ L.drop L.length]) ++ L.drop c :: Q := by
              rw [he2]; simp
            have hPl : ((P.length + 1 : Nat) : Int)
                = (((P ++ [L.take c ++ L.drop L.length]).length : Nat) : Int) := by simp
            obtain ⟨e1, w, h1, h2, h3, h4⟩ := ih rest e2 (P ++ [L.take c ++ L.drop L.length]) Q
              (L.drop c) 0 0 (total + 1) (by rw [he2]; exact hro) (by rw [he2]; exact hT) he2l
              (Nat.zero_le _) h0' hw' hfr
            refine ⟨e1, w, ?_, ?_, ?_, ?_⟩
            · rw [← he2, hPl]
              have : ((0 : Nat) : Int) = 0 := rfl
              rw [this] at h1
              rw [h1, hcount, Int.add_assoc]
            · rw [h2, he2l, hlines, hcountN]
              simp only [List.length_append, List.length_cons, List.length_nil]
              omega
            · rw [h3, hcount]
              simp only [List.length_append, List.length_singleton]
              push_cast
              omega
            · rw [h4, he2l, hlines]
              simp only [List.flatten_append, List.flatten_cons, List.flatten_nil,
                List.countP_append, List.drop_length, List.append_nil, List.countP_nil]
              have := countP_take_drop (fun g : Glyph => g.mChar == 13) L c
              omega
          · obtain ⟨e2, he2⟩ : ∃ e2 : Editor, e2 = { e with
                mLines := P ++ L :: [] :: Q
                mErrorMarkers := InsertLine.markers ((P.length + 1 : Nat) : Int) e.mErrorMarkers
                mBreakpoints := InsertLine.breakpoints ((P.length + 1 : Nat) : Int) e.mBreakpoints } :=
              ⟨_, rfl⟩
            have he2l : e2.mLines = (P ++ [L]) ++ [] :: Q := by
              rw [he2]; simp
            have hPl : ((P.length + 1 : Nat) : Int) = (((P ++ [L]).length : Nat) : Int) := by simp
            obtain ⟨e1, w, h1, h2, h3, h4⟩ := ih rest e2 (P ++ [L]) Q [] 0 0 (total + 1)
              (by rw [he2]; exact hro) (by rw [he2]; exact hT) he2l (Nat.zero_le _) h0' hw' hfr
            refine ⟨e1, w, ?_, ?_, ?_, ?_⟩
            · simp only [hlt, if_false]
              rw [← he2, hPl]
              have : ((0 : Nat) : Int) = 0 := rfl
              rw [this] at h1
              rw [h1, hcount, Int.add_assoc]
            · rw [h2, he2l, hlines, hcountN]
              simp only [List.length_append, List.length_cons, List.length_nil]
              omega
            · rw [h3, hcount]
              simp only [List.length_append, List.length_singleton]
              push_cast
              omega
            · rw [h4, he2l, hlines]
              simp only [List.flatten_append, List.flatten_cons, List.flatten_nil,
                List.countP_append, List.append_nil, List.countP_nil]
              omega
        · rw [if_neg h10]
          obtain ⟨d, hd⟩ : ∃ d, d = UTF8CharLength b := ⟨_, rfl⟩
          have hdpos : 1 ≤ d := by rw [hd]; exact UTF8CharLength_pos b
          have hw' : textWhole (d - 1) rest = true := by
            have : ¬ (b = 10 ∨ b = 13) := by
              intro h
              rcases h with h | h
              · exact h10 h
              · exact h13 h
            rw [textWhole, if_neg this] at hw
            rw [hd]
            exact hw
          obtain ⟨htail, hrest⟩ := textWhole_skip (d - 1) rest hw'
          have htake : (b :: rest).take d = b :: rest.take (d - 1) := by
            obtain ⟨k, hk⟩ : ∃ k, d = k + 1 := ⟨d - 1, by omega⟩
            rw [hk]
            simp
          have hdrop : (b :: rest).drop d = rest.drop (d - 1) := by
            obtain ⟨k, hk⟩ : ∃ k, d = k + 1 := ⟨d - 1, by omega⟩
            rw [hk]
            simp
          have hB := InsertTextAt_bytes_eq d L c (b :: rest) hc h0
          rw [htake, hdrop] at hB
          obtain ⟨L1, hL1⟩ : ∃ L1 : Line, L1 = L.take c ++ (b :: rest.take (d - 1)).map (fun b =>
              ({ mChar := b, mColorIndex := PaletteIndex.Default } : Glyph)) ++ L.drop c := ⟨_, rfl⟩
          rw [← hL1] at hB
          have hbd : (0 : Int) ≤ (P.length : Int) ∧ (P.length : Int) < (e.mLines.length : Int) := by
            rw [hlines]
            simp only [List.length_append, List.length_cons]
            push_cast
            omega
          have hset : e.mLines.set P.length L1 = P ++ L1 :: Q := by
            rw [hlines, set_split]
          obtain ⟨e2, he2⟩ : ∃ e2 : Editor, e2 = { e with mLines := P ++ L1 :: Q } := ⟨_, rfl⟩
          obtain ⟨col1, hcol1⟩ := GetCharacterColumn_total e2 (by rw [he2]; exact hT)
            (P.length : Int) ((c + (b :: rest.take (d - 1)).length : Nat) : Int)
          have hL1len : c + (b :: rest.take (d - 1)).length ≤ L1.length := by
            rw [hL1]
            simp only [List.length_append, List.length_map, List.length_take, List.length_drop,
              List.length_cons]
            omega
          have hrl : (rest.drop (d - 1)).length ≤ fuel := by
            rw [List.length_drop]
            omega
          obtain ⟨e1, w, h1, h2, h3, h4⟩ := ih (rest.drop (d - 1)) e2 P Q L1
            (c + (b :: rest.take (d - 1)).length) col1 total (by rw [he2]; exact hro)
            (by rw [he2]; exact hT) (by rw [he2]) hL1len
            (fun x hx => h0' x (List.mem_of_mem_drop hx)) hrest hrl
          have hcnt : (b :: rest).count 10 = (rest.drop (d - 1)).count 10 := by
            have h5 : rest.count 10 = (rest.take (d - 1)).count 10 + (rest.drop (d - 1)).count 10 := by
              rw [← List.count_append, List.take_append_drop]
            have h6 : (rest.take (d - 1)).count 10 = 0 :=
              List.count_eq_zero.mpr (fun hm => (htail 10 hm).1 rfl)
            rw [List.count_cons_of_ne (fun h => h10 h.symm), h5, h6, Nat.zero_add]
          have hcr : L1.countP (fun g => g.mChar == 13) = L.countP (fun g => g.mChar == 13) := by
            rw [hL1]
            simp only [List.countP_append, List.countP_map]
            have h7 : List.countP ((fun g : Glyph => g.mChar == 13) ∘ fun b =>
                ({ mChar := b, mColorIndex := PaletteIndex.Default } : Glyph))
                (b :: rest.take (d - 1)) = 0 := by
              rw [List.countP_eq_zero]
              intro x hx
              simp only [Function.comp, beq_iff_eq]
              rcases List.mem_cons.1 hx with hx | hx
              · rw [hx]; exact h13
              · exact (htail x hx).2
            have := countP_take_drop (fun g : Glyph => g.mChar == 13) L c
            omega
          refine ⟨e1, w, ?_, ?_, ?_, ?_⟩
          · simp only [vecAt_natCast _ _ _ hL, bind, Except.bind, ← hd, hB, vecSet, hbd, and_self,
              if_true, Int.toNat_ofNat, hset, pure, Except.pure]
            rw [← he2]
            simp only [hcol1]
            rw [h1, hcnt]
          · rw [h2, he2, hlines, hcnt]
            simp only [List.length_append, List.length_cons]
          · rw [h3, hcnt]
          · rw [h4, he2, hlines]
            simp only [List.flatten_append, List.flatten_cons, List.countP_append, hcr]

/-! ## C14: `InsertTextAt` -/

/-- C14 (as amended): for a non-read-only editor with a tab size of at least 1
whose lines are `P ++ L :: Q`, a position on line `|P|` whose byte index `ci`
lies within `L`, and a text `t` without a zero byte in which no line break or
carriage return lies among the trailing bytes declared by a lead byte (as in
every well-formed UTF-8 text): `InsertTextAt` returns the number of `'\n'`
bytes of `t`; the line count has grown by that number; the position ends on
line `|P|` plus that number; and the number of `'\r'` bytes stored in the
document is unchanged (no `'\r'` of `t` is stored). -/
theorem C14_insert_text_at (e : Editor) (P Q : List Line) (L : Line) (col : Int) (ci : Nat)
    (t : List Nat)
    (hro : e.mReadOnly = false) (hT : 1 ≤ e.mTabSize)
    (hlines : e.mLines = P ++ L :: Q)
    (hidx : GetCharacterIndex e ⟨(P.length : Int), col⟩ = Except.ok (ci : Int))
    (hci : ci ≤ L.length)
    (h0 : ∀ b ∈ t, b ≠ 0) (hw : textWhole 0 t = true) :
    ∃ (e1 : Editor) (w : Coordinates),
      InsertTextAt e ⟨(P.length : Int), col⟩ t = Except.ok (e1, w, (t.count 10 : Int)) ∧
      e1.mLines.length = e.mLines.length + t.count 10 ∧
      w.mLine = (P.length : Int) + (t.count 10 : Int) ∧
      e1.mLines.flatten.countP (fun g => g.mChar == 13)
        = e.mLines.flatten.countP (fun g => g.mChar == 13) := by
  have hro' : ¬ (e.mReadOnly = true) := by simp [hro]
  obtain ⟨e1, w, h1, h2, h3, h4⟩ := InsertTextAt_loop_spec t.length t e P Q L ci col 0 hro hT
    hlines hci h0 hw (le_refl _)
  refine ⟨e1, w, ?_, h2, h3, h4⟩
  unfold InsertTextAt
  rw [if_neg hro']
  simp only [hidx, bind, Except.bind]
  rw [h1, Int.zero_add]

/-- C14 (witness): the line `"a"`, the position (0,1) and the text `"b\r\nc"`. -/
theorem C14_insert_text_at_witness :
    ∃ (e1 : Editor) (w : Coordinates),
      InsertTextAt (mkEditor [[97]] ⟨0, 0⟩) ⟨((([] : List Line).length : Nat) : Int), 1⟩
        [98, 13, 10, 99] = Except.ok (e1, w, (([98, 13, 10, 99] : List Nat).count 10 : Int)) ∧
      e1.mLines.length
        = (mkEditor [[97]] ⟨0, 0⟩).mLines.length + ([98, 13, 10, 99] : List Nat).count 10 ∧
      w.mLine = ((([] : List Line).length : Nat) : Int)
        + (([98, 13, 10, 99] : List Nat).count 10 : Int) ∧
      e1.mLines.flatten.countP (fun g => g.mChar == 13)
        = (mkEditor [[97]] ⟨0, 0⟩).mLines.flatten.countP (fun g => g.mChar == 13) :=
  C14_insert_text_at (mkEditor [[97]] ⟨0, 0⟩) [] [] (mkLine [97]) 1 1 [98, 13, 10, 99]
    (by rfl) (by decide) (by rfl) (by rfl) (by decide) (by decide) (by rfl)

/-- C14 (counterexample to the claim as stated): into the line `"a"` at the
sanitized position (0,0), the text `0xE2 '\r' '\n'` (a lead byte that declares
three bytes, followed by a carriage return and a line break) goes in whole:
`InsertTextAt` returns 0 although the text holds one `'\n'`, the document
still has one line, and the `'\r'` is stored in it. -/
theorem C14_insert_text_at_counterexample :
    SanitizeCoordinates (mkEditor [[97]] ⟨0, 0⟩) ⟨0, 0⟩ = Except.ok ⟨0, 0⟩ ∧
    ([226, 13, 10] : List Nat).count 10 = 1 ∧
    (InsertTextAt (mkEditor [[97]] ⟨0, 0⟩) ⟨0, 0⟩ [226, 13, 10]).map
        (fun r => (r.1.bytes, r.2.1.mLine, r.2.2))
      = Except.ok ([[226, 13, 10, 97]], 0, 0) := by
  refine ⟨by rfl, by rfl, by rfl⟩

/-! ## Frame lemmas: what the helpers leave alone -/

theorem bind_ok_inv {α β : Type} {x : M α} {f : α → M β} {b : β}
    (h : x >>= f = Except.ok b) : ∃ a, x = Except.ok a ∧ f a = Except.ok b := by
  cases x with
  | error err => cases h
  | ok a => exact ⟨a, rfl, h⟩

theorem keeps_refl (e : Editor) : e.keeps e := ⟨rfl, rfl, rfl, fun h => h⟩

theorem keeps_trans {a b c : Editor} (h1 : a.keeps b) (h2 : b.keeps c) : a.keeps c :=
  ⟨h2.1.trans h1.1, h2.2.1.trans h1.2.1, h2.2.2.1.trans h1.2.2.1, fun h => h2.2.2.2 (h1.2.2.2 h)⟩

/-- An editor that differs only in fields other than the lines, the undo log
and the read-only flag is kept. -/
theorem keeps_of_eq {e e1 : Editor} (h1 : e1.mUndoIndex = e.mUndoIndex)
    (h2 : e1.mUndoBuffer = e.mUndoBuffer) (h3 : e1.mReadOnly = e.mReadOnly)
    (h4 : e1.mLines = e.mLines) : e.keeps e1 :=
  ⟨h1, h2, h3, fun h => by rw [h4]; exact h⟩

theorem vecSet_ne_nil {α : Type} {v v1 : List α} {i : Int} {x : α}
    (h : vecSet v i x = Except.ok v1) : v1 ≠ [] := by
  unfold vecSet at h
  split_ifs at h with hc
  cases h
  intro hn
  have := congrArg List.length hn
  simp only [List.length_set, List.length_nil] at this
  omega

theorem vecInsert_ne_nil {α : Type} {v v1 : List α} {i : Int} {x : α}
    (h : vecInsert v i [x] = Except.ok v1) : v1 ≠ [] := by
  unfold vecInsert at h
  split_ifs at h with hc
  cases h
  simp

theorem Colorize_lines (e : Editor) (a b : Int) : (Colorize e a b).mLines = e.mLines := rfl

theorem Colorize_keeps (e : Editor) (a b : Int) : e.keeps (Colorize e a b) :=
  keeps_of_eq rfl rfl rfl rfl

theorem SetCursorPosition_lines (e : Editor) (p : Coordinates) :
    (SetCursorPosition e p).mLines = e.mLines := by
  rw [SetCursorPosition_eq]

theorem SetCursorPosition_keeps (e : Editor) (p : Coordinates) :
    e.keeps (SetCursorPosition e p) := by
  rw [SetCursorPosition_eq]
  exact keeps_of_eq rfl rfl rfl rfl

/-- `SetSelection` changes the editor state only. -/
theorem SetSelection_frame {e e1 : Editor} {a b : Coordinates} {m : SelectionMode}
    (h : SetSelection e a b m = Except.ok e1) :
    e1.mLines = e.mLines ∧ e1.mUndoIndex = e.mUndoIndex ∧ e1.mUndoBuffer = e.mUndoBuffer ∧
      e1.mReadOnly = e.mReadOnly := by
  unfold SetSelection at h
  obtain ⟨s0, _, h⟩ := bind_ok_inv h
  obtain ⟨e0, _, h⟩ := bind_ok_inv h
  cases m with
  | Normal =>
    cases h
    exact ⟨rfl, rfl, rfl, rfl⟩
  | Word =>
    simp only [] at h
    obtain ⟨s2, _, h⟩ := bind_ok_inv h
    obtain ⟨onb, _, h⟩ := bind_ok_inv h
    split_ifs at h
    all_goals repeat (obtain ⟨_, _, h⟩ := bind_ok_inv h)
    all_goals cases h
    all_goals exact ⟨rfl, rfl, rfl, rfl⟩
  | Line =>
    simp only [] at h
    obtain ⟨n, _, h⟩ := bind_ok_inv h
    cases h
    exact ⟨rfl, rfl, rfl, rfl⟩

theorem SetSelection_keeps {e e1 : Editor} {a b : Coordinates} {m : SelectionMode}
    (h : SetSelection e a b m = Except.ok e1) : e.keeps e1 := by
  obtain ⟨h1, h2, h3, h4⟩ := SetSelection_frame h
  exact keeps_of_eq h2 h3 h4 h1

/-- `AddUndo` keeps the lines and appends one transaction. -/
theorem AddUndo_frame {e e1 : Editor} {u : UndoRecord} (h : AddUndo e u = Except.ok e1) :
    e1.mLines = e.mLines ∧ e1.mUndoIndex = e.mUndoIndex + 1 ∧
      (e1.mUndoBuffer.length : Int) = e1.mUndoIndex ∧ e1.mReadOnly = e.mReadOnly := by
  unfold AddUndo at h
  split_ifs at h with h1 h2
  cases h
  refine ⟨rfl, rfl, ?_, rfl⟩
  simp only [List.length_append, List.length_replicate, List.length_take, List.length_singleton]
  push_cast
  omega

theorem RemoveLine2_keeps {e e1 : Editor} {a b : Int} (h : RemoveLine2 e a b = Except.ok e1) :
    e.keeps e1 := by
  unfold RemoveLine2 at h
  split_ifs at h with h1 h2 h3
  obtain ⟨lines, _, h⟩ := bind_ok_inv h
  split_ifs at h with h4
  cases h
  refine ⟨rfl, rfl, rfl, fun _ => ?_⟩
  intro hn
  apply h4
  have hn1 : lines = [] := hn
  rw [hn1]
  rfl

theorem RemoveLine_keeps {e e1 : Editor} {a : Int} (h : RemoveLine e a = Except.ok e1) :
    e.keeps e1 := by
  unfold RemoveLine at h
  split_ifs at h with h1 h2
  obtain ⟨lines, _, h⟩ := bind_ok_inv h
  split_ifs at h with h4
  cases h
  refine ⟨rfl, rfl, rfl, fun _ => ?_⟩
  intro hn
  apply h4
  have hn1 : lines = [] := hn
  rw [hn1]
  rfl

theorem InsertLine_keeps {e e1 : Editor} {a : Int} (h : InsertLine e a = Except.ok e1) :
    e.keeps e1 := by
  unfold InsertLine at h
  split_ifs at h with h1
  obtain ⟨lines, hl, h⟩ := bind_ok_inv h
  cases h
  exact ⟨rfl, rfl, rfl, fun _ => vecInsert_ne_nil hl⟩

theorem DeleteRange_keeps {e e1 : Editor} {a b : Coordinates}
    (h : DeleteRange e a b = Except.ok e1) : e.keeps e1 := by
  unfold DeleteRange at h
  repeat' (first | (obtain ⟨_, _, h⟩ := bind_ok_inv h) | split_ifs at h)
  all_goals first
    | (have hk := RemoveLine2_keeps h
       exact ⟨hk.1, hk.2.1, hk.2.2.1, fun _ => hk.2.2.2 (vecSet_ne_nil (by assumption))⟩)
    | (cases h
       first
         | exact keeps_refl _
         | exact ⟨rfl, rfl, rfl, fun _ => vecSet_ne_nil (by assumption)⟩)

/-- The loop of `InsertTextAt` keeps the undo log, the read-only flag and a
non-empty document. -/
theorem InsertTextAt_loop_keeps : ∀ (fuel : Nat) (e : Editor) (w : Coordinates) (c total : Int)
    (t : List Nat) (r : Editor × Coordinates × Int),
    InsertTextAt.loop fuel e w c total t = Except.ok r → e.keeps r.1 := by
  intro fuel
  induction fuel with
  | zero =>
    intro e w c total t r h
    cases h
    exact keeps_refl _
  | succ fuel ih =>
    intro e w c total t r h
    cases t with
    | nil =>
      cases h
      exact keeps_refl _
    | cons b rest =>
      rw [InsertTextAt.loop] at h
      repeat' (first | (simp only [pure_bind] at h) | (obtain ⟨_, _, h⟩ := bind_ok_inv h) | split_ifs at h | split at h)
      all_goals first
        | (cases h; exact keeps_refl _)
        | exact ih _ _ _ _ _ _ h
        | (have hk := ih _ _ _ _ _ _ h
           have hI := InsertLine_keeps ‹InsertLine _ _ = Except.ok _›
           exact keeps_trans hI hk)
        | (have hk := ih _ _ _ _ _ _ h
           have hI := InsertLine_keeps ‹InsertLine _ _ = Except.ok _›
           have hV := vecSet_ne_nil ‹vecSet _ _ _ = Except.ok _›
           refine keeps_trans ?_ hk
           refine keeps_trans hI ?_
           exact ⟨rfl, rfl, rfl, fun _ => hV⟩)
        | (have hk := ih _ _ _ _ _ _ h
           have hV := vecSet_ne_nil ‹vecSet _ _ _ = Except.ok _›
           refine keeps_trans ?_ hk
           exact ⟨rfl, rfl, rfl, fun _ => hV⟩)

theorem InsertTextAt_keeps {e : Editor} {w : Coordinates} {t : List Nat}
    {r : Editor × Coordinates × Int} (h : InsertTextAt e w t = Except.ok r) : e.keeps r.1 := by
  unfold InsertTextAt at h
  split_ifs at h
  obtain ⟨_, _, h⟩ := bind_ok_inv h
  exact InsertTextAt_loop_keeps _ _ _ _ _ _ _ h

theorem DeleteSelection_keeps {e e1 : Editor} (h : DeleteSelection e = Except.ok e1) :
    e.keeps e1 := by
  unfold DeleteSelection at h
  split_ifs at h
  · cases h
    exact keeps_refl _
  · obtain ⟨x1, h1, h⟩ := bind_ok_inv h
    obtain ⟨x2, h2, h⟩ := bind_ok_inv h
    cases h
    exact keeps_trans (DeleteRange_keeps h1) (keeps_trans (SetSelection_keeps h2)
      (keeps_trans (SetCursorPosition_keeps _ _) (Colorize_keeps _ _ _)))

theorem InsertText_keeps {e e1 : Editor} {v : Option (List Nat)}
    (h : InsertText e v = Except.ok e1) : e.keeps e1 := by
  unfold InsertText at h
  cases v with
  | none =>
    cases h
    exact keeps_refl _
  | some t =>
    simp only [] at h
    obtain ⟨pos, _, h⟩ := bind_ok_inv h
    obtain ⟨r, h1, h⟩ := bind_ok_inv h
    obtain ⟨x1, x2, x3⟩ := r
    simp only [] at h
    obtain ⟨x4, h2, h⟩ := bind_ok_inv h
    cases h
    exact keeps_trans (InsertTextAt_keeps h1) (keeps_trans (SetSelection_keeps h2)
      (keeps_trans (SetCursorPosition_keeps _ _) (Colorize_keeps _ _ _)))

theorem removeSelection_keeps {e : Editor} {u : UndoRecord} {r : Editor × UndoRecord}
    (h : EnterCharacter.removeSelection e u = Except.ok r) : e.keeps r.1 := by
  unfold EnterCharacter.removeSelection at h
  split_ifs at h
  · obtain ⟨x1, _, h⟩ := bind_ok_inv h
    obtain ⟨x2, h2, h⟩ := bind_ok_inv h
    cases h
    exact DeleteSelection_keeps h2
  · cases h
    exact keeps_refl _

/-! ## The public edit operations: non-empty document and one transaction -/

theorem logged_of_lines_eq {e e1 : Editor} (h : e1.mLines = e.mLines) :
    (e.mLines ≠ [] → e1.mLines ≠ []) ∧ e.logged e1 :=
  ⟨fun hne => by rw [h]; exact hne, Or.inl h⟩

/-- A result of `AddUndo` on an editor kept from `e` has one more transaction
than `e`. -/
theorem logged_of_AddUndo {e x e1 : Editor} {u : UndoRecord} (hk : e.keeps x)
    (h : AddUndo x u = Except.ok e1) :
    (e.mLines ≠ [] → e1.mLines ≠ []) ∧ e.logged e1 := by
  obtain ⟨h1, h2, h3, _⟩ := AddUndo_frame h
  refine ⟨fun hne => by rw [h1]; exact hk.2.2.2 hne, Or.inr ⟨?_, h3⟩⟩
  rw [h2, hk.1]

theorem logged_Colorize {e e1 : Editor} (a b : Int)
    (h : (e.mLines ≠ [] → e1.mLines ≠ []) ∧ e.logged e1) :
    (e.mLines ≠ [] → (Colorize e1 a b).mLines ≠ []) ∧ e.logged (Colorize e1 a b) := h

theorem finish_logged {e x e1 : Editor} {u : UndoRecord} {c : Coordinates} (hk : e.keeps x)
    (h : EnterCharacter.finish x u c = Except.ok e1) :
    (e.mLines ≠ [] → e1.mLines ≠ []) ∧ e.logged e1 := by
  unfold EnterCharacter.finish at h
  obtain ⟨x1, _, h⟩ := bind_ok_inv h
  obtain ⟨x2, h2, h⟩ := bind_ok_inv h
  cases h
  exact logged_Colorize _ _ (logged_of_AddUndo hk h2)

theorem keeps_of_fields {e e1 : Editor} (h1 : e1.mUndoIndex = e.mUndoIndex)
    (h2 : e1.mUndoBuffer = e.mUndoBuffer) (h3 : e1.mReadOnly = e.mReadOnly)
    (h4 : e1.mLines ≠ []) : e.keeps e1 :=
  ⟨h1, h2, h3, fun _ => h4⟩

theorem Delete_logged {e e1 : Editor} (h : Delete e = Except.ok e1) :
    (e.mLines ≠ [] → e1.mLines ≠ []) ∧ e.logged e1 := by
  unfold Delete at h
  split_ifs at h
  · cases h
    exact logged_of_lines_eq rfl
  · obtain ⟨removed, _, h⟩ := bind_ok_inv h
    obtain ⟨x, hx, h⟩ := bind_ok_inv h
    exact logged_of_AddUndo (DeleteSelection_keeps hx) h
  · obtain ⟨pos, _, h⟩ := bind_ok_inv h
    obtain ⟨line, _, h⟩ := bind_ok_inv h
    obtain ⟨n, _, h⟩ := bind_ok_inv h
    split_ifs at h
    · cases h
      exact logged_of_lines_eq (SetCursorPosition_lines _ _)
    · obtain ⟨removedStart, _, h⟩ := bind_ok_inv h
      obtain ⟨removedEnd, _, h⟩ := bind_ok_inv h
      obtain ⟨nextLine, _, h⟩ := bind_ok_inv h
      obtain ⟨lines, hl, h⟩ := bind_ok_inv h
      obtain ⟨e2, hr, h⟩ := bind_ok_inv h
      refine logged_of_AddUndo ?_ h
      refine keeps_trans ?_ (Colorize_keeps _ _ _)
      refine keeps_trans ?_ (RemoveLine_keeps hr)
      refine keeps_trans (SetCursorPosition_keeps e pos) ?_
      exact keeps_of_fields rfl rfl rfl (vecSet_ne_nil hl)
    · obtain ⟨cindex, _, h⟩ := bind_ok_inv h
      obtain ⟨removedStart, _, h⟩ := bind_ok_inv h
      obtain ⟨removed, _, h⟩ := bind_ok_inv h
      obtain ⟨g, _, h⟩ := bind_ok_inv h
      obtain ⟨line1, _, h⟩ := bind_ok_inv h
      obtain ⟨lines, hl, h⟩ := bind_ok_inv h
      refine logged_of_AddUndo ?_ h
      refine keeps_trans ?_ (Colorize_keeps _ _ _)
      refine keeps_trans (SetCursorPosition_keeps e pos) ?_
      exact keeps_of_fields rfl rfl rfl (vecSet_ne_nil hl)

theorem Backspace_logged {e e1 : Editor} (h : Backspace e = Except.ok e1) :
    (e.mLines ≠ [] → e1.mLines ≠ []) ∧ e.logged e1 := by
  unfold Backspace at h
  split_ifs at h
  · cases h
    exact logged_of_lines_eq rfl
  · obtain ⟨removed, _, h⟩ := bind_ok_inv h
    obtain ⟨x, hx, h⟩ := bind_ok_inv h
    exact logged_of_AddUndo (DeleteSelection_keeps hx) h
  · obtain ⟨pos, _, h⟩ := bind_ok_inv h
    simp only [] at h
    split_ifs at h
    · cases h
      exact logged_of_lines_eq (SetCursorPosition_lines _ _)
    · obtain ⟨m, _, h⟩ := bind_ok_inv h
      obtain ⟨removedEnd, _, h⟩ := bind_ok_inv h
      obtain ⟨line, _, h⟩ := bind_ok_inv h
      obtain ⟨prevLine, _, h⟩ := bind_ok_inv h
      obtain ⟨prevSize, _, h⟩ := bind_ok_inv h
      obtain ⟨lines, hl, h⟩ := bind_ok_inv h
      obtain ⟨e3, hr, h⟩ := bind_ok_inv h
      refine logged_of_AddUndo ?_ h
      refine keeps_trans ?_ (Colorize_keeps _ _ _)
      have hk3 := RemoveLine_keeps hr
      have hk1 : e.keeps { SetCursorPosition e pos with
          mLines := lines,
          mErrorMarkers := Backspace.markers (SetCursorPosition e pos).mState.mCursorPosition.mLine
            (SetCursorPosition e pos).mErrorMarkers } :=
        keeps_trans (SetCursorPosition_keeps e pos)
          (keeps_of_fields rfl rfl rfl (vecSet_ne_nil hl))
      have hk := keeps_trans hk1 hk3
      exact ⟨hk.1, hk.2.1, hk.2.2.1, hk.2.2.2⟩
    · obtain ⟨line, _, h⟩ := bind_ok_inv h
      obtain ⟨ci, _, h⟩ := bind_ok_inv h
      split_ifs at h
      all_goals
        repeat' (first | (simp only [pure_bind] at h) | (obtain ⟨_, _, h⟩ := bind_ok_inv h))
        refine logged_of_AddUndo ?_ h
        refine keeps_trans ?_ (Colorize_keeps _ _ _)
        refine keeps_trans (SetCursorPosition_keeps e pos) ?_
        exact keeps_of_fields rfl rfl rfl (vecSet_ne_nil ‹vecSet _ _ _ = Except.ok _›)

theorem Cut_logged {e e1 : Editor} (h : Cut e = Except.ok e1) :
    (e.mLines ≠ [] → e1.mLines ≠ []) ∧ e.logged e1 := by
  unfold Cut at h
  split_ifs at h
  · obtain ⟨_, _, h⟩ := bind_ok_inv h
    cases h
    exact logged_of_lines_eq rfl
  · obtain ⟨removed, _, h⟩ := bind_ok_inv h
    obtain ⟨_, _, h⟩ := bind_ok_inv h
    obtain ⟨x, hx, h⟩ := bind_ok_inv h
    exact logged_of_AddUndo (DeleteSelection_keeps hx) h
  · cases h
    exact logged_of_lines_eq rfl

theorem Paste_logged {e e1 : Editor} {clipText : Option (List Nat)}
    (h : Paste e clipText = Except.ok e1) :
    (e.mLines ≠ [] → e1.mLines ≠ []) ∧ e.logged e1 := by
  unfold Paste at h
  cases clipText with
  | none =>
    split_ifs at h <;> cases h <;> exact logged_of_lines_eq rfl
  | some t =>
    simp only [] at h
    split_ifs at h
    · cases h
      exact logged_of_lines_eq rfl
    · obtain ⟨removed, _, h⟩ := bind_ok_inv h
      obtain ⟨x, hx, h⟩ := bind_ok_inv h
      simp only [pure_bind] at h
      obtain ⟨addedStart, _, h⟩ := bind_ok_inv h
      obtain ⟨e2, h2, h⟩ := bind_ok_inv h
      obtain ⟨addedEnd, _, h⟩ := bind_ok_inv h
      exact logged_of_AddUndo (keeps_trans (DeleteSelection_keeps hx) (InsertText_keeps h2)) h
    · simp only [pure_bind] at h
      obtain ⟨addedStart, _, h⟩ := bind_ok_inv h
      obtain ⟨e2, h2, h⟩ := bind_ok_inv h
      obtain ⟨addedEnd, _, h⟩ := bind_ok_inv h
      exact logged_of_AddUndo (InsertText_keeps h2) h
    · cases h
      exact logged_of_lines_eq rfl

theorem spaces_unmodified : ∀ (j : Nat) (line : Line) (m : Bool) (line1 : Line),
    EnterCharacter.spaces j line m = (line1, false) → line1 = line ∧ m = false := by
  intro j
  induction j with
  | zero =>
    intro line m line1 h
    simp only [EnterCharacter.spaces, Prod.mk.injEq] at h
    exact ⟨h.1.symm, h.2⟩
  | succ j ih =>
    intro line m line1 h
    cases line with
    | nil =>
      simp only [EnterCharacter.spaces, Prod.mk.injEq] at h
      exact ⟨h.1.symm, h.2⟩
    | cons g rest =>
      simp only [EnterCharacter.spaces] at h
      split_ifs at h
      · exact absurd (ih _ _ _ h).2 (by simp)
      · simp only [Prod.mk.injEq] at h
        exact ⟨h.1.symm, h.2⟩

theorem indentLine_unmodified {tab : Nat} {aShift : Bool} {line line1 : Line} {m : Bool}
    (h : EnterCharacter.indentLine tab aShift line m = (line1, false)) :
    line1 = line ∧ m = false := by
  unfold EnterCharacter.indentLine at h
  split_ifs at h
  · cases line with
    | nil =>
      simp only [Prod.mk.injEq] at h
      exact ⟨h.1.symm, h.2⟩
    | cons g rest =>
      simp only [] at h
      split_ifs at h
      · simp at h
      · exact spaces_unmodified _ _ _ _ h
  · simp at h

theorem list_set_self {α : Type} : ∀ (v : List α) (n : Nat) (x : α),
    v[n]? = some x → v.set n x = v := by
  intro v
  induction v with
  | nil => intro n x h; rfl
  | cons a t ih =>
    intro n x h
    cases n with
    | zero =>
      simp only [List.getElem?_cons_zero, Option.some.injEq] at h
      rw [List.set_cons_zero, h]
    | succ n =>
      simp only [List.getElem?_cons_succ] at h
      rw [List.set_cons_succ, ih n x h]

theorem vecSet_self {α : Type} {v v1 : List α} {i : Int} {x : α}
    (ha : vecAt v i = Except.ok x) (h : vecSet v i x = Except.ok v1) : v1 = v := by
  unfold vecSet at h
  split_ifs at h with hc
  cases h
  unfold vecAt at ha
  rw [if_pos hc.1] at ha
  cases hx : v[i.toNat]? with
  | none => rw [hx] at ha; cases ha
  | some y =>
    rw [hx] at ha
    cases ha
    exact list_set_self _ _ _ hx

theorem indentLoop_spec {tab : Nat} {aShift : Bool} {endLine : Int} :
    ∀ (count : Nat) (i : Int) (lines : List Line) (m : Bool) (lines1 : List Line) (m1 : Bool),
      EnterCharacter.indentLoop tab aShift endLine count i lines m = Except.ok (lines1, m1) →
      (lines ≠ [] → lines1 ≠ []) ∧ (m1 = false → lines1 = lines ∧ m = false) := by
  intro count
  induction count with
  | zero =>
    intro i lines m lines1 m1 h
    cases h
    exact ⟨id, fun hm => ⟨rfl, hm⟩⟩
  | succ count ih =>
    intro i lines m lines1 m1 h
    rw [EnterCharacter.indentLoop] at h
    split_ifs at h
    · obtain ⟨line, ha, h⟩ := bind_ok_inv h
      rcases hil : EnterCharacter.indentLine tab aShift line m with ⟨line1, mod1⟩
      rw [hil] at h
      simp only [] at h
      obtain ⟨l1, hs, h⟩ := bind_ok_inv h
      have hi := ih _ _ _ _ _ h
      refine ⟨fun _ => hi.1 (vecSet_ne_nil hs), fun hm => ?_⟩
      obtain ⟨h1, h2⟩ := hi.2 hm
      subst h2
      obtain ⟨h4, h5⟩ := indentLine_unmodified hil
      rw [h4] at hs
      exact ⟨h1.trans (vecSet_self ha hs), h5⟩
    · cases h
      exact ⟨id, fun hm => ⟨rfl, hm⟩⟩

theorem indent_logged {e e1 : Editor} {aShift : Bool} {u : UndoRecord}
    (h : EnterCharacter.indent e aShift u = Except.ok e1) :
    (e.mLines ≠ [] → e1.mLines ≠ []) ∧ e.logged e1 := by
  unfold EnterCharacter.indent at h
  simp only [] at h
  obtain ⟨n, _, h⟩ := bind_ok_inv h
  obtain ⟨removed, _, h⟩ := bind_ok_inv h
  obtain ⟨r, hr, h⟩ := bind_ok_inv h
  obtain ⟨lines, modified⟩ := r
  have hs := indentLoop_spec _ _ _ _ _ _ hr
  simp only [] at h
  cases modified with
  | false =>
    simp only [Bool.false_eq_true, if_false] at h
    cases h
    exact ⟨hs.1, Or.inl (hs.2 rfl).1⟩
  | true =>
    simp only [if_true] at h
    obtain ⟨c0, _, h⟩ := bind_ok_inv h
    split_ifs at h
    all_goals
      obtain ⟨m, _, h⟩ := bind_ok_inv h
      obtain ⟨added, _, h⟩ := bind_ok_inv h
      refine logged_of_AddUndo ?_ h
      exact ⟨rfl, rfl, rfl, hs.1⟩

theorem newline_logged {e x e1 : Editor} {u : UndoRecord} {c : Coordinates} {aChar : Nat}
    (hk : e.keeps x) (h : EnterCharacter.newline x u c aChar = Except.ok e1) :
    (e.mLines ≠ [] → e1.mLines ≠ []) ∧ e.logged e1 := by
  unfold EnterCharacter.newline at h
  obtain ⟨e2, h2, h⟩ := bind_ok_inv h
  obtain ⟨line, _, h⟩ := bind_ok_inv h
  obtain ⟨newLine0, _, h⟩ := bind_ok_inv h
  obtain ⟨lines1, _, h⟩ := bind_ok_inv h
  obtain ⟨cindex, _, h⟩ := bind_ok_inv h
  obtain ⟨tail, _, h⟩ := bind_ok_inv h
  obtain ⟨lines2, _, h⟩ := bind_ok_inv h
  obtain ⟨line1, _, h⟩ := bind_ok_inv h
  obtain ⟨lines3, hl3, h⟩ := bind_ok_inv h
  obtain ⟨col, _, h⟩ := bind_ok_inv h
  refine finish_logged ?_ h
  refine keeps_trans ?_ (SetCursorPosition_keeps _ _)
  refine keeps_trans (keeps_trans hk (InsertLine_keeps h2)) ?_
  exact keeps_of_fields rfl rfl rfl (vecSet_ne_nil hl3)

theorem character_logged {e x e1 : Editor} {u : UndoRecord} {c : Coordinates} {aChar : Nat}
    (hk : e.keeps x) (h : EnterCharacter.character x u c aChar = Except.ok e1) :
    (e.mLines ≠ [] → e1.mLines ≠ []) ∧
      (0 < (ImTextCharToUtf8 7 aChar).length → e.logged e1) := by
  unfold EnterCharacter.character at h
  simp only [] at h
  split_ifs at h with hb
  · obtain ⟨line, _, h⟩ := bind_ok_inv h
    obtain ⟨cindex, _, h⟩ := bind_ok_inv h
    obtain ⟨r, _, h⟩ := bind_ok_inv h
    obtain ⟨line1, u3⟩ := r
    simp only [] at h
    obtain ⟨r2, _, h⟩ := bind_ok_inv h
    obtain ⟨line2, cindex1⟩ := r2
    simp only [] at h
    obtain ⟨lines, hl, h⟩ := bind_ok_inv h
    obtain ⟨col, _, h⟩ := bind_ok_inv h
    have hf : (e.mLines ≠ [] → e1.mLines ≠ []) ∧ e.logged e1 := by
      refine finish_logged ?_ h
      refine keeps_trans ?_ (SetCursorPosition_keeps _ _)
      refine keeps_trans hk ?_
      exact keeps_of_fields rfl rfl rfl (vecSet_ne_nil hl)
    exact ⟨hf.1, fun _ => hf.2⟩
  · cases h
    exact ⟨hk.2.2.2, fun hp => absurd hp hb⟩

theorem EnterCharacter_logged {e e1 : Editor} {aChar : Nat} {aShift : Bool}
    (h : EnterCharacter e aChar aShift = Except.ok e1) :
    (e.mLines ≠ [] → e1.mLines ≠ []) ∧
      (aChar = 10 ∨ 0 < (ImTextCharToUtf8 7 aChar).length → e.logged e1) := by
  unfold EnterCharacter at h
  simp only [] at h
  split_ifs at h with hro hind
  · have := indent_logged h
    exact ⟨this.1, fun _ => this.2⟩
  · obtain ⟨r, hr, h⟩ := bind_ok_inv h
    obtain ⟨coord, _, h⟩ := bind_ok_inv h
    have hk := removeSelection_keeps hr
    split_ifs at h
    have := newline_logged hk h
    exact ⟨this.1, fun _ => this.2⟩
  · obtain ⟨r, hr, h⟩ := bind_ok_inv h
    obtain ⟨coord, _, h⟩ := bind_ok_inv h
    have hk := removeSelection_keeps hr
    split_ifs at h
    have := character_logged hk h
    refine ⟨this.1, fun hp => this.2 ?_⟩
    rcases hp with hp | hp
    · exact absurd hp ‹¬ aChar = 10›
    · exact hp

theorem UndoRecord_Undo_keeps {u : UndoRecord} {e e1 : Editor}
    (h : u.Undo e = Except.ok e1) : e.keeps e1 := by
  unfold UndoRecord.Undo at h
  simp only [] at h
  split_ifs at h
  all_goals
    repeat' (first | (simp only [pure_bind] at h) | (obtain ⟨_, _, h⟩ := bind_ok_inv h) | split at h)
  all_goals cases h
  all_goals first
    | (have kd := DeleteRange_keeps ‹DeleteRange _ _ _ = Except.ok _›
       have ki := InsertTextAt_keeps ‹InsertTextAt _ _ _ = Except.ok _›
       have k := keeps_trans kd (keeps_trans (Colorize_keeps _ _ _) ki)
       exact ⟨k.1, k.2.1, k.2.2.1, k.2.2.2⟩)
    | (have k := DeleteRange_keeps ‹DeleteRange _ _ _ = Except.ok _›
       exact ⟨k.1, k.2.1, k.2.2.1, k.2.2.2⟩)
    | (have k := InsertTextAt_keeps ‹InsertTextAt _ _ _ = Except.ok _›
       exact ⟨k.1, k.2.1, k.2.2.1, k.2.2.2⟩)
    | exact ⟨rfl, rfl, rfl, id⟩

theorem UndoRecord_Redo_keeps {u : UndoRecord} {e e1 : Editor}
    (h : u.Redo e = Except.ok e1) : e.keeps e1 := by
  unfold UndoRecord.Redo at h
  simp only [] at h
  split_ifs at h
  all_goals
    repeat' (first | (simp only [pure_bind] at h) | (obtain ⟨_, _, h⟩ := bind_ok_inv h) | split at h)
  all_goals cases h
  all_goals first
    | (have kd := DeleteRange_keeps ‹DeleteRange _ _ _ = Except.ok _›
       have ki := InsertTextAt_keeps ‹InsertTextAt _ _ _ = Except.ok _›
       have k := keeps_trans kd (keeps_trans (Colorize_keeps _ _ _) ki)
       exact ⟨k.1, k.2.1, k.2.2.1, k.2.2.2⟩)
    | (have k := DeleteRange_keeps ‹DeleteRange _ _ _ = Except.ok _›
       exact ⟨k.1, k.2.1, k.2.2.1, k.2.2.2⟩)
    | (have k := InsertTextAt_keeps ‹InsertTextAt _ _ _ = Except.ok _›
       exact ⟨k.1, k.2.1, k.2.2.1, k.2.2.2⟩)
    | exact ⟨rfl, rfl, rfl, id⟩

theorem Undo_loop_lines_ne : ∀ (steps : Nat) (e e1 : Editor),
    Undo.loop steps e = Except.ok e1 → e.mLines ≠ [] → e1.mLines ≠ [] := by
  intro steps
  induction steps with
  | zero =>
    intro e e1 h hne
    cases h
    exact hne
  | succ steps ih =>
    intro e e1 h hne
    rw [Undo.loop] at h
    split_ifs at h
    · obtain ⟨u, _, h⟩ := bind_ok_inv h
      obtain ⟨e2, h2, h⟩ := bind_ok_inv h
      exact ih _ _ h ((UndoRecord_Undo_keeps h2).2.2.2 hne)
    · cases h
      exact hne

theorem Redo_loop_lines_ne : ∀ (steps : Nat) (e e1 : Editor),
    Redo.loop steps e = Except.ok e1 → e.mLines ≠ [] → e1.mLines ≠ [] := by
  intro steps
  induction steps with
  | zero =>
    intro e e1 h hne
    cases h
    exact hne
  | succ steps ih =>
    intro e e1 h hne
    rw [Redo.loop] at h
    split_ifs at h
    · obtain ⟨u, _, h⟩ := bind_ok_inv h
      obtain ⟨e2, h2, h⟩ := bind_ok_inv h
      exact ih _ _ h ((UndoRecord_Redo_keeps h2).2.2.2 hne)
    · cases h
      exact hne

theorem SetText_loop_ne : ∀ (t : List Nat) (lines : List Line),
    lines ≠ [] → SetText.loop t lines ≠ [] := by
  intro t
  induction t with
  | nil => intro lines h; exact h
  | cons chr rest ih =>
    intro lines h
    rw [SetText.loop]
    split_ifs
    · exact ih _ h
    · exact ih _ (by simp)
    · exact ih _ (by simp)

theorem SetText_lines_ne (e : Editor) (t : List Nat) : (SetText e t).mLines ≠ [] :=
  SetText_loop_ne t [[]] (by simp)

theorem SetTextLines_lines_ne (e : Editor) (ls : List (List Nat)) :
    (SetTextLines e ls).mLines ≠ [] := by
  unfold SetTextLines
  simp only [Colorize_lines]
  split_ifs with h
  · simp
  · intro hc
    rw [List.map_eq_nil_iff] at hc
    rw [hc] at h
    exact h rfl

/-- C12: starting from a document with at least one line, every call of
`SetText`, `SetTextLines`, `InsertText`, `EnterCharacter`, `Delete`,
`Backspace`, `Cut`, `Paste`, `DeleteRange`, `Undo` and `Redo` leaves a document
with at least one line (`SetText` and `SetTextLines` always return; for the
others the document left is that of the call that returns). -/
theorem C12_document_keeps_a_line (e : Editor) (hne : e.mLines ≠ []) :
    (∀ t : List Nat, (SetText e t).mLines ≠ []) ∧
    (∀ ls : List (List Nat), (SetTextLines e ls).mLines ≠ []) ∧
    (∀ (v : Option (List Nat)) (e1 : Editor), InsertText e v = Except.ok e1 → e1.mLines ≠ []) ∧
    (∀ (aChar : Nat) (aShift : Bool) (e1 : Editor),
      EnterCharacter e aChar aShift = Except.ok e1 → e1.mLines ≠ []) ∧
    (∀ e1 : Editor, Delete e = Except.ok e1 → e1.mLines ≠ []) ∧
    (∀ e1 : Editor, Backspace e = Except.ok e1 → e1.mLines ≠ []) ∧
    (∀ e1 : Editor, Cut e = Except.ok e1 → e1.mLines ≠ []) ∧
    (∀ (clipText : Option (List Nat)) (e1 : Editor),
      Paste e clipText = Except.ok e1 → e1.mLines ≠ []) ∧
    (∀ (aStart aEnd : Coordinates) (e1 : Editor),
      DeleteRange e aStart aEnd = Except.ok e1 → e1.mLines ≠ []) ∧
    (∀ (aSteps : Int) (e1 : Editor), Undo e aSteps = Except.ok e1 → e1.mLines ≠ []) ∧
    (∀ (aSteps : Int) (e1 : Editor), Redo e aSteps = Except.ok e1 → e1.mLines ≠ []) :=
  ⟨fun t => SetText_lines_ne e t,
   fun ls => SetTextLines_lines_ne e ls,
   fun _ _ h => (InsertText_keeps h).2.2.2 hne,
   fun _ _ _ h => (EnterCharacter_logged h).1 hne,
   fun _ h => (Delete_logged h).1 hne,
   fun _ h => (Backspace_logged h).1 hne,
   fun _ h => (Cut_logged h).1 hne,
   fun _ _ h => (Paste_logged h).1 hne,
   fun _ _ _ h => (DeleteRange_keeps h).2.2.2 hne,
   fun _ _ h => Undo_loop_lines_ne _ _ _ h hne,
   fun _ _ h => Redo_loop_lines_ne _ _ _ h hne⟩

/-- C12 (witness): `Backspace()` at the start of the second of the two lines
`"a"`, `"b"` joins them; the call returns and one line is left. -/
theorem C12_document_keeps_a_line_witness :
    (mkEditor [[97], [98]] ⟨1, 0⟩).mLines ≠ [] ∧
    ∃ e1 : Editor, Backspace (mkEditor [[97], [98]] ⟨1, 0⟩) = Except.ok e1 ∧
      e1.mLines = [mkLine [97, 98]] ∧ e1.mLines ≠ [] :=
  ⟨by decide, _, rfl, rfl,
    (C12_document_keeps_a_line (mkEditor [[97], [98]] ⟨1, 0⟩) (by decide)).2.2.2.2.2.1 _ rfl⟩

/-- C19 (amended): `InsertText` itself leaves the undo log as it is. For
`EnterCharacter` with a newline or a character code that `ImTextCharToUtf8`
encodes, `Delete`, `Backspace`, `Cut` and `Paste`, a call that returns with the
line contents changed has raised the undo index by exactly one, and the log
length equals the new index. -/
theorem C19_edit_logs_one_transaction (e : Editor) :
    (∀ (v : Option (List Nat)) (e1 : Editor), InsertText e v = Except.ok e1 →
      e1.mUndoIndex = e.mUndoIndex ∧ e1.mUndoBuffer = e.mUndoBuffer) ∧
    (∀ (aChar : Nat) (aShift : Bool) (e1 : Editor),
      (aChar = 10 ∨ 0 < (ImTextCharToUtf8 7 aChar).length) →
      EnterCharacter e aChar aShift = Except.ok e1 → e1.mLines ≠ e.mLines →
      e1.mUndoIndex = e.mUndoIndex + 1 ∧ (e1.mUndoBuffer.length : Int) = e1.mUndoIndex) ∧
    (∀ e1 : Editor, Delete e = Except.ok e1 → e1.mLines ≠ e.mLines →
      e1.mUndoIndex = e.mUndoIndex + 1 ∧ (e1.mUndoBuffer.length : Int) = e1.mUndoIndex) ∧
    (∀ e1 : Editor, Backspace e = Except.ok e1 → e1.mLines ≠ e.mLines →
      e1.mUndoIndex = e.mUndoIndex + 1 ∧ (e1.mUndoBuffer.length : Int) = e1.mUndoIndex) ∧
    (∀ e1 : Editor, Cut e = Except.ok e1 → e1.mLines ≠ e.mLines →
      e1.mUndoIndex = e.mUndoIndex + 1 ∧ (e1.mUndoBuffer.length : Int) = e1.mUndoIndex) ∧
    (∀ (clipText : Option (List Nat)) (e1 : Editor),
      Paste e clipText = Except.ok e1 → e1.mLines ≠ e.mLines →
      e1.mUndoIndex = e.mUndoIndex + 1 ∧ (e1.mUndoBuffer.length : Int) = e1.mUndoIndex) :=
  ⟨fun _ _ h => ⟨(InsertText_keeps h).1, (InsertText_keeps h).2.1⟩,
   fun _ _ _ hc h hl => ((EnterCharacter_logged h).2 hc).resolve_left hl,
   fun _ h hl => (Delete_logged h).2.resolve_left hl,
   fun _ h hl => (Backspace_logged h).2.resolve_left hl,
   fun _ h hl => (Cut_logged h).2.resolve_left hl,
   fun _ _ h hl => (Paste_logged h).2.resolve_left hl⟩

/-- C19 (witness): typing `'x'` into the editor holding the line `"a"` changes
the line and records one transaction. -/
theorem C19_edit_logs_one_transaction_witness :
    ∃ e1 : Editor, EnterCharacter (mkEditor [[97]] ⟨0, 0⟩) 120 false = Except.ok e1 ∧
      e1.mLines = [mkLine [120, 97]] ∧ e1.mLines ≠ (mkEditor [[97]] ⟨0, 0⟩).mLines ∧
      e1.mUndoIndex = (mkEditor [[97]] ⟨0, 0⟩).mUndoIndex + 1 ∧
      (e1.mUndoBuffer.length : Int) = e1.mUndoIndex :=
  ⟨_, rfl, rfl, by decide,
    (C19_edit_logs_one_transaction (mkEditor [[97]] ⟨0, 0⟩)).2.1 120 false _
      (Or.inr (by decide)) rfl (by decide)⟩

/-- C19 (counterexample to the claim as stated): in the editor holding the
line `"a"`, not read-only, `InsertText("x")` returns with the line changed to
`"xa"` while the undo index stays 0 and the undo log stays empty. -/
theorem C19_insert_text_counterexample :
    (mkEditor [[97]] ⟨0, 0⟩).mReadOnly = false ∧
    ∃ e1 : Editor, InsertText (mkEditor [[97]] ⟨0, 0⟩) (some [120]) = Except.ok e1 ∧
      e1.mLines = [mkLine [120, 97]] ∧ e1.mLines ≠ (mkEditor [[97]] ⟨0, 0⟩).mLines ∧
      e1.mUndoIndex = 0 ∧ e1.mUndoBuffer.length = 0 ∧
      ¬ (e1.mUndoIndex = (mkEditor [[97]] ⟨0, 0⟩).mUndoIndex + 1) :=
  ⟨rfl, _, rfl, rfl, by decide, rfl, rfl, by decide⟩

/-! ## C29: the dirty range after `Colorize` -/

/-- C29 (as amended): after `Colorize(fromLine, count)` the dirty range
satisfies `0 ≤ colorRangeMin ≤ colorRangeMax`; `colorRangeMax ≤ n` (the number
of lines) holds as well when the prior `colorRangeMax` is at most `n` and
`fromLine` or the prior `colorRangeMin` is at most `n`. -/
theorem C29_colorize_dirty_range (e : Editor) (aFromLine aLines : Int) :
    0 ≤ (Colorize e aFromLine aLines).mColorRangeMin ∧
    (Colorize e aFromLine aLines).mColorRangeMin ≤ (Colorize e aFromLine aLines).mColorRangeMax ∧
    (e.mColorRangeMax ≤ (e.mLines.length : Int) →
      (aFromLine ≤ (e.mLines.length : Int) ∨ e.mColorRangeMin ≤ (e.mLines.length : Int)) →
      (Colorize e aFromLine aLines).mColorRangeMax ≤ ((Colorize e aFromLine aLines).mLines.length : Int)) := by
  unfold Colorize
  simp only []
  refine ⟨le_max_left _ _, le_max_left _ _, fun h1 h2 => ?_⟩
  split_ifs <;> omega

/-- C29 (witness): the sentinel range `(INT_MAX, 0)` on a three-line document,
`Colorize(1, 1)`: the range becomes `[1, 2)`. -/
theorem C29_colorize_dirty_range_witness :
    (Colorize { mkEditor [[97], [98], [99]] ⟨0, 0⟩ with
        mColorRangeMin := 2147483647, mColorRangeMax := 0 } 1 1).mColorRangeMin = 1 ∧
    (Colorize { mkEditor [[97], [98], [99]] ⟨0, 0⟩ with
        mColorRangeMin := 2147483647, mColorRangeMax := 0 } 1 1).mColorRangeMax = 2 ∧
    (Colorize { mkEditor [[97], [98], [99]] ⟨0, 0⟩ with
        mColorRangeMin := 2147483647, mColorRangeMax := 0 } 1 1).mColorRangeMax ≤ 3 :=
  ⟨by decide, by decide,
    (C29_colorize_dirty_range { mkEditor [[97], [98], [99]] ⟨0, 0⟩ with
        mColorRangeMin := 2147483647, mColorRangeMax := 0 } 1 1).2.2 (by decide)
      (Or.inl (by decide))⟩

/-- C29 (counterexample to the claim as stated): on a one-line document, from
the sentinel range `(INT_MAX, 0)`, `Colorize(5, 1)` leaves the range `[5, 5)`;
and from the prior range `[0, 3)` (left by a longer document), `Colorize(0, -1)`
leaves `[0, 3)`. In both `colorRangeMax` exceeds the line count 1. -/
theorem C29_colorize_dirty_range_counterexample :
    ((mkEditor [[97]] ⟨0, 0⟩).mLines.length = 1) ∧
    (Colorize { mkEditor [[97]] ⟨0, 0⟩ with
        mColorRangeMin := 2147483647, mColorRangeMax := 0 } 5 1).mColorRangeMin = 5 ∧
    (Colorize { mkEditor [[97]] ⟨0, 0⟩ with
        mColorRangeMin := 2147483647, mColorRangeMax := 0 } 5 1).mColorRangeMax = 5 ∧
    (Colorize { mkEditor [[97]] ⟨0, 0⟩ with
        mColorRangeMin := 0, mColorRangeMax := 3 } 0 (-1)).mColorRangeMax = 3 :=
  ⟨by decide, by decide, by decide, by decide⟩

/-! ## C26: the side tables after `RemoveLine(aStart, aEnd)` -/

/-- C26: `RemoveLine(1, 3)` on the five lines `"a"`..`"e"` with a breakpoint
and an error marker on line 4 (the line `"e"`, which ends on line 2): the two
lines are erased, the breakpoint is renumbered 3 (one less, not two less), past
the three lines left, and the marker is dropped. The same happens when the
public `Delete()` removes the selection (0,0)..(2,0). -/
theorem C26_remove_line_range_side_tables :
    (∃ e1 : Editor,
      RemoveLine2 { mkEditor [[97], [98], [99], [100], [101]] ⟨0, 0⟩ with
          mBreakpoints := [4], mErrorMarkers := [(4, "m")] } 1 3 = Except.ok e1 ∧
      e1.mLines = [mkLine [97], mkLine [100], mkLine [101]] ∧
      e1.mBreakpoints = [3] ∧ e1.mErrorMarkers = [] ∧
      e1.mBreakpoints ≠ [4 - (3 - 1)] ∧ e1.mErrorMarkers ≠ [(4 - (3 - 1), "m")]) ∧
    (∃ e1 : Editor,
      Delete { mkEditor [[97], [98], [99], [100], [101]] ⟨2, 0⟩ with
          mState := ⟨⟨0, 0⟩, ⟨2, 0⟩, ⟨2, 0⟩⟩,
          mBreakpoints := [4], mErrorMarkers := [(4, "m")] } = Except.ok e1 ∧
      e1.mLines = [mkLine [99], mkLine [100], mkLine [101]] ∧
      e1.mBreakpoints = [3] ∧ e1.mErrorMarkers = []) :=
  ⟨⟨_, rfl, rfl, rfl, rfl, by decide, by decide⟩, ⟨_, rfl, rfl, rfl, rfl⟩⟩

/-! ## C27: `InsertLine` and the side tables -/

theorem mapInsert_last (e : Int × String) :
    ∀ acc : List (Int × String), (∀ x ∈ acc, x.1 < e.1) → mapInsert acc e = acc ++ [e] := by
  intro acc
  induction acc with
  | nil => intro _; rfl
  | cons x xs ih =>
    intro h
    have hx : x.1 < e.1 := h x (List.mem_cons_self _ _)
    have h1 : ¬ e.1 < x.1 := by omega
    have h2 : ¬ e.1 = x.1 := by omega
    simp only [mapInsert, h1, h2, if_false, List.cons_append]
    rw [ih (fun y hy => h y (List.mem_cons_of_mem _ hy))]

theorem foldl_mapInsert_increasing (g : Int × String → Int × String)
    (hg : ∀ a b : Int × String, a.1 < b.1 → (g a).1 < (g b).1) :
    ∀ (m acc : List (Int × String)), m.Pairwise (fun a b => a.1 < b.1) →
      (∀ a ∈ acc, ∀ x ∈ m, a.1 < (g x).1) →
      m.foldl (fun etmp i => mapInsert etmp (g i)) acc = acc ++ m.map g := by
  intro m
  induction m with
  | nil => intro acc _ _; simp
  | cons x xs ih =>
    intro acc hp hacc
    rw [List.pairwise_cons] at hp
    simp only [List.foldl_cons, List.map_cons]
    rw [mapInsert_last _ _ (fun a ha => hacc a ha x (List.mem_cons_self _ _))]
    rw [ih _ hp.2]
    · simp
    · intro a ha y hy
      rw [List.mem_append, List.mem_singleton] at ha
      rcases ha with ha | ha
      · exact hacc a ha y (List.mem_cons_of_mem _ hy)
      · rw [ha]
        exact hg _ _ (hp.1 y hy)

theorem foldl_setInsert_injective (g : Int → Int) (hg : ∀ a b : Int, g a = g b → a = b) :
    ∀ (b acc : List Int), b.Nodup → (∀ a ∈ acc, ∀ x ∈ b, a ≠ g x) →
      b.foldl (fun btmp i => setInsert btmp (g i)) acc = acc ++ b.map g := by
  intro b
  induction b with
  | nil => intro acc _ _; simp
  | cons x xs ih =>
    intro acc hn hacc
    rw [List.nodup_cons] at hn
    simp only [List.foldl_cons, List.map_cons]
    have hx : g x ∉ acc := fun hm => hacc _ hm x (List.mem_cons_self _ _) rfl
    have hs : setInsert acc (g x) = acc ++ [g x] := by
      unfold setInsert
      rw [if_neg hx]
    rw [hs, ih _ hn.2]
    · simp
    · intro a ha y hy
      rw [List.mem_append, List.mem_singleton] at ha
      rcases ha with ha | ha
      · exact hacc a ha y (List.mem_cons_of_mem _ hy)
      · rw [ha]
        intro hc
        have := hg _ _ hc
        rw [this] at hn
        exact hn.1 hy

/-- C27: for a non-read-only editor and an index with `0 ≤ index ≤ lineCount`
(the error-marker map held in increasing key order and the breakpoint set
without repetition, as the two containers keep them): `InsertLine(index)`
returns; the lines before `index` are unchanged, one empty line stands at
`index`, the lines from `index` on follow it; every marker key and every
breakpoint that is `≥ index` is one higher, the smaller ones and all messages
are unchanged. -/
theorem C27_insert_line (e : Editor) (aIndex : Int)
    (hro : e.mReadOnly = false) (h0 : 0 ≤ aIndex) (h1 : aIndex ≤ (e.mLines.length : Int))
    (hm : e.mErrorMarkers.Pairwise (fun a b => a.1 < b.1)) (hb : e.mBreakpoints.Nodup) :
    ∃ e1 : Editor, InsertLine e aIndex = Except.ok e1 ∧
      e1.mLines = e.mLines.take aIndex.toNat ++ [[]] ++ e.mLines.drop aIndex.toNat ∧
      e1.mErrorMarkers =
        e.mErrorMarkers.map (fun i => (if i.1 ≥ aIndex then i.1 + 1 else i.1, i.2)) ∧
      e1.mBreakpoints = e.mBreakpoints.map (fun i => if i ≥ aIndex then i + 1 else i) := by
  have hro' : ¬ (e.mReadOnly = true) := by simp [hro]
  have hI : InsertLine e aIndex = Except.ok { e with
      mLines := e.mLines.take aIndex.toNat ++ [[]] ++ e.mLines.drop aIndex.toNat
      mErrorMarkers := InsertLine.markers aIndex e.mErrorMarkers
      mBreakpoints := InsertLine.breakpoints aIndex e.mBreakpoints } := by
    simp [InsertLine, hro, vecInsert, h0, h1, bind, Except.bind, pure, Except.pure]
  have hmk := foldl_mapInsert_increasing
    (fun i : Int × String => (if i.1 ≥ aIndex then i.1 + 1 else i.1, i.2))
    (by
      intro a b hab
      simp only []
      split_ifs <;> omega)
    e.mErrorMarkers [] hm (by intro a ha; cases ha)
  have hbk := foldl_setInsert_injective (fun i : Int => if i ≥ aIndex then i + 1 else i)
    (by
      intro a b hab
      simp only [] at hab
      split_ifs at hab <;> omega)
    e.mBreakpoints [] hb (by intro a ha; cases ha)
  rw [List.nil_append] at hmk hbk
  exact ⟨_, hI, rfl, hmk, hbk⟩

/-- C27 (witness): `InsertLine(1)` on the lines `"a"`, `"b"` with markers on 0
and 1 and breakpoints on 1 and 0. -/
theorem C27_insert_line_witness :
    ∃ e1 : Editor,
      InsertLine { mkEditor [[97], [98]] ⟨0, 0⟩ with
          mErrorMarkers := [(0, "x"), (1, "y")], mBreakpoints := [1, 0] } 1 = Except.ok e1 ∧
      e1.mLines = [mkLine [97], [], mkLine [98]] ∧
      e1.mErrorMarkers = [(0, "x"), (2, "y")] ∧
      e1.mBreakpoints = [2, 0] :=
  C27_insert_line { mkEditor [[97], [98]] ⟨0, 0⟩ with
      mErrorMarkers := [(0, "x"), (1, "y")], mBreakpoints := [1, 0] } 1
    (by rfl) (by decide) (by decide) (by decide) (by decide)

/-! ## The colorizer writes syntax classes only -/

theorem uncolored_uncolored (g : Glyph) : g.uncolored.uncolored = g.uncolored := rfl

theorem uncolored_setColor (g : Glyph) (c : PaletteIndex) :
    ({ g with mColorIndex := c } : Glyph).uncolored = g.uncolored := rfl

theorem mChar_uncolored (g : Glyph) : g.uncolored.mChar = g.mChar := rfl

theorem map_mChar_of_uncolored {l1 l2 : Line}
    (h : l1.map Glyph.uncolored = l2.map Glyph.uncolored) :
    l1.map (fun g => g.mChar) = l2.map (fun g => g.mChar) := by
  have := congrArg (List.map (fun g : Glyph => g.mChar)) h
  simpa [List.map_map, Function.comp_def, mChar_uncolored] using this

theorem vecAt_getElem? {α : Type} {v : List α} {i : Int} {x : α} (h : vecAt v i = Except.ok x) :
    0 ≤ i ∧ v[i.toNat]? = some x := by
  unfold vecAt at h
  split_ifs at h with h0
  cases hx : v[i.toNat]? with
  | none => rw [hx] at h; cases h
  | some y =>
    rw [hx] at h
    cases h
    exact ⟨h0, rfl⟩

theorem vecSet_eq {α : Type} {v v1 : List α} {i : Int} {x : α} (h : vecSet v i x = Except.ok v1) :
    0 ≤ i ∧ i < (v.length : Int) ∧ v1 = v.set i.toNat x := by
  unfold vecSet at h
  split_ifs at h with hc
  cases h
  exact ⟨hc.1, hc.2, rfl⟩

theorem vecSet_map_eq {α β : Type} (f : α → β) {v v1 : List α} {i : Int} {x y : α}
    (ha : vecAt v i = Except.ok x) (hs : vecSet v i y = Except.ok v1) (hf : f y = f x) :
    v1.map f = v.map f := by
  obtain ⟨_, hx⟩ := vecAt_getElem? ha
  obtain ⟨_, _, rfl⟩ := vecSet_eq hs
  rw [List.map_set, hf]
  apply set_eq_self_of_getElem?
  rw [List.getElem?_map, hx]
  rfl

theorem paint_uncolored : ∀ (n : Nat) (line line1 : Line) (i : Int) (c : PaletteIndex),
    ColorizeRange.paint n line i c = Except.ok line1 →
      line1.map Glyph.uncolored = line.map Glyph.uncolored := by
  intro n
  induction n with
  | zero =>
    intro line line1 i c h
    cases h
    rfl
  | succ n ih =>
    intro line line1 i c h
    rw [ColorizeRange.paint] at h
    obtain ⟨g, hg, h⟩ := bind_ok_inv h
    obtain ⟨l1, hl1, h⟩ := bind_ok_inv h
    rw [ih _ _ _ _ h]
    exact vecSet_map_eq Glyph.uncolored hg hl1 (uncolored_setColor g c)

theorem step_uncolored {lang : LanguageDefinition} {rx : List (RegexMatch × PaletteIndex)}
    {buffer : List Nat} {line line1 : Line} {first first1 : Int}
    (h : ColorizeRange.step lang rx buffer line first = Except.ok (line1, first1)) :
    line1.map Glyph.uncolored = line.map Glyph.uncolored := by
  unfold ColorizeRange.step at h
  obtain ⟨r, _, h⟩ := bind_ok_inv h
  cases r with
  | none =>
    cases h
    rfl
  | some t =>
    obtain ⟨tb, te, tc⟩ := t
    simp only [] at h
    split_ifs at h
    all_goals
      repeat' (first | (simp only [pure_bind] at h) | (obtain ⟨_, _, h⟩ := bind_ok_inv h))
      cases h
      exact paint_uncolored _ _ _ _ _ ‹ColorizeRange.paint _ _ _ _ = Except.ok _›

theorem tokens_uncolored {lang : LanguageDefinition} {rx : List (RegexMatch × PaletteIndex)}
    {buffer : List Nat} : ∀ (fuel : Nat) (line line1 : Line) (first : Int),
    ColorizeRange.tokens lang rx buffer fuel line first = Except.ok (some line1) →
      line1.map Glyph.uncolored = line.map Glyph.uncolored := by
  intro fuel
  induction fuel with
  | zero =>
    intro line line1 first h
    rw [ColorizeRange.tokens] at h
    split_ifs at h
    · cases h
      rfl
    · cases h
  | succ fuel ih =>
    intro line line1 first h
    rw [ColorizeRange.tokens] at h
    split_ifs at h
    · cases h
      rfl
    · obtain ⟨r, hr, h⟩ := bind_ok_inv h
      obtain ⟨l1, f1⟩ := r
      rw [ih _ _ _ h]
      exact step_uncolored hr

/-- The body of the line loop of `ColorizeRange` reproduces its own result. -/
theorem ColorizeRange_line_idem {lang : LanguageDefinition}
    {rx : List (RegexMatch × PaletteIndex)} {fuel : Nat} {line line1 : Line}
    (h : ColorizeRange.line lang rx fuel line = Except.ok (some line1)) :
    ColorizeRange.line lang rx fuel line1 = Except.ok (some line1) := by
  unfold ColorizeRange.line at h
  split_ifs at h with he
  · cases h
    unfold ColorizeRange.line
    rw [if_pos he]
    rfl
  · simp only [] at h
    have hu := tokens_uncolored _ _ _ _ h
    have hu' : line1.map Glyph.uncolored = line.map Glyph.uncolored := by
      rw [hu, List.map_map]
      rfl
    have hb := map_mChar_of_uncolored hu'
    have hne : ¬ (line1.isEmpty = true) := by
      intro hc
      rw [List.isEmpty_iff] at hc
      rw [hc] at hu'
      have := congrArg List.length hu'
      simp at this
      exact he (by rw [List.isEmpty_iff]; exact List.length_eq_zero.mp this.symm)
    unfold ColorizeRange.line
    rw [if_neg hne]
    simp only []
    have e1 : List.map (fun col : Glyph => { col with mColorIndex := PaletteIndex.Default }) line1
        = line1.map Glyph.uncolored := rfl
    have e2 : List.map (fun col : Glyph => { col with mColorIndex := PaletteIndex.Default }) line
        = line.map Glyph.uncolored := rfl
    rw [e1, hb, hu']
    rw [e2] at h
    exact h

theorem ColorizeRange_line_uncolored {lang : LanguageDefinition}
    {rx : List (RegexMatch × PaletteIndex)} {fuel : Nat} {line line1 : Line}
    (h : ColorizeRange.line lang rx fuel line = Except.ok (some line1)) :
    line1.map Glyph.uncolored = line.map Glyph.uncolored := by
  unfold ColorizeRange.line at h
  split_ifs at h with he
  · cases h
    rfl
  · simp only [] at h
    rw [tokens_uncolored _ _ _ _ h, List.map_map]
    rfl

theorem ColorizeRange_lines_frame {lang : LanguageDefinition}
    {rx : List (RegexMatch × PaletteIndex)} {fuel : Nat} {endLine : Int} :
    ∀ (count : Nat) (i : Int) (lines lines1 : List Line),
      ColorizeRange.lines lang rx fuel endLine count i lines = Except.ok (some lines1) →
      lines1.length = lines.length ∧
      (∀ j : Nat, ((j : Int) < i ∨ endLine ≤ (j : Int)) → lines1[j]? = lines[j]?) ∧
      (∀ j : Nat, lines1[j]?.map (List.map Glyph.uncolored)
        = lines[j]?.map (List.map Glyph.uncolored)) := by
  intro count
  induction count with
  | zero =>
    intro i lines lines1 h
    cases h
    exact ⟨rfl, fun _ _ => rfl, fun _ => rfl⟩
  | succ count ih =>
    intro i lines lines1 h
    rw [ColorizeRange.lines] at h
    split_ifs at h with hi
    · obtain ⟨line, hl, h⟩ := bind_ok_inv h
      obtain ⟨r, hr, h⟩ := bind_ok_inv h
      cases r with
      | none => cases h
      | some line1 =>
        simp only [] at h
        obtain ⟨ls, hls, h⟩ := bind_ok_inv h
        obtain ⟨h1, h2, h3⟩ := ih _ _ _ h
        obtain ⟨h0, hx⟩ := vecAt_getElem? hl
        obtain ⟨_, hlt, rfl⟩ := vecSet_eq hls
        refine ⟨by rw [h1, List.length_set], fun j hj => ?_, fun j => ?_⟩
        · rw [h2 j (by omega), List.getElem?_set_ne (by omega)]
        · rw [h3 j]
          by_cases hji : i.toNat = j
          · subst hji
            rw [List.getElem?_set_self (by omega), hx]
            simp only [Option.map_some']
            rw [ColorizeRange_line_uncolored hr]
          · rw [List.getElem?_set_ne hji]
    · cases h
      exact ⟨rfl, fun _ _ => rfl, fun _ => rfl⟩

theorem ColorizeRange_lines_idem {lang : LanguageDefinition}
    {rx : List (RegexMatch × PaletteIndex)} {fuel : Nat} {endLine : Int} :
    ∀ (count : Nat) (i : Int) (lines lines1 : List Line),
      ColorizeRange.lines lang rx fuel endLine count i lines = Except.ok (some lines1) →
      ColorizeRange.lines lang rx fuel endLine count i lines1 = Except.ok (some lines1) := by
  intro count
  induction count with
  | zero =>
    intro i lines lines1 h
    rfl
  | succ count ih =>
    intro i lines lines1 h
    rw [ColorizeRange.lines] at h
    rw [ColorizeRange.lines]
    split_ifs at h with hi
    · rw [if_pos hi]
      obtain ⟨line, hl, h⟩ := bind_ok_inv h
      obtain ⟨r, hr, h⟩ := bind_ok_inv h
      cases r with
      | none => cases h
      | some line1 =>
        simp only [] at h
        obtain ⟨ls, hls, h⟩ := bind_ok_inv h
        obtain ⟨h1, h2, _⟩ := ColorizeRange_lines_frame _ _ _ _ h
        obtain ⟨h0, hx⟩ := vecAt_getElem? hl
        obtain ⟨_, hlt, hset⟩ := vecSet_eq hls
        have hget : lines1[i.toNat]? = some line1 := by
          rw [h2 i.toNat (Or.inl (by omega)), hset, List.getElem?_set_self (by omega)]
        have hat : vecAt lines1 i = Except.ok line1 := by
          have := vecAt_natCast lines1 i.toNat line1 hget
          rwa [Int.toNat_of_nonneg h0] at this
        have hself : vecSet lines1 i line1 = Except.ok lines1 := by
          have hlen : i < (lines1.length : Int) := by
            rw [h1, hset, List.length_set]
            exact hlt
          simp only [vecSet, h0, hlen, and_self, if_true, pure, Except.pure]
          rw [set_eq_self_of_getElem? _ _ _ hget]
        rw [hat]
        simp only [bind, Except.bind]
        rw [ColorizeRange_line_idem hr]
        simp only []
        rw [hself]
        simp only []
        exact ih _ _ _ h
    · rw [if_neg hi]
      cases h
      rfl

/-! ## C25: `ColorizeRange` run twice -/

/-- C25: when `ColorizeRange(aFromLine, aToLine)` has run to its end on a
document (with any language definition, custom tokenizer and pattern list),
running it again on the result, unedited, returns and leaves that result as it
is: every glyph keeps the syntax class of the first run. -/
theorem C25_colorize_range_twice (e e1 : Editor) (lang : LanguageDefinition)
    (rx : List (RegexMatch × PaletteIndex)) (fuel : Nat) (aFromLine aToLine : Int)
    (h : ColorizeRange e lang rx fuel aFromLine aToLine = Except.ok (some e1)) :
    ColorizeRange e1 lang rx fuel aFromLine aToLine = Except.ok (some e1) := by
  unfold ColorizeRange at h
  unfold ColorizeRange
  split_ifs at h with hc
  · cases h
    rw [if_pos hc]
    rfl
  · simp only [] at h
    obtain ⟨r, hr, h⟩ := bind_ok_inv h
    cases r with
    | none => cases h
    | some ls =>
      cases h
      have hlen := (ColorizeRange_lines_frame _ _ _ _ hr).1
      have hc1 : ¬ (ls.isEmpty = true ∨ aFromLine ≥ aToLine) := by
        intro hc2
        apply hc
        rcases hc2 with hc2 | hc2
        · left
          rw [List.isEmpty_iff] at hc2 ⊢
          rw [hc2] at hlen
          exact List.length_eq_zero.mp hlen.symm
        · exact Or.inr hc2
      show (if ls.isEmpty = true ∨ aFromLine ≥ aToLine then _ else _) = _
      rw [if_neg hc1]
      simp only []
      rw [hlen, ColorizeRange_lines_idem _ _ _ _ hr]
      rfl

/-- C25 (witness): the line `"if (x)"` with the identifier and punctuation
patterns: the first run classes `if` and `x` as identifiers and the brackets as
punctuation, and the second run returns the same document. -/
theorem C25_colorize_range_twice_witness :
    ∃ e1 : Editor,
      ColorizeRange (mkEditor [[105, 102, 32, 40, 120, 41]] ⟨0, 0⟩) hlslComments
        [(identifierPattern, PaletteIndex.Identifier),
         (punctuationPattern, PaletteIndex.Punctuation)] 6 0 1 = Except.ok (some e1) ∧
      e1.mLines.map (fun l => l.map (fun g => g.mColorIndex)) =
        [[PaletteIndex.Identifier, PaletteIndex.Identifier, PaletteIndex.Default,
          PaletteIndex.Punctuation, PaletteIndex.Identifier, PaletteIndex.Punctuation]] ∧
      ColorizeRange e1 hlslComments
        [(identifierPattern, PaletteIndex.Identifier),
         (punctuationPattern, PaletteIndex.Punctuation)] 6 0 1 = Except.ok (some e1) :=
  ⟨_, rfl, rfl,
    C25_colorize_range_twice (mkEditor [[105, 102, 32, 40, 120, 41]] ⟨0, 0⟩) _ _ _ _ _ _ rfl⟩

/-! ## C22: progress of the token loop -/

theorem paint_split (c : PaletteIndex) (Q : Line) : ∀ (Mid P : Line),
    ColorizeRange.paint Mid.length (P ++ Mid ++ Q) (P.length : Int) c
      = Except.ok (P ++ Mid.map (fun g => { g with mColorIndex := c }) ++ Q) := by
  intro Mid
  induction Mid with
  | nil =>
    intro P
    simp [ColorizeRange.paint, pure, Except.pure]
  | cons g Mid ih =>
    intro P
    have hat : vecAt (P ++ g :: Mid ++ Q) (P.length : Int) = Except.ok g := by
      apply vecAt_natCast
      rw [List.append_assoc, List.cons_append]
      exact getElem?_split _ _ _
    have hset : vecSet (P ++ g :: Mid ++ Q) (P.length : Int) { g with mColorIndex := c }
        = Except.ok ((P ++ [{ g with mColorIndex := c }]) ++ Mid ++ Q) := by
      have hlt : (P.length : Int) < ((P ++ g :: Mid ++ Q).length : Int) := by
        simp only [List.length_append, List.length_cons]
        push_cast
        omega
      simp only [vecSet, Int.ofNat_nonneg, hlt, and_self, if_true, pure, Except.pure,
        Int.toNat_ofNat]
      rw [List.append_assoc, List.cons_append, set_split]
      simp
    rw [List.length_cons, ColorizeRange.paint, hat]
    simp only [bind, Except.bind]
    rw [hset]
    simp only []
    have := ih (P ++ [{ g with mColorIndex := c }])
    rw [List.length_append, List.length_singleton] at this
    push_cast at this
    rw [this]
    simp

/-- C24 (as amended): a round of the token loop of `ColorizeRange` at the scan
position `first`, on the line `P ++ Mid ++ Q`, in which the tokenizer reports
the glyphs `Mid` as an `Identifier` token. The text `id` of the token is
upper-cased when the language is not case-sensitive and left as is otherwise.
With `g` the glyph at the scan position (the first glyph of the token when the
token starts there, as every pattern match does): if `g` is not flagged
preprocessor the class is `Keyword` when `id` is in the keyword set, else
`KnownIdentifier` when it is in the identifier map, else `PreprocIdentifier`
when it is in the preprocessor-identifier map, else `Identifier`; if `g` is
flagged preprocessor only the preprocessor-identifier map is consulted. The
class is written to every glyph of the token, the rest of the line is
unchanged, and the scan continues at the end of the token. -/
theorem C24_identifier_token_class (lang : LanguageDefinition)
    (rx : List (RegexMatch × PaletteIndex)) (P Mid Q : Line) (first : Int) (g : Glyph)
    (htok : ColorizeRange.token lang rx ((P ++ Mid ++ Q).map (fun x => x.mChar)) first
      = Except.ok (some ((P.length : Int), ((P.length + Mid.length : Nat) : Int),
          PaletteIndex.Identifier)))
    (hg : vecAt (P ++ Mid ++ Q) first = Except.ok g) :
    ∃ (id : List Nat) (cls : PaletteIndex),
      id = (if lang.mCaseSensitive then Mid.map (fun x => x.mChar)
            else (Mid.map (fun x => x.mChar)).map toupper) ∧
      (g.mPreprocessor = false → id ∈ lang.mKeywords → cls = PaletteIndex.Keyword) ∧
      (g.mPreprocessor = false → id ∉ lang.mKeywords → id ∈ lang.mIdentifiers →
        cls = PaletteIndex.KnownIdentifier) ∧
      (g.mPreprocessor = false → id ∉ lang.mKeywords → id ∉ lang.mIdentifiers →
        id ∈ lang.mPreprocIdentifiers → cls = PaletteIndex.PreprocIdentifier) ∧
      (g.mPreprocessor = false → id ∉ lang.mKeywords → id ∉ lang.mIdentifiers →
        id ∉ lang.mPreprocIdentifiers → cls = PaletteIndex.Identifier) ∧
      (g.mPreprocessor = true → id ∈ lang.mPreprocIdentifiers →
        cls = PaletteIndex.PreprocIdentifier) ∧
      (g.mPreprocessor = true → id ∉ lang.mPreprocIdentifiers → cls = PaletteIndex.Identifier) ∧
      ColorizeRange.step lang rx ((P ++ Mid ++ Q).map (fun x => x.mChar)) (P ++ Mid ++ Q) first
        = Except.ok (P ++ Mid.map (fun x => { x with mColorIndex := cls }) ++ Q,
            ((P.length + Mid.length : Nat) : Int)) := by
  obtain ⟨id, hid⟩ : ∃ id : List Nat, id = (if lang.mCaseSensitive then Mid.map (fun x => x.mChar)
      else (Mid.map (fun x => x.mChar)).map toupper) := ⟨_, rfl⟩
  refine ⟨id, ColorizeRange.classify lang id g.mPreprocessor, hid, ?_, ?_, ?_, ?_, ?_, ?_, ?_⟩
  · intro h1 h2
    simp [ColorizeRange.classify, h1, h2]
  · intro h1 h2 h3
    simp [ColorizeRange.classify, h1, h2, h3]
  · intro h1 h2 h3 h4
    simp [ColorizeRange.classify, h1, h2, h3, h4]
  · intro h1 h2 h3 h4
    simp [ColorizeRange.classify, h1, h2, h3, h4]
  · intro h1 h2
    simp [ColorizeRange.classify, h1, h2]
  · intro h1 h2
    simp [ColorizeRange.classify, h1, h2]
  · have hrange : vecRange ((P ++ Mid ++ Q).map (fun x => x.mChar)) (P.length : Int)
        ((P.length + Mid.length : Nat) : Int) = Except.ok (Mid.map (fun x => x.mChar)) := by
      unfold vecRange
      rw [if_pos]
      · have h1 : (((P.length + Mid.length : Nat) : Int) - (P.length : Int)).toNat = Mid.length := by
          push_cast
          omega
        rw [h1, Int.toNat_ofNat]
        simp [List.map_append, List.drop_append, List.take_append, pure, Except.pure]
      · simp only [List.length_map, List.length_append]
        push_cast
        omega
    have hlt : ¬ (((P.length + Mid.length : Nat) : Int) < (P.length : Int)) := by
      push_cast
      omega
    have hn : (((P.length + Mid.length : Nat) : Int) - (P.length : Int)).toNat = Mid.length := by
      push_cast
      omega
    unfold ColorizeRange.step
    rw [htok]
    simp only [bind, Except.bind]
    rw [if_neg hlt]
    simp only [if_true, hrange, hg, pure, Except.pure, hn]
    rw [paint_split]
    have hid' : (if ¬ lang.mCaseSensitive = true then (Mid.map (fun x => x.mChar)).map toupper
        else Mid.map (fun x => x.mChar)) = id := by
      rw [hid]
      cases lang.mCaseSensitive <;> simp
    rw [hid']

/-- C24 (witness): keywords `{"IF"}`, not case-sensitive, the line `"if (x)"`
with the identifier and punctuation patterns: the round at position 0 gives the
token `if` the text `"IF"` and the class `Keyword`, and the whole line ends with
`if` as `Keyword`, `x` as `Identifier`, the brackets as `Punctuation`. -/
theorem C24_identifier_token_class_witness :
    (∃ (id : List Nat) (cls : PaletteIndex), id = [73, 70] ∧ cls = PaletteIndex.Keyword ∧
      ColorizeRange.step { hlslComments with mKeywords := [[73, 70]], mCaseSensitive := false }
        [(identifierPattern, PaletteIndex.Identifier),
         (punctuationPattern, PaletteIndex.Punctuation)]
        [105, 102, 32, 40, 120, 41] (mkLine [105, 102, 32, 40, 120, 41]) 0
        = Except.ok ((mkLine [105, 102]).map (fun x => { x with mColorIndex := cls })
            ++ mkLine [32, 40, 120, 41], 2)) ∧
    (ColorizeRange.line { hlslComments with mKeywords := [[73, 70]], mCaseSensitive := false }
        [(identifierPattern, PaletteIndex.Identifier),
         (punctuationPattern, PaletteIndex.Punctuation)]
        6 (mkLine [105, 102, 32, 40, 120, 41])).map
      (fun o => o.map (fun l => l.map (fun x => x.mColorIndex))) =
        Except.ok (some [PaletteIndex.Keyword, PaletteIndex.Keyword, PaletteIndex.Default,
          PaletteIndex.Punctuation, PaletteIndex.Identifier, PaletteIndex.Punctuation]) := by
  refine ⟨?_, rfl⟩
  obtain ⟨id, cls, hid, hk, _, _, _, _, _, hstep⟩ :=
    C24_identifier_token_class
      { hlslComments with mKeywords := [[73, 70]], mCaseSensitive := false }
      [(identifierPattern, PaletteIndex.Identifier), (punctuationPattern, PaletteIndex.Punctuation)]
      [] (mkLine [105, 102]) (mkLine [32, 40, 120, 41]) 0
      { mChar := 105, mColorIndex := PaletteIndex.Default } rfl rfl
  have hid' : id = [73, 70] := hid
  refine ⟨id, cls, hid', hk rfl ?_, hstep⟩
  rw [hid']
  decide

/-- C24 (counterexample to the claim as stated): the document `" #if"` with the
keyword `"#if"` and a callback that, at position 0, reports the rest of the
line after the blank as one `Identifier` token. The sweep flags `#if` as
preprocessor and leaves the blank unflagged; `"#if"` is in no
preprocessor-identifier map; the token that starts at the flagged `#` becomes
`Keyword`, because the flag consulted is that of the blank at the scan
position. -/
theorem C24_identifier_token_counterexample :
    (ColorizeInternal (SetText constructed [32, 35, 105, 102])
        { hlslComments with
          mKeywords := [[35, 105, 102]],
          mTokenize := some (fun _ first last =>
            if first = 0 then some (1, last, PaletteIndex.Identifier) else none) }
        [] 4).map
      (fun o => o.map (fun e => e.mLines.map (fun l =>
        l.map (fun x => (x.mChar, x.mColorIndex, x.mPreprocessor))))) =
    Except.ok (some [[(32, PaletteIndex.Default, false), (35, PaletteIndex.Keyword, true),
      (105, PaletteIndex.Keyword, true), (102, PaletteIndex.Keyword, true)]]) :=
  rfl

/-! ## The comment sweep writes flags only -/

theorem setMultiLineComment_color {line line1 : Line} {i : Int} {v : Bool}
    (h : ColorizeInternal.setMultiLineComment line i v = Except.ok line1) :
    line1.map (fun g => g.mColorIndex) = line.map (fun g => g.mColorIndex) := by
  unfold ColorizeInternal.setMultiLineComment at h
  obtain ⟨g, hg, h⟩ := bind_ok_inv h
  exact vecSet_map_eq (fun g : Glyph => g.mColorIndex) hg h rfl

theorem setComments_color {line line1 : Line} {i : Int} {v w : Bool}
    (h : ColorizeInternal.setComments line i v w = Except.ok line1) :
    line1.map (fun g => g.mColorIndex) = line.map (fun g => g.mColorIndex) := by
  unfold ColorizeInternal.setComments at h
  obtain ⟨g, hg, h⟩ := bind_ok_inv h
  exact vecSet_map_eq (fun g : Glyph => g.mColorIndex) hg h rfl

theorem setPreprocessor_color {line line1 : Line} {i : Int} {v : Bool}
    (h : ColorizeInternal.setPreprocessor line i v = Except.ok line1) :
    line1.map (fun g => g.mColorIndex) = line.map (fun g => g.mColorIndex) := by
  unfold ColorizeInternal.setPreprocessor at h
  obtain ⟨g, hg, h⟩ := bind_ok_inv h
  exact vecSet_map_eq (fun g : Glyph => g.mColorIndex) hg h rfl

theorem skipNext_color {s : ColorizeInternal.Scan} {line : Line} {inComment : Bool} {i : Int}
    {r : ColorizeInternal.Scan × Line × Int}
    (h : ColorizeInternal.skipNext s line inComment i = Except.ok r) :
    r.2.1.map (fun g => g.mColorIndex) = line.map (fun g => g.mColorIndex) := by
  unfold ColorizeInternal.skipNext at h
  split_ifs at h
  · obtain ⟨l1, hl1, h⟩ := bind_ok_inv h
    cases h
    exact setMultiLineComment_color hl1
  · cases h
    rfl

theorem inString_color {s : ColorizeInternal.Scan} {line : Line} {c : Nat}
    {inComment : Bool} {i : Int} {r : ColorizeInternal.Scan × Line × Int}
    (h : ColorizeInternal.inString s line c inComment i = Except.ok r) :
    r.2.1.map (fun g => g.mColorIndex) = line.map (fun g => g.mColorIndex) := by
  unfold ColorizeInternal.inString at h
  obtain ⟨l1, hl1, h⟩ := bind_ok_inv h
  have e1 := setMultiLineComment_color hl1
  split_ifs at h
  · exact (skipNext_color h).trans e1
  · cases h
    exact e1
  · exact (skipNext_color h).trans e1
  · cases h
    exact e1

theorem outside_color {lang : LanguageDefinition} {endLine currentLine : Int}
    {s : ColorizeInternal.Scan} {line : Line} {i : Int} {r : ColorizeInternal.Scan × Line}
    (h : ColorizeInternal.outside lang endLine currentLine s line i = Except.ok r) :
    r.2.map (fun g => g.mColorIndex) = line.map (fun g => g.mColorIndex) := by
  unfold ColorizeInternal.outside at h
  obtain ⟨l1, hl1, h⟩ := bind_ok_inv h
  cases h
  exact setComments_color hl1

theorem mark_color {lang : LanguageDefinition} {endLine currentLine : Int}
    {s : ColorizeInternal.Scan} {line : Line} {c : Nat} {i : Int}
    {r : ColorizeInternal.Scan × Line × Int}
    (h : ColorizeInternal.mark lang endLine currentLine s line c i = Except.ok r) :
    r.2.1.map (fun g => g.mColorIndex) = line.map (fun g => g.mColorIndex) := by
  unfold ColorizeInternal.mark at h
  split_ifs at h
  all_goals first
    | exact inString_color h
    | (obtain ⟨l1, hl1, h⟩ := bind_ok_inv h
       cases h
       first
         | exact setMultiLineComment_color hl1
         | exact outside_color hl1)

theorem visit_color {lang : LanguageDefinition} {endLine currentLine : Int}
    {s : ColorizeInternal.Scan} {line : Line} {i : Int} {r : ColorizeInternal.Scan × Line × Int}
    (h : ColorizeInternal.visit lang endLine currentLine s line i = Except.ok r) :
    r.2.1.map (fun g => g.mColorIndex) = line.map (fun g => g.mColorIndex) := by
  unfold ColorizeInternal.visit at h
  obtain ⟨g, _, h⟩ := bind_ok_inv h
  obtain ⟨r1, hr1, h⟩ := bind_ok_inv h
  obtain ⟨l2, hl2, h⟩ := bind_ok_inv h
  cases h
  exact (setPreprocessor_color hl2).trans (mark_color hr1)

theorem scanLine_color {lang : LanguageDefinition} {endLine currentLine : Int} :
    ∀ (fuel : Nat) (s : ColorizeInternal.Scan) (line : Line) (i : Int)
      (r : ColorizeInternal.Scan × Line),
      ColorizeInternal.scanLine lang endLine currentLine fuel s line i = Except.ok r →
      r.2.map (fun g => g.mColorIndex) = line.map (fun g => g.mColorIndex) := by
  intro fuel
  induction fuel with
  | zero =>
    intro s line i r h
    cases h
    rfl
  | succ fuel ih =>
    intro s line i r h
    rw [ColorizeInternal.scanLine] at h
    obtain ⟨r1, hr1, h⟩ := bind_ok_inv h
    have e1 := visit_color hr1
    split_ifs at h
    · cases h
      exact e1
    · exact (ih _ _ _ _ h).trans e1

theorem sweepLine_color {lang : LanguageDefinition} {endLine currentLine : Int}
    {s : ColorizeInternal.Scan} {line : Line} {r : ColorizeInternal.Scan × Line}
    (h : ColorizeInternal.sweepLine lang endLine currentLine s line = Except.ok r) :
    r.2.map (fun g => g.mColorIndex) = line.map (fun g => g.mColorIndex) := by
  unfold ColorizeInternal.sweepLine at h
  split_ifs at h
  · cases h
    rfl
  · exact scanLine_color _ _ _ _ _ h

theorem sweep_color {lang : LanguageDefinition} {endLine : Int} :
    ∀ (lines : List Line) (currentLine : Int) (s : ColorizeInternal.Scan)
      (r : ColorizeInternal.Scan × List Line),
      ColorizeInternal.sweep lang endLine currentLine s lines = Except.ok r →
      r.2.map (List.map (fun g => g.mColorIndex))
        = lines.map (List.map (fun g => g.mColorIndex)) := by
  intro lines
  induction lines with
  | nil =>
    intro currentLine s r h
    cases h
    rfl
  | cons line rest ih =>
    intro currentLine s r h
    rw [ColorizeInternal.sweep] at h
    obtain ⟨r1, hr1, h⟩ := bind_ok_inv h
    obtain ⟨r2, hr2, h⟩ := bind_ok_inv h
    cases h
    simp only [List.map_cons, sweepLine_color hr1, ih _ _ _ hr2]

theorem comments_color {e e1 : Editor} {lang : LanguageDefinition}
    (h : ColorizeInternal.comments e lang = Except.ok e1) :
    e1.mLines.map (List.map (fun g => g.mColorIndex))
        = e.mLines.map (List.map (fun g => g.mColorIndex)) ∧
      e1.mColorRangeMin = e.mColorRangeMin ∧ e1.mColorRangeMax = e.mColorRangeMax := by
  unfold ColorizeInternal.comments at h
  split_ifs at h
  · obtain ⟨r, hr, h⟩ := bind_ok_inv h
    cases h
    exact ⟨sweep_color _ _ _ _ hr, rfl, rfl⟩
  · cases h
    exact ⟨rfl, rfl, rfl⟩

/-! ## C23: the chunk of `ColorizeInternal` -/

theorem ColorizeRange_frame {e e1 : Editor} {lang : LanguageDefinition}
    {rx : List (RegexMatch × PaletteIndex)} {fuel : Nat} {aFromLine aToLine : Int}
    (h : ColorizeRange e lang rx fuel aFromLine aToLine = Except.ok (some e1)) :
    ∀ j : Nat, ((j : Int) < aFromLine ∨ aToLine ≤ (j : Int)) → e1.mLines[j]? = e.mLines[j]? := by
  intro j hj
  unfold ColorizeRange at h
  split_ifs at h with hc
  · cases h
    rfl
  · simp only [] at h
    obtain ⟨r, hr, h⟩ := bind_ok_inv h
    cases r with
    | none => cases h
    | some ls =>
      cases h
      exact (ColorizeRange_lines_frame _ _ _ _ hr).2.1 j (by omega)

/-- C23 (as amended): a call of `ColorizeInternal` that returns leaves the
syntax classes of every line outside the `increment` lines that start at
`colorRangeMin` as they were, so it tokenizes at most `increment` lines; and
`increment` is 10 when the pattern list is the only tokenizer and 10000 when
the language definition supplies a custom tokenizer callback. -/
theorem C23_colorize_internal_chunk (e e1 : Editor) (lang : LanguageDefinition)
    (rx : List (RegexMatch × PaletteIndex)) (fuel : Nat)
    (h : ColorizeInternal e lang rx fuel = Except.ok (some e1)) :
    (∀ j : Nat, ((j : Int) < e.mColorRangeMin ∨
        e.mColorRangeMin + ColorizeInternal.increment lang ≤ (j : Int)) →
      (e1.mLines.map (List.map (fun g => g.mColorIndex)))[j]?
        = (e.mLines.map (List.map (fun g => g.mColorIndex)))[j]?) ∧
    (lang.mTokenize.isNone = true → ColorizeInternal.increment lang = 10) ∧
    (lang.mTokenize.isNone = false → ColorizeInternal.increment lang = 10000) := by
  refine ⟨?_, fun hn => by simp [ColorizeInternal.increment, hn],
    fun hn => by simp [ColorizeInternal.increment, hn]⟩
  intro j hj
  unfold ColorizeInternal at h
  split_ifs at h with hc
  · cases h
    rfl
  · obtain ⟨x, hx, h⟩ := bind_ok_inv h
    obtain ⟨hcol, hmin, hmax⟩ := comments_color hx
    rw [← hcol]
    split_ifs at h with hlt
    · simp only [] at h
      obtain ⟨r, hr, h⟩ := bind_ok_inv h
      cases r with
      | none => cases h
      | some e2 =>
        have hf := ColorizeRange_frame hr j (by rw [hmin]; omega)
        simp only [] at h
        split_ifs at h <;> cases h <;> simp only [List.getElem?_map, hf]
    · cases h
      rfl

/-- C23 (witness): the constructed editor after `SetText("if")`, with the
identifier pattern and no callback: one call colours the line and closes the
dirty range. -/
theorem C23_colorize_internal_chunk_witness :
    ∃ e1 : Editor,
      ColorizeInternal (SetText constructed [105, 102]) hlslComments
        [(identifierPattern, PaletteIndex.Identifier)] 2 = Except.ok (some e1) ∧
      e1.mLines.map (List.map (fun g => g.mColorIndex))
        = [[PaletteIndex.Identifier, PaletteIndex.Identifier]] ∧
      ColorizeInternal.increment hlslComments = 10 :=
  ⟨_, rfl, rfl,
    (C23_colorize_internal_chunk (SetText constructed [105, 102]) _ hlslComments
      [(identifierPattern, PaletteIndex.Identifier)] 2 rfl).2.1 rfl⟩

/-- C23 (counterexample to the claim as stated): the limit with a custom
tokenizer callback is 10000, the limit with the pattern list alone is 10. On
the eleven lines `"a"`, one call with a callback that classes a whole line as
`Keyword` colours all eleven lines, and one call with the identifier pattern
alone colours the first ten and leaves the eleventh at `Default`. -/
theorem C23_colorize_internal_counterexample :
    ColorizeInternal.increment { hlslComments with
      mTokenize := some (fun _ first last => some (first, last, PaletteIndex.Keyword)) } = 10000 ∧
    ColorizeInternal.increment hlslComments = 10 ∧
    (ColorizeInternal
        (SetText constructed [97, 10, 97, 10, 97, 10, 97, 10, 97, 10, 97, 10, 97, 10, 97, 10,
          97, 10, 97, 10, 97])
        { hlslComments with
          mTokenize := some (fun _ first last => some (first, last, PaletteIndex.Keyword)) }
        [] 1).map
      (fun o => o.map (fun e => e.mLines.map (List.map (fun g => g.mColorIndex)))) =
    Except.ok (some (List.replicate 11 [PaletteIndex.Keyword])) ∧
    (ColorizeInternal
        (SetText constructed [97, 10, 97, 10, 97, 10, 97, 10, 97, 10, 97, 10, 97, 10, 97, 10,
          97, 10, 97, 10, 97])
        hlslComments [(identifierPattern, PaletteIndex.Identifier)] 1).map
      (fun o => o.map (fun e => e.mLines.map (List.map (fun g => g.mColorIndex)))) =
    Except.ok (some (List.replicate 10 [PaletteIndex.Identifier] ++ [[PaletteIndex.Default]])) :=
  ⟨rfl, rfl, rfl, rfl⟩

/-! ## C28: moving the cursor without extending the selection -/

theorem SanitizeCoordinates_congr {e e1 : Editor} (hl : e1.mLines = e.mLines)
    (ht : e1.mTabSize = e.mTabSize) (p : Coordinates) :
    SanitizeCoordinates e1 p = SanitizeCoordinates e p := by
  simp only [SanitizeCoordinates, GetLineMaxColumn, hl, ht]

theorem collapsed_of_SetSelection {e2 e3 : Editor} {a b : Coordinates}
    (h : SetSelection e2 a b SelectionMode.Normal = Except.ok e3)
    (ha : a = e2.mState.mCursorPosition) (hb : b = e2.mState.mCursorPosition) :
    (e3.collapsed ∧ HasSelection e3 = false) ∧
      e3.mState.mCursorPosition = e2.mState.mCursorPosition := by
  subst ha
  subst hb
  unfold SetSelection at h
  obtain ⟨s0, hs0, h⟩ := bind_ok_inv h
  obtain ⟨s1, hs1, h⟩ := bind_ok_inv h
  have hs : s1 = s0 := by
    rw [hs0] at hs1
    cases hs1
    rfl
  subst hs
  have hgt : s1.gt s1 = false := by simp [Coordinates.gt]
  simp only [hgt, Bool.false_eq_true, if_false] at h
  cases h
  refine ⟨⟨⟨s1, ?_, rfl, rfl⟩, hgt⟩, rfl⟩
  rw [← hs0]
  exact SanitizeCoordinates_congr rfl rfl _

theorem MoveRight_loop_selection (w : Bool) : ∀ (n : Nat) (e : Editor) (cindex : Int)
    (r : Editor × Bool), MoveRight.loop w n e cindex = Except.ok r →
    r.1.mState.mSelectionStart = e.mState.mSelectionStart ∧
    r.1.mState.mSelectionEnd = e.mState.mSelectionEnd ∧
    (r.2 = true → n = 1 → r.1 = e) := by
  intro n
  induction n with
  | zero =>
    intro e cindex r h
    cases h
    exact ⟨rfl, rfl, fun h1 => by cases h1⟩
  | succ n ih =>
    intro e cindex r h
    rw [MoveRight.loop] at h
    simp only [] at h
    obtain ⟨line, _, h⟩ := bind_ok_inv h
    split_ifs at h
    · obtain ⟨h1, h2, h3⟩ := ih _ _ _ h
      refine ⟨h1, h2, fun hr hn => ?_⟩
      have : n = 0 := by omega
      subst this
      cases h
      cases hr
    · cases h
      exact ⟨rfl, rfl, fun _ _ => rfl⟩
    · obtain ⟨g, _, h⟩ := bind_ok_inv h
      obtain ⟨col, _, h⟩ := bind_ok_inv h
      obtain ⟨wd, _, h⟩ := bind_ok_inv h
      obtain ⟨h1, h2, h3⟩ := ih _ _ _ h
      refine ⟨h1, h2, fun hr hn => ?_⟩
      have : n = 0 := by omega
      subst this
      cases h
      cases hr
    · obtain ⟨g, _, h⟩ := bind_ok_inv h
      obtain ⟨col, _, h⟩ := bind_ok_inv h
      obtain ⟨h1, h2, h3⟩ := ih _ _ _ h
      refine ⟨h1, h2, fun hr hn => ?_⟩
      have : n = 0 := by omega
      subst this
      cases h
      cases hr

theorem MoveUp_plain {e e1 : Editor} {aAmount : Int} (h : MoveUp e aAmount false = Except.ok e1) :
    (e1.mState.mCursorPosition ≠ e.mState.mCursorPosition →
      e1.collapsed ∧ HasSelection e1 = false) ∧
    (e1.mState.mCursorPosition = e.mState.mCursorPosition →
      e1.mState.mSelectionStart = e.mState.mSelectionStart ∧
      e1.mState.mSelectionEnd = e.mState.mSelectionEnd) := by
  unfold MoveUp at h
  simp only [Bool.false_eq_true, if_false] at h
  by_cases hne : e.mState.mCursorPosition =
      ⟨max 0 (e.mState.mCursorPosition.mLine - aAmount), e.mState.mCursorPosition.mColumn⟩
  · rw [if_neg (not_not.mpr hne)] at h
    cases h
    exact ⟨fun hc => absurd hne.symm hc, fun _ => ⟨rfl, rfl⟩⟩
  · rw [if_pos hne] at h
    obtain ⟨h1, h3⟩ := collapsed_of_SetSelection h rfl rfl
    refine ⟨fun _ => h1, fun hc => ?_⟩
    rw [h3] at hc
    exact absurd hc.symm hne

theorem MoveDown_plain {e e1 : Editor} {aAmount : Int}
    (h : MoveDown e aAmount false = Except.ok e1) :
    (e1.mState.mCursorPosition ≠ e.mState.mCursorPosition →
      e1.collapsed ∧ HasSelection e1 = false) ∧
    (e1.mState.mCursorPosition = e.mState.mCursorPosition →
      e1.mState.mSelectionStart = e.mState.mSelectionStart ∧
      e1.mState.mSelectionEnd = e.mState.mSelectionEnd) := by
  unfold MoveDown at h
  simp only [Bool.false_eq_true, if_false] at h
  split_ifs at h with hcol hne
  · obtain ⟨h1, h3⟩ := collapsed_of_SetSelection h rfl rfl
    refine ⟨fun _ => h1, fun hc => ?_⟩
    rw [h3] at hc
    exact absurd hc hne
  · cases h
    exact ⟨fun hc => absurd (not_not.mp hne) hc, fun _ => ⟨rfl, rfl⟩⟩

theorem MoveTop_plain {e e1 : Editor} (h : MoveTop e false = Except.ok e1) :
    (e1.mState.mCursorPosition ≠ e.mState.mCursorPosition →
      e1.collapsed ∧ HasSelection e1 = false) ∧
    (e1.mState.mCursorPosition = e.mState.mCursorPosition →
      e1.mState.mSelectionStart = e.mState.mSelectionStart ∧
      e1.mState.mSelectionEnd = e.mState.mSelectionEnd) := by
  unfold MoveTop at h
  simp only [Bool.false_eq_true, if_false] at h
  split_ifs at h with hne
  · obtain ⟨h1, h3⟩ := collapsed_of_SetSelection h rfl rfl
    refine ⟨fun _ => h1, fun hc => ?_⟩
    rw [h3] at hc
    exact absurd hc hne
  · cases h
    refine ⟨fun hc => absurd (not_not.mp hne) hc, fun _ => ?_⟩
    unfold SetCursorPosition
    split_ifs <;> exact ⟨rfl, rfl⟩

theorem MoveHome_plain {e e1 : Editor} (h : MoveHome e false = Except.ok e1) :
    (e1.mState.mCursorPosition ≠ e.mState.mCursorPosition →
      e1.collapsed ∧ HasSelection e1 = false) ∧
    (e1.mState.mCursorPosition = e.mState.mCursorPosition →
      e1.mState.mSelectionStart = e.mState.mSelectionStart ∧
      e1.mState.mSelectionEnd = e.mState.mSelectionEnd) := by
  unfold MoveHome at h
  simp only [Bool.false_eq_true, if_false] at h
  split_ifs at h with hne
  · obtain ⟨h1, h3⟩ := collapsed_of_SetSelection h rfl rfl
    refine ⟨fun _ => h1, fun hc => ?_⟩
    rw [h3] at hc
    exact absurd hc hne
  · cases h
    refine ⟨fun hc => absurd (not_not.mp hne) hc, fun _ => ?_⟩
    unfold SetCursorPosition
    split_ifs <;> exact ⟨rfl, rfl⟩

theorem MoveEnd_plain {e e1 : Editor} (h : MoveEnd e false = Except.ok e1) :
    (e1.mState.mCursorPosition ≠ e.mState.mCursorPosition →
      e1.collapsed ∧ HasSelection e1 = false) ∧
    (e1.mState.mCursorPosition = e.mState.mCursorPosition →
      e1.mState.mSelectionStart = e.mState.mSelectionStart ∧
      e1.mState.mSelectionEnd = e.mState.mSelectionEnd) := by
  unfold MoveEnd at h
  obtain ⟨n, _, h⟩ := bind_ok_inv h
  simp only [Bool.false_eq_true, if_false] at h
  split_ifs at h with hne
  · obtain ⟨h1, h3⟩ := collapsed_of_SetSelection h rfl rfl
    refine ⟨fun _ => h1, fun hc => ?_⟩
    rw [h3] at hc
    exact absurd hc hne
  · cases h
    refine ⟨fun hc => absurd (not_not.mp hne) hc, fun _ => ?_⟩
    unfold SetCursorPosition
    split_ifs <;> exact ⟨rfl, rfl⟩

theorem MoveBottom_plain {e e1 : Editor} (h : MoveBottom e false = Except.ok e1) :
    e1.collapsed ∧ HasSelection e1 = false := by
  unfold MoveBottom at h
  obtain ⟨oldPos, _, h⟩ := bind_ok_inv h
  simp only [Bool.false_eq_true, if_false] at h
  refine (collapsed_of_SetSelection h ?_ ?_).1
  all_goals
    unfold SetCursorPosition
    split_ifs with hc
    · rfl
    · exact (not_not.mp hc).symm

theorem MoveLeft_plain {e e1 : Editor} {aAmount : Int} {aWordMode : Bool}
    (hne : e.mLines ≠ []) (h : MoveLeft e aAmount false aWordMode = Except.ok e1) :
    e1.collapsed ∧ HasSelection e1 = false := by
  unfold MoveLeft at h
  have hemp : ¬ (e.mLines.isEmpty = true) := by
    rw [List.isEmpty_iff]
    exact hne
  rw [if_neg hemp] at h
  obtain ⟨actual, _, h⟩ := bind_ok_inv h
  obtain ⟨cindex, _, h⟩ := bind_ok_inv h
  obtain ⟨r, _, h⟩ := bind_ok_inv h
  obtain ⟨col, _, h⟩ := bind_ok_inv h
  simp only [Bool.false_eq_true, if_false, false_and] at h
  split_ifs at h
  exact (collapsed_of_SetSelection h rfl rfl).1

theorem MoveRight_plain {e e1 : Editor} {aAmount : Int} {aWordMode : Bool}
    (h : MoveRight e aAmount false aWordMode = Except.ok e1) :
    ((e1.collapsed ∧ HasSelection e1 = false) ∨
      (e1.mState.mSelectionStart = e.mState.mSelectionStart ∧
        e1.mState.mSelectionEnd = e.mState.mSelectionEnd)) ∧
    (aAmount ≤ 1 → e1.mState.mCursorPosition ≠ e.mState.mCursorPosition →
      e1.collapsed ∧ HasSelection e1 = false) := by
  unfold MoveRight at h
  simp only [Bool.false_eq_true, if_false, false_and, pure_bind] at h
  by_cases hret : e.mLines.isEmpty = true ∨ e.mState.mCursorPosition.mLine < 0 ∨
      e.mState.mCursorPosition.mLine ≥ (e.mLines.length : Int)
  · rw [if_pos hret] at h
    cases h
    exact ⟨Or.inr ⟨rfl, rfl⟩, fun _ hc => absurd rfl hc⟩
  · rw [if_neg hret] at h
    obtain ⟨cindex, _, h⟩ := bind_ok_inv h
    obtain ⟨r, hr, h⟩ := bind_ok_inv h
    obtain ⟨hs1, hs2, hs3⟩ := MoveRight_loop_selection _ _ _ _ _ hr
    by_cases hflag : r.2 = true
    · rw [if_pos hflag] at h
      cases h
      refine ⟨Or.inr ⟨hs1, hs2⟩, fun hle hc => ?_⟩
      exfalso
      apply hc
      by_cases h1 : aAmount.toNat = 1
      · rw [hs3 hflag h1]
      · have h0 : aAmount.toNat = 0 := by omega
        rw [h0] at hr
        cases hr
        cases hflag
    · rw [if_neg hflag] at h
      have := (collapsed_of_SetSelection h rfl rfl).1
      exact ⟨Or.inl this, fun _ _ => this⟩

/-- C28 (as amended): in a document with at least one line, for calls with
`extendSelection = false` that return: `MoveLeft` and `MoveBottom` leave the
selection collapsed at the sanitized new cursor position (`HasSelection()` is
false); `MoveUp`, `MoveDown`, `MoveTop`, `MoveHome` and `MoveEnd` do so whenever
the cursor position changes, and leave the selection as it was when the cursor
position does not change; `MoveRight` does so unless it returns at the end of
the document, where it leaves the selection as it was, and with an amount of
at most 1 it does so whenever the cursor position changes. -/
theorem C28_move_collapses_selection (e : Editor) (hne : e.mLines ≠ []) :
    (∀ (aAmount : Int) (e1 : Editor), MoveUp e aAmount false = Except.ok e1 →
      (e1.mState.mCursorPosition ≠ e.mState.mCursorPosition →
        e1.collapsed ∧ HasSelection e1 = false) ∧
      (e1.mState.mCursorPosition = e.mState.mCursorPosition →
        e1.mState.mSelectionStart = e.mState.mSelectionStart ∧
        e1.mState.mSelectionEnd = e.mState.mSelectionEnd)) ∧
    (∀ (aAmount : Int) (e1 : Editor), MoveDown e aAmount false = Except.ok e1 →
      (e1.mState.mCursorPosition ≠ e.mState.mCursorPosition →
        e1.collapsed ∧ HasSelection e1 = false) ∧
      (e1.mState.mCursorPosition = e.mState.mCursorPosition →
        e1.mState.mSelectionStart = e.mState.mSelectionStart ∧
        e1.mState.mSelectionEnd = e.mState.mSelectionEnd)) ∧
    (∀ (aAmount : Int) (aWordMode : Bool) (e1 : Editor),
      MoveLeft e aAmount false aWordMode = Except.ok e1 →
      e1.collapsed ∧ HasSelection e1 = false) ∧
    (∀ (aAmount : Int) (aWordMode : Bool) (e1 : Editor),
      MoveRight e aAmount false aWordMode = Except.ok e1 →
      ((e1.collapsed ∧ HasSelection e1 = false) ∨
        (e1.mState.mSelectionStart = e.mState.mSelectionStart ∧
          e1.mState.mSelectionEnd = e.mState.mSelectionEnd)) ∧
      (aAmount ≤ 1 → e1.mState.mCursorPosition ≠ e.mState.mCursorPosition →
        e1.collapsed ∧ HasSelection e1 = false)) ∧
    (∀ e1 : Editor, MoveTop e false = Except.ok e1 →
      (e1.mState.mCursorPosition ≠ e.mState.mCursorPosition →
        e1.collapsed ∧ HasSelection e1 = false) ∧
      (e1.mState.mCursorPosition = e.mState.mCursorPosition →
        e1.mState.mSelectionStart = e.mState.mSelectionStart ∧
        e1.mState.mSelectionEnd = e.mState.mSelectionEnd)) ∧
    (∀ e1 : Editor, MoveBottom e false = Except.ok e1 →
      e1.collapsed ∧ HasSelection e1 = false) ∧
    (∀ e1 : Editor, MoveHome e false = Except.ok e1 →
      (e1.mState.mCursorPosition ≠ e.mState.mCursorPosition →
        e1.collapsed ∧ HasSelection e1 = false) ∧
      (e1.mState.mCursorPosition = e.mState.mCursorPosition →
        e1.mState.mSelectionStart = e.mState.mSelectionStart ∧
        e1.mState.mSelectionEnd = e.mState.mSelectionEnd)) ∧
    (∀ e1 : Editor, MoveEnd e false = Except.ok e1 →
      (e1.mState.mCursorPosition ≠ e.mState.mCursorPosition →
        e1.collapsed ∧ HasSelection e1 = false) ∧
      (e1.mState.mCursorPosition = e.mState.mCursorPosition →
        e1.mState.mSelectionStart = e.mState.mSelectionStart ∧
        e1.mState.mSelectionEnd = e.mState.mSelectionEnd)) :=
  ⟨fun _ _ h => MoveUp_plain h, fun _ _ h => MoveDown_plain h,
   fun _ _ _ h => MoveLeft_plain hne h, fun _ _ _ h => MoveRight_plain h,
   fun _ h => MoveTop_plain h, fun _ h => MoveBottom_plain h,
   fun _ h => MoveHome_plain h, fun _ h => MoveEnd_plain h⟩

/-- C28 (witness): the lines `"ab"`, `"cd"` with the selection (0,0)..(1,1) and
the cursor at (1,1): `MoveUp(1, false)` puts the cursor at (0,1) and collapses
the selection there. -/
theorem C28_move_collapses_selection_witness :
    ∃ e1 : Editor,
      MoveUp { mkEditor [[97, 98], [99, 100]] ⟨1, 1⟩ with
          mState := ⟨⟨0, 0⟩, ⟨1, 1⟩, ⟨1, 1⟩⟩ } 1 false = Except.ok e1 ∧
      e1.mState = ⟨⟨0, 1⟩, ⟨0, 1⟩, ⟨0, 1⟩⟩ ∧
      e1.collapsed ∧ HasSelection e1 = false :=
  ⟨_, rfl, rfl,
    ((C28_move_collapses_selection
      { mkEditor [[97, 98], [99, 100]] ⟨1, 1⟩ with mState := ⟨⟨0, 0⟩, ⟨1, 1⟩, ⟨1, 1⟩⟩ }
      (by decide)).1 1 _ rfl).1 (by decide)⟩

/-- C28 (counterexample to the claim as stated): the line `"ab"` with the
selection (0,0)..(0,2) and the cursor at (0,2), the end of the document.
`MoveUp`, `MoveDown`, `MoveEnd` and `MoveRight` with `extendSelection = false`
do not move the cursor and return with the selection still active. -/
theorem C28_move_keeps_selection_counterexample :
    (MoveUp { mkEditor [[97, 98]] ⟨0, 2⟩ with
        mState := ⟨⟨0, 0⟩, ⟨0, 2⟩, ⟨0, 2⟩⟩ } 1 false).map
      (fun e1 => (HasSelection e1, e1.mState.mSelectionStart, e1.mState.mSelectionEnd))
      = Except.ok (true, ⟨0, 0⟩, ⟨0, 2⟩) ∧
    (MoveDown { mkEditor [[97, 98]] ⟨0, 2⟩ with
        mState := ⟨⟨0, 0⟩, ⟨0, 2⟩, ⟨0, 2⟩⟩ } 1 false).map
      (fun e1 => (HasSelection e1, e1.mState.mSelectionStart, e1.mState.mSelectionEnd))
      = Except.ok (true, ⟨0, 0⟩, ⟨0, 2⟩) ∧
    (MoveEnd { mkEditor [[97, 98]] ⟨0, 2⟩ with
        mState := ⟨⟨0, 0⟩, ⟨0, 2⟩, ⟨0, 2⟩⟩ } false).map
      (fun e1 => (HasSelection e1, e1.mState.mSelectionStart, e1.mState.mSelectionEnd))
      = Except.ok (true, ⟨0, 0⟩, ⟨0, 2⟩) ∧
    (MoveRight { mkEditor [[97, 98]] ⟨0, 2⟩ with
        mState := ⟨⟨0, 0⟩, ⟨0, 2⟩, ⟨0, 2⟩⟩ } 1 false false).map
      (fun e1 => (HasSelection e1, e1.mState.mSelectionStart, e1.mState.mSelectionEnd))
      = Except.ok (true, ⟨0, 0⟩, ⟨0, 2⟩) :=
  ⟨rfl, rfl, rfl, rfl⟩

/-! ## C30: the single-line comment flag inside a string literal -/

/-- C30: the constructed editor after `SetText("// \"a\"")`, comment sweep with
the comment delimiters of the HLSL definition. The single-line comment opens
at index 0 and is open until the end of the line (the scan state still has
`withinSingleLineComment` at the end of the sweep), yet the three glyphs of the
string literal `"a"` keep the `mComment` flag `false` they were constructed
with: the string branches of the sweep write `mMultiLineComment` only. -/
theorem C30_comment_flag_in_string_literal :
    (ColorizeInternal.comments (SetText constructed [47, 47, 32, 34, 97, 34]) hlslComments).map
      (fun e => e.mLines.map (List.map (fun g => (g.mChar, g.mComment))))
      = Except.ok [[(47, true), (47, true), (32, true), (34, false), (97, false), (34, false)]] ∧
    (ColorizeInternal.sweep hlslComments 1 0
        { commentStartLine := 1, commentStartIndex := 0, withinString := false,
          withinSingleLineComment := false, withinPreproc := false, firstChar := true,
          concatenate := false }
        (SetText constructed [47, 47, 32, 34, 97, 34]).mLines).map
      (fun r => r.1.withinSingleLineComment) = Except.ok true :=
  ⟨rfl, rfl⟩

/-! ## C21: block indent followed by block outdent -/

/-- The per-line loop of the block outdent over lines that each start with a
tab glyph: every one of them loses that glyph. -/
theorem indentLoop_outdent (T : Nat) (Q : List Line) (Mid : List Line) :
    ∀ (P : List Line) (count : Nat) (endLine : Int) (modified : Bool),
      ((P.length + Mid.length : Nat) : Int) = endLine + 1 → Mid.length ≤ count →
      EnterCharacter.indentLoop T true endLine count (P.length : Int)
        (P ++ Mid.map (fun l =>
          ({ mChar := 9, mColorIndex := PaletteIndex.Background } : Glyph) :: l) ++ Q) modified
        = Except.ok (P ++ Mid ++ Q, modified || !Mid.isEmpty) := by
  induction Mid with
  | nil =>
    intro P count endLine modified hend _
    have hn : ¬ ((P.length : Int) ≤ endLine) := by
      simp only [List.length_nil, Nat.add_zero] at hend
      omega
    cases count with
    | zero => simp [EnterCharacter.indentLoop, pure, Except.pure]
    | succ c => simp [EnterCharacter.indentLoop, hn, pure, Except.pure]
  | cons M Mid ih =>
    intro P count endLine modified hend hcount
    obtain ⟨c, rfl⟩ : ∃ c, count = c + 1 := ⟨count - 1, by
      simp only [List.length_cons] at hcount; omega⟩
    simp only [List.length_cons] at hend hcount
    obtain ⟨R, hR⟩ : ∃ R : List Line, R = Mid.map (fun l =>
        ({ mChar := 9, mColorIndex := PaletteIndex.Background } : Glyph) :: l) := ⟨_, rfl⟩
    have hRlen : R.length = Mid.length := by rw [hR, List.length_map]
    have hle : (P.length : Int) ≤ endLine := by
      push_cast at hend
      omega
    have hM : (P ++ (({ mChar := 9, mColorIndex := PaletteIndex.Background } : Glyph) :: M) :: R
        ++ Q)[P.length]?
        = some (({ mChar := 9, mColorIndex := PaletteIndex.Background } : Glyph) :: M) := by
      rw [List.append_assoc]
      exact getElem?_split _ _ _
    have hb : (0 : Int) ≤ (P.length : Int) ∧ (P.length : Int) <
        ((P ++ (({ mChar := 9, mColorIndex := PaletteIndex.Background } : Glyph) :: M) :: R
          ++ Q).length : Int) := by
      simp only [List.length_append, List.length_cons]
      push_cast
      omega
    have hset : (P ++ (({ mChar := 9, mColorIndex := PaletteIndex.Background } : Glyph) :: M) :: R
        ++ Q).set P.length M = (P ++ [M]) ++ R ++ Q := by
      have h1 : P ++ (({ mChar := 9, mColorIndex := PaletteIndex.Background } : Glyph) :: M) :: R
          ++ Q = P ++ (({ mChar := 9, mColorIndex := PaletteIndex.Background } : Glyph) :: M)
            :: (R ++ Q) := by simp
      rw [h1, set_split]
      simp
    have hlen : (P.length : Int) + 1 = (((P ++ [M]).length : Nat) : Int) := by
      simp
    rw [List.map_cons, ← hR, EnterCharacter.indentLoop]
    simp only [hle, if_true, vecAt_natCast _ _ _ hM, bind, Except.bind,
      EnterCharacter.indentLine, vecSet, hb, and_self,
      Int.toNat_ofNat, pure, Except.pure, hset]
    rw [hlen, hR, ih _ c endLine true (by simp; push_cast at hend; omega) (by omega)]
    simp

/-- The block branch of `EnterCharacter` on a writable editor with a tab size
of at least 1, whose lines are `P ++ Mid ++ Q` and whose selection runs from
line `|P|` to `(le, ce)` on a later line, `Mid` being the lines of the range:
when the per-line loop turns `Mid` into `Mid1` and reports a modification, the
call returns with the lines `P ++ Mid1 ++ Q` and the selection from
`(|P|, 0)` to `(le, 0)` when `ce = 0`, else to the end of line `le`. -/
theorem EnterCharacter_block_run (e : Editor) (aShift : Bool) (P Mid Mid1 Q : List Line)
    (cs ce le : Int)
    (hro : e.mReadOnly = false) (hT : 1 ≤ e.mTabSize) (hundo : 0 ≤ e.mUndoIndex)
    (hlines : e.mLines = P ++ Mid ++ Q)
    (hstart : e.mState.mSelectionStart = ⟨(P.length : Int), cs⟩)
    (hend : e.mState.mSelectionEnd = ⟨le, ce⟩)
    (hlt : (P.length : Int) < le)
    (hmid : ((P.length + Mid.length : Nat) : Int) = if ce = 0 then le else le + 1)
    (hlen1 : Mid1.length = Mid.length)
    (hrun : ∀ (count : Nat) (endLine : Int),
      ((P.length + Mid.length : Nat) : Int) = endLine + 1 → Mid.length ≤ count →
      EnterCharacter.indentLoop e.mTabSize aShift endLine count (P.length : Int)
        (P ++ Mid ++ Q) false = Except.ok (P ++ Mid1 ++ Q, true)) :
    ∃ (e1 : Editor) (m : Int), EnterCharacter e 9 aShift = Except.ok e1 ∧
      e1.mLines = P ++ Mid1 ++ Q ∧
      e1.mState.mSelectionStart = ⟨(P.length : Int), 0⟩ ∧
      e1.mState.mSelectionEnd = ⟨le, if ce = 0 then 0 else m⟩ ∧
      (ce ≠ 0 → GetLineMaxColumn { e with mLines := P ++ Mid1 ++ Q } le = Except.ok m) ∧
      e1.mReadOnly = false ∧ e1.mTabSize = e.mTabSize ∧ 0 ≤ e1.mUndoIndex := by
  have hro' : ¬ (e.mReadOnly = true) := by simp [hro]
  obtain ⟨el, hel⟩ : ∃ el : Int, el = (P.length : Int) + (Mid.length : Int) - 1 := ⟨_, rfl⟩
  have hmidpos : 1 ≤ Mid.length := by
    split_ifs at hmid <;> push_cast at hmid <;> omega
  have hlen : e.mLines.length = P.length + Mid.length + Q.length := by
    rw [hlines]
    simp only [List.length_append]
  have hsel : HasSelection e = true := by
    have h1 : le ≠ (P.length : Int) := by omega
    simp only [HasSelection, hstart, hend, Coordinates.gt, ne_eq, h1, not_false_eq_true, if_true,
      decide_eq_true_eq]
    omega
  have hgt : (⟨(P.length : Int), cs⟩ : Coordinates).gt ⟨le, ce⟩ = false := by
    have h1 : (P.length : Int) ≠ le := by omega
    simp only [Coordinates.gt, ne_eq, h1, not_false_eq_true, if_true,
      decide_eq_false_iff_not]
    omega
  have hcond : HasSelection e = true ∧ (9 : Nat) = 9 ∧
      e.mState.mSelectionStart.mLine ≠ e.mState.mSelectionEnd.mLine := by
    refine ⟨hsel, rfl, ?_⟩
    rw [hstart, hend]
    show (P.length : Int) ≠ le
    omega
  have hemp : e.mLines.isEmpty = false := by
    cases hls : e.mLines with
    | nil => rw [hls] at hlen; simp at hlen; omega
    | cons a t => rfl
  have hin : ¬ (el ≥ (e.mLines.length : Int)) := by
    rw [hlen, hel]
    push_cast
    omega
  obtain ⟨n, hn⟩ := GetLineMaxColumn_total e hT el
  obtain ⟨removed, hremoved⟩ := GetText_total e hT ⟨(P.length : Int), 0⟩ ⟨el, n⟩
    (by show (0 : Int) ≤ (P.length : Int); omega) (by show el ≤ (e.mLines.length : Int); omega)
  have hloop := hrun (el - (P.length : Int) + 1).toNat el
    (by rw [hel]; push_cast; omega) (by rw [hel]; omega)
  rw [← hlines] at hloop
  obtain ⟨e1, he1⟩ : ∃ e1 : Editor, e1 = { e with mLines := P ++ Mid1 ++ Q } := ⟨_, rfl⟩
  have h1T : 1 ≤ e1.mTabSize := by rw [he1]; exact hT
  have h1ro : e1.mReadOnly = false := by rw [he1]; exact hro
  have h1undo : 0 ≤ e1.mUndoIndex := by rw [he1]; exact hundo
  have h1lines : e1.mLines = P ++ Mid1 ++ Q := by rw [he1]
  have h1tab : e1.mTabSize = e.mTabSize := by rw [he1]
  have h1len : e1.mLines.length = e.mLines.length := by
    rw [he1, hlen]
    simp only [List.length_append, hlen1]
  obtain ⟨m1, hm1⟩ := GetLineMaxColumn_total e1 h1T el
  obtain ⟨m2, hm2⟩ := GetLineMaxColumn_total e1 h1T (le - 1)
  obtain ⟨added1, hadded1⟩ := GetText_total e1 h1T ⟨(P.length : Int), 0⟩ ⟨el, m1⟩
    (by show (0 : Int) ≤ (P.length : Int); omega)
    (by show el ≤ (e1.mLines.length : Int); rw [h1len]; omega)
  obtain ⟨added2, hadded2⟩ := GetText_total e1 h1T ⟨(P.length : Int), 0⟩ ⟨le - 1, m2⟩
    (by show (0 : Int) ≤ (P.length : Int); omega)
    (by
      show le - 1 ≤ (e1.mLines.length : Int)
      rw [h1len, hlen]
      split_ifs at hmid <;> push_cast at hmid ⊢ <;> omega)
  unfold EnterCharacter
  rw [if_neg hro']
  simp only [hcond, and_self, if_true, ne_eq, not_false_eq_true]
  unfold EnterCharacter.indent
  simp only [hstart, hend]
  simp only [hgt, Bool.false_eq_true, if_false]
  by_cases hce : ce = 0
  · subst hce
    have hle0 : le > 0 := by omega
    have hE : el = le - 1 := by
      rw [if_pos rfl] at hmid
      push_cast at hmid
      omega
    subst hE
    simp only [true_and, hle0, if_true, hin, if_false, hn, bind, Except.bind, hremoved, hloop]
    rw [← he1]
    simp only [GetCharacterColumn_zero, ne_eq, not_true_eq_false, if_false, hm2, hadded2]
    refine ⟨_, 0, AddUndo_eq _ _ hro hundo, rfl, rfl, rfl, ?_, hro, rfl, ?_⟩
    · intro hc
      first | exact absurd rfl hc | exact hc.elim
    · show 0 ≤ e.mUndoIndex + 1
      omega
  · have hE : el = le := by
      rw [if_neg hce] at hmid
      push_cast at hmid
      omega
    subst hE
    simp only [hce, false_and, if_false, hin, hn, bind, Except.bind, hremoved, hloop,
      if_true]
    rw [← he1]
    simp only [GetCharacterColumn_zero, ne_eq, hce, not_false_eq_true, if_true, hm1, hadded1]
    refine ⟨_, m1, AddUndo_eq _ _ hro hundo, rfl, rfl, ?_, ?_, hro, rfl, ?_⟩
    · rfl
    · exact fun _ => rfl
    · show 0 ≤ e.mUndoIndex + 1
      omega

/-- With a tab size of at least 1, a line that starts with a tab glyph has a
maximal column of at least 1. -/
theorem GetLineMaxColumn_tab_pos (e : Editor) (hT : 1 ≤ e.mTabSize) (l : Nat) (line : Line)
    (h : e.mLines[l]? =
      some (({ mChar := 9, mColorIndex := PaletteIndex.Background } : Glyph) :: line))
    (m : Int) (hm : GetLineMaxColumn e (l : Int) = Except.ok m) : 1 ≤ m := by
  rw [GetLineMaxColumn_eq e l _ h (scanOK_of_pos hT _ 0)] at hm
  cases hm
  have hpos : 0 < max e.mTabSize 1 := by omega
  have h1 := scanMax_ge hpos line (UTF8CharLength 9 - 1)
    (colStep (max e.mTabSize 1) 0 ({ mChar := 9, mColorIndex := PaletteIndex.Background } : Glyph))
  have h2 : 1 ≤ colStep (max e.mTabSize 1) 0
      ({ mChar := 9, mColorIndex := PaletteIndex.Background } : Glyph) := by
    simp only [colStep, if_true, Nat.zero_div, Nat.zero_mul, Nat.zero_add]
    omega
  have h3 : scanMax (max e.mTabSize 1) 0 0
      (({ mChar := 9, mColorIndex := PaletteIndex.Background } : Glyph) :: line)
      = scanMax (max e.mTabSize 1) (UTF8CharLength 9 - 1)
          (colStep (max e.mTabSize 1) 0
            ({ mChar := 9, mColorIndex := PaletteIndex.Background } : Glyph)) line := rfl
  rw [h3]
  exact_mod_cast le_trans h2 h1

/-- Block indent followed by block outdent, outside the tab size 0: on a
writable editor with a tab size of at least 1 and a non-negative undo index,
whose lines are `P ++ Mid ++ Q` and whose selection runs from line `|P|` to
`(le, ce)` on a later line (`Mid` being the lines of the range, without line
`le` when `ce = 0`), `EnterCharacter('\t', false)` and then
`EnterCharacter('\t', true)` both return and the lines are those of the
start. -/
theorem block_indent_then_outdent (e : Editor) (P Mid Q : List Line) (cs ce le : Int)
    (hro : e.mReadOnly = false) (hT : 1 ≤ e.mTabSize) (hundo : 0 ≤ e.mUndoIndex)
    (hlines : e.mLines = P ++ Mid ++ Q)
    (hstart : e.mState.mSelectionStart = ⟨(P.length : Int), cs⟩)
    (hend : e.mState.mSelectionEnd = ⟨le, ce⟩)
    (hlt : (P.length : Int) < le)
    (hmid : ((P.length + Mid.length : Nat) : Int) = if ce = 0 then le else le + 1) :
    ∃ e1 e2 : Editor, EnterCharacter e 9 false = Except.ok e1 ∧
      EnterCharacter e1 9 true = Except.ok e2 ∧ e2.mLines = e.mLines := by
  have hmidpos : 1 ≤ Mid.length := by
    split_ifs at hmid <;> push_cast at hmid <;> omega
  have hne : (!Mid.isEmpty) = true := by
    cases Mid with
    | nil => simp at hmidpos
    | cons a t => rfl
  obtain ⟨R, hR⟩ : ∃ R : List Line, R = Mid.map (fun l =>
      ({ mChar := 9, mColorIndex := PaletteIndex.Background } : Glyph) :: l) := ⟨_, rfl⟩
  have hRlen : R.length = Mid.length := by rw [hR, List.length_map]
  obtain ⟨e1, m, h1, h1lines, h1start, h1end, h1m, h1ro, h1tab, h1undo⟩ :=
    EnterCharacter_block_run e false P Mid R Q cs ce le hro hT hundo hlines hstart hend hlt hmid
      hRlen (by
        intro count endLine h1 h2
        have := indentLoop_indent e.mTabSize Q Mid P count endLine false h1 h2
        rw [this, hR, hne]
        rfl)
  have hm : ce ≠ 0 → 1 ≤ m := by
    intro hce
    have hmle := h1m hce
    rw [if_neg hce] at hmid
    obtain ⟨n, hn⟩ : ∃ n : Nat, le = (n : Int) := ⟨le.toNat, by omega⟩
    subst hn
    have hnlt : n - P.length < R.length := by rw [hRlen]; push_cast at hmid; omega
    have hPn : P.length ≤ n := by omega
    have hget : (P ++ R ++ Q)[n]? = some R[n - P.length] := by
      rw [List.append_assoc, List.getElem?_append_right hPn,
        List.getElem?_append_left hnlt, List.getElem?_eq_getElem hnlt]
    have hRn : ∃ l : Line, R[n - P.length] =
        ({ mChar := 9, mColorIndex := PaletteIndex.Background } : Glyph) :: l := by
      subst hR
      exact ⟨_, List.getElem_map _⟩
    obtain ⟨l, hl⟩ := hRn
    rw [hl] at hget
    exact GetLineMaxColumn_tab_pos { e with mLines := P ++ R ++ Q } hT n l hget m hmle
  have hmid2 : ((P.length + R.length : Nat) : Int)
      = if (if ce = 0 then 0 else m) = 0 then le else le + 1 := by
    rw [hRlen, hmid]
    by_cases hce : ce = 0
    · simp [hce]
    · have := hm hce
      have hm0 : m ≠ 0 := by omega
      simp [hce, hm0]
  obtain ⟨e2, m2, h2, h2lines, -⟩ :=
    EnterCharacter_block_run e1 true P R Mid Q 0 (if ce = 0 then 0 else m) le h1ro
      (by rw [h1tab]; exact hT) h1undo h1lines h1start h1end hlt hmid2 hRlen.symm (by
        intro count endLine h1 h2
        rw [hRlen] at h1 h2
        have := indentLoop_outdent e1.mTabSize Q Mid P count endLine false h1 h2
        rw [hR, this, hne]
        rfl)
  exact ⟨e1, e2, h1, h2, by rw [h2lines, hlines]⟩

/-- C21 (evaluation at the failing input): after `SetTabSize(0)` the tab size is
0; in the two-line document `"a"`, `"b"` with the selection (0,0)..(1,1), which
spans both lines, `EnterCharacter('\t', false)` does not return: the loop puts
the tabs in front of the two lines and the end-column scan of the indented end
line then divides by the tab size, so the pair of calls does not bring the
lines back. With tab size 1 the same two calls return and leave the lines
`"a"`, `"b"`. -/
theorem C21_block_indent_outdent_tab_size_zero :
    (SetTabSize (SetText constructed [97, 10, 98]) 0).mTabSize = 0 ∧
    (SetTabSize (SetText constructed [97, 10, 98]) 0).bytes = [[97], [98]] ∧
    ((SetSelection (SetTabSize (SetText constructed [97, 10, 98]) 0) ⟨0, 0⟩ ⟨1, 1⟩
        SelectionMode.Normal).map (fun e => (e.mState.mSelectionStart, e.mState.mSelectionEnd))
      = Except.ok (⟨0, 0⟩, ⟨1, 1⟩)) ∧
    ((SetSelection (SetTabSize (SetText constructed [97, 10, 98]) 0) ⟨0, 0⟩ ⟨1, 1⟩
        SelectionMode.Normal) >>= fun e => EnterCharacter e 9 false)
      = Except.error Fault.divByZero ∧
    (((SetSelection (SetTabSize (SetText constructed [97, 10, 98]) 0) ⟨0, 0⟩ ⟨1, 1⟩
        SelectionMode.Normal) >>= fun e => EnterCharacter e 9 false) >>= fun e =>
          EnterCharacter e 9 true)
      = Except.error Fault.divByZero ∧
    ((((SetSelection (SetTabSize (SetText constructed [97, 10, 98]) 1) ⟨0, 0⟩ ⟨1, 1⟩
        SelectionMode.Normal) >>= fun e => EnterCharacter e 9 false) >>= fun e =>
          EnterCharacter e 9 true).map Editor.bytes)
      = Except.ok [[97], [98]] := by
  refine ⟨by rfl, by rfl, by rfl, by rfl, by rfl, by rfl⟩

/-! ## C36: the comment sweep at a backslash that ends a line inside a string -/

/-- C36 (evaluation at the failing input): the constructed editor after
`SetText("\"\\")`, one line that opens a string literal and ends with a
backslash. At the backslash (index 1, inside the string) the escape branch
moves `currentIndex` to 2, the length of the line, and guards its own write;
the write `line[currentIndex].mPreprocessor` that follows is not guarded and
uses the index 2 of a line of length 2. The sweep, and `ColorizeInternal` with
it, does not return. With one more character after the backslash it does. -/
theorem C36_comment_sweep_backslash_at_line_end :
    (SetText constructed [34, 92]).bytes = [[34, 92]] ∧
    (SetText constructed [34, 92]).mCheckComments = true ∧
    (ColorizeInternal.skipNext
        { commentStartLine := 1, commentStartIndex := 0, withinString := true,
          withinSingleLineComment := false, withinPreproc := false, firstChar := false,
          concatenate := true }
        (mkLine [34, 92]) false 1).map (fun r => r.2.2) = Except.ok 2 ∧
    ColorizeInternal.setPreprocessor (mkLine [34, 92]) 2 false = Except.error Fault.outOfRange ∧
    ColorizeInternal.comments (SetText constructed [34, 92]) hlslComments
      = Except.error Fault.outOfRange ∧
    ColorizeInternal (SetText constructed [34, 92]) hlslComments [] 2
      = Except.error Fault.outOfRange ∧
    (ColorizeInternal.comments (SetText constructed [34, 92, 97]) hlslComments).map Editor.bytes
      = Except.ok [[34, 92, 97]] := by
  refine ⟨by rfl, by rfl, by rfl, by rfl, by rfl, by rfl, by rfl⟩

/-! ## C37: the tab-stop computation at tab size 0 -/

/-- C37 (evaluation at the failing input): `SetTabSize(0)` (and every negative
argument) stores the tab size 0, and on the one-line document `"\t"` each of
`GetLineMaxColumn(0)`, `GetCharacterIndex((0,1))` and `GetCharacterColumn(0, 1)`
then divides by zero at the tab. With tab size 1 the three return 1, 1 and 1. -/
theorem C37_tab_stop_division_tab_size_zero :
    (SetTabSize (SetText constructed [9]) 0).mTabSize = 0 ∧
    (SetTabSize (SetText constructed [9]) (-5)).mTabSize = 0 ∧
    (SetTabSize (SetText constructed [9]) 0).bytes = [[9]] ∧
    GetLineMaxColumn (SetTabSize (SetText constructed [9]) 0) 0
      = Except.error Fault.divByZero ∧
    GetCharacterIndex (SetTabSize (SetText constructed [9]) 0) ⟨0, 1⟩
      = Except.error Fault.divByZero ∧
    GetCharacterColumn (SetTabSize (SetText constructed [9]) 0) 0 1
      = Except.error Fault.divByZero ∧
    GetLineMaxColumn (SetTabSize (SetText constructed [9]) 1) 0 = Except.ok 1 ∧
    GetCharacterIndex (SetTabSize (SetText constructed [9]) 1) ⟨0, 1⟩ = Except.ok 1 ∧
    GetCharacterColumn (SetTabSize (SetText constructed [9]) 1) 0 1 = Except.ok 1 := by
  refine ⟨by rfl, by rfl, by rfl, by rfl, by rfl, by rfl, by rfl, by rfl, by rfl⟩

/-- Outside the tab size 0 the three scans of the coordinate mapper return:
for every tab size of at least 1 that `SetTabSize` stores, on every document,
line, column and byte index, `GetLineMaxColumn`, `GetCharacterIndex` and
`GetCharacterColumn` give a value. -/
theorem mapper_total_of_tab_size_pos (e : Editor) (aValue : Int) (h1 : 1 ≤ aValue)
    (l i : Int) (p : Coordinates) :
    1 ≤ (SetTabSize e aValue).mTabSize ∧ (SetTabSize e aValue).mTabSize ≤ 32 ∧
    (∃ m, GetLineMaxColumn (SetTabSize e aValue) l = Except.ok m) ∧
    (∃ k, GetCharacterIndex (SetTabSize e aValue) p = Except.ok k) ∧
    (∃ c, GetCharacterColumn (SetTabSize e aValue) l i = Except.ok c) := by
  have hT : 1 ≤ (SetTabSize e aValue).mTabSize := by
    show 1 ≤ (max 0 (min 32 aValue)).toNat
    omega
  have hT2 : (SetTabSize e aValue).mTabSize ≤ 32 := by
    show (max 0 (min 32 aValue)).toNat ≤ 32
    omega
  exact ⟨hT, hT2, GetLineMaxColumn_total _ hT l, (GetCharacterIndex_total _ hT p).imp (fun _ h => h.1),
    GetCharacterColumn_total _ hT l i⟩

/-! ## C38: `SetText(GetText())` -/

/-- C38 (evaluation at the failing input): the constructed editor after
`SetText("a\nb")` holds the two lines `"a"`, `"b"`. `GetText()` returns
`"a\nb\n"`, with a line break after the last line as well, and `SetText` of
that string yields the three lines `"a"`, `"b"`, `""`. The text that
`SelectAll()` and `GetSelectedText()` give is `"a\nb"`, and `SetText` of it
yields the two lines again. -/
theorem C38_set_text_of_get_text_adds_a_line :
    (SetText constructed [97, 10, 98]).bytes = [[97], [98]] ∧
    GetText0 (SetText constructed [97, 10, 98]) = Except.ok [97, 10, 98, 10] ∧
    (GetText0 (SetText constructed [97, 10, 98])).map
      (fun t => (SetText (SetText constructed [97, 10, 98]) t).bytes)
      = Except.ok [[97], [98], []] ∧
    (SelectAll (SetText constructed [97, 10, 98]) >>= GetSelectedText)
      = Except.ok [97, 10, 98] ∧
    ((SelectAll (SetText constructed [97, 10, 98]) >>= GetSelectedText).map
      (fun t => (SetText (SetText constructed [97, 10, 98]) t).bytes))
      = Except.ok [[97], [98]] := by
  refine ⟨by rfl, by rfl, by rfl, by rfl, by rfl⟩

/-! ## C40: the lead byte that `ImTextCharToUtf8` writes -/

theorem UTF8CharLength_one : ∀ c, c < 128 → UTF8CharLength c = 1 := by decide

theorem UTF8CharLength_two : ∀ q, q < 32 → UTF8CharLength ((0xc0 + q) % 256) = 2 := by decide

theorem UTF8CharLength_three : ∀ q, q < 16 → UTF8CharLength ((0xe0 + q) % 256) = 3 := by decide

theorem trail_byte_ne_zero (x : Nat) : (0x80 + (x &&& 0x3f)) % 256 ≠ 0 := by
  have h : x &&& 0x3f < 64 := Nat.lt_of_le_of_lt Nat.and_le_right (by decide)
  omega

/-- The bytes that `ImTextCharToUtf8` writes for a character code below
`0x10000`, by the four ranges of the code. -/
theorem ImTextCharToUtf8_cases (c : Nat) (hc : c < 0x10000) :
    (c < 0x80 ∧ ImTextCharToUtf8 7 c = [c]) ∨
    (∃ q, q < 32 ∧ ImTextCharToUtf8 7 c = [(0xc0 + q) % 256, (0x80 + (c &&& 0x3f)) % 256]) ∨
    (ImTextCharToUtf8 7 c = []) ∨
    (ImTextCharToUtf8 7 c = [240, (0x80 + ((c >>> 12) &&& 0x3f)) % 256,
      (0x80 + ((c >>> 6) &&& 0x3f)) % 256, (0x80 + (c &&& 0x3f)) % 256]) ∨
    (∃ q, q < 16 ∧ ImTextCharToUtf8 7 c = [(0xe0 + q) % 256,
      (0x80 + ((c >>> 6) &&& 0x3f)) % 256, (0x80 + (c &&& 0x3f)) % 256]) := by
  unfold ImTextCharToUtf8
  by_cases h1 : c < 0x80
  · left
    refine ⟨h1, ?_⟩
    rw [if_pos h1, Nat.mod_eq_of_lt (by omega)]
  · rw [if_neg h1]
    by_cases h2 : c < 0x800
    · right; left
      refine ⟨c >>> 6, ?_, ?_⟩
      · rw [Nat.shiftRight_eq_div_pow]
        omega
      · rw [if_pos h2]
        simp
    · rw [if_neg h2]
      by_cases h3 : 0xdc00 ≤ c ∧ c < 0xe000
      · right; right; left
        rw [if_pos h3]
      · rw [if_neg h3]
        by_cases h4 : 0xd800 ≤ c ∧ c < 0xdc00
        · right; right; right; left
          rw [if_pos h4]
          have h18 : c >>> 18 = 0 := by
            rw [Nat.shiftRight_eq_div_pow]
            omega
          simp [h18]
        · right; right; right; right
          refine ⟨c >>> 12, ?_, ?_⟩
          · rw [Nat.shiftRight_eq_div_pow]
            omega
          · rw [if_neg h4]
            simp

/-- A line that is exactly one character (a lead byte and the trailing bytes it
declares) counts as one character, and one step of the byte-index scan takes
all of its bytes. -/
theorem one_character_line (e : Editor) (hT : 1 ≤ e.mTabSize) (b : Nat) (rest : List Nat)
    (hlen : UTF8CharLength b = rest.length + 1) (hl : e.mLines = [mkLine (b :: rest)]) :
    GetLineCharacterCount e 0 = Except.ok 1 ∧
    GetCharacterIndex e ⟨0, 1⟩ = Except.ok (((b :: rest).length : Nat) : Int) := by
  have hline : e.mLines[0]? = some (mkLine (b :: rest)) := by rw [hl]; rfl
  have hcount : scanCount 0 (mkLine (b :: rest)) = 1 := by
    show 1 + scanCount (UTF8CharLength b - 1) (mkLine rest) = 1
    rw [scanCount_skip, List.drop_eq_nil_iff.mpr (by simp [mkLine]; omega)]
    rfl
  have hidx : scanIndex (max e.mTabSize 1) 1 0 0 (mkLine (b :: rest)) = (b :: rest).length := by
    show (if ((0 : Nat) : Int) < 1 then
      1 + scanIndex (max e.mTabSize 1) 1 (UTF8CharLength b - 1)
        (colStep (max e.mTabSize 1) 0 _) (mkLine rest) else 0) = _
    rw [if_pos (by decide), scanIndex_skip, List.drop_eq_nil_iff.mpr (by simp [mkLine]; omega)]
    simp only [scanIndex, List.length_cons]
    show 1 + (UTF8CharLength b - 1 + 0) = rest.length + 1
    omega
  constructor
  · have h1 : ¬ ((0 : Int) < 0 ∨ (0 : Int) ≥ (e.mLines.length : Int)) := by
      rw [hl]; simp
    have hv : vecAt e.mLines 0 = Except.ok (mkLine (b :: rest)) := vecAt_natCast _ 0 _ hline
    simp only [GetLineCharacterCount, h1, if_false, hv, bind, Except.bind]
    rw [GetLineCharacterCount_loop_eq _ _ _ _ (by omega)]
    simp [hcount, pure, Except.pure]
  · have := GetCharacterIndex_eq e 0 _ hline (scanOK_of_pos hT _ 0) 1
    rw [hidx] at this
    exact this

/-- C40 (as amended): for every character code `c` below `0x10000` (the 16-bit
range of `ImWchar`) for which `ImTextCharToUtf8` with a buffer of 7 bytes
writes `n > 0` bytes, `UTF8CharLength` of the first byte written is `n`; for
`c ≠ 0` all `n` bytes are read back from the zero-terminated buffer; and a line
made of these bytes counts as one character, and one step of the byte-index
scan takes all `n` bytes. -/
theorem C40_encoded_character_length (c : Nat) (hc : c < 0x10000)
    (hn : 0 < (ImTextCharToUtf8 7 c).length) :
    UTF8CharLength ((ImTextCharToUtf8 7 c).headD 0) = (ImTextCharToUtf8 7 c).length ∧
    (c ≠ 0 → cstr (ImTextCharToUtf8 7 c) = ImTextCharToUtf8 7 c) ∧
    (∀ e : Editor, 1 ≤ e.mTabSize → e.mLines = [mkLine (ImTextCharToUtf8 7 c)] →
      GetLineCharacterCount e 0 = Except.ok 1 ∧
      GetCharacterIndex e ⟨0, 1⟩ = Except.ok (((ImTextCharToUtf8 7 c).length : Nat) : Int)) := by
  rcases ImTextCharToUtf8_cases c hc with ⟨h1, h⟩ | ⟨q, hq, h⟩ | h | h | ⟨q, hq, h⟩
  · rw [h]
    have hl := UTF8CharLength_one c h1
    refine ⟨hl, ?_, ?_⟩
    · intro h0
      simp [cstr, List.takeWhile, h0]
    · intro e hT hlines
      exact one_character_line e hT c [] (by rw [hl]; rfl) hlines
  · rw [h]
    have hl := UTF8CharLength_two q hq
    refine ⟨hl, ?_, ?_⟩
    · intro _
      have hb0 : (0xc0 + q) % 256 ≠ 0 := by omega
      have hb1 := trail_byte_ne_zero c
      simp [cstr, List.takeWhile, hb0, hb1]
    · intro e hT hlines
      exact one_character_line e hT _ [_] (by rw [hl]; rfl) hlines
  · rw [h] at hn
    simp at hn
  · rw [h]
    refine ⟨by show UTF8CharLength 240 = 4; decide, ?_, ?_⟩
    · intro _
      have hb1 := trail_byte_ne_zero (c >>> 12)
      have hb2 := trail_byte_ne_zero (c >>> 6)
      have hb3 := trail_byte_ne_zero c
      simp [cstr, List.takeWhile, hb1, hb2, hb3]
    · intro e hT hlines
      exact one_character_line e hT _ [_, _, _] (by show UTF8CharLength 240 = 4; decide) hlines
  · rw [h]
    have hl := UTF8CharLength_three q hq
    refine ⟨hl, ?_, ?_⟩
    · intro _
      have hb0 : (0xe0 + q) % 256 ≠ 0 := by omega
      have hb2 := trail_byte_ne_zero (c >>> 6)
      have hb3 := trail_byte_ne_zero c
      simp [cstr, List.takeWhile, hb0, hb2, hb3]
    · intro e hT hlines
      exact one_character_line e hT _ [_, _] (by rw [hl]; rfl) hlines

/-- C40 (witness): the code `0x20AC` (the euro sign) is written as the three
bytes `E2 82 AC`, and `UTF8CharLength(0xE2)` is 3. -/
theorem C40_encoded_character_length_witness :
    ImTextCharToUtf8 7 0x20AC = [226, 130, 172] ∧
    UTF8CharLength ((ImTextCharToUtf8 7 0x20AC).headD 0) = (ImTextCharToUtf8 7 0x20AC).length :=
  ⟨by rfl, (C40_encoded_character_length 0x20AC (by decide) (by decide)).1⟩

/-- C40 (counterexample to the claim as stated): for the value `0x10000` of
the parameter type `unsigned int`, `ImTextCharToUtf8` with a buffer of 7 bytes
returns 3 and writes the bytes `F0 80 80`, and `UTF8CharLength(0xF0)` is 4, not
3; for `0x1F600` it writes 3 bytes that start with `0xFF`, whose
`UTF8CharLength` is 1. -/
theorem C40_encoded_character_counterexample :
    ImTextCharToUtf8 7 0x10000 = [240, 128, 128] ∧
    (ImTextCharToUtf8 7 0x10000).length = 3 ∧
    UTF8CharLength ((ImTextCharToUtf8 7 0x10000).headD 0) = 4 ∧
    ImTextCharToUtf8 7 0x1F600 = [255, 152, 128] ∧
    (ImTextCharToUtf8 7 0x1F600).length = 3 ∧
    UTF8CharLength ((ImTextCharToUtf8 7 0x1F600).headD 0) = 1 := by
  refine ⟨by rfl, by rfl, by rfl, by rfl, by rfl, by rfl⟩

/-! ## C31: `SetText` -/

theorem splitOn_nil_ten : ([] : List Nat).splitOn 10 = [[]] := by
  simp [List.splitOn, List.splitOnP_nil]

theorem splitOn_cons_ten (rest : List Nat) :
    (10 :: rest).splitOn 10 = [] :: rest.splitOn 10 := by
  simp [List.splitOn, List.splitOnP_cons]

theorem splitOn_cons_other (b : Nat) (rest : List Nat) (hb : b ≠ 10) :
    (b :: rest).splitOn 10 = List.modifyHead (List.cons b) (rest.splitOn 10) := by
  simp [List.splitOn, List.splitOnP_cons, hb]

theorem splitOn_ten_ne_nil (s : List Nat) : s.splitOn 10 ≠ [] := by
  simp [List.splitOn, List.splitOnP_ne_nil]

theorem splitOn_ten_length (s : List Nat) : (s.splitOn 10).length = 1 + s.count 10 := by
  induction s with
  | nil => simp [splitOn_nil_ten]
  | cons b rest ih =>
    by_cases hb : b = 10
    · subst hb
      rw [splitOn_cons_ten, List.length_cons, ih, List.count_cons_self]
      omega
    · rw [splitOn_cons_other b rest hb, List.length_modifyHead, ih, List.count_cons_of_ne (Ne.symm hb)]

/-- The loop of `SetText` appends to the last line the first segment of the
text and puts the other segments after it as new lines. -/
theorem SetText_loop_eq (s : List Nat) : ∀ (acc : List Line) (cur : Line),
    SetText.loop s (acc ++ [cur]) =
      acc ++ List.modifyHead (fun h => cur ++ h)
        ((s.splitOn 10).map (fun seg => mkLine (seg.filter (fun c => c ≠ 13)))) := by
  induction s with
  | nil =>
    intro acc cur
    simp [SetText.loop, splitOn_nil_ten, mkLine, List.modifyHead]
  | cons b rest ih =>
    intro acc cur
    by_cases h13 : b = 13
    · subst h13
      rw [SetText.loop, if_pos rfl, ih, splitOn_cons_other 13 rest (by decide)]
      congr 2
      cases rest.splitOn 10 with
      | nil => rfl
      | cons h t => simp [List.modifyHead]
    · by_cases h10 : b = 10
      · subst h10
        rw [SetText.loop, if_neg h13, if_pos rfl, ih (acc ++ [cur]) [], splitOn_cons_ten]
        cases hsp : rest.splitOn 10 with
        | nil => exact absurd hsp (splitOn_ten_ne_nil rest)
        | cons h t => simp [List.modifyHead, mkLine]
      · rw [SetText.loop, if_neg h13, if_neg h10, List.dropLast_concat, List.getLastD_concat,
          ih, splitOn_cons_other b rest h10]
        cases hsp : rest.splitOn 10 with
        | nil => exact absurd hsp (splitOn_ten_ne_nil rest)
        | cons h t => simp [List.modifyHead, mkLine, h13]

/-- C31: for every string `s`, `SetText(s)` yields the document whose lines
are the segments of `s` between its `'\n'` bytes, in order, each without its
`'\r'` bytes and each glyph classified `Default`; the number of lines is 1 plus
the number of `'\n'` bytes of `s`; the undo log is empty and the undo index
is 0. -/
theorem C31_set_text (e : Editor) (s : List Nat) :
    (SetText e s).mLines
      = (s.splitOn 10).map (fun seg => mkLine (seg.filter (fun c => c ≠ 13))) ∧
    (SetText e s).mLines.length = 1 + s.count 10 ∧
    (SetText e s).bytes = (s.splitOn 10).map (fun seg => seg.filter (fun c => c ≠ 13)) ∧
    (∀ line ∈ (SetText e s).mLines, ∀ g ∈ line, g.mColorIndex = PaletteIndex.Default) ∧
    (SetText e s).mUndoBuffer = [] ∧ (SetText e s).mUndoIndex = 0 := by
  have hl : (SetText e s).mLines
      = (s.splitOn 10).map (fun seg => mkLine (seg.filter (fun c => c ≠ 13))) := by
    show SetText.loop s [[]] = _
    have := SetText_loop_eq s [] []
    simp only [List.nil_append] at this
    rw [this]
    cases hsp : s.splitOn 10 with
    | nil => exact absurd hsp (splitOn_ten_ne_nil s)
    | cons h t => simp [List.modifyHead]
  refine ⟨hl, ?_, ?_, ?_, rfl, rfl⟩
  · rw [hl, List.length_map, splitOn_ten_length]
  · rw [Editor.bytes, hl, List.map_map]
    apply List.map_congr_left
    intro seg _
    simp only [mkLine, Function.comp, List.map_map]
    exact (List.map_congr_left (fun c _ => rfl)).trans (List.map_id _)
  · rw [hl]
    intro line hline g hg
    obtain ⟨seg, _, rfl⟩ := List.mem_map.mp hline
    simp only [mkLine, List.mem_map] at hg
    obtain ⟨c, _, rfl⟩ := hg
    rfl

/-! ## C33: the undo index after `Undo(N)` and `Redo(N)` -/

theorem Undo_loop_index : ∀ (steps : Nat) (e e1 : Editor),
    Undo.loop steps e = Except.ok e1 → e.mReadOnly = false → 0 ≤ e.mUndoIndex →
    e1.mUndoIndex = e.mUndoIndex - min (steps : Int) e.mUndoIndex ∧
      e1.mUndoBuffer = e.mUndoBuffer := by
  intro steps
  induction steps with
  | zero =>
    intro e e1 h _ h0
    cases h
    refine ⟨?_, rfl⟩
    have : min ((0 : Nat) : Int) e.mUndoIndex = 0 := by
      rw [min_eq_left]
      · rfl
      · exact_mod_cast h0
    omega
  | succ steps ih =>
    intro e e1 h hro h0
    rw [Undo.loop] at h
    split_ifs at h with hc
    · obtain ⟨u, _, h⟩ := bind_ok_inv h
      obtain ⟨e2, h2, h⟩ := bind_ok_inv h
      have k := UndoRecord_Undo_keeps h2
      have hpos : e.mUndoIndex > 0 := by
        simp only [CanUndo, hro, Bool.not_false, Bool.true_and, decide_eq_true_eq] at hc
        exact hc
      have k1 : e2.mUndoIndex = e.mUndoIndex - 1 := k.1
      have k2 : e2.mUndoBuffer = e.mUndoBuffer := k.2.1
      have k3 : e2.mReadOnly = false := k.2.2.1.trans hro
      obtain ⟨i1, i2⟩ := ih e2 e1 h k3 (by omega)
      refine ⟨?_, i2.trans k2⟩
      rw [i1, k1]
      push_cast
      omega
    · cases h
      refine ⟨?_, rfl⟩
      have hle : ¬ (e.mUndoIndex > 0) := by
        simpa [CanUndo, hro] using hc
      have : e.mUndoIndex = 0 := by omega
      rw [this]
      simp
      omega

theorem Redo_loop_index : ∀ (steps : Nat) (e e1 : Editor),
    Redo.loop steps e = Except.ok e1 → e.mReadOnly = false →
    e.mUndoIndex ≤ (e.mUndoBuffer.length : Int) →
    e1.mUndoIndex
        = e.mUndoIndex + min (steps : Int) ((e.mUndoBuffer.length : Int) - e.mUndoIndex) ∧
      e1.mUndoBuffer = e.mUndoBuffer := by
  intro steps
  induction steps with
  | zero =>
    intro e e1 h _ h0
    cases h
    refine ⟨?_, rfl⟩
    have : min ((0 : Nat) : Int) ((e.mUndoBuffer.length : Int) - e.mUndoIndex) = 0 := by
      rw [min_eq_left]
      · rfl
      · push_cast; omega
    omega
  | succ steps ih =>
    intro e e1 h hro h0
    rw [Redo.loop] at h
    split_ifs at h with hc
    · obtain ⟨u, _, h⟩ := bind_ok_inv h
      obtain ⟨e2, h2, h⟩ := bind_ok_inv h
      have k := UndoRecord_Redo_keeps h2
      have hpos : e.mUndoIndex < (e.mUndoBuffer.length : Int) := by
        simp only [CanRedo, hro, Bool.not_false, Bool.true_and, decide_eq_true_eq] at hc
        exact hc
      have k1 : e2.mUndoIndex = e.mUndoIndex + 1 := k.1
      have k2 : e2.mUndoBuffer = e.mUndoBuffer := k.2.1
      have k3 : e2.mReadOnly = false := k.2.2.1.trans hro
      obtain ⟨i1, i2⟩ := ih e2 e1 h k3 (by rw [k1, k2]; omega)
      refine ⟨?_, i2.trans k2⟩
      rw [i1, k1, k2]
      push_cast
      omega
    · cases h
      refine ⟨?_, rfl⟩
      have hle : ¬ (e.mUndoIndex < (e.mUndoBuffer.length : Int)) := by
        simpa [CanRedo, hro] using hc
      have : (e.mUndoBuffer.length : Int) - e.mUndoIndex = 0 := by omega
      rw [this]
      simp
      omega

theorem Undo_loop_read_only : ∀ (steps : Nat) (e : Editor), e.mReadOnly = true →
    Undo.loop steps e = Except.ok e ∧ Redo.loop steps e = Except.ok e := by
  intro steps e hro
  cases steps with
  | zero => exact ⟨rfl, rfl⟩
  | succ n =>
    constructor
    · rw [Undo.loop]
      simp [CanUndo, hro, pure, Except.pure]
    · rw [Redo.loop]
      simp [CanRedo, hro, pure, Except.pure]

/-- C33: for an editor that is not read-only, with the undo index inside the
log (`0 ≤ index ≤ logLength`), and a step count `N ≥ 0`: when `Undo(N)` returns
the undo index has decreased by exactly `min(N, index)`, when `Redo(N)` returns
it has increased by exactly `min(N, logLength - index)`, and in both the
records of the log are unchanged. For a read-only editor `CanUndo()` and
`CanRedo()` are false and `Undo(N)` and `Redo(N)` return the editor as it is
(index, log and document unchanged). -/
theorem C33_undo_redo_index (e : Editor) (N : Int) :
    (e.mReadOnly = false → 0 ≤ N → 0 ≤ e.mUndoIndex →
      e.mUndoIndex ≤ (e.mUndoBuffer.length : Int) →
      (∀ e1, Undo e N = Except.ok e1 →
        e1.mUndoIndex = e.mUndoIndex - min N e.mUndoIndex ∧
        e1.mUndoBuffer = e.mUndoBuffer) ∧
      (∀ e1, Redo e N = Except.ok e1 →
        e1.mUndoIndex = e.mUndoIndex + min N ((e.mUndoBuffer.length : Int) - e.mUndoIndex) ∧
        e1.mUndoBuffer = e.mUndoBuffer)) ∧
    (e.mReadOnly = true →
      CanUndo e = false ∧ CanRedo e = false ∧
      Undo e N = Except.ok e ∧ Redo e N = Except.ok e) := by
  constructor
  · intro hro hN h0 h1
    have hcast : ((N.toNat : Nat) : Int) = N := Int.toNat_of_nonneg hN
    constructor
    · intro e1 h
      have := Undo_loop_index N.toNat e e1 h hro h0
      rw [hcast] at this
      exact this
    · intro e1 h
      have := Redo_loop_index N.toNat e e1 h hro h1
      rw [hcast] at this
      exact this
  · intro hro
    refine ⟨by simp [CanUndo, hro], by simp [CanRedo, hro],
      (Undo_loop_read_only _ e hro).1, (Undo_loop_read_only _ e hro).2⟩

/-- C33 (witness): the editor after `'x'` was entered in front of `"ab"`: the
log has one record and the index is 1. `Undo(3)` returns with the index
`1 - min(3, 1) = 0`, the log unchanged and the line `"ab"`; made read-only,
the editor can neither undo nor redo and `Undo(3)` leaves it as it is. -/
theorem C33_undo_redo_index_witness :
    EnterCharacter (mkEditor [[97, 98]] ⟨0, 0⟩) 120 false
      = Except.ok { mkEditor [[120, 97, 98]] ⟨0, 0⟩ with
          mState := ⟨⟨0, 0⟩, ⟨0, 0⟩, ⟨0, 1⟩⟩,
          mUndoBuffer := [{ mAdded := [120], mAddedEnd := ⟨0, 1⟩,
                            mAfter := ⟨⟨0, 0⟩, ⟨0, 0⟩, ⟨0, 1⟩⟩ }],
          mUndoIndex := 1, mColorRangeMax := 1 } ∧
    ∃ e1 : Editor,
      Undo { mkEditor [[120, 97, 98]] ⟨0, 0⟩ with
          mState := ⟨⟨0, 0⟩, ⟨0, 0⟩, ⟨0, 1⟩⟩,
          mUndoBuffer := [{ mAdded := [120], mAddedEnd := ⟨0, 1⟩,
                            mAfter := ⟨⟨0, 0⟩, ⟨0, 0⟩, ⟨0, 1⟩⟩ }],
          mUndoIndex := 1, mColorRangeMax := 1 } 3 = Except.ok e1 ∧
      e1.bytes = [[97, 98]] ∧
      e1.mUndoIndex = 1 - min 3 1 ∧
      e1.mUndoBuffer = [{ mAdded := [120], mAddedEnd := ⟨0, 1⟩,
                          mAfter := ⟨⟨0, 0⟩, ⟨0, 0⟩, ⟨0, 1⟩⟩ }] ∧
      CanUndo (SetReadOnly e1 true) = false ∧
      Undo (SetReadOnly e1 true) 3 = Except.ok (SetReadOnly e1 true) :=
  ⟨by rfl, _, rfl, by rfl,
    (((C33_undo_redo_index
      { mkEditor [[120, 97, 98]] ⟨0, 0⟩ with
          mState := ⟨⟨0, 0⟩, ⟨0, 0⟩, ⟨0, 1⟩⟩,
          mUndoBuffer := [{ mAdded := [120], mAddedEnd := ⟨0, 1⟩,
                            mAfter := ⟨⟨0, 0⟩, ⟨0, 0⟩, ⟨0, 1⟩⟩ }],
          mUndoIndex := 1, mColorRangeMax := 1 } 3).1
        rfl (by decide) (by decide) (by decide)).1 _ rfl).1,
    (((C33_undo_redo_index
      { mkEditor [[120, 97, 98]] ⟨0, 0⟩ with
          mState := ⟨⟨0, 0⟩, ⟨0, 0⟩, ⟨0, 1⟩⟩,
          mUndoBuffer := [{ mAdded := [120], mAddedEnd := ⟨0, 1⟩,
                            mAfter := ⟨⟨0, 0⟩, ⟨0, 0⟩, ⟨0, 1⟩⟩ }],
          mUndoIndex := 1, mColorRangeMax := 1 } 3).1
        rfl (by decide) (by decide) (by decide)).1 _ rfl).2,
    ((C33_undo_redo_index (SetReadOnly _ true) 3).2 rfl).1,
    ((C33_undo_redo_index (SetReadOnly _ true) 3).2 rfl).2.2.1⟩

/-! ## C34: the dirty range after `ColorizeInternal` -/

theorem wholeChars_nil {s : Nat} (h : wholeChars s [] = true) : s = 0 := by
  simpa [wholeChars] using h

theorem scanMax_append (T : Nat) (B : Line) : ∀ (A : Line) (s c : Nat),
    wholeChars s A = true → scanMax T s c (A ++ B) = scanMax T 0 (scanMax T s c A) B := by
  intro A
  induction A with
  | nil =>
    intro s c h
    have := wholeChars_nil h
    subst this
    simp [scanMax]
  | cons g rest ih =>
    intro s c h
    cases s with
    | zero => exact ih _ _ h
    | succ s => exact ih _ _ h

theorem scanOK_append (T : Nat) (B : Line) : ∀ (A : Line) (s : Nat),
    wholeChars s A = true → scanOK T s (A ++ B) = (scanOK T s A && scanOK T 0 B) := by
  intro A
  induction A with
  | nil =>
    intro s h
    have := wholeChars_nil h
    subst this
    simp [scanOK]
  | cons g rest ih =>
    intro s h
    cases s with
    | zero =>
      rw [List.cons_append, scanOK, scanOK, ih _ h, Bool.and_assoc]
    | succ s => exact ih _ h

theorem wholeChars_append (B : Line) : ∀ (A : Line) (s : Nat),
    wholeChars s A = true → wholeChars s (A ++ B) = wholeChars 0 B := by
  intro A
  induction A with
  | nil =>
    intro s h
    have := wholeChars_nil h
    subst this
    rfl
  | cons g rest ih =>
    intro s h
    cases s with
    | zero => exact ih _ h
    | succ s => exact ih _ h

theorem scanColumn_nonpos (T : Nat) (a : Int) (ha : a ≤ 0) (c : Nat) (l : Line) :
    scanColumn T a 0 c l = c := by
  cases l with
  | nil => rfl
  | cons g rest =>
    have : ¬ (0 < a) := by omega
    simp [scanColumn, this]

theorem scanColumn_append (T : Nat) (B : Line) (j : Int) (hj : 0 ≤ j) : ∀ (A : Line) (s c : Nat),
    wholeChars s A = true →
    scanColumn T ((A.length : Int) + j) s c (A ++ B) = scanColumn T j 0 (scanMax T s c A) B := by
  intro A
  induction A with
  | nil =>
    intro s c h
    have := wholeChars_nil h
    subst this
    simp [scanMax]
  | cons g rest ih =>
    intro s c h
    have hpos : (0 : Int) < ((g :: rest).length : Int) + j := by
      simp only [List.length_cons]
      push_cast
      omega
    have hidx : ((g :: rest).length : Int) + j - 1 = (rest.length : Int) + j := by
      simp only [List.length_cons]
      push_cast
      omega
    cases s with
    | zero =>
      simp only [List.cons_append, scanColumn, hpos, if_true, hidx, scanMax]
      exact ih _ _ h
    | succ s =>
      simp only [List.cons_append, scanColumn, hidx, scanMax]
      exact ih _ _ h

/-- The column of the byte index at the end of a prefix of whole characters is
the end column of the prefix. -/
theorem scanColumn_prefix (T : Nat) (A B : Line) (c : Nat) (h : wholeChars 0 A = true) :
    scanColumn T (A.length : Int) 0 c (A ++ B) = scanMax T 0 c A := by
  have := scanColumn_append T B 0 (le_refl _) A 0 c h
  rw [add_zero] at this
  rw [this, scanColumn_nonpos T 0 (le_refl _)]

/-- The byte index found for the end column of a prefix of whole characters is
the length of the prefix: the columns of the characters before it are smaller. -/
theorem scanIndex_boundary {T : Nat} (hT : 0 < T) (B : Line) : ∀ (A : Line) (s c : Nat),
    wholeChars s A = true →
    scanIndex T ((scanMax T s c A : Nat) : Int) s c (A ++ B) = A.length := by
  intro A
  induction A with
  | nil =>
    intro s c h
    have := wholeChars_nil h
    subst this
    cases B with
    | nil => rfl
    | cons g rest => simp [scanIndex, scanMax]
  | cons g rest ih =>
    intro s c h
    cases s with
    | zero =>
      have h1 := colStep_gt hT c g
      have h2 := scanMax_ge hT rest (UTF8CharLength g.mChar - 1) (colStep T c g)
      have hlt : (c : Int) <
          ((scanMax T (UTF8CharLength g.mChar - 1) (colStep T c g) rest : Nat) : Int) := by
        omega
      rw [List.cons_append, scanMax, scanIndex, if_pos hlt, ih _ _ h, List.length_cons]
      omega
    | succ s =>
      rw [List.cons_append, scanMax, scanIndex, ih _ _ h, List.length_cons]
      omega

/-- The bytes before the byte index of a column, when that index lies within
the line: they are whole characters, the index found on them alone is the
same, and a column that the line reaches is reached on them. -/
theorem scanIndex_take (T : Nat) (column : Int) : ∀ (L : Line) (s c : Nat),
    scanIndex T column s c L ≤ L.length →
    wholeChars s (L.take (scanIndex T column s c L)) = true ∧
    scanIndex T column s c (L.take (scanIndex T column s c L)) = scanIndex T column s c L ∧
    (column ≤ (scanMax T s c L : Int) →
      column ≤ (scanMax T s c (L.take (scanIndex T column s c L)) : Int)) := by
  intro L
  induction L with
  | nil =>
    intro s c h
    have hs : s = 0 := by simpa [scanIndex] using h
    subst hs
    simp [scanIndex, wholeChars, scanMax]
  | cons g rest ih =>
    intro s c h
    cases s with
    | zero =>
      by_cases hlt : (c : Int) < column
      · simp only [scanIndex, hlt, if_true, List.length_cons] at h ⊢
        have hk : scanIndex T column (UTF8CharLength g.mChar - 1) (colStep T c g) rest
            ≤ rest.length := by omega
        obtain ⟨i1, i2, i3⟩ := ih _ _ hk
        rw [Nat.add_comm 1, List.take_succ_cons]
        refine ⟨i1, ?_, i3⟩
        simp only [scanIndex, hlt, if_true]
        rw [i2]
        omega
      · simp only [scanIndex, hlt, if_false, List.take_zero, wholeChars, scanMax]
        refine ⟨rfl, trivial, fun _ => ?_⟩
        omega
    | succ s =>
      simp only [scanIndex, List.length_cons] at h ⊢
      have hk : scanIndex T column s c rest ≤ rest.length := by omega
      obtain ⟨i1, i2, i3⟩ := ih _ _ hk
      rw [Nat.add_comm 1, List.take_succ_cons]
      refine ⟨i1, ?_, i3⟩
      simp only [scanIndex]
      rw [i2]
      omega

theorem scanMax_gt {T : Nat} (hT : 0 < T) (G : Line) (hG : G ≠ []) (c : Nat) :
    c < scanMax T 0 c G := by
  cases G with
  | nil => exact absurd rfl hG
  | cons g rest =>
    have h1 := colStep_gt hT c g
    have h2 := scanMax_ge hT rest (UTF8CharLength g.mChar - 1) (colStep T c g)
    simp only [scanMax]
    omega

theorem wholeChars_of_length : ∀ (l : Line) (s : Nat), l.length = s → wholeChars s l = true := by
  intro l
  induction l with
  | nil =>
    intro s h
    simp only [List.length_nil] at h
    subst h
    rfl
  | cons g rest ih =>
    intro s h
    cases s with
    | zero => simp at h
    | succ s =>
      simp only [List.length_cons, Nat.add_right_cancel_iff] at h
      exact ih s h

/-! ## C32: the newline branch of `EnterCharacter` with auto-indentation -/

/-- The auto-indentation loop copies the longest prefix of spaces and tabs. -/
theorem leadingBlanks_eq_takeWhile (L : Line) :
    EnterCharacter.leadingBlanks L = L.takeWhile (fun g => g.mChar == 32 || g.mChar == 9) := by
  induction L with
  | nil => rfl
  | cons g rest ih =>
    by_cases hb : g.mChar = 32 ∨ g.mChar = 9
    · have h1 : (isascii g.mChar = true ∧ isblank g.mChar = true) := by
        rcases hb with hb | hb <;> simp [isascii, isblank, hb]
      have h2 : (g.mChar == 32 || g.mChar == 9) = true := by
        rcases hb with hb | hb <;> simp [hb]
      rw [EnterCharacter.leadingBlanks, if_pos h1, List.takeWhile_cons, h2, ih]
      rfl
    · have h1 : ¬ (isascii g.mChar = true ∧ isblank g.mChar = true) := by
        intro h
        apply hb
        have := h.2
        simpa [isblank] using this
      have h2 : (g.mChar == 32 || g.mChar == 9) = false := by
        simpa using hb
      rw [EnterCharacter.leadingBlanks, if_neg h1, List.takeWhile_cons, h2]
      rfl

/-- The copied indentation is made of whole (one-byte) characters, and the
scans that can be made on the line can be made on it. -/
theorem leadingBlanks_scan (T : Nat) : ∀ (L : Line), scanOK T 0 L = true →
    wholeChars 0 (EnterCharacter.leadingBlanks L) = true ∧
    scanOK T 0 (EnterCharacter.leadingBlanks L) = true := by
  intro L
  induction L with
  | nil => intro _; exact ⟨rfl, rfl⟩
  | cons g rest ih =>
    intro hok
    by_cases h1 : (isascii g.mChar = true ∧ isblank g.mChar = true)
    · have hlen : UTF8CharLength g.mChar = 1 :=
        UTF8CharLength_ascii _ (by simpa [isascii] using h1.1)
      rw [EnterCharacter.leadingBlanks, if_pos h1]
      rw [scanOK, hlen] at hok
      simp only [Nat.sub_self, Bool.and_eq_true] at hok
      obtain ⟨i1, i2⟩ := ih hok.2
      refine ⟨?_, ?_⟩
      · rw [wholeChars, hlen]
        exact i1
      · rw [scanOK, hlen]
        simp only [Nat.sub_self, Bool.and_eq_true]
        exact ⟨hok.1, i2⟩
    · rw [EnterCharacter.leadingBlanks, if_neg h1]
      exact ⟨rfl, rfl⟩

/-- The newline branch of `EnterCharacter` with auto-indentation on a writable
editor whose lines are `P ++ L :: Q`, at a position of line `|P|` whose byte
index `k` lies within `L`: line `|P|` keeps the first `k` bytes, the new line
after it is the copied indentation followed by the rest of `L`, and the cursor
is on the new line at the end column of the indentation. -/
theorem newline_auto_indent (e : Editor) (u : UndoRecord) (P Q : List Line) (L : Line)
    (col : Int) (k : Nat)
    (hro : e.mReadOnly = false) (hundo : 0 ≤ e.mUndoIndex) (hauto : e.mAutoIndentation = true)
    (hlines : e.mLines = P ++ L :: Q) (hok : scanOK e.mTabSize 0 L = true)
    (hk : scanIndex (max e.mTabSize 1) col 0 0 L = k) (hkle : k ≤ L.length) :
    ∃ e1 : Editor, EnterCharacter.newline e u ⟨(P.length : Int), col⟩ 10 = Except.ok e1 ∧
      e1.mLines = P ++ L.take k :: (EnterCharacter.leadingBlanks L ++ L.drop k) :: Q ∧
      e1.mState.mCursorPosition = ⟨(P.length : Int) + 1,
        ((scanMax (max e.mTabSize 1) 0 0 (EnterCharacter.leadingBlanks L) : Nat) : Int)⟩ ∧
      e1.mTabSize = e.mTabSize ∧ e1.mUndoIndex = e.mUndoIndex + 1 := by
  obtain ⟨W, hW⟩ : ∃ W : Line, W = EnterCharacter.leadingBlanks L := ⟨_, rfl⟩
  obtain ⟨hWw, hWok⟩ := leadingBlanks_scan e.mTabSize L hok
  rw [← hW] at hWw hWok ⊢
  have hTpos : 0 < max e.mTabSize 1 := by omega
  -- the prefix and the rest of the line
  have hpre := scanIndex_take (max e.mTabSize 1) col L 0 0 (by rw [hk]; exact hkle)
  rw [hk] at hpre
  obtain ⟨hAw, _, _⟩ := hpre
  have hLsplit : L.take k ++ L.drop k = L := List.take_append_drop k L
  have hokB : scanOK e.mTabSize 0 (L.drop k) = true := by
    have := scanOK_append e.mTabSize (L.drop k) (L.take k) 0 hAw
    rw [hLsplit, hok] at this
    have h2 := this.symm
    simp only [Bool.and_eq_true] at h2
    exact h2.2
  have hokN : scanOK e.mTabSize 0 (W ++ L.drop k) = true := by
    rw [scanOK_append e.mTabSize (L.drop k) W 0 hWw, hWok, hokB]
    rfl
  -- `InsertLine`
  have hlen : e.mLines.length = P.length + 1 + Q.length := by
    rw [hlines]
    simp only [List.length_append, List.length_cons]
    omega
  have hcast : (P.length : Int) + 1 = ((P.length + 1 : Nat) : Int) := by push_cast; rfl
  have htake : e.mLines.take (P.length + 1) = P ++ [L] := by
    rw [hlines]
    exact take_split_succ P L Q
  have hdrop : e.mLines.drop (P.length + 1) = Q := by
    rw [hlines]
    exact drop_split_succ P L Q
  obtain ⟨e2, he2⟩ : ∃ e2 : Editor, e2 = { e with
      mLines := P ++ L :: [] :: Q
      mErrorMarkers := InsertLine.markers ((P.length + 1 : Nat) : Int) e.mErrorMarkers
      mBreakpoints := InsertLine.breakpoints ((P.length + 1 : Nat) : Int) e.mBreakpoints } :=
    ⟨_, rfl⟩
  have hIns : InsertLine e ((P.length : Int) + 1) = Except.ok e2 := by
    rw [hcast, InsertLine_eq e hro (P.length + 1) (by omega), htake, hdrop, he2]
    simp
  have h2lines : e2.mLines = P ++ L :: [] :: Q := by rw [he2]
  have hv1 : vecAt e2.mLines (P.length : Int) = Except.ok L := by
    apply vecAt_natCast
    rw [h2lines]
    exact getElem?_split _ _ _
  have hv2 : vecAt e2.mLines ((P.length : Int) + 1) = Except.ok [] := by
    rw [hcast]
    apply vecAt_natCast
    rw [h2lines]
    exact getElem?_split_succ _ _ _ _
  have h2auto : e2.mAutoIndentation = true := by rw [he2]; exact hauto
  have h2len : e2.mLines.length = P.length + 2 + Q.length := by
    rw [h2lines]
    simp only [List.length_append, List.length_cons]
    omega
  have hs1 : vecSet e2.mLines ((P.length : Int) + 1) ([] ++ W) = Except.ok (P ++ L :: W :: Q) := by
    have hb : (0 : Int) ≤ (P.length : Int) + 1 ∧ (P.length : Int) + 1 < (e2.mLines.length : Int) := by
      omega
    simp only [vecSet, hb, and_self, if_true, pure, Except.pure, List.nil_append]
    rw [hcast, Int.toNat_ofNat, h2lines, set_split_succ]
  obtain ⟨e3, he3⟩ : ∃ e3 : Editor, e3 = { e2 with mLines := P ++ L :: W :: Q } := ⟨_, rfl⟩
  have h3T : e3.mTabSize = e.mTabSize := by rw [he3, he2]
  have h3line : e3.mLines[P.length]? = some L := by
    rw [he3]
    exact getElem?_split _ _ _
  have hidx3 : GetCharacterIndex e3 ⟨(P.length : Int), col⟩ = Except.ok ((k : Nat) : Int) := by
    rw [GetCharacterIndex_eq e3 P.length L h3line (by rw [h3T]; exact hok), h3T, hk]
  have hfrom : vecFrom L (k : Int) = Except.ok (L.drop k) := by
    have hb : (0 : Int) ≤ (k : Int) ∧ (k : Int) ≤ (L.length : Int) := by omega
    simp only [vecFrom, hb, and_self, if_true, pure, Except.pure, Int.toNat_ofNat]
  have hs2 : vecSet (P ++ L :: W :: Q) ((P.length : Int) + 1) ([] ++ W ++ L.drop k)
      = Except.ok (P ++ L :: (W ++ L.drop k) :: Q) := by
    have hb : (0 : Int) ≤ (P.length : Int) + 1 ∧
        (P.length : Int) + 1 < ((P ++ L :: W :: Q).length : Int) := by
      simp only [List.length_append, List.length_cons]
      push_cast
      omega
    simp only [vecSet, hb, and_self, if_true, pure, Except.pure, List.nil_append]
    rw [hcast, Int.toNat_ofNat, set_split_succ]
  have her : vecErase L (k : Int) (L.length : Int) = Except.ok (L.take k) := by
    have hb : (0 : Int) ≤ (k : Int) ∧ (k : Int) ≤ (L.length : Int) ∧
        (L.length : Int) ≤ (L.length : Int) := by omega
    simp only [vecErase, hb, and_self, if_true, pure, Except.pure, Int.toNat_ofNat,
      List.drop_length, List.append_nil]
  have hs3 : vecSet (P ++ L :: (W ++ L.drop k) :: Q) (P.length : Int) (L.take k)
      = Except.ok (P ++ L.take k :: (W ++ L.drop k) :: Q) := by
    have hb : (0 : Int) ≤ (P.length : Int) ∧
        (P.length : Int) < ((P ++ L :: (W ++ L.drop k) :: Q).length : Int) := by
      simp only [List.length_append, List.length_cons]
      push_cast
      omega
    simp only [vecSet, hb, and_self, if_true, pure, Except.pure]
    rw [Int.toNat_ofNat, set_split]
  obtain ⟨e4, he4⟩ : ∃ e4 : Editor,
      e4 = { e2 with mLines := P ++ L.take k :: (W ++ L.drop k) :: Q } := ⟨_, rfl⟩
  have h4T : e4.mTabSize = e.mTabSize := by rw [he4, he2]
  have h4line : e4.mLines[P.length + 1]? = some (W ++ L.drop k) := by
    rw [he4]
    exact getElem?_split_succ _ _ _ _
  have hcol4 : GetCharacterColumn e4 ((P.length : Int) + 1) (([] ++ W : Line).length : Int)
      = Except.ok ((scanMax (max e.mTabSize 1) 0 0 W : Nat) : Int) := by
    rw [hcast, GetCharacterColumn_eq e4 (P.length + 1) _ h4line (by rw [h4T]; exact hokN), h4T,
      List.nil_append, scanColumn_prefix _ W (L.drop k) 0 hWw]
  obtain ⟨e5, he5⟩ : ∃ e5 : Editor, e5 = { e4 with mState := { e4.mState with
      mCursorPosition := ⟨(P.length : Int) + 1,
        ((scanMax (max e.mTabSize 1) 0 0 W : Nat) : Int)⟩ } } := ⟨_, rfl⟩
  have h5T : e5.mTabSize = e.mTabSize := by rw [he5]; exact h4T
  have h5ro : e5.mReadOnly = false := by rw [he5, he4, he2]; exact hro
  have h5idx : 0 ≤ e5.mUndoIndex := by rw [he5, he4, he2]; exact hundo
  have h5line : e5.mLines[P.length + 1]? = some (W ++ L.drop k) := by rw [he5]; exact h4line
  have h5cur : e5.mState.mCursorPosition
      = ⟨((P.length + 1 : Nat) : Int), ((scanMax (max e.mTabSize 1) 0 0 W : Nat) : Int)⟩ := by
    rw [he5, hcast]
  have h5c : ((scanMax (max e.mTabSize 1) 0 0 W : Nat) : Int)
      ≤ ((scanMax (max e5.mTabSize 1) 0 0 (W ++ L.drop k) : Nat) : Int) := by
    rw [h5T, scanMax_append _ (L.drop k) W 0 0 hWw]
    exact_mod_cast scanMax_ge hTpos (L.drop k) 0 _
  have hfin := EnterCharacter_finish_eq e5 { u with mAdded := [10 % 256] } ⟨(P.length : Int), col⟩
    h5ro h5idx (P.length + 1) (W ++ L.drop k) h5line (by rw [h5T]; exact hokN) _ h5cur h5c
  have hN : EnterCharacter.newline e u ⟨(P.length : Int), col⟩ 10
      = EnterCharacter.finish e5 { u with mAdded := [10 % 256] } ⟨(P.length : Int), col⟩ := by
    unfold EnterCharacter.newline
    simp only [hIns, bind, Except.bind, hv1, hv2]
    rw [if_pos h2auto, ← hW]
    simp only [hs1]
    rw [← he3]
    simp only [hidx3, hfrom, hs2, her, hs3]
    rw [← he4]
    simp only [hcol4, SetCursorPosition_eq]
    rw [← he5]
  rw [hfin] at hN
  refine ⟨_, hN, ?_, ?_, ?_, ?_⟩
  · show e5.mLines = _
    rw [he5, he4]
  · show e5.mState.mCursorPosition = _
    rw [he5]
  · exact h5T
  · show e5.mUndoIndex + 1 = _
    rw [he5, he4, he2]

/-- C32 (as amended): with auto-indentation enabled and no selection, on a
writable editor whose lines are `P ++ L :: Q`, with the sanitized cursor on
line `|P|` at a byte index `ci` that lies within `L` (`ci ≤ |L|`, as on every
line that does not end inside a multi-byte sequence): `EnterCharacter('\n')`
returns; line `|P|` becomes `L[0..ci)`, the new line after it is `W` followed
by `L[ci..]`, where `W` is the longest prefix of `L` made of spaces and tabs;
all other lines are unchanged; and the cursor is on the new line at the column
of byte index `|W|`, just after `W`. -/
theorem C32_newline_auto_indent (e : Editor) (P Q : List Line) (L : Line) (col ci : Int)
    (aShift : Bool)
    (hro : e.mReadOnly = false) (hundo : 0 ≤ e.mUndoIndex) (hauto : e.mAutoIndentation = true)
    (hsel : HasSelection e = false)
    (hlines : e.mLines = P ++ L :: Q)
    (hcur : e.mState.mCursorPosition = ⟨(P.length : Int), col⟩)
    (hsan : SanitizeCoordinates e e.mState.mCursorPosition = Except.ok e.mState.mCursorPosition)
    (hidx : GetCharacterIndex e e.mState.mCursorPosition = Except.ok ci)
    (hci : ci ≤ (L.length : Int)) :
    ∃ e1 : Editor, EnterCharacter e 10 aShift = Except.ok e1 ∧
      e1.mLines = P ++ L.take ci.toNat ::
        (L.takeWhile (fun g => g.mChar == 32 || g.mChar == 9) ++ L.drop ci.toNat) :: Q ∧
      e1.mState.mCursorPosition.mLine = (P.length : Int) + 1 ∧
      GetCharacterColumn e1 ((P.length : Int) + 1)
          ((L.takeWhile (fun g => g.mChar == 32 || g.mChar == 9)).length : Int)
        = Except.ok e1.mState.mCursorPosition.mColumn := by
  have hline : e.mLines[P.length]? = some L := by rw [hlines]; exact getElem?_split _ _ _
  have hok : scanOK e.mTabSize 0 L = true := by
    rw [hcur] at hsan
    exact scanOK_of_SanitizeCoordinates e P.length L hline col _ hsan
  rw [hcur, GetCharacterIndex_eq e P.length L hline hok] at hidx
  have hk : ci = ((scanIndex (max e.mTabSize 1) col 0 0 L : Nat) : Int) := by
    cases hidx; rfl
  subst hk
  have hkle : scanIndex (max e.mTabSize 1) col 0 0 L ≤ L.length := by omega
  have hne : e.mLines.isEmpty = false := isEmpty_false_of_getElem? hline
  have hro' : ¬ (e.mReadOnly = true) := by simp [hro]
  have hnosel : ¬ (HasSelection e = true ∧ (10 : Nat) = 9 ∧
      e.mState.mSelectionStart.mLine ≠ e.mState.mSelectionEnd.mLine) := by
    simp [hsel]
  obtain ⟨e1, h1, h1lines, h1cur, h1T, _⟩ :=
    newline_auto_indent e { mAddedStart := ⟨(P.length : Int), col⟩, mBefore := e.mState }
      P Q L col _ hro hundo hauto hlines hok rfl hkle
  have hE : EnterCharacter e 10 aShift = Except.ok e1 := by
    unfold EnterCharacter
    rw [if_neg hro', if_neg hnosel]
    rw [hcur] at hsan
    simp only [EnterCharacter.removeSelection, hsel, Bool.false_eq_true, if_false,
      bind, Except.bind, pure, Except.pure, GetActualCursorCoordinates, hcur, hsan, hne,
      if_true]
    exact h1
  obtain ⟨hWw, hWok⟩ := leadingBlanks_scan e.mTabSize L hok
  -- the rest of the line can be scanned
  have hAw := (scanIndex_take (max e.mTabSize 1) col L 0 0 hkle).1
  have hokB : scanOK e.mTabSize 0 (L.drop (scanIndex (max e.mTabSize 1) col 0 0 L)) = true := by
    have := scanOK_append e.mTabSize (L.drop (scanIndex (max e.mTabSize 1) col 0 0 L))
      (L.take (scanIndex (max e.mTabSize 1) col 0 0 L)) 0 hAw
    rw [List.take_append_drop, hok] at this
    have h2 := this.symm
    simp only [Bool.and_eq_true] at h2
    exact h2.2
  have hokN : scanOK e1.mTabSize 0 (EnterCharacter.leadingBlanks L ++
      L.drop (scanIndex (max e.mTabSize 1) col 0 0 L)) = true := by
    rw [h1T, scanOK_append e.mTabSize _ _ 0 hWw, hWok, hokB]
    rfl
  have hcast : (P.length : Int) + 1 = ((P.length + 1 : Nat) : Int) := by push_cast; rfl
  have h1line : e1.mLines[P.length + 1]? = some (EnterCharacter.leadingBlanks L ++
      L.drop (scanIndex (max e.mTabSize 1) col 0 0 L)) := by
    rw [h1lines]
    exact getElem?_split_succ _ _ _ _
  refine ⟨e1, hE, ?_, ?_, ?_⟩
  · rw [h1lines, leadingBlanks_eq_takeWhile, Int.toNat_ofNat]
  · rw [h1cur]
  · rw [← leadingBlanks_eq_takeWhile, hcast,
      GetCharacterColumn_eq e1 (P.length + 1) _ h1line hokN, h1T,
      scanColumn_prefix _ _ _ 0 hWw, h1cur]

/-- C32 (witness): the line `"  ab"` (auto-indentation on) with the cursor at
(0,3), byte index 3: `EnterCharacter('\n')` leaves the lines `"  a"` and
`"  b"`, with the cursor on line 1 at the column of byte index 2. -/
theorem C32_newline_auto_indent_witness :
    ∃ e1 : Editor, EnterCharacter (mkEditor [[32, 32, 97, 98]] ⟨0, 3⟩) 10 false = Except.ok e1 ∧
      e1.mLines = [] ++ (mkLine [32, 32, 97, 98]).take (3 : Int).toNat ::
        ((mkLine [32, 32, 97, 98]).takeWhile (fun g => g.mChar == 32 || g.mChar == 9)
          ++ (mkLine [32, 32, 97, 98]).drop (3 : Int).toNat) :: [] ∧
      e1.mState.mCursorPosition.mLine = (([] : List Line).length : Int) + 1 ∧
      GetCharacterColumn e1 ((([] : List Line).length : Int) + 1)
          (((mkLine [32, 32, 97, 98]).takeWhile
            (fun g => g.mChar == 32 || g.mChar == 9)).length : Int)
        = Except.ok e1.mState.mCursorPosition.mColumn :=
  C32_newline_auto_indent (mkEditor [[32, 32, 97, 98]] ⟨0, 3⟩) [] []
    (mkLine [32, 32, 97, 98]) 3 3 false rfl (by decide) rfl rfl rfl rfl rfl rfl (by decide)

/-- C32 (counterexample to the claim as stated): the one-line document whose
line is the lone lead byte `0xE2`, with the sanitized cursor (0,1) at the end
of the line: the byte index of the cursor is 3, past the one byte of the line,
and `EnterCharacter('\n')` takes the rest of the line from index 3 of a
one-byte vector instead of splitting the line. -/
theorem C32_newline_counterexample :
    SanitizeCoordinates (mkEditor [[226]] ⟨0, 1⟩) ⟨0, 1⟩ = Except.ok ⟨0, 1⟩ ∧
    HasSelection (mkEditor [[226]] ⟨0, 1⟩) = false ∧
    (mkEditor [[226]] ⟨0, 1⟩).mAutoIndentation = true ∧
    GetCharacterIndex (mkEditor [[226]] ⟨0, 1⟩) ⟨0, 1⟩ = Except.ok 3 ∧
    EnterCharacter (mkEditor [[226]] ⟨0, 1⟩) 10 false = Except.error Fault.outOfRange := by
  refine ⟨by rfl, by rfl, by rfl, by rfl, by rfl⟩

/-! ## C39: `InsertTextAt` followed by `DeleteRange` -/

/-- `DeleteRange` between two sanitized positions `start = (|P|, cs) < end =
(|P| + k, ce)` of a writable editor whose lines are `P ++ S :: R`, `E` being the
line `k` lines below `S`, when the byte indices `s` and `t` of the positions
lie within their lines: it returns with the lines
`P ++ (S[0..s) ++ E[t..]) :: R.drop k`. -/
theorem DeleteRange_between (e : Editor) (hro : e.mReadOnly = false)
    (P R : List Line) (S E : Line) (k : Nat) (cs ce : Int) (s t : Nat)
    (hlines : e.mLines = P ++ S :: R) (hE : (S :: R)[k]? = some E)
    (hlt : Coordinates.lt ⟨(P.length : Int), cs⟩ ⟨((P.length + k : Nat) : Int), ce⟩ = true)
    (hsanS : SanitizeCoordinates e ⟨(P.length : Int), cs⟩ = Except.ok ⟨(P.length : Int), cs⟩)
    (hsanE : SanitizeCoordinates e ⟨((P.length + k : Nat) : Int), ce⟩
      = Except.ok ⟨((P.length + k : Nat) : Int), ce⟩)
    (his : GetCharacterIndex e ⟨(P.length : Int), cs⟩ = Except.ok (s : Int))
    (hie : GetCharacterIndex e ⟨((P.length + k : Nat) : Int), ce⟩ = Except.ok (t : Int))
    (hs : s ≤ S.length) (ht : t ≤ E.length) :
    ∃ e1 : Editor,
      DeleteRange e ⟨(P.length : Int), cs⟩ ⟨((P.length + k : Nat) : Int), ce⟩ = Except.ok e1 ∧
      e1.mLines = P ++ (S.take s ++ E.drop t) :: R.drop k ∧
      e1.mLines.length + k = e.mLines.length := by
  have hS : e.mLines[P.length]? = some S := by rw [hlines]; exact getElem?_split _ _ _
  have hro' : ¬ (e.mReadOnly = true) := by simp [hro]
  have hklt : k < (S :: R).length := getElem?_lt_length hE
  simp only [List.length_cons] at hklt
  have hlen : e.mLines.length = P.length + (R.length + 1) := by
    rw [hlines]
    simp
  have hlenres : (P ++ (S.take s ++ E.drop t) :: R.drop k).length + k = e.mLines.length := by
    rw [hlen]
    simp only [List.length_append, List.length_cons, List.length_drop]
    omega
  cases k with
  | zero =>
    have hES : E = S := by
      simp at hE
      exact hE.symm
    subst hES
    simp only [Nat.add_zero] at hlt hsanE hie ⊢
    have hT : 0 < max e.mTabSize 1 := by omega
    have hok : scanOK e.mTabSize 0 E = true :=
      scanOK_of_SanitizeCoordinates e P.length E hS cs _ hsanS
    have hcc : cs < ce := by
      simpa [Coordinates.lt] using hlt
    rw [GetCharacterIndex_eq e P.length E hS hok] at his hie
    have hs' : scanIndex (max e.mTabSize 1) cs 0 0 E = s := by
      injection his with h
      exact_mod_cast h
    have ht' : scanIndex (max e.mTabSize 1) ce 0 0 E = t := by
      injection hie with h
      exact_mod_cast h
    rw [SanitizeCoordinates_eq e P.length E hS hok] at hsanE
    have hce : ce ≤ ((scanMax (max e.mTabSize 1) 0 0 E : Nat) : Int) := by
      injection hsanE with h
      injection h with _ h2
      omega
    have hmono := scanIndex_mono (max e.mTabSize 1) cs ce (by omega) E 0 0
    rw [hs', ht'] at hmono
    rw [DeleteRange_same_line e hro P.length E hS hok cs ce hcc, hs', ht']
    have hset : e.mLines.set P.length (E.take s ++ E.drop t)
        = P ++ (E.take s ++ E.drop t) :: List.drop 0 R := by
      rw [hlines, set_split]
      rfl
    by_cases hmax : ce ≥ ((scanMax (max e.mTabSize 1) 0 0 E : Nat) : Int)
    · have hceq : ce = ((scanMax (max e.mTabSize 1) 0 0 E : Nat) : Int) := by omega
      have hge := scanIndex_scanMax_ge hT E 0 0
      rw [← hceq, ht'] at hge
      have hb : (0 : Int) ≤ (s : Int) ∧ (s : Int) ≤ (E.length : Int) ∧
          (E.length : Int) ≤ (E.length : Int) := by omega
      have hd : E.drop t = [] := List.drop_eq_nil_iff.mpr hge
      simp only [hmax, if_true, vecErase, hb, and_self, Int.toNat_ofNat, List.drop_length, bind,
        Except.bind, pure, Except.pure]
      refine ⟨_, rfl, ?_, ?_⟩
      · show e.mLines.set P.length (E.take s ++ []) = _
        rw [← hd]
        exact hset
      · show (e.mLines.set P.length (E.take s ++ [])).length + 0 = _
        simp
    · have hb : (0 : Int) ≤ (s : Int) ∧ (s : Int) ≤ (t : Int) ∧
          (t : Int) ≤ (E.length : Int) := by omega
      simp only [hmax, if_false, vecErase, hb, and_self, if_true, Int.toNat_ofNat, bind,
        Except.bind, pure, Except.pure]
      refine ⟨_, rfl, hset, ?_⟩
      show (e.mLines.set P.length (E.take s ++ E.drop t)).length + 0 = _
      simp
  | succ k =>
    have hEk : R[k]? = some E := by
      simpa using hE
    have hEl : e.mLines[P.length + (k + 1)]? = some E := by
      rw [hlines, List.getElem?_append_right (by omega)]
      simpa using hEk
    have hne : ¬ ((P.length : Int) = ((P.length + (k + 1) : Nat) : Int)) := by
      push_cast
      omega
    have hge : Coordinates.ge ⟨((P.length + (k + 1) : Nat) : Int), ce⟩ ⟨(P.length : Int), cs⟩
        = true := by
      have h1 : ((P.length + (k + 1) : Nat) : Int) ≠ (P.length : Int) := by push_cast; omega
      unfold Coordinates.ge
      simp only [ne_eq, h1, not_false_eq_true, if_true, decide_eq_true_eq]
      push_cast
      omega
    have hneq : ¬ ((⟨((P.length + (k + 1) : Nat) : Int), ce⟩ : Coordinates)
        = ⟨(P.length : Int), cs⟩) := by
      intro h
      injection h with h1 _
      exact hne h1.symm
    have hlt2 : (P.length : Int) < ((P.length + (k + 1) : Nat) : Int) := by push_cast; omega
    have hb1 : (0 : Int) ≤ (s : Int) ∧ (s : Int) ≤ (S.length : Int) ∧
        (S.length : Int) ≤ (S.length : Int) := by omega
    have hb2 : (0 : Int) ≤ (0 : Int) ∧ (0 : Int) ≤ (t : Int) ∧ (t : Int) ≤ (E.length : Int) := by
      omega
    have hb3 : (0 : Int) ≤ (P.length : Int) ∧ (P.length : Int) < (e.mLines.length : Int) := by
      omega
    obtain ⟨F, hF⟩ : ∃ F : Line, F = S.take s ++ E.drop t := ⟨_, rfl⟩
    have hset1 : e.mLines.set P.length F = P ++ F :: R := by
      rw [hlines, set_split]
    have hb4 : (0 : Int) ≤ ((P.length + (k + 1) : Nat) : Int) ∧
        ((P.length + (k + 1) : Nat) : Int) < ((P ++ F :: R).length : Int) := by
      simp only [List.length_append, List.length_cons]
      push_cast
      omega
    have hset2 : (P ++ F :: R).set (P.length + (k + 1)) (E.drop t)
        = P ++ F :: R.set k (E.drop t) := by
      rw [List.set_append_right _ _ (by omega)]
      have : P.length + (k + 1) - P.length = k + 1 := by omega
      rw [this]
      rfl
    obtain ⟨em, hem⟩ : ∃ em : Editor, em = { e with mLines := P ++ F :: R.set k (E.drop t) } :=
      ⟨_, rfl⟩
    have hRL := RemoveLine2_eq em (by rw [hem]; exact hro) (P.length + 1) (P.length + (k + 1) + 1)
      (by omega)
      (by rw [hem]; simp only [List.length_append, List.length_cons, List.length_set]; omega)
      (by rw [hem]; simp only [List.length_append, List.length_cons, List.length_set]; omega)
    have hcast1 : (P.length : Int) + 1 = ((P.length + 1 : Nat) : Int) := by push_cast; rfl
    have hcast2 : ((P.length + (k + 1) : Nat) : Int) + 1 = ((P.length + (k + 1) + 1 : Nat) : Int) := by
      push_cast; rfl
    have hres : em.mLines.take (P.length + 1) ++ em.mLines.drop (P.length + (k + 1) + 1)
        = P ++ F :: R.drop (k + 1) := by
      rw [hem]
      show (P ++ F :: R.set k (E.drop t)).take (P.length + 1)
        ++ (P ++ F :: R.set k (E.drop t)).drop (P.length + (k + 1) + 1) = _
      rw [take_split_succ]
      have h1 : (P ++ F :: R.set k (E.drop t)).drop (P.length + (k + 1) + 1)
          = (R.set k (E.drop t)).drop (k + 1) := by
        have : P.length + (k + 1) + 1 = (P.length + 1) + (k + 1) := by omega
        rw [this, ← List.drop_drop, drop_split_succ]
      rw [h1, List.drop_set_of_lt _ _ (by omega)]
      simp
    rw [hres] at hRL
    unfold DeleteRange
    rw [if_neg (not_not.mpr hge), if_neg hro', if_neg hneq]
    simp only [his, hie, bind, Except.bind, hne, if_false, vecAt_natCast _ _ _ hS,
      vecAt_natCast _ _ _ hEl, vecErase, hb1, hb2, and_self, if_true, Int.toNat_ofNat,
      List.drop_length, List.append_nil, Int.toNat_zero, List.take_zero, List.nil_append, pure,
      Except.pure, hlt2, vecSet, hb3]
    rw [← hF, hset1]
    simp only [hb4, and_self, if_true, Int.toNat_ofNat, hset2]
    rw [← hem, hcast1, hcast2, hRL]
    refine ⟨_, rfl, rfl, ?_⟩
    show (P ++ F :: R.drop (k + 1)).length + (k + 1) = _
    rw [hF]
    exact hlenres

theorem textChars_ne_zero : ∀ (t : List Nat) (s : Nat), textChars s t = true →
    ∀ x ∈ t, x ≠ 0 := by
  intro t
  induction t with
  | nil => intro s _ x hx; simp at hx
  | cons b rest ih =>
    intro s h x hx
    cases s with
    | zero =>
      simp only [textChars, Bool.and_eq_true, decide_eq_true_eq] at h
      rcases List.mem_cons.mp hx with hx | hx
      · rw [hx]; exact h.1.1
      · exact ih _ h.2 x hx
    | succ s =>
      simp only [textChars, Bool.and_eq_true, decide_eq_true_eq] at h
      rcases List.mem_cons.mp hx with hx | hx
      · rw [hx]; exact h.1.1.1
      · exact ih _ h.2 x hx

theorem textChars_skip : ∀ (s : Nat) (t : List Nat), textChars s t = true →
    s ≤ t.length ∧ textChars 0 (t.drop s) = true := by
  intro s
  induction s with
  | zero => intro t h; exact ⟨Nat.zero_le _, by simpa using h⟩
  | succ s ih =>
    intro t h
    cases t with
    | nil => simp [textChars] at h
    | cons b rest =>
      simp only [textChars, Bool.and_eq_true, decide_eq_true_eq] at h
      obtain ⟨i1, i2⟩ := ih rest h.2
      exact ⟨by simp only [List.length_cons]; omega, by simpa using i2⟩

theorem wholeChars_map_cons (b : Nat) (tr : List Nat) (h : tr.length = UTF8CharLength b - 1) :
    wholeChars 0 ((b :: tr).map (fun b =>
      ({ mChar := b, mColorIndex := PaletteIndex.Default } : Glyph))) = true := by
  rw [List.map_cons, wholeChars]
  exact wholeChars_of_length _ _ (by rw [List.length_map]; exact h)

/-- The loop of `InsertTextAt` on a text of whole characters, started at the
end of a prefix `A` of whole characters of line `|P|` of a writable document
with a tab size of at least 1. It returns; the lines `Mid` completed by the
line breaks of the text and the line `A1 ++ B` that the position ends on stand
in place of `A ++ B`; the first of them starts with `A`; `A1` is made of whole
characters; and unless the text is empty the position ends at the end column
of `A1`. -/
theorem InsertTextAt_loop_lines : ∀ (fuel : Nat) (t : List Nat) (e : Editor) (P Q : List Line)
    (A B : Line) (col total : Int),
    e.mReadOnly = false → 1 ≤ e.mTabSize → e.mLines = P ++ (A ++ B) :: Q →
    wholeChars 0 A = true → textChars 0 t = true → t.length ≤ fuel →
    ∃ (e1 : Editor) (Mid : List Line) (G A1 : Line) (w : Coordinates) (n : Int),
      InsertTextAt.loop fuel e ⟨(P.length : Int), col⟩ (A.length : Int) total t
        = Except.ok (e1, w, n) ∧
      e1.mLines = P ++ Mid ++ (A1 ++ B) :: Q ∧
      e1.mReadOnly = false ∧ e1.mTabSize = e.mTabSize ∧
      wholeChars 0 A1 = true ∧
      w.mLine = ((P.length + Mid.length : Nat) : Int) ∧
      (t = [] → w = ⟨(P.length : Int), col⟩ ∧ e1 = e ∧ Mid = [] ∧ A1 = A) ∧
      (t ≠ [] → w.mColumn = ((scanMax (max e.mTabSize 1) 0 0 A1 : Nat) : Int)) ∧
      (Mid = [] → A1 = A ++ G ∧ (t ≠ [] → G ≠ [])) ∧
      (Mid ≠ [] → Mid.head? = some (A ++ G)) := by
  intro fuel
  induction fuel with
  | zero =>
    intro t e P Q A B col total hro _ hlines hA _ hf
    have : t = [] := List.eq_nil_of_length_eq_zero (by omega)
    subst this
    refine ⟨e, [], [], A, ⟨(P.length : Int), col⟩, total, rfl, by simpa using hlines, hro, rfl,
      hA, by simp, fun _ => ⟨rfl, rfl, rfl, rfl⟩, fun h => absurd rfl h,
      fun _ => ⟨by simp, fun h => absurd rfl h⟩, fun h => absurd rfl h⟩
  | succ fuel ih =>
    intro t e P Q A B col total hro hT hlines hA ht hf
    cases t with
    | nil =>
      refine ⟨e, [], [], A, ⟨(P.length : Int), col⟩, total, rfl, by simpa using hlines, hro,
        rfl, hA, by simp, fun _ => ⟨rfl, rfl, rfl, rfl⟩, fun h => absurd rfl h,
        fun _ => ⟨by simp, fun h => absurd rfl h⟩, fun h => absurd rfl h⟩
    | cons b rest =>
      have h0 : ∀ x ∈ b :: rest, x ≠ 0 := textChars_ne_zero _ _ ht
      have hb0 : ¬ (b = 0) := h0 b (List.mem_cons_self _ _)
      simp only [textChars, Bool.and_eq_true, decide_eq_true_eq] at ht
      obtain ⟨⟨_, h13⟩, htr⟩ := ht
      have hL : e.mLines[P.length]? = some (A ++ B) := by rw [hlines]; exact getElem?_split _ _ _
      have hne := isEmpty_false_of_getElem? hL
      have hfr : rest.length ≤ fuel := by simp only [List.length_cons] at hf; omega
      have hTpos : 0 < max e.mTabSize 1 := by omega
      rw [InsertTextAt.loop]
      simp only [hb0, if_false, hne, Bool.false_eq_true]
      rw [if_neg h13]
      by_cases h10 : b = 10
      · subst h10
        have htr' : textChars 0 rest = true := htr
        have hcast : (P.length : Int) + 1 = ((P.length + 1 : Nat) : Int) := by push_cast; rfl
        have hIL := InsertLine_eq e hro (P.length + 1) (by
          rw [hlines]; simp only [List.length_append, List.length_cons]; omega)
        have hIlines : e.mLines.take (P.length + 1) ++ [([] : Line)] ++ e.mLines.drop (P.length + 1)
            = P ++ (A ++ B) :: [] :: Q := by
          rw [hlines, take_split_succ, drop_split_succ]
          simp
        rw [hIlines] at hIL
        obtain ⟨e2, he2⟩ : ∃ e2 : Editor, e2 = { e with
            mLines := P ++ A :: B :: Q
            mErrorMarkers := InsertLine.markers ((P.length + 1 : Nat) : Int) e.mErrorMarkers
            mBreakpoints := InsertLine.breakpoints ((P.length + 1 : Nat) : Int) e.mBreakpoints } :=
          ⟨_, rfl⟩
        have he2l : e2.mLines = (P ++ [A]) ++ ([] ++ B) :: Q := by
          rw [he2]; simp
        have hPl : ((P.length + 1 : Nat) : Int) = (((P ++ [A]).length : Nat) : Int) := by simp
        have hstep : (do
            let line ← vecAt e.mLines (P.length : Int)
            let e2 ←
              if (A.length : Int) < (line.length : Int) then do
                let e1 ← InsertLine e ((P.length : Int) + 1)
                let line0 ← vecAt e1.mLines (P.length : Int)
                let tail ← vecFrom line0 (A.length : Int)
                let lines1 ← vecSet e1.mLines ((P.length : Int) + 1) tail
                let line1 ← vecErase line0 (A.length : Int) line0.length
                let lines2 ← vecSet lines1 (P.length : Int) line1
                pure { e1 with mLines := lines2 }
              else InsertLine e ((P.length : Int) + 1)
            InsertTextAt.loop fuel e2 ⟨(P.length : Int) + 1, 0⟩ 0 (total + 1) rest)
            = InsertTextAt.loop fuel e2 ⟨(((P ++ [A]).length : Nat) : Int), 0⟩
                ((([] : Line).length : Nat) : Int) (total + 1) rest := by
          simp only [vecAt_natCast _ _ _ hL, bind, Except.bind, hcast, hIL]
          by_cases hlt : (A.length : Int) < ((A ++ B).length : Int)
          · have hv1 : vecAt (P ++ (A ++ B) :: [] :: Q) (P.length : Int) = Except.ok (A ++ B) :=
              vecAt_natCast _ _ _ (getElem?_split _ _ _)
            have hb1 : (0 : Int) ≤ (A.length : Int) ∧ (A.length : Int) ≤ ((A ++ B).length : Int) := by
              omega
            have hb2 : (0 : Int) ≤ (A.length : Int) ∧ (A.length : Int) ≤ ((A ++ B).length : Int) ∧
                ((A ++ B).length : Int) ≤ ((A ++ B).length : Int) := by omega
            have hs1 : vecSet (P ++ (A ++ B) :: [] :: Q) ((P.length + 1 : Nat) : Int) B
                = Except.ok (P ++ (A ++ B) :: B :: Q) := by
              have : (0 : Int) ≤ ((P.length + 1 : Nat) : Int) ∧
                  ((P.length + 1 : Nat) : Int) < ((P ++ (A ++ B) :: [] :: Q).length : Int) := by
                simp
                omega
              simp only [vecSet, this, and_self, if_true, Int.toNat_ofNat, set_split_succ, pure,
                Except.pure]
            have hs2 : vecSet (P ++ (A ++ B) :: B :: Q) (P.length : Int) A
                = Except.ok (P ++ A :: B :: Q) := by
              have : (0 : Int) ≤ (P.length : Int) ∧
                  (P.length : Int) < ((P ++ (A ++ B) :: B :: Q).length : Int) := by
                simp
                omega
              simp only [vecSet, this, and_self, if_true, Int.toNat_ofNat, set_split, pure,
                Except.pure]
            simp only [hlt, if_true, hv1, vecFrom, hb1, and_self, Int.toNat_ofNat, pure,
              Except.pure, vecErase, hb2, List.drop_left, List.take_left, List.drop_length,
              List.append_nil, hs1, hs2]
            rw [← he2, hPl]
            rfl
          · have hB : B = [] := by
              simp only [List.length_append] at hlt
              exact List.eq_nil_of_length_eq_zero (by push_cast at hlt; omega)
            subst hB
            simp only [hlt, if_false]
            have : e2 = { e with
                mLines := P ++ (A ++ []) :: [] :: Q
                mErrorMarkers := InsertLine.markers ((P.length + 1 : Nat) : Int) e.mErrorMarkers
                mBreakpoints := InsertLine.breakpoints ((P.length + 1 : Nat) : Int)
                  e.mBreakpoints } := by
              rw [he2, List.append_nil]
            rw [← this, hPl]
            rfl
        simp only [if_true]
        rw [hstep]
        obtain ⟨e1, Mid2, G2, A1, w, n, h1, h2, h3, h4, h5, h6, h7, h8, h9, h10⟩ :=
          ih rest e2 (P ++ [A]) Q [] B 0 (total + 1) (by rw [he2]; exact hro)
            (by rw [he2]; exact hT) he2l rfl htr' hfr
        have h2T : e2.mTabSize = e.mTabSize := by rw [he2]
        refine ⟨e1, A :: Mid2, [], A1, w, n, h1, ?_, h3, h4.trans h2T, h5, ?_, ?_, ?_, ?_, ?_⟩
        · rw [h2]
          simp
        · rw [h6]
          simp only [List.length_append, List.length_cons, List.length_nil]
          push_cast
          omega
        · intro h; cases h
        · intro _
          by_cases hr : rest = []
          · obtain ⟨hw, _, _, hA1⟩ := h7 hr
            rw [hw, hA1]
            rfl
          · rw [h8 hr, h2T]
        · intro h; cases h
        · intro _
          simp
      · rw [if_neg h10]
        obtain ⟨d, hd⟩ : ∃ d, d = UTF8CharLength b := ⟨_, rfl⟩
        have hdpos : 1 ≤ d := by rw [hd]; exact UTF8CharLength_pos b
        rw [← hd] at htr
        obtain ⟨hlen, hrest⟩ := textChars_skip (d - 1) rest htr
        have htake : (b :: rest).take d = b :: rest.take (d - 1) := by
          obtain ⟨k, hk⟩ : ∃ k, d = k + 1 := ⟨d - 1, by omega⟩
          rw [hk]
          simp
        have hdrop : (b :: rest).drop d = rest.drop (d - 1) := by
          obtain ⟨k, hk⟩ : ∃ k, d = k + 1 := ⟨d - 1, by omega⟩
          rw [hk]
          simp
        have hB := InsertTextAt_bytes_eq d (A ++ B) A.length (b :: rest)
          (by simp only [List.length_append]; omega) h0
        rw [htake, hdrop, List.take_left, List.drop_left] at hB
        obtain ⟨Gc, hGc⟩ : ∃ Gc : Line, Gc = (b :: rest.take (d - 1)).map (fun b =>
            ({ mChar := b, mColorIndex := PaletteIndex.Default } : Glyph)) := ⟨_, rfl⟩
        rw [← hGc] at hB
        have hGclen : Gc.length = d := by
          rw [hGc, List.length_map, List.length_cons, List.length_take]
          omega
        have hGcw : wholeChars 0 Gc = true := by
          rw [hGc]
          exact wholeChars_map_cons b _ (by rw [List.length_take, ← hd]; omega)
        have hGcne : Gc ≠ [] := by
          intro h
          rw [h] at hGclen
          simp at hGclen
          omega
        have hAGw : wholeChars 0 (A ++ Gc) = true := by
          rw [wholeChars_append Gc A 0 hA]
          exact hGcw
        have hbd : (0 : Int) ≤ (P.length : Int) ∧ (P.length : Int) < (e.mLines.length : Int) := by
          rw [hlines]
          simp only [List.length_append, List.length_cons]
          push_cast
          omega
        have hset : e.mLines.set P.length (A ++ Gc ++ B) = P ++ (A ++ Gc ++ B) :: Q := by
          rw [hlines, set_split]
        obtain ⟨e2, he2⟩ : ∃ e2 : Editor, e2 = { e with mLines := P ++ (A ++ Gc ++ B) :: Q } :=
          ⟨_, rfl⟩
        have h2T : e2.mTabSize = e.mTabSize := by rw [he2]
        have h2line : e2.mLines[P.length]? = some ((A ++ Gc) ++ B) := by
          rw [he2]
          exact getElem?_split _ _ _
        have hidxc : ((A.length + (b :: rest.take (d - 1)).length : Nat) : Int)
            = (((A ++ Gc).length : Nat) : Int) := by
          rw [List.length_append, hGc, List.length_map]
        have hcol2 : GetCharacterColumn e2 (P.length : Int)
            ((A.length + (b :: rest.take (d - 1)).length : Nat) : Int)
            = Except.ok ((scanMax (max e.mTabSize 1) 0 0 (A ++ Gc) : Nat) : Int) := by
          rw [hidxc, GetCharacterColumn_eq e2 P.length _ h2line
            (scanOK_of_pos (by rw [h2T]; omega) _ 0), h2T, scanColumn_prefix _ _ _ 0 hAGw]
        obtain ⟨e1, Mid, G2, A1, w, n, h1, h2, h3, h4, h5, h6, h7, h8, h9, h10'⟩ :=
          ih (rest.drop (d - 1)) e2 P Q (A ++ Gc) B
            ((scanMax (max e.mTabSize 1) 0 0 (A ++ Gc) : Nat) : Int) total
            (by rw [he2]; exact hro) (by rw [he2]; exact hT) (by rw [he2]) hAGw hrest
            (by rw [List.length_drop]; omega)
        refine ⟨e1, Mid, Gc ++ G2, A1, w, n, ?_, h2, h3, h4.trans h2T, h5, h6, ?_, ?_, ?_, ?_⟩
        · simp only [vecAt_natCast _ _ _ hL, bind, Except.bind, ← hd, hB, vecSet, hbd, and_self,
            if_true, Int.toNat_ofNat, hset, pure, Except.pure]
          rw [← he2]
          simp only [hcol2]
          rw [hidxc, h1]
        · intro h; cases h
        · intro _
          by_cases hr : rest.drop (d - 1) = []
          · obtain ⟨hw, _, _, hA1⟩ := h7 hr
            rw [hw, hA1]
          · rw [h8 hr, h2T]
        · intro hM
          obtain ⟨i1, _⟩ := h9 hM
          refine ⟨by rw [i1, List.append_assoc], fun _ => ?_⟩
          intro h
          exact hGcne (List.append_eq_nil.mp h).1
        · intro hM
          rw [h10' hM, List.append_assoc]

/-- On a line of whole characters the byte index of a column lies within the
line. -/
theorem scanIndex_le_of_wholeChars (T : Nat) (column : Int) : ∀ (L : Line) (s c : Nat),
    wholeChars s L = true → scanIndex T column s c L ≤ L.length := by
  intro L
  induction L with
  | nil =>
    intro s c h
    have := wholeChars_nil h
    subst this
    simp [scanIndex]
  | cons g rest ih =>
    intro s c h
    cases s with
    | zero =>
      simp only [scanIndex, List.length_cons]
      split_ifs
      · have := ih _ (colStep T c g) h
        omega
      · omega
    | succ s =>
      simp only [scanIndex, List.length_cons]
      have := ih s c h
      omega

/-- C39: for a writable editor with a tab size of at least 1, a sanitized
position `p` on a line `L` made of whole characters (every well-formed UTF-8
line is), whatever its column (also one inside the width of a tab), and a text
`T` made of whole characters without `'\r'` (every well-formed UTF-8 text
without `'\r'` is): `InsertTextAt(p, T)` returns and advances the position to
some `p'`, and `DeleteRange(p, p')` then returns with exactly the lines from
before the insertion (contents and count). -/
theorem C39_insert_then_delete (e : Editor) (P Q : List Line) (L : Line) (col : Int)
    (t : List Nat)
    (hro : e.mReadOnly = false) (hT : 1 ≤ e.mTabSize)
    (hlines : e.mLines = P ++ L :: Q) (hL : wholeChars 0 L = true)
    (hsan : SanitizeCoordinates e ⟨(P.length : Int), col⟩ = Except.ok ⟨(P.length : Int), col⟩)
    (ht : textChars 0 t = true) :
    ∃ (e1 : Editor) (p1 : Coordinates) (n : Int) (e2 : Editor),
      InsertTextAt e ⟨(P.length : Int), col⟩ t = Except.ok (e1, p1, n) ∧
      DeleteRange e1 ⟨(P.length : Int), col⟩ p1 = Except.ok e2 ∧
      e2.mLines = e.mLines := by
  have hTpos : 0 < max e.mTabSize 1 := by omega
  have hline : e.mLines[P.length]? = some L := by rw [hlines]; exact getElem?_split _ _ _
  have hok : scanOK e.mTabSize 0 L = true := scanOK_of_pos (by omega) _ 0
  obtain ⟨k, hk⟩ : ∃ k, k = scanIndex (max e.mTabSize 1) col 0 0 L := ⟨_, rfl⟩
  have hkle : k ≤ L.length := by
    rw [hk]
    exact scanIndex_le_of_wholeChars _ _ L 0 0 hL
  have hidx : GetCharacterIndex e ⟨(P.length : Int), col⟩ = Except.ok ((k : Nat) : Int) := by
    rw [GetCharacterIndex_eq e P.length L hline hok, hk]
  rw [SanitizeCoordinates_eq e P.length L hline hok] at hsan
  have hM : col ≤ ((scanMax (max e.mTabSize 1) 0 0 L : Nat) : Int) := by
    have : min col ((scanMax (max e.mTabSize 1) 0 0 L : Nat) : Int) = col := by
      injection hsan with h1
      injection h1
    omega
  obtain ⟨hAw, hAidx, hAcol⟩ := scanIndex_take (max e.mTabSize 1) col L 0 0 (by rw [← hk]; exact hkle)
  rw [← hk] at hAw hAidx hAcol
  have hAcol' := hAcol hM
  obtain ⟨A, hA⟩ : ∃ A : Line, A = L.take k := ⟨_, rfl⟩
  obtain ⟨B, hB⟩ : ∃ B : Line, B = L.drop k := ⟨_, rfl⟩
  rw [← hA] at hAw hAidx hAcol'
  have hAB : L = A ++ B := by rw [hA, hB, List.take_append_drop]
  have hAlen : A.length = k := by rw [hA, List.length_take]; omega
  rw [hAB] at hlines
  rw [← hAlen] at hidx hAidx
  have hro' : ¬ (e.mReadOnly = true) := by simp [hro]
  obtain ⟨e1, Mid, G, A1, w, n, h1, h2, h3, h4, h5, h6, h7, h8, h9, h10⟩ :=
    InsertTextAt_loop_lines t.length t e P Q A B col 0 hro hT hlines hAw ht (le_refl _)
  have hI : InsertTextAt e ⟨(P.length : Int), col⟩ t = Except.ok (e1, w, n) := by
    unfold InsertTextAt
    rw [if_neg hro']
    simp only [hidx, bind, Except.bind]
    exact h1
  have h1T : 1 ≤ e1.mTabSize := by rw [h4]; exact hT
  refine ⟨e1, w, n, ?_⟩
  by_cases htn : t = []
  · obtain ⟨hw, he1, _, _⟩ := h7 htn
    refine ⟨e, hI, ?_, rfl⟩
    rw [hw, he1]
    unfold DeleteRange
    have hge : Coordinates.ge ⟨(P.length : Int), col⟩ ⟨(P.length : Int), col⟩ = true := by
      simp [Coordinates.ge]
    simp [hge, hro, pure, Except.pure]
  · have hwcol := h8 htn
    by_cases hM0 : Mid = []
    · obtain ⟨hA1, hGne⟩ := h9 hM0
      have hGne' := hGne htn
      subst hM0
      simp only [List.append_nil, List.length_nil, Nat.add_zero] at h2 h6
      -- one line: `A ++ G ++ B`
      have hce : ((scanMax (max e.mTabSize 1) 0 0 A : Nat) : Int)
          < ((scanMax (max e.mTabSize 1) 0 0 A1 : Nat) : Int) := by
        rw [hA1, scanMax_append _ G A 0 0 hAw]
        exact_mod_cast scanMax_gt hTpos G hGne' _
      have hwp : w = ⟨((P.length + 0 : Nat) : Int),
          ((scanMax (max e.mTabSize 1) 0 0 A1 : Nat) : Int)⟩ := by
        cases w
        simp only [Coordinates.mk.injEq]
        exact ⟨h6, hwcol⟩
      have h1line : e1.mLines[P.length]? = some (A1 ++ B) := by
        rw [h2]
        exact getElem?_split _ _ _
      have h1ok : scanOK e1.mTabSize 0 (A1 ++ B) = true := scanOK_of_pos (by omega) _ 0
      have hmaxge : ((scanMax (max e.mTabSize 1) 0 0 A1 : Nat) : Int)
          ≤ ((scanMax (max e.mTabSize 1) 0 0 (A1 ++ B) : Nat) : Int) := by
        rw [scanMax_append _ B A1 0 0 h5]
        exact_mod_cast scanMax_ge hTpos B 0 _
      obtain ⟨e2, hD, hDl, _⟩ := DeleteRange_between e1 h3 P Q (A1 ++ B) (A1 ++ B) 0 col
        ((scanMax (max e.mTabSize 1) 0 0 A1 : Nat) : Int) A.length A1.length h2
        (List.getElem?_cons_zero)
        (by
          simp only [Coordinates.lt, Nat.add_zero, ne_eq, not_true_eq_false, if_false,
            decide_eq_true_eq]
          omega)
        (by
          rw [SanitizeCoordinates_eq e1 P.length _ h1line h1ok, h4]
          congr 2
          omega)
        (by
          rw [Nat.add_zero, SanitizeCoordinates_eq e1 P.length _ h1line h1ok, h4]
          congr 2
          omega)
        (by
          have h1line' : e1.mLines[P.length]? = some (A ++ (G ++ B)) := by
            rw [h1line, hA1, List.append_assoc]
          exact GetCharacterIndex_eq_of_append e1 P.length A (G ++ B) h1line'
            (scanOK_of_pos (by omega) _ 0) col (by rw [h4]; exact hAidx) (by rw [h4]; exact hAcol'))
        (by
          rw [Nat.add_zero, GetCharacterIndex_eq e1 P.length _ h1line h1ok, h4,
            scanIndex_boundary hTpos B A1 0 0 h5])
        (by rw [hA1]; simp only [List.length_append]; omega)
        (by simp only [List.length_append]; omega)
      refine ⟨e2, hI, ?_, ?_⟩
      · rw [hwp]
        exact hD
      · rw [hDl, hlines, hA1]
        simp
    · obtain ⟨M0, Mid1, hMid⟩ : ∃ M0 Mid1, Mid = M0 :: Mid1 := by
        cases Mid with
        | nil => exact absurd rfl hM0
        | cons a b => exact ⟨a, b, rfl⟩
      have hhead := h10 hM0
      subst hMid
      simp only [List.head?_cons, Option.some.injEq] at hhead
      subst hhead
      have h2' : e1.mLines = P ++ (A ++ G) :: (Mid1 ++ (A1 ++ B) :: Q) := by
        rw [h2]
        simp
      have hwp : w = ⟨((P.length + (Mid1.length + 1) : Nat) : Int),
          ((scanMax (max e.mTabSize 1) 0 0 A1 : Nat) : Int)⟩ := by
        cases w
        simp only [Coordinates.mk.injEq]
        exact ⟨by simpa using h6, hwcol⟩
      have hE : ((A ++ G) :: (Mid1 ++ (A1 ++ B) :: Q))[Mid1.length + 1]? = some (A1 ++ B) := by
        rw [List.getElem?_cons_succ]
        exact getElem?_split _ _ _
      have h1lineS : e1.mLines[P.length]? = some (A ++ G) := by
        rw [h2']
        exact getElem?_split _ _ _
      have h1lineE : e1.mLines[P.length + (Mid1.length + 1)]? = some (A1 ++ B) := by
        rw [h2', List.getElem?_append_right (by omega)]
        have : P.length + (Mid1.length + 1) - P.length = Mid1.length + 1 := by omega
        rw [this]
        exact hE
      have hmaxS : col ≤ ((scanMax (max e.mTabSize 1) 0 0 (A ++ G) : Nat) : Int) := by
        rw [scanMax_append _ G A 0 0 hAw]
        have := scanMax_ge hTpos G 0 (scanMax (max e.mTabSize 1) 0 0 A)
        omega
      have hmaxE : ((scanMax (max e.mTabSize 1) 0 0 A1 : Nat) : Int)
          ≤ ((scanMax (max e.mTabSize 1) 0 0 (A1 ++ B) : Nat) : Int) := by
        rw [scanMax_append _ B A1 0 0 h5]
        exact_mod_cast scanMax_ge hTpos B 0 _
      obtain ⟨e2, hD, hDl, _⟩ := DeleteRange_between e1 h3 P (Mid1 ++ (A1 ++ B) :: Q) (A ++ G)
        (A1 ++ B) (Mid1.length + 1) col
        ((scanMax (max e.mTabSize 1) 0 0 A1 : Nat) : Int) A.length A1.length h2' hE
        (by
          have hne : (P.length : Int) ≠ ((P.length + (Mid1.length + 1) : Nat) : Int) := by
            push_cast
            omega
          simp only [Coordinates.lt, ne_eq, hne, not_false_eq_true, if_true, decide_eq_true_eq]
          push_cast
          omega)
        (by
          rw [SanitizeCoordinates_eq e1 P.length _ h1lineS (scanOK_of_pos (by omega) _ 0), h4]
          congr 2
          omega)
        (by
          rw [SanitizeCoordinates_eq e1 _ _ h1lineE (scanOK_of_pos (by omega) _ 0), h4]
          congr 2
          omega)
        (GetCharacterIndex_eq_of_append e1 P.length A G h1lineS
            (scanOK_of_pos (by omega) _ 0) col (by rw [h4]; exact hAidx) (by rw [h4]; exact hAcol'))
        (by
          rw [GetCharacterIndex_eq e1 _ _ h1lineE (scanOK_of_pos (by omega) _ 0), h4,
            scanIndex_boundary hTpos B A1 0 0 h5])
        (by simp only [List.length_append]; omega)
        (by simp only [List.length_append]; omega)
      refine ⟨e2, hI, ?_, ?_⟩
      · rw [hwp]
        exact hD
      · rw [hDl, hlines]
        simp

/-- C39 (witness): the line `"\tb"` with tab size 4, the position (0,2) inside
the width of the tab, and the text `"x\n€"`: `InsertTextAt` returns with some
position `p'`, and `DeleteRange((0,2), p')` gives the one line `"\tb"` back. -/
theorem C39_insert_then_delete_witness :
    ∃ (e1 : Editor) (p1 : Coordinates) (n : Int) (e2 : Editor),
      InsertTextAt (mkEditor [[9, 98]] ⟨0, 0⟩) ⟨(([] : List Line).length : Int), 2⟩
        [120, 10, 226, 130, 172] = Except.ok (e1, p1, n) ∧
      DeleteRange e1 ⟨(([] : List Line).length : Int), 2⟩ p1 = Except.ok e2 ∧
      e2.mLines = (mkEditor [[9, 98]] ⟨0, 0⟩).mLines :=
  C39_insert_then_delete (mkEditor [[9, 98]] ⟨0, 0⟩) [] [] (mkLine [9, 98]) 2
    [120, 10, 226, 130, 172] rfl (by decide) rfl rfl rfl rfl

/-! ## C35: the block comment flags after the comment sweep -/

theorem equals_iff (as : List Nat) : ∀ (gs : List Glyph),
    equals as gs = true ↔ gs.map (fun g => g.mChar) = as := by
  induction as with
  | nil =>
    intro gs
    cases gs with
    | nil => simp [equals]
    | cons g gs => simp [equals]
  | cons a as ih =>
    intro gs
    cases gs with
    | nil => simp [equals]
    | cons g gs =>
      simp only [equals, List.map_cons, List.cons.injEq]
      by_cases h : a = g.mChar
      · simp only [h, if_true, ih gs, true_and]
      · simp only [h, if_false]
        constructor
        · intro hc; cases hc
        · intro hc; exact absurd hc.1.symm h

/-- The two bytes read at index `i` of a line, as far as the line goes. -/
theorem glyphsAt_two (line : Line) (i : Nat) :
    (ColorizeInternal.glyphsAt line (i : Int) 2).map (fun g => g.mChar)
      = ((line.map (fun g => g.mChar)).drop i).take 2 := by
  simp [ColorizeInternal.glyphsAt, List.map_take, List.map_drop]

theorem drop_take_two (l : List Nat) (i : Nat) (a : Nat) (h : l[i]? = some a) :
    (l.drop i).take 2 = a :: (l[i + 1]?).toList := by
  have hi : i < l.length := getElem?_lt_length h
  rw [List.drop_eq_getElem_cons hi]
  have ha : l[i] = a := by
    rw [List.getElem?_eq_getElem hi] at h
    exact Option.some.inj h
  rw [ha]
  simp only [List.take_succ_cons, List.cons.injEq, true_and]
  by_cases hi1 : i + 1 < l.length
  · rw [List.drop_eq_getElem_cons hi1, List.getElem?_eq_getElem hi1]
    rfl
  · rw [List.drop_eq_nil_iff.mpr (by omega), List.getElem?_eq_none (by omega)]
    rfl

/-- The comment openers leave the scan as it is at a byte other than `/`. -/
theorem opens_of_ne_slash (lang : LanguageDefinition) (cl : Int) (s : ColorizeInternal.Scan)
    (line : Line) (i c : Nat)
    (hs : lang.mSingleLineComment = [47, 47]) (ho : lang.mCommentStart = [47, 42])
    (hc : (line.map (fun g => g.mChar))[i]? = some c) (hne : c ≠ 47) :
    ColorizeInternal.opens lang cl s line (i : Int) = s := by
  have h2 := drop_take_two _ i c hc
  unfold ColorizeInternal.opens
  rw [hs, ho]
  simp only [List.length_cons, List.length_nil, Nat.zero_add, Nat.reduceAdd, equals_iff, glyphsAt_two, h2, List.cons.injEq]
  rw [if_neg (fun h => hne h.2.2.1), if_neg (fun h => hne h.2.2.1)]

/-- The block comment opener: at `/*` outside a single-line comment the start
of the comment is set to the place of the `/`. -/
theorem opens_at_opener (lang : LanguageDefinition) (cl : Int) (s : ColorizeInternal.Scan)
    (line : Line) (i : Nat)
    (hs : lang.mSingleLineComment = [47, 47]) (ho : lang.mCommentStart = [47, 42])
    (h1 : (line.map (fun g => g.mChar))[i]? = some 47)
    (h2 : (line.map (fun g => g.mChar))[i + 1]? = some 42)
    (hsl : s.withinSingleLineComment = false) :
    ColorizeInternal.opens lang cl s line (i : Int)
      = { s with commentStartLine := cl, commentStartIndex := (i : Int) } := by
  have h3 := drop_take_two _ i 47 h1
  rw [h2] at h3
  have hlen : i + 1 < line.length := by
    have := getElem?_lt_length h2
    simpa using this
  unfold ColorizeInternal.opens
  rw [hs, ho]
  simp only [List.length_cons, List.length_nil, Nat.zero_add, Nat.reduceAdd, equals_iff, glyphsAt_two, h3, Option.toList]
  rw [if_neg (by intro h; have := h.2.2; simp at this), if_pos]
  refine ⟨by simp [hsl], by push_cast; omega, trivial⟩

/-- At a `/` that is followed neither by `/` nor by `*` no comment opens. -/
theorem opens_of_next (lang : LanguageDefinition) (cl : Int) (s : ColorizeInternal.Scan)
    (line : Line) (i : Nat)
    (hs : lang.mSingleLineComment = [47, 47]) (ho : lang.mCommentStart = [47, 42])
    (h1 : (line.map (fun g => g.mChar))[i]? = some 47)
    (h2 : (line.map (fun g => g.mChar))[i + 1]? ≠ some 47)
    (h3 : (line.map (fun g => g.mChar))[i + 1]? ≠ some 42) :
    ColorizeInternal.opens lang cl s line (i : Int) = s := by
  have h4 := drop_take_two _ i 47 h1
  unfold ColorizeInternal.opens
  rw [hs, ho]
  simp only [List.length_cons, List.length_nil, Nat.zero_add, Nat.reduceAdd, equals_iff, glyphsAt_two, h4, List.cons.injEq]
  have k1 : ¬ ((line.map (fun g => g.mChar))[i + 1]?).toList = [47] := by
    intro h
    cases hx : (line.map (fun g => g.mChar))[i + 1]? with
    | none => rw [hx] at h; cases h
    | some x =>
      rw [hx] at h
      simp only [Option.toList, List.cons.injEq, and_true] at h
      exact h2 (by rw [hx, h])
  have k2 : ¬ ((line.map (fun g => g.mChar))[i + 1]?).toList = [42] := by
    intro h
    cases hx : (line.map (fun g => g.mChar))[i + 1]? with
    | none => rw [hx] at h; cases h
    | some x =>
      rw [hx] at h
      simp only [Option.toList, List.cons.injEq, and_true] at h
      exact h3 (by rw [hx, h])
  rw [if_neg (fun h => k1 h.2.2.2), if_neg (fun h => k2 h.2.2.2)]

/-- The block comment end leaves the scan as it is at a byte other than `/`. -/
theorem closes_of_ne_slash (lang : LanguageDefinition) (endLine : Int)
    (s : ColorizeInternal.Scan) (line : Line) (i c : Nat)
    (he : lang.mCommentEnd = [42, 47])
    (hc : (line.map (fun g => g.mChar))[i]? = some c) (hne : c ≠ 47) :
    ColorizeInternal.closes lang endLine s line (i : Int) = s := by
  unfold ColorizeInternal.closes
  rw [he]
  rw [if_neg]
  rintro ⟨hge, heq⟩
  simp only [List.length_cons, List.length_nil, Nat.zero_add, Nat.reduceAdd] at hge heq
  have hi : 1 ≤ i := by push_cast at hge; omega
  obtain ⟨k, rfl⟩ : ∃ k, i = k + 1 := ⟨i - 1, by omega⟩
  have hcast : ((k + 1 : Nat) : Int) + 1 - ((2 : Nat) : Int) = (k : Int) := by
    push_cast; omega
  rw [hcast, equals_iff, glyphsAt_two] at heq
  have hk : k < (line.map (fun g => g.mChar)).length := by
    have := getElem?_lt_length hc
    omega
  rw [drop_take_two _ k _ (List.getElem?_eq_getElem hk), hc] at heq
  simp only [Option.toList, List.cons.injEq, and_true] at heq
  exact hne heq.2

/-- The block comment end leaves the scan as it is when the byte before is not
`*`, and at the first byte of a line. -/
theorem closes_of_prev (lang : LanguageDefinition) (endLine : Int)
    (s : ColorizeInternal.Scan) (line : Line) (i : Nat)
    (he : lang.mCommentEnd = [42, 47])
    (hp : ∀ k, i = k + 1 → (line.map (fun g => g.mChar))[k]? ≠ some 42) :
    ColorizeInternal.closes lang endLine s line (i : Int) = s := by
  unfold ColorizeInternal.closes
  rw [he]
  rw [if_neg]
  rintro ⟨hge, heq⟩
  simp only [List.length_cons, List.length_nil, Nat.zero_add, Nat.reduceAdd] at hge heq
  have hi : 1 ≤ i := by push_cast at hge; omega
  obtain ⟨k, rfl⟩ : ∃ k, i = k + 1 := ⟨i - 1, by omega⟩
  have hcast : ((k + 1 : Nat) : Int) + 1 - ((2 : Nat) : Int) = (k : Int) := by
    push_cast; omega
  rw [hcast, equals_iff, glyphsAt_two] at heq
  by_cases hk : k < (line.map (fun g => g.mChar)).length
  · rw [drop_take_two _ k _ (List.getElem?_eq_getElem hk)] at heq
    simp only [List.cons.injEq] at heq
    exact hp k rfl (by rw [List.getElem?_eq_getElem hk, heq.1])
  · rw [List.drop_eq_nil_iff.mpr (by omega)] at heq
    cases heq

/-- The block comment end: at the `/` of `*/` the start of the comment is put
back to the end of the document. -/
theorem closes_at_closer (lang : LanguageDefinition) (endLine : Int)
    (s : ColorizeInternal.Scan) (line : Line) (k : Nat)
    (he : lang.mCommentEnd = [42, 47])
    (h1 : (line.map (fun g => g.mChar))[k]? = some 42)
    (h2 : (line.map (fun g => g.mChar))[k + 1]? = some 47) :
    ColorizeInternal.closes lang endLine s line ((k + 1 : Nat) : Int)
      = { s with commentStartIndex := 0, commentStartLine := endLine } := by
  unfold ColorizeInternal.closes
  rw [he]
  rw [if_pos]
  simp only [List.length_cons, List.length_nil, Nat.zero_add, Nat.reduceAdd]
  have hcast : ((k + 1 : Nat) : Int) + 1 - ((2 : Nat) : Int) = (k : Int) := by
    push_cast; omega
  rw [hcast, equals_iff, glyphsAt_two, drop_take_two _ k _ h1, h2]
  refine ⟨by push_cast; omega, rfl⟩

theorem note_fields (lang : LanguageDefinition) (s : ColorizeInternal.Scan) (line : Line)
    (c : Nat) (i : Int) :
    (ColorizeInternal.note lang s line c i).commentStartLine = s.commentStartLine ∧
    (ColorizeInternal.note lang s line c i).commentStartIndex = s.commentStartIndex ∧
    (ColorizeInternal.note lang s line c i).withinString = s.withinString ∧
    (ColorizeInternal.note lang s line c i).withinSingleLineComment
      = s.withinSingleLineComment := by
  unfold ColorizeInternal.note
  split_ifs <;> exact ⟨rfl, rfl, rfl, rfl⟩

theorem enter_fields (s : ColorizeInternal.Scan) (i : Int)
    (hsl : s.withinSingleLineComment = false) :
    (ColorizeInternal.enter s i).commentStartLine = s.commentStartLine ∧
    (ColorizeInternal.enter s i).commentStartIndex = s.commentStartIndex ∧
    (ColorizeInternal.enter s i).withinString = s.withinString ∧
    (ColorizeInternal.enter s i).withinSingleLineComment = false := by
  unfold ColorizeInternal.enter
  split_ifs
  · exact ⟨rfl, rfl, rfl, rfl⟩
  · exact ⟨rfl, rfl, rfl, hsl⟩

/-- A round of the sweep outside a string at an ASCII byte other than the
double quote: the scan state passes through the comment openers and the block
comment end, the glyph gets the block comment flag of the state between the
two, and the index moves on by one. -/
theorem visit_outside (lang : LanguageDefinition) (endLine cl : Int)
    (s : ColorizeInternal.Scan) (line : Line) (i : Nat) (g : Glyph)
    (hg : (line)[i]? = some g) (hq : g.mChar ≠ 34) (hasc : g.mChar < 128)
    (hs : s.withinString = false) :
    ∃ s0 line1 line2,
      ColorizeInternal.visit lang endLine cl s line (i : Int)
        = Except.ok (ColorizeInternal.closes lang endLine
            (ColorizeInternal.opens lang cl s0 line (i : Int)) line1 (i : Int),
            line2, (i : Int) + 1) ∧
      s0.commentStartLine = s.commentStartLine ∧
      s0.commentStartIndex = s.commentStartIndex ∧
      s0.withinString = false ∧
      s0.withinSingleLineComment = s.withinSingleLineComment ∧
      line1.map (fun g => g.mChar) = line.map (fun g => g.mChar) ∧
      line2.map (fun g => (g.mChar, g.mMultiLineComment))
        = (line.map (fun g => (g.mChar, g.mMultiLineComment))).set i
            (g.mChar, ColorizeInternal.inComment
              (ColorizeInternal.opens lang cl s0 line (i : Int)) cl (i : Int)) := by
  have hi : i < line.length := getElem?_lt_length hg
  obtain ⟨n1, n2, n3, n4⟩ := note_fields lang s line g.mChar (i : Int)
  obtain ⟨sn, hsn⟩ : ∃ sn, sn = ColorizeInternal.note lang s line g.mChar (i : Int) := ⟨_, rfl⟩
  rw [← hsn] at n1 n2 n3 n4
  obtain ⟨s0, hs0⟩ : ∃ s0 : ColorizeInternal.Scan, s0 = { sn with
      withinPreproc := if sn.firstChar ∧ g.mChar = lang.mPreprocChar then true
        else sn.withinPreproc } := ⟨_, rfl⟩
  obtain ⟨s1, hs1⟩ : ∃ s1, s1 = ColorizeInternal.opens lang cl s0 line (i : Int) := ⟨_, rfl⟩
  obtain ⟨g1, hg1⟩ : ∃ g1 : Glyph, g1 = { g with
      mMultiLineComment := ColorizeInternal.inComment s1 cl (i : Int),
      mComment := s1.withinSingleLineComment } := ⟨_, rfl⟩
  obtain ⟨s2, hs2⟩ : ∃ s2, s2 = ColorizeInternal.closes lang endLine s1 (line.set i g1) (i : Int) :=
    ⟨_, rfl⟩
  refine ⟨s0, line.set i g1, (line.set i g1).set i { g1 with mPreprocessor := s2.withinPreproc },
    ?_, ?_, ?_, ?_, ?_, ?_, ?_⟩
  · have hsn34 : sn.withinString = false := by rw [n3, hs]
    have hset : (line.set i g1)[i]? = some g1 := by
      rw [List.getElem?_set_self hi]
    have hb1 : (0 : Int) ≤ (i : Int) ∧ (i : Int) < (line.length : Int) :=
      ⟨by omega, by omega⟩
    have hb2 : (0 : Int) ≤ (i : Int) ∧ (i : Int) < ((line.set i g1).length : Int) := by
      rw [List.length_set]; exact hb1
    unfold ColorizeInternal.visit
    rw [vecAt_natCast _ _ _ hg]
    simp only [bind, Except.bind, pure, Except.pure]
    rw [← hsn]
    unfold ColorizeInternal.mark
    rw [if_neg (by rw [hsn34]; simp), if_neg hq]
    rw [← hs0]
    unfold ColorizeInternal.outside
    simp only [bind, Except.bind, pure, Except.pure]
    rw [← hs1]
    unfold ColorizeInternal.setComments
    rw [vecAt_natCast _ _ _ hg]
    simp only [bind, Except.bind, pure, Except.pure]
    unfold vecSet
    rw [if_pos hb1]
    simp only [bind, Except.bind, pure, Except.pure, Int.toNat_ofNat]
    rw [← hg1, ← hs2]
    unfold ColorizeInternal.setPreprocessor
    rw [vecAt_natCast _ _ _ hset]
    simp only [bind, Except.bind, pure, Except.pure]
    unfold vecSet
    rw [if_pos hb2]
    simp only [pure, Except.pure, Int.toNat_ofNat, UTF8CharLength_ascii _ hasc, Nat.cast_one]
  · rw [hs0]; exact n1
  · rw [hs0]; exact n2
  · rw [hs0]; show sn.withinString = false; rw [n3, hs]
  · rw [hs0]; exact n4
  · rw [List.map_set, hg1]
    apply List.ext_getElem?
    intro k
    by_cases hk : k = i
    · subst hk
      rw [List.getElem?_set_self (by simpa using hi), List.getElem?_map, hg]
      rfl
    · rw [List.getElem?_set_ne (fun h => hk h.symm)]
  · rw [List.set_set, List.map_set, ← hs1, hg1]

theorem charAt_eq (lines : List Line) (l i : Nat) (ln : Line) (h : lines[l]? = some ln) :
    charAt lines l i = (ln.map (fun g => g.mChar))[i]? := by
  unfold charAt
  rw [h, List.getElem?_map]
  rfl

/-- The parts of `blockCommentAt`. -/
theorem blockCommentAt_parts (lines : List Line) (lo io lc jc : Nat)
    (h : blockCommentAt lines lo io lc jc = true) :
    charAt lines lo io = some 47 ∧ charAt lines lo (io + 1) = some 42 ∧
    charAt lines lc jc = some 42 ∧ charAt lines lc (jc + 1) = some 47 ∧
    (lo < lc ∨ (lo = lc ∧ io + 2 ≤ jc)) ∧
    ∀ l i c, charAt lines l i = some c → markerAt lo io lc jc l i = false →
      plainByte c = true := by
  unfold blockCommentAt at h
  simp only [Bool.and_eq_true, beq_iff_eq, decide_eq_true_eq, List.all_eq_true] at h
  obtain ⟨⟨⟨⟨⟨h1, h2⟩, h3⟩, h4⟩, h5⟩, h6⟩ := h
  refine ⟨h1, h2, h3, h4, h5, ?_⟩
  intro l i c hc hm
  unfold charAt at hc
  cases hl : lines[l]? with
  | none => rw [hl] at hc; cases hc
  | some ln =>
    rw [hl] at hc
    simp only [Option.some_bind, Option.map_eq_some'] at hc
    obtain ⟨g, hg, hgc⟩ := hc
    have k1 := h6 (l, ln) (List.mk_mem_enum_iff_getElem?.mpr hl)
    have k2 := k1 (i, g) (List.mk_mem_enum_iff_getElem?.mpr hg)
    simp only [hm, Bool.false_or] at k2
    rw [← hgc]
    exact k2

theorem plainByte_ne (c : Nat) (h : plainByte c = true) :
    c < 128 ∧ c ≠ 34 ∧ c ≠ 47 ∧ c ≠ 42 := by
  unfold plainByte at h
  simp only [Bool.and_eq_true, decide_eq_true_eq, bne_iff_ne, ne_eq] at h
  exact ⟨h.1.1.1.1, h.1.1.1.2, h.1.2, h.2⟩

/-- One round of the sweep on a document with one block comment: from the
scan state of its place the round gives the glyph the flag of the place and
leaves the scan state of the next place. -/
theorem visit_block_comment (lang : LanguageDefinition) (lines : List Line)
    (lo io lc jc : Nat)
    (hs : lang.mSingleLineComment = [47, 47]) (ho : lang.mCommentStart = [47, 42])
    (he : lang.mCommentEnd = [42, 47])
    (hdoc : blockCommentAt lines lo io lc jc = true)
    (l i : Nat) (orig line : Line) (g : Glyph)
    (horig : lines[l]? = some orig)
    (hch : line.map (fun g => g.mChar) = orig.map (fun g => g.mChar))
    (hg : (line)[i]? = some g) (s : ColorizeInternal.Scan)
    (hinv : s.scanAt (lines.length : Int) lo io lc jc l i) :
    ∃ s1 line1,
      ColorizeInternal.visit lang (lines.length : Int) (l : Int)
        (ColorizeInternal.enter s (i : Int)) line (i : Int)
        = Except.ok (s1, line1, (i : Int) + 1) ∧
      s1.scanAt (lines.length : Int) lo io lc jc l (i + 1) ∧
      line1.map (fun g => (g.mChar, g.mMultiLineComment))
        = (line.map (fun g => (g.mChar, g.mMultiLineComment))).set i
            (g.mChar, insideComment lo io lc jc l i) := by
  obtain ⟨p1, p2, p3, p4, p5, p6⟩ := blockCommentAt_parts lines lo io lc jc hdoc
  have hl : l < lines.length := getElem?_lt_length horig
  have hat : ∀ k, charAt lines l k = (line.map (fun g => g.mChar))[k]? := by
    intro k
    rw [charAt_eq lines l k orig horig, hch]
  have hc : (line.map (fun g => g.mChar))[i]? = some g.mChar := by
    rw [List.getElem?_map, hg]; rfl
  obtain ⟨hi1, hi2, hi3⟩ := hinv
  obtain ⟨e1, e2, e3, e4⟩ := enter_fields s (i : Int) hi2
  rw [hi1] at e3
  -- the byte under the index
  have hmark : ∀ k c, charAt lines l k = some c → markerAt lo io lc jc l k = false →
      c < 128 ∧ c ≠ 34 ∧ c ≠ 47 ∧ c ≠ 42 :=
    fun k c h1 h2 => plainByte_ne c (p6 l k c h1 h2)
  have hslash : g.mChar = 47 → (l = lo ∧ i = io) ∨ (l = lc ∧ i = jc + 1) := by
    intro h47
    by_cases hm : markerAt lo io lc jc l i = true
    · unfold markerAt at hm
      simp only [Bool.or_eq_true, Bool.and_eq_true, beq_iff_eq] at hm
      rcases hm with ⟨hL, hI | hI⟩ | ⟨hL, hI | hI⟩
      · exact Or.inl ⟨hL, hI⟩
      · rw [← hL, ← hI, hat, hc, h47] at p2; cases p2
      · rw [← hL, ← hI, hat, hc, h47] at p3; cases p3
      · exact Or.inr ⟨hL, hI⟩
    · exact absurd h47 (hmark i _ (by rw [hat, hc]) (by simpa using hm)).2.2.1
  have hbyte : g.mChar < 128 ∧ g.mChar ≠ 34 := by
    by_cases hm : markerAt lo io lc jc l i = true
    · unfold markerAt at hm
      simp only [Bool.or_eq_true, Bool.and_eq_true, beq_iff_eq] at hm
      rcases hm with ⟨hL, hI | hI⟩ | ⟨hL, hI | hI⟩
      · rw [← hL, ← hI, hat, hc] at p1; rw [Option.some.inj p1]; decide
      · rw [← hL, ← hI, hat, hc] at p2; rw [Option.some.inj p2]; decide
      · rw [← hL, ← hI, hat, hc] at p3; rw [Option.some.inj p3]; decide
      · rw [← hL, ← hI, hat, hc] at p4; rw [Option.some.inj p4]; decide
    · have := hmark i _ (by rw [hat, hc]) (by simpa using hm)
      exact ⟨this.1, this.2.1⟩
  obtain ⟨s0, line1, line2, hv, f1, f2, f3, f4, hch1, hflag⟩ :=
    visit_outside lang (lines.length : Int) (l : Int) (ColorizeInternal.enter s (i : Int))
      line i g hg hbyte.2 hbyte.1 e3
  rw [e1] at f1
  rw [e2] at f2
  rw [e4] at f4
  have hat1 : ∀ k, (line1.map (fun g => g.mChar))[k]? = charAt lines l k := by
    intro k
    rw [hch1, hat]
  have hlI : (l : Int) < (lines.length : Int) := by omega
  -- the scan state between the comment openers and the block comment end, and after
  have key : ∃ s1 s2, ColorizeInternal.opens lang (l : Int) s0 line (i : Int) = s1 ∧
      ColorizeInternal.closes lang (lines.length : Int) s1 line1 (i : Int) = s2 ∧
      ColorizeInternal.inComment s1 (l : Int) (i : Int) = insideComment lo io lc jc l i ∧
      s2.scanAt (lines.length : Int) lo io lc jc l (i + 1) := by
    by_cases h47 : g.mChar = 47
    · rcases hslash h47 with ⟨hL, hI⟩ | ⟨hL, hI⟩
      · -- the `/` of `/*`
        have c1 : (line.map (fun g => g.mChar))[i]? = some 47 := by rw [hc, h47]
        have c2 : (line.map (fun g => g.mChar))[i + 1]? = some 42 := by
          rw [← hat, hL, hI]; exact p2
        have c3 : ∀ k, i = k + 1 → (line1.map (fun g => g.mChar))[k]? ≠ some 42 := by
          intro k hk hx
          rw [hat1] at hx
          have := hmark k 42 hx (by
            unfold markerAt
            simp only [Bool.or_eq_false_iff, Bool.and_eq_false_iff, beq_eq_false_iff_ne, ne_eq]
            omega)
          exact this.2.2.2 rfl
        refine ⟨_, _, opens_at_opener lang _ s0 line i hs ho c1 c2 f4,
          closes_of_prev lang _ _ line1 i he c3, ?_, ?_⟩
        · unfold ColorizeInternal.inComment insideComment
          rw [decide_eq_decide]
          show ((l : Int) < (l : Int) ∨ ((l : Int) = (l : Int) ∧ (i : Int) ≤ (i : Int))) ↔ _
          omega
        · refine ⟨f3, f4, ?_⟩
          rw [if_pos (by omega)]
          exact ⟨by show (l : Int) = (lo : Int); omega, by show (i : Int) = (io : Int); omega⟩
      · -- the `/` of `*/`
        have c1 : (line.map (fun g => g.mChar))[i]? = some 47 := by rw [hc, h47]
        have c23 : ∀ c, (line.map (fun g => g.mChar))[i + 1]? = some c → c ≠ 47 ∧ c ≠ 42 := by
          intro c hx
          rw [← hat] at hx
          have := hmark (i + 1) c hx (by
            unfold markerAt
            simp only [Bool.or_eq_false_iff, Bool.and_eq_false_iff, beq_eq_false_iff_ne, ne_eq]
            omega)
          exact ⟨this.2.2.1, this.2.2.2⟩
        have c4 : (line1.map (fun g => g.mChar))[jc]? = some 42 := by
          rw [hat1, hL]; exact p3
        have c5 : (line1.map (fun g => g.mChar))[jc + 1]? = some 47 := by
          rw [hat1, hL]; exact p4
        have hcl := closes_at_closer lang (lines.length : Int) s0 line1 jc he c4 c5
        rw [← hI] at hcl
        refine ⟨s0, _, opens_of_next lang _ s0 line i hs ho c1
          (fun hx => (c23 _ hx).1 rfl) (fun hx => (c23 _ hx).2 rfl), hcl, ?_, ?_⟩
        · unfold ColorizeInternal.inComment insideComment
          rw [decide_eq_decide, f1, f2]
          rw [if_pos (by omega)] at hi3
          rw [hi3.1, hi3.2]; omega
        · refine ⟨f3, f4, ?_⟩
          rw [if_neg (by omega)]
          exact ⟨rfl, rfl⟩
    · -- a byte other than `/`
      have hm0 : ¬ (l = lo ∧ i = io) ∧ ¬ (l = lc ∧ i = jc + 1) := by
        constructor
        · rintro ⟨hL, hI⟩
          rw [← hL, ← hI, hat, hc] at p1
          exact h47 (Option.some.inj p1)
        · rintro ⟨hL, hI⟩
          rw [← hL, ← hI, hat, hc] at p4
          exact h47 (Option.some.inj p4)
      refine ⟨s0, s0, opens_of_ne_slash lang _ s0 line i _ hs ho hc h47,
        closes_of_ne_slash lang _ s0 line1 i _ he (by rw [hat1, hat, hc]) h47, ?_, ?_⟩
      · unfold ColorizeInternal.inComment insideComment
        rw [decide_eq_decide, f1, f2]
        split_ifs at hi3 with h0
        · rw [hi3.1, hi3.2]; omega
        · rw [hi3.1, hi3.2]; omega
      · refine ⟨f3, f4, ?_⟩
        rw [f1, f2]
        split_ifs at hi3 with h0
        · rw [if_pos (by omega)]; exact hi3
        · rw [if_neg (by omega)]; exact hi3
  obtain ⟨s1, s2, k1, k2, k3, k4⟩ := key
  rw [k1] at hv hflag
  rw [k2] at hv
  rw [k3] at hflag
  exact ⟨s2, line2, hv, k4, hflag⟩

theorem flags_chars (line line1 : Line) (i : Nat) (g : Glyph) (b : Bool)
    (hg : (line)[i]? = some g)
    (h : line1.map (fun g => (g.mChar, g.mMultiLineComment))
      = (line.map (fun g => (g.mChar, g.mMultiLineComment))).set i (g.mChar, b)) :
    line1.map (fun g => g.mChar) = line.map (fun g => g.mChar) := by
  have h1 := congrArg (List.map Prod.fst) h
  rw [List.map_map, List.map_set, List.map_map] at h1
  have h2 : (Prod.fst ∘ fun g : Glyph => (g.mChar, g.mMultiLineComment)) = fun g => g.mChar := rfl
  rw [h2] at h1
  rw [h1]
  apply List.ext_getElem?
  intro k
  by_cases hk : k = i
  · subst hk
    rw [List.getElem?_set_self (by simpa using getElem?_lt_length hg), List.getElem?_map, hg]
    rfl
  · rw [List.getElem?_set_ne (fun h => hk h.symm)]

/-- The rounds of the sweep on one line of a document with one block comment,
from index `i` on: the glyphs from `i` on get the flags of their places, those
before keep theirs, and the scan ends in the state of the end of the line. -/
theorem scanLine_block_comment (lang : LanguageDefinition) (lines : List Line)
    (lo io lc jc : Nat)
    (hs : lang.mSingleLineComment = [47, 47]) (ho : lang.mCommentStart = [47, 42])
    (he : lang.mCommentEnd = [42, 47])
    (hdoc : blockCommentAt lines lo io lc jc = true)
    (l : Nat) (orig : Line) (horig : lines[l]? = some orig) :
    ∀ (fuel i : Nat) (s : ColorizeInternal.Scan) (line : Line),
      i < line.length → line.length ≤ fuel + i →
      line.map (fun g => g.mChar) = orig.map (fun g => g.mChar) →
      s.scanAt (lines.length : Int) lo io lc jc l i →
      ∃ s1 line1,
        ColorizeInternal.scanLine lang (lines.length : Int) (l : Int) fuel s line (i : Int)
          = Except.ok (s1, line1) ∧
        s1.scanAt (lines.length : Int) lo io lc jc l line.length ∧
        ∀ j, (line1.map (fun g => (g.mChar, g.mMultiLineComment)))[j]?
          = if j < i then (line.map (fun g => (g.mChar, g.mMultiLineComment)))[j]?
            else ((orig.map (fun g => g.mChar))[j]?).map
              (fun c => (c, insideComment lo io lc jc l j)) := by
  intro fuel
  induction fuel with
  | zero =>
    intro i s line hi hf
    omega
  | succ fuel ih =>
    intro i s line hi hf hch hinv
    have hg : (line)[i]? = some (line.get ⟨i, hi⟩) := List.getElem?_eq_getElem hi
    obtain ⟨g, hgdef⟩ : ∃ g, g = line.get ⟨i, hi⟩ := ⟨_, rfl⟩
    rw [← hgdef] at hg
    obtain ⟨s1, line1, hv, hinv1, hfl⟩ :=
      visit_block_comment lang lines lo io lc jc hs ho he hdoc l i orig line g horig hch hg s hinv
    have hch1 := flags_chars line line1 i g _ hg hfl
    have hlen1 : line1.length = line.length := by
      have := congrArg List.length hch1
      simpa using this
    have hgc : (orig.map (fun g => g.mChar))[i]? = some g.mChar := by
      rw [← hch, List.getElem?_map, hg]; rfl
    unfold ColorizeInternal.scanLine
    rw [hv]
    simp only [bind, Except.bind, pure, Except.pure]
    by_cases hend : (i : Int) + 1 ≥ (line1.length : Int)
    · rw [if_pos hend]
      have hil : i + 1 = line.length := by omega
      refine ⟨s1, line1, rfl, by rw [← hil]; exact hinv1, ?_⟩
      intro j
      rw [hfl]
      by_cases hj : j < i
      · rw [if_pos hj, List.getElem?_set_ne (by omega)]
      · rw [if_neg hj]
        by_cases hji : j = i
        · subst hji
          rw [List.getElem?_set_self (by simpa using hi), hgc]
          rfl
        · rw [List.getElem?_set_ne (fun h => hji h.symm),
            List.getElem?_eq_none (by simp; omega), List.getElem?_eq_none]
          · rfl
          · have := congrArg List.length hch
            simp at this ⊢
            omega
    · rw [if_neg hend]
      have hi1 : i + 1 < line1.length := by omega
      obtain ⟨s2, line2, hsc, hinv2, hfl2⟩ :=
        ih (i + 1) s1 line1 hi1 (by omega) (hch1.trans hch) hinv1
      have hcast : ((i + 1 : Nat) : Int) = (i : Int) + 1 := by push_cast; rfl
      rw [hcast] at hsc
      refine ⟨s2, line2, hsc, by rw [← hlen1]; exact hinv2, ?_⟩
      intro j
      rw [hfl2 j]
      by_cases hj : j < i
      · rw [if_pos (by omega), if_pos hj, hfl, List.getElem?_set_ne (by omega)]
      · rw [if_neg hj]
        by_cases hji : j = i
        · subst hji
          rw [if_pos (by omega), hfl, List.getElem?_set_self (by simpa using hi), hgc]
          rfl
        · rw [if_neg (by omega)]

/-- The rounds of the sweep on one line of a document with one block comment. -/
theorem sweepLine_block_comment (lang : LanguageDefinition) (lines : List Line)
    (lo io lc jc : Nat)
    (hs : lang.mSingleLineComment = [47, 47]) (ho : lang.mCommentStart = [47, 42])
    (he : lang.mCommentEnd = [42, 47])
    (hdoc : blockCommentAt lines lo io lc jc = true)
    (l : Nat) (line : Line) (hline : lines[l]? = some line) (s : ColorizeInternal.Scan)
    (hinv : s.scanAt (lines.length : Int) lo io lc jc l 0) :
    ∃ s1 line1,
      ColorizeInternal.sweepLine lang (lines.length : Int) (l : Int) s line
        = Except.ok (s1, line1) ∧
      s1.scanAt (lines.length : Int) lo io lc jc (l + 1) 0 ∧
      line1.map (fun g => (g.mChar, g.mMultiLineComment))
        = line.mapIdx (fun i g => (g.mChar, insideComment lo io lc jc l i)) := by
  obtain ⟨p1, p2, p3, p4, p5, p6⟩ := blockCommentAt_parts lines lo io lc jc hdoc
  have q2 : l = lo → io + 1 < line.length := by
    intro h
    rw [← h, charAt_eq lines l _ line hline] at p2
    simpa using getElem?_lt_length p2
  have q4 : l = lc → jc + 1 < line.length := by
    intro h
    rw [← h, charAt_eq lines l _ line hline] at p4
    simpa using getElem?_lt_length p4
  have hnext : ∀ s1 : ColorizeInternal.Scan,
      s1.scanAt (lines.length : Int) lo io lc jc l line.length →
      s1.scanAt (lines.length : Int) lo io lc jc (l + 1) 0 := by
    intro s1 h
    obtain ⟨h1, h2, h3⟩ := h
    refine ⟨h1, h2, ?_⟩
    split_ifs at h3 with h0
    · rw [if_pos (by omega)]; exact h3
    · rw [if_neg (by omega)]; exact h3
  unfold ColorizeInternal.sweepLine
  by_cases hem : line.isEmpty = true
  · rw [if_pos hem]
    have hnil : line = [] := List.isEmpty_iff.mp hem
    subst hnil
    refine ⟨_, _, rfl, ?_, rfl⟩
    obtain ⟨e1, e2, e3, e4⟩ := enter_fields s 0 hinv.2.1
    apply hnext
    refine ⟨by rw [e3]; exact hinv.1, e4, ?_⟩
    rw [e1, e2]
    exact hinv.2.2
  · rw [if_neg hem]
    have hpos : 0 < line.length := by
      cases line with
      | nil => exact absurd rfl hem
      | cons g rest => simp
    obtain ⟨s1, line1, hsc, hinv1, hfl⟩ :=
      scanLine_block_comment lang lines lo io lc jc hs ho he hdoc l line hline
        line.length 0 s line hpos (by omega) rfl hinv
    refine ⟨s1, line1, hsc, hnext s1 hinv1, ?_⟩
    apply List.ext_getElem?
    intro j
    rw [hfl j, if_neg (by omega), List.getElem?_mapIdx, List.getElem?_map]
    cases (line)[j]? <;> rfl

/-- The comment sweep from line `l` on, on a document with one block comment. -/
theorem sweep_block_comment (lang : LanguageDefinition) (lines : List Line)
    (lo io lc jc : Nat)
    (hs : lang.mSingleLineComment = [47, 47]) (ho : lang.mCommentStart = [47, 42])
    (he : lang.mCommentEnd = [42, 47])
    (hdoc : blockCommentAt lines lo io lc jc = true) :
    ∀ (rest : List Line) (l : Nat) (s : ColorizeInternal.Scan),
      lines.drop l = rest → s.scanAt (lines.length : Int) lo io lc jc l 0 →
      ∃ s1 out,
        ColorizeInternal.sweep lang (lines.length : Int) (l : Int) s rest = Except.ok (s1, out) ∧
        out.map (List.map (fun g => (g.mChar, g.mMultiLineComment)))
          = rest.mapIdx (fun k ln => ln.mapIdx
              (fun i g => (g.mChar, insideComment lo io lc jc (l + k) i))) := by
  intro rest
  induction rest with
  | nil =>
    intro l s _ _
    exact ⟨s, [], rfl, rfl⟩
  | cons line rest ih =>
    intro l s hdrop hinv
    have hline : lines[l]? = some line := by
      have h0 : (lines.drop l)[0]? = lines[l]? := by
        rw [List.getElem?_drop]; rfl
      rw [hdrop, List.getElem?_cons_zero] at h0
      exact h0.symm
    have hdrop1 : lines.drop (l + 1) = rest := by
      have h0 : lines.drop (l + 1) = (lines.drop l).tail := by
        rw [List.tail_drop]
      rw [h0, hdrop]
      rfl
    obtain ⟨s1, line1, hsl, hinv1, hfl⟩ :=
      sweepLine_block_comment lang lines lo io lc jc hs ho he hdoc l line hline s hinv
    obtain ⟨s2, out, hsw, hout⟩ := ih (l + 1) s1 hdrop1 hinv1
    have hcast : ((l + 1 : Nat) : Int) = (l : Int) + 1 := by push_cast; rfl
    rw [hcast] at hsw
    refine ⟨s2, line1 :: out, ?_, ?_⟩
    · unfold ColorizeInternal.sweep
      rw [hsl]
      simp only [bind, Except.bind, pure, Except.pure]
      rw [hsw]
    · rw [List.map_cons, hfl, hout, List.mapIdx_cons]
      congr 1
      congr 1
      funext k ln
      congr 1
      funext i g
      rw [Nat.add_assoc, Nat.add_comm 1 k]

/-- C35: with the block comment markers `/*` and `*/` and the single-line
marker `//`, take a document that is due for the comment sweep and whose text
is some text P, then `/*` (at index `io` of line `lo`), then some text B, then
`*/` (at index `jc` of line `lc`), then some text S, where every byte of P, B
and S is an ASCII byte other than the double quote, the backslash, `/` and `*`
(B may span several lines). The comment sweep returns, it keeps the bytes of
every line, and afterwards a glyph has `mMultiLineComment = true` exactly when
it lies from the `/` of `/*` to the `/` of `*/`: the glyphs of `/*`, B and `*/`
have the flag and every glyph of P and S has it cleared. -/
theorem C35_block_comment_flags (e : Editor) (lang : LanguageDefinition) (lo io lc jc : Nat)
    (hs : lang.mSingleLineComment = [47, 47]) (ho : lang.mCommentStart = [47, 42])
    (he : lang.mCommentEnd = [42, 47])
    (hcheck : e.mCheckComments = true)
    (hdoc : blockCommentAt e.mLines lo io lc jc = true) :
    ∃ e1, ColorizeInternal.comments e lang = Except.ok e1 ∧
      e1.mLines.map (List.map (fun g => (g.mChar, g.mMultiLineComment)))
        = e.mLines.mapIdx (fun l ln => ln.mapIdx
            (fun i g => (g.mChar, insideComment lo io lc jc l i))) := by
  obtain ⟨s1, out, hsw, hout⟩ :=
    sweep_block_comment lang e.mLines lo io lc jc hs ho he hdoc e.mLines 0
      { commentStartLine := (e.mLines.length : Int), commentStartIndex := 0,
        withinString := false, withinSingleLineComment := false, withinPreproc := false,
        firstChar := true, concatenate := false }
      rfl ⟨rfl, rfl, by rw [if_neg (by omega)]; exact ⟨rfl, rfl⟩⟩
  refine ⟨{ e with mLines := out, mCheckComments := false }, ?_, ?_⟩
  · unfold ColorizeInternal.comments
    rw [if_pos hcheck]
    simp only [bind, Except.bind, pure, Except.pure]
    have h0 : ((0 : Nat) : Int) = 0 := rfl
    rw [h0] at hsw
    rw [hsw]
  · rw [hout]
    congr 1
    funext k ln
    rw [Nat.zero_add]

/-- C35 (witness): the document `SetText("a\nb/*c\n\nd*/e\nf")` of five
lines, with `/*` at index 1 of line 1 and `*/` at index 1 of line 3: after the
sweep the flag is set on `/*c` of line 1 and on `d*/` of line 3 (line 2 is
empty), and on no other glyph. -/
theorem C35_block_comment_flags_witness :
    hlslComments.mSingleLineComment = [47, 47] ∧ hlslComments.mCommentStart = [47, 42] ∧
    hlslComments.mCommentEnd = [42, 47] ∧
    (SetText constructed
      [97, 10, 98, 47, 42, 99, 10, 10, 100, 42, 47, 101, 10, 102]).mCheckComments = true ∧
    (SetText constructed [97, 10, 98, 47, 42, 99, 10, 10, 100, 42, 47, 101, 10, 102]).bytes
      = [[97], [98, 47, 42, 99], [], [100, 42, 47, 101], [102]] ∧
    blockCommentAt
      (SetText constructed [97, 10, 98, 47, 42, 99, 10, 10, 100, 42, 47, 101, 10, 102]).mLines
      1 1 3 1 = true ∧
    ∃ e1, ColorizeInternal.comments
        (SetText constructed [97, 10, 98, 47, 42, 99, 10, 10, 100, 42, 47, 101, 10, 102])
        hlslComments = Except.ok e1 ∧
      e1.mLines.map (List.map (fun g => (g.mChar, g.mMultiLineComment)))
        = [[(97, false)],
           [(98, false), (47, true), (42, true), (99, true)],
           [],
           [(100, true), (42, true), (47, true), (101, false)],
           [(102, false)]] :=
  ⟨rfl, rfl, rfl, rfl, rfl, by decide,
    C35_block_comment_flags
      (SetText constructed [97, 10, 98, 47, 42, 99, 10, 10, 100, 42, 47, 101, 10, 102])
      hlslComments 1 1 3 1 rfl rfl rfl rfl (by decide)⟩

/-! ## C38: `SetText(GetText())` on every document -/

/-- `GetText()` on every document: the bytes of every line, the last one
included, each followed by a line break. -/
theorem GetText0_eq (e : Editor) :
    GetText0 e = Except.ok (e.mLines.flatMap (fun l => l.map (fun g => g.mChar) ++ [10])) := by
  have hend : GetCharacterIndex e ⟨(e.mLines.length : Int), 0⟩ = Except.ok (-1) := by
    unfold GetCharacterIndex
    rw [if_pos (Or.inr (le_refl _))]
    rfl
  have hstart : ∃ i0 : Int, GetCharacterIndex e ⟨0, 0⟩ = Except.ok i0 ∧
      (e.mLines ≠ [] → i0 = 0) := by
    cases hl : e.mLines with
    | nil =>
      refine ⟨-1, ?_, fun h => absurd rfl h⟩
      unfold GetCharacterIndex
      rw [hl]
      rfl
    | cons L rest =>
      refine ⟨0, ?_, fun _ => rfl⟩
      unfold GetCharacterIndex
      rw [hl]
      rw [if_neg (by simp)]
      cases L with
      | nil => simp [vecAt, GetCharacterIndex.loop, bind, Except.bind, pure, Except.pure]
      | cons g L => simp [vecAt, GetCharacterIndex.loop, bind, Except.bind, pure, Except.pure]
  obtain ⟨i0, hi0, hz⟩ := hstart
  unfold GetText0 GetText
  rw [hi0, hend]
  simp only [bind, Except.bind, pure, Except.pure]
  rw [if_neg (by omega)]
  by_cases hne : e.mLines = []
  · rw [hne]
    simp only [List.map_nil, List.sum_nil, List.length_nil, List.flatMap_nil]
    simp [GetText.loop, pure, Except.pure]
  · rw [hz hne]
    have h := GetText_loop_lines (e.mLines.length : Int) (-1) e.mLines [] []
      ((e.mLines.map (fun l => l.length + 1)).sum + 1) [] (by simp) (by omega)
    simp only [List.nil_append, List.append_nil, List.length_nil, Nat.zero_add,
      Nat.cast_zero, Nat.add_sub_cancel_left] at h
    rw [h]
    unfold GetText.loop
    rw [if_neg (by omega)]
    rfl

theorem splitOn_line_break (l rest : List Nat) (hl : ∀ b ∈ l, b ≠ 10) :
    (l ++ 10 :: rest).splitOn 10 = l :: rest.splitOn 10 := by
  induction l with
  | nil => exact splitOn_cons_ten rest
  | cons b l ih =>
    rw [List.cons_append, splitOn_cons_other _ _ (hl b (List.mem_cons_self _ _)),
      ih (fun c hc => hl c (List.mem_cons_of_mem _ hc))]
    rfl

theorem splitOn_terminated (ls : List (List Nat)) (h : ∀ l ∈ ls, ∀ b ∈ l, b ≠ 10) :
    (ls.flatMap (fun l => l ++ [10])).splitOn 10 = ls ++ [[]] := by
  induction ls with
  | nil => exact splitOn_nil_ten
  | cons l ls ih =>
    rw [List.flatMap_cons, List.append_assoc, List.singleton_append,
      splitOn_line_break l _ (h l (List.mem_cons_self _ _)),
      ih (fun l1 h1 => h l1 (List.mem_cons_of_mem _ h1))]
    rfl

/-- The bytes of the lines after `SetText(s)`: the segments of `s` between its
line breaks, without their carriage returns. -/
theorem SetText_bytes_eq (e : Editor) (s : List Nat) :
    (SetText e s).bytes = (s.splitOn 10).map (fun seg => seg.filter (fun c => c ≠ 13)) := by
  have hl : (SetText e s).mLines
      = (s.splitOn 10).map (fun seg => mkLine (seg.filter (fun c => c ≠ 13))) := by
    show SetText.loop s [[]] = _
    have := SetText_loop_eq s [] []
    simp only [List.nil_append] at this
    rw [this]
    cases hsp : s.splitOn 10 with
    | nil => exact absurd hsp (splitOn_ten_ne_nil s)
    | cons h t => simp [List.modifyHead]
  rw [Editor.bytes, hl, List.map_map]
  apply List.map_congr_left
  intro seg _
  simp only [mkLine, Function.comp, List.map_map]
  exact (List.map_congr_left (fun c _ => rfl)).trans (List.map_id _)

/-- `SetText(GetText())` on every document whose lines hold neither `'\n'` nor
`'\r'`: `GetText()` returns, and `SetText` of its result yields the lines of
the document followed by one more, empty line. -/
theorem set_text_of_get_text (e : Editor)
    (h : ∀ line ∈ e.mLines, ∀ g ∈ line, g.mChar ≠ 10 ∧ g.mChar ≠ 13) :
    ∃ t, GetText0 e = Except.ok t ∧ (SetText e t).bytes = e.bytes ++ [[]] ∧
      (SetText e t).mLines.length = e.mLines.length + 1 := by
  refine ⟨_, GetText0_eq e, ?_⟩
  have hb : (SetText e (e.mLines.flatMap (fun l => l.map (fun g => g.mChar) ++ [10]))).bytes
      = e.bytes ++ [[]] := by
    have hf : e.mLines.flatMap (fun l => l.map (fun g => g.mChar) ++ [10])
        = e.bytes.flatMap (fun l => l ++ [10]) := by
      rw [Editor.bytes, List.flatMap_map]
    have h10 : ∀ l ∈ e.bytes, ∀ b ∈ l, b ≠ 10 := by
      intro l hl b hb
      obtain ⟨line, hline, rfl⟩ := List.mem_map.mp hl
      obtain ⟨g, hg, rfl⟩ := List.mem_map.mp hb
      exact (h line hline g hg).1
    rw [SetText_bytes_eq, hf, splitOn_terminated _ h10, List.map_append, List.map_singleton,
      List.filter_nil]
    congr 1
    refine (List.map_congr_left ?_).trans (List.map_id _)
    intro l hl
    show List.filter (fun c => decide (c ≠ 13)) l = l
    rw [List.filter_eq_self]
    intro b hb
    obtain ⟨line, hline, rfl⟩ := List.mem_map.mp hl
    obtain ⟨g, hg, rfl⟩ := List.mem_map.mp hb
    simpa using (h line hline g hg).2
  refine ⟨hb, ?_⟩
  have := congrArg List.length hb
  simpa [Editor.bytes] using this

end TextEditor
